import Mathlib

/-!
Geoflow: nested-flowchart iteration and flowchart editor.

A shallow embedding of `src/geoflow/core_nodes.hpp` (the `NestNode`) and of the
connector handling of `src/geoflow/gui/flowchart.cpp`, with the properties of the
specification stated and proved over it.

Conventions of the embedding

* `std::any` is `Option Payload`; `none` is the empty `std::any()`.
* `std::map<std::string, T>` is a list of key/value pairs in iteration order.
* Engine code that is declared in `geoflow.hpp` and not part of the sources
  (`run_all`, `notify_children`, the size of a poly terminal) is a field of `Engine`.
* A C++ exception or an out-of-range access is an `Except.error`.
* The calls a function makes into the engine, and its readings of `std::clock()`, are
  recorded in a call log, each at the place where it is made.
* A `float` or `double` is the rational it stands for; an operation on them rounds its
  exact result to the nearest value of the format, ties to even.
-/

namespace Geoflow

/-- The `typeid` values the nodes mention. -/
inductive TypeTag where
  | int | float | bool | string | date | time | datetime
  | other (k : Nat)
  deriving DecidableEq, Repr

/-- What a non-empty `std::any` holds. -/
inductive Payload where
  | int (n : Int)
  | float (q : ℚ)
  | bool (b : Bool)
  | text (s : String)
  | obj (k : Nat)
  deriving DecidableEq

/-- A `std::any`; `none` is the empty `std::any()` the code pushes as a placeholder. -/
abbrev AnyVal := Option Payload

/-- Terminal families: `GF_SINGLE_FEATURE` and `GF_MULTI_FEATURE`. -/
inductive Family where
  | GF_SINGLE_FEATURE | GF_MULTI_FEATURE
  deriving DecidableEq, Repr

/-- A sub-terminal of a poly terminal: its types and its data vector. -/
structure SubTerminal where
  types : List TypeTag
  data : List AnyVal
  deriving DecidableEq

/-- An input terminal (`gfInputTerminal`). For a single-feature terminal `data` is
`get_data_vec()`, for a poly terminal `sub_terminals` is `sub_terminals()`. -/
structure InputTerminal where
  name : String
  family : Family
  types : List TypeTag
  connected_type : Option TypeTag
  marked : Bool
  has_data : Bool
  data : List AnyVal
  sub_terminals : List (String × SubTerminal)
  deriving DecidableEq

/-- An output terminal (`gfOutputTerminal`), same layout as `InputTerminal`. -/
structure OutputTerminal where
  family : Family
  types : List TypeTag
  marked : Bool
  has_data : Bool
  data : List AnyVal
  sub_terminals : List (String × SubTerminal)
  deriving DecidableEq

/-- A node of a flowchart, as far as the `NestNode` looks at it. -/
structure Node where
  input_terminals : List (String × InputTerminal)
  output_terminals : List (String × OutputTerminal)
  deriving DecidableEq

/-- A global flowchart parameter: `ParameterByValue<T>(value, name, help)`. -/
structure Param where
  type : TypeTag
  value : Payload
  deriving DecidableEq

/-- A `NodeManager`: its global parameters, its nodes (`get_nodes()`, in iteration
order) and the connections made so far, as (output full name, input full name). -/
structure NodeManager where
  global_flowchart_params : List (String × Param)
  nodes : List (String × Node)
  connections : List (String × String)
  deriving DecidableEq

/-- Calls into the engine, in the order they are made, and the readings of
`std::clock()`; `clock c` is a reading that returned `c`. -/
inductive Call where
  | copy_nested_flowchart
  | notify_children
  | set_inputs (i : Nat)
  | run_all
  | clock (c : Int)
  deriving DecidableEq, Repr

/-- What may go wrong: a terminal looked up by a name the node does not have, an
element read beyond the end of a data vector, a sub-terminal without a type
(`get_types()[0]`), an empty terminal map, a `filesystem_error` thrown for a path. -/
inductive Error where
  | no_such_terminal (name : String)
  | out_of_range (name : String) (i : Nat)
  | bad_any_cast (name : String) (i : Nat)
  | no_such_node (name : String)
  | no_input_terminals
  | no_type (name : String)
  | filesystem_error (path : String)
  deriving DecidableEq, Repr

/-- The state of a `NestNode`, with the part of its surroundings it reads
(`manager.global_flowchart_params`) and the log of its calls into the engine. -/
structure NestNode where
  name : String
  flowchart_loaded : Bool
  use_parallel_processing : Bool
  input_size_ : Nat
  input_terminals : List (String × InputTerminal)
  output_terminals : List (String × OutputTerminal)
  nested_node_manager_ : NodeManager
  manager_globals : List (String × Param)
  calls : List Call
  filepath_ : String := ""
  deriving DecidableEq

/-- The engine functions of `geoflow.hpp` the `NestNode` calls. -/
structure Engine where
  run_all : NodeManager → NodeManager
  notify_children : String → NodeManager → NodeManager
  poly_size : List (String × SubTerminal) → Nat
  CLOCKS_PER_SEC : Nat

/-- Name of the synthetic poly input: `get_name()+".globals"`. -/
def globals_name (self : NestNode) : String := self.name ++ ".globals"

/-- Name of the timing output: `get_name()+".timings"`. -/
def timings_name (self : NestNode) : String := self.name ++ ".timings"

/-- The loop of `NestNode::inputs_valid` over `input_terminals`. -/
def inputs_valid_loop (gname : String) : List (String × InputTerminal) → Bool
  | [] => true
  | (_, iT) :: rest =>
    if iT.name = gname then inputs_valid_loop gname rest
    else if !iT.has_data then false
    else inputs_valid_loop gname rest

/-- `NestNode::inputs_valid`. -/
def inputs_valid (self : NestNode) : Bool :=
  inputs_valid_loop (globals_name self) self.input_terminals

/-! ## Maps -/

/-- Insertion into a `std::map` (kept in key order), replacing an equal key. The
order of `std::string` keys is the lexicographic order of their characters. -/
def map_insert {α : Type} (k : String) (v : α) : List (String × α) → List (String × α)
  | [] => [(k, v)]
  | (k', v') :: rest =>
    if k = k' then (k, v) :: rest
    else if k.data < k'.data then (k, v) :: (k', v') :: rest
    else (k', v') :: map_insert k v rest

/-- Lookup by key. -/
def map_find {α : Type} (k : String) : List (String × α) → Option α
  | [] => none
  | (k', v) :: rest => if k = k' then some v else map_find k rest

/-- Apply `f` to the value stored under `k`; `none` when there is no such key. -/
def map_update {α : Type} (k : String) (f : α → α) :
    List (String × α) → Option (List (String × α))
  | [] => none
  | (k', v) :: rest =>
    if k = k' then some ((k', f v) :: rest)
    else (map_update k f rest).map ((k', v) :: ·)

/-- Assignment `m[k] = v` on the sub-terminal map of a poly terminal: an existing
entry is replaced by `v`, a new one is added. -/
def map_set {α : Type} (k : String) (v : α) : List (String × α) → List (String × α)
  | [] => [(k, v)]
  | (k', v') :: rest =>
    if k = k' then (k, v) :: rest else (k', v') :: map_set k v rest

/-! ## The `NestNode` -/

/-- The member `proxy_node_name_`. -/
def proxy_node_name_ : String := "ProxyNode"

/-- The name under which a terminal of a nested node is exported:
`get_full_name()`, which `process_sequential` spells `node_name+"."+term_name`. -/
def full_name (node_name term_name : String) : String := node_name ++ "." ++ term_name

/-- The virtual `size()` of an input terminal: the number of rows of a vector input;
for a poly input it is what the engine reports. -/
def InputTerminal.size (E : Engine) (t : InputTerminal) : Nat :=
  match t.family with
  | .GF_SINGLE_FEATURE => t.data.length
  | .GF_MULTI_FEATURE => E.poly_size t.sub_terminals

/-- A fresh output terminal as `add_output` / `add_poly_output` create it. -/
def new_output (family : Family) (types : List TypeTag) : OutputTerminal :=
  { family := family, types := types, marked := false, has_data := false,
    data := [], sub_terminals := [] }

/-- The inner loop of `copy_nested_flowchart` over the input terminals of one node:
every marked input gets a proxy output of its full name, connected to it. -/
def proxy_outputs_of_node (node_name : String) :
    List (String × InputTerminal) →
    List (String × OutputTerminal) × List (String × String) →
    List (String × OutputTerminal) × List (String × String)
  | [], acc => acc
  | (name, input_term) :: rest, (outs, conns) =>
    if input_term.marked then
      let input_name := full_name node_name name
      proxy_outputs_of_node node_name rest
        (map_insert input_name (new_output input_term.family input_term.types) outs,
         conns ++ [(full_name proxy_node_name_ input_name, input_name)])
    else proxy_outputs_of_node node_name rest (outs, conns)

/-- The outer loop of `copy_nested_flowchart` over the nodes of the copy. -/
def proxy_outputs :
    List (String × Node) →
    List (String × OutputTerminal) × List (String × String) →
    List (String × OutputTerminal) × List (String × String)
  | [], acc => acc
  | (node_name, node) :: rest, acc =>
    proxy_outputs rest (proxy_outputs_of_node node_name node.input_terminals acc)

/-- `NestNode::copy_nested_flowchart`: a copy of the nested manager with a proxy node
that has one output per marked input terminal, connected to that input (the copy of
`data_offset` is left out). -/
def copy_nested_flowchart (self : NestNode) : NodeManager :=
  let flowchart := self.nested_node_manager_
  let nodes := flowchart.nodes ++ [(proxy_node_name_, ⟨[], []⟩)]
  let r := proxy_outputs nodes ([], flowchart.connections)
  { flowchart with
    nodes := flowchart.nodes ++ [(proxy_node_name_, ⟨[], r.1⟩)],
    connections := r.2 }

/-- Element `i` of a data vector, `data_vec[i]`. -/
def data_at (name : String) (data : List AnyVal) (i : Nat) : Except Error AnyVal :=
  match data.get? i with
  | some v => .ok v
  | none => .error (.out_of_range name i)

/-- The type of a payload. -/
def Payload.type : Payload → TypeTag
  | .int _ => .int
  | .float _ => .float
  | .bool _ => .bool
  | .text _ => .string
  | .obj k => .other k

/-- The typed read `sterm->get<T>(i)`. -/
def get_as (T : TypeTag) (name : String) (data : List AnyVal) (i : Nat) :
    Except Error Payload :=
  match data.get? i with
  | none => .error (.out_of_range name i)
  | some none => .error (.bad_any_cast name i)
  | some (some p) => if p.type = T then .ok p else .error (.bad_any_cast name i)

/-- The loop over `manager.global_flowchart_params` that copies the parent globals. -/
def copy_globals : List (String × Param) → List (String × Param) → List (String × Param)
  | [], g => g
  | (key, val) :: rest, g => copy_globals rest (map_insert key val g)

/-- The text of `std::to_string(i)`. -/
def to_string (i : Nat) : String := toString i

/-- The loop over the sub-terminals of the `.globals` poly input. -/
def globals_from_input (i : Nat) :
    List (String × SubTerminal) → List (String × Param) → Except Error (List (String × Param))
  | [], g => .ok g
  | (sname, sterm) :: rest, g =>
    if sterm.types.contains TypeTag.string then
      match get_as .string sname sterm.data i with
      | .ok val => globals_from_input i rest (map_insert sname ⟨.string, val⟩ g)
      | .error e => .error e
    else if sterm.types.contains TypeTag.int then
      match get_as .int sname sterm.data i with
      | .ok val => globals_from_input i rest (map_insert sname ⟨.int, val⟩ g)
      | .error e => .error e
    else if sterm.types.contains TypeTag.float then
      match get_as .float sname sterm.data i with
      | .ok val => globals_from_input i rest (map_insert sname ⟨.float, val⟩ g)
      | .error e => .error e
    else if sterm.types.contains TypeTag.bool then
      match get_as .bool sname sterm.data i with
      | .ok val => globals_from_input i rest (map_insert sname ⟨.bool, val⟩ g)
      | .error e => .error e
    else globals_from_input i rest g

/-- The globals the sub-flowchart sees in iteration `i`: the parent globals, then
`GF_I`, then the values on the `.globals` poly input. -/
def set_globals (self : NestNode) (i : Nat) (g : List (String × Param)) :
    Except Error (List (String × Param)) :=
  let g := copy_globals self.manager_globals g
  let g := map_insert "GF_I" ⟨.string, .text (to_string i)⟩ g
  match map_find (globals_name self) self.input_terminals with
  | none => .error (.no_such_terminal (globals_name self))
  | some glterm => globals_from_input i glterm.sub_terminals g

/-- `set_from_any`: the terminal holds this one value from now on. -/
def set_from_any (v : AnyVal) (t : OutputTerminal) : OutputTerminal :=
  { t with data := [v], has_data := true }

/-- `set_type` on a proxy output, given `get_connected_type()` of the vector input. -/
def set_type (ct : Option TypeTag) (t : OutputTerminal) : OutputTerminal :=
  { t with types := ct.toList }

/-- The loop of `set_inputs` over the sub-terminals of a poly input: each gets a
sub-terminal of the same name on the proxy poly output, holding its element `i`. -/
def set_proxy_subs (i : Nat) :
    List (String × SubTerminal) → OutputTerminal → Except Error OutputTerminal
  | [], po => .ok po
  | (sub_name, sub_iterm) :: rest, po =>
    match sub_iterm.types with
    | [] => .error (.no_type sub_name)
    | ty :: _ =>
      match data_at sub_name sub_iterm.data i with
      | .error e => .error e
      | .ok v =>
        set_proxy_subs i rest
          { po with sub_terminals := map_set sub_name ⟨[ty], [v]⟩ po.sub_terminals }

/-- The body of the loop of `set_inputs` for one proxy output. -/
def set_proxy_output (self : NestNode) (i : Nat) (name : String)
    (proxy_output : OutputTerminal) : Except Error OutputTerminal :=
  match map_find name self.input_terminals with
  | none => .error (.no_such_terminal name)
  | some iterm =>
    match proxy_output.family with
    | .GF_SINGLE_FEATURE =>
      match data_at name iterm.data i with
      | .error e => .error e
      | .ok v => .ok (set_from_any v (set_type iterm.connected_type proxy_output))
    | .GF_MULTI_FEATURE => set_proxy_subs i iterm.sub_terminals proxy_output

/-- The loop of `set_inputs` over the output terminals of the proxy node. -/
def set_inputs_loop (self : NestNode) (i : Nat) :
    List (String × OutputTerminal) → Except Error (List (String × OutputTerminal))
  | [] => .ok []
  | (name, proxy_output) :: rest =>
    match set_proxy_output self i name proxy_output with
    | .error e => .error e
    | .ok proxy_output' =>
      match set_inputs_loop self i rest with
      | .error e => .error e
      | .ok rest' => .ok ((name, proxy_output') :: rest')

/-- `NestNode::set_inputs(flowchart, i)`. -/
def set_inputs (self : NestNode) (flowchart : NodeManager) (i : Nat) :
    Except Error NodeManager :=
  match map_find proxy_node_name_ flowchart.nodes with
  | none => .error (.no_such_node proxy_node_name_)
  | some proxy_node =>
    match set_inputs_loop self i proxy_node.output_terminals with
    | .error e => .error e
    | .ok outs =>
      .ok { flowchart with
            nodes := map_set proxy_node_name_ { proxy_node with output_terminals := outs }
              flowchart.nodes }

/-- `vector_output(name).push_back_any(v)` on the output terminals of the node. -/
def push_back_any (name : String) (v : AnyVal) (outs : List (String × OutputTerminal)) :
    Except Error (List (String × OutputTerminal)) :=
  match map_update name (fun t => { t with data := t.data ++ [v] }) outs with
  | none => .error (.no_such_terminal name)
  | some outs' => .ok outs'

/-- The loop `for (auto& data : ...get_data_vec()) vector_output(name).push_back_any(data)`. -/
def push_back_all (name : String) :
    List AnyVal → List (String × OutputTerminal) → Except Error (List (String × OutputTerminal))
  | [], outs => .ok outs
  | d :: ds, outs =>
    match push_back_any name d outs with
    | .error e => .error e
    | .ok outs' => push_back_all name ds outs'

/-- `aggregate_poly_out.sub_terminal(name).push_back_any(v)`. -/
def sub_push_back_any (name : String) (v : AnyVal) (agg : OutputTerminal) :
    Except Error OutputTerminal :=
  match map_update name (fun (t : SubTerminal) => { t with data := t.data ++ [v] })
      agg.sub_terminals with
  | none => .error (.no_such_terminal name)
  | some subs => .ok { agg with sub_terminals := subs }

/-- The loop over the data of one sub-terminal of an exported poly output. -/
def sub_push_back_all (name : String) :
    List AnyVal → OutputTerminal → Except Error OutputTerminal
  | [], agg => .ok agg
  | d :: ds, agg =>
    match sub_push_back_any name d agg with
    | .error e => .error e
    | .ok agg' => sub_push_back_all name ds agg'

/-- Modelled from the spec: `aggregate_poly_out.add_vector(name, type)` of `geoflow.hpp`
puts a new, empty vector sub-terminal under `name` into the mapping from sub-terminal
names to sub-terminals that the poly terminal owns; an entry of that name is replaced. -/
def add_vector (name : String) (types : List TypeTag) (agg : OutputTerminal) :
    OutputTerminal :=
  { agg with sub_terminals := map_set name ⟨types, []⟩ agg.sub_terminals }

/-- The loop over the sub-terminals of an exported poly output in iteration `i`. -/
def collect_subs (i : Nat) :
    List (String × SubTerminal) → OutputTerminal → Except Error OutputTerminal
  | [], agg => .ok agg
  | (name, sub_term) :: rest, agg =>
    let agg1 := if i = 0 then add_vector name sub_term.types agg else agg
    match sub_push_back_all name sub_term.data agg1 with
    | .error e => .error e
    | .ok agg2 => collect_subs i rest agg2

/-- What `process_sequential` does with one output terminal of the sub-flowchart
after the run of iteration `i`. -/
def collect_terminal (i : Nat) (node_name term_name : String) (output_term_ : OutputTerminal)
    (outs : List (String × OutputTerminal)) : Except Error (List (String × OutputTerminal)) :=
  if output_term_.marked then
    match output_term_.family with
    | .GF_SINGLE_FEATURE =>
      if output_term_.has_data then
        push_back_all (full_name node_name term_name) output_term_.data outs
      else
        push_back_any (full_name node_name term_name) none outs
    | .GF_MULTI_FEATURE =>
      match map_find (full_name node_name term_name) outs with
      | none => .error (.no_such_terminal (full_name node_name term_name))
      | some aggregate_poly_out =>
        match collect_subs i output_term_.sub_terminals aggregate_poly_out with
        | .error e => .error e
        | .ok agg => .ok (map_set (full_name node_name term_name) agg outs)
  else .ok outs

/-- The loop over the output terminals of one node of the sub-flowchart. -/
def collect_node (i : Nat) (node_name : String) :
    List (String × OutputTerminal) → List (String × OutputTerminal) →
    Except Error (List (String × OutputTerminal))
  | [], outs => .ok outs
  | (term_name, output_term_) :: rest, outs =>
    match collect_terminal i node_name term_name output_term_ outs with
    | .error e => .error e
    | .ok outs' => collect_node i node_name rest outs'

/-- The loop over the nodes of the sub-flowchart: "collect outputs and push directly
to vector outputs". -/
def collect (i : Nat) :
    List (String × Node) → List (String × OutputTerminal) →
    Except Error (List (String × OutputTerminal))
  | [], outs => .ok outs
  | (node_name, node) :: rest, outs =>
    match collect_node i node_name node.output_terminals outs with
    | .error e => .error e
    | .ok outs' => collect i rest outs'

/-- Rounding to a binary floating-point format with a significand of `p` bits, to the
nearest value and to the even one of two nearest (the IEEE 754 default). The exponent
range of the format is not modelled: there is no overflow and no subnormal value. -/
def round_to_nearest_even (p : Nat) (q : ℚ) : ℚ :=
  if q = 0 then 0
  else
    let ulp : ℚ := (2 : ℚ) ^ (Int.log 2 |q| - ((p : Int) - 1))
    let m : ℚ := |q| / ulp
    let f : Int := ⌊m⌋
    let n : Int :=
      if m - f < 1 / 2 then f
      else if 1 / 2 < m - f then f + 1
      else if f % 2 = 0 then f else f + 1
    (if q < 0 then -1 else 1) * (n : ℚ) * ulp

/-- The `double` nearest to `q` (53 bits). -/
def to_double (q : ℚ) : ℚ := round_to_nearest_even 53 q

/-- The `float` nearest to `q` (24 bits). -/
def to_float (q : ℚ) : ℚ := round_to_nearest_even 24 q

/-- The measured duration `runtime = 1000.0 * (c_end-c_start) / CLOCKS_PER_SEC`: the
difference of the two readings and `CLOCKS_PER_SEC` are converted to `double`, the
product and the quotient are `double` operations, and the assignment to the `float`
variable `runtime` rounds the quotient to `float`. With readings of 64 bits and
`CLOCKS_PER_SEC` between 1 and 2^63 all values are in the normal range of both
formats. -/
def runtime_ms (E : Engine) (c_start c_end : Int) : ℚ :=
  to_float
    (to_double (to_double (1000 * to_double ((c_end - c_start : Int) : ℚ)) /
      to_double (E.CLOCKS_PER_SEC : ℚ)))

/-- The flowchart one iteration of `process_sequential` leaves when the outputs are
collected: the flowchart of the iteration before, invalidated, with the globals and the
inputs of row `i` set, and run. -/
def run_row (E : Engine) (self : NestNode) (i : Nat) (flowchart : NodeManager) :
    Except Error NodeManager :=
  let flowchart := E.notify_children proxy_node_name_ flowchart
  match set_globals self i flowchart.global_flowchart_params with
  | .error e => .error e
  | .ok globals =>
    match set_inputs self { flowchart with global_flowchart_params := globals } i with
    | .error e => .error e
    | .ok flowchart => .ok (E.run_all flowchart)

/-- What the loop of `process_sequential` changes: the proxy flowchart, the output
terminals of the node, and the log of engine calls. -/
structure LoopState where
  flowchart : NodeManager
  output_terminals : List (String × OutputTerminal)
  calls : List Call

/-- The body of the loop of `process_sequential` for row `i`, statement by statement;
`clock i` are the values the two calls of `std::clock()` return in this iteration. -/
def iteration (E : Engine) (clock : Nat → Int × Int) (self : NestNode) (i : Nat)
    (st : LoopState) : Except Error LoopState :=
  let flowchart := E.notify_children proxy_node_name_ st.flowchart
  let calls := st.calls ++ [.notify_children]
  match set_globals self i flowchart.global_flowchart_params with
  | .error e => .error e
  | .ok globals =>
    let calls := calls ++ [.set_inputs i]
    match set_inputs self { flowchart with global_flowchart_params := globals } i with
    | .error e => .error e
    | .ok flowchart =>
      let c_start := (clock i).1
      let calls := calls ++ [.clock c_start]
      let flowchart := E.run_all flowchart
      let calls := calls ++ [.run_all]
      let c_end := (clock i).2
      let calls := calls ++ [.clock c_end]
      let runtime := runtime_ms E c_start c_end
      match collect i flowchart.nodes st.output_terminals with
      | .error e => .error e
      | .ok outs =>
        match push_back_any (timings_name self) (some (.float runtime)) outs with
        | .error e => .error e
        | .ok outs' =>
          .ok { flowchart := flowchart, output_terminals := outs', calls := calls }

/-- The loop `for(size_t i=0; i<input_size_; ++i)`: `n` more rows, starting at row `i`. -/
def rows_from (E : Engine) (clock : Nat → Int × Int) (self : NestNode) :
    Nat → Nat → LoopState → Except Error LoopState
  | 0, _, st => .ok st
  | n + 1, i, st =>
    match iteration E clock self i st with
    | .error e => .error e
    | .ok st' => rows_from E clock self n (i + 1) st'

/-- `NestNode::process_sequential`. -/
def process_sequential (E : Engine) (clock : Nat → Int × Int) (self : NestNode) :
    Except Error NestNode :=
  match rows_from E clock self self.input_size_ 0
      { flowchart := copy_nested_flowchart self,
        output_terminals := self.output_terminals,
        calls := self.calls ++ [.copy_nested_flowchart] } with
  | .error e => .error e
  | .ok st => .ok { self with output_terminals := st.output_terminals, calls := st.calls }

/-- `NestNode::process_parallel`: its body is commented out, it does nothing. -/
def process_parallel (self : NestNode) : NestNode := self

/-- `NestNode::process`. -/
def process (E : Engine) (clock : Nat → Int × Int) (self : NestNode) : Except Error NestNode :=
  if self.flowchart_loaded then
    match self.input_terminals with
    | [] => .error .no_input_terminals
    | (_, first_input) :: _ =>
      let self := { self with input_size_ := first_input.size E }
      if self.use_parallel_processing then .ok (process_parallel self)
      else process_sequential E clock self
  else .ok self

/-! ## Reading the state of a run -/

/-- The data vector of the output terminal `n` of the node (empty if there is none). -/
def data_of (outs : List (String × OutputTerminal)) (n : String) : List AnyVal :=
  match map_find n outs with
  | some t => t.data
  | none => []

/-- What one exported single-feature terminal adds to its vector output in one
iteration: its whole data vector if it has data, one empty placeholder if not. -/
def contribution (t : OutputTerminal) : List AnyVal :=
  if t.has_data then t.data else [none]

/-- The marked single-feature output terminals of one node whose full name is `n`. -/
def exported_vectors_node (n node_name : String) :
    List (String × OutputTerminal) → List OutputTerminal
  | [] => []
  | (term_name, t) :: rest =>
    if t.marked = true ∧ t.family = .GF_SINGLE_FEATURE ∧ full_name node_name term_name = n then
      t :: exported_vectors_node n node_name rest
    else exported_vectors_node n node_name rest

/-- The marked single-feature output terminals of a flowchart whose full name is `n`,
in the order in which `process_sequential` visits them. -/
def exported_vectors (n : String) : List (String × Node) → List OutputTerminal
  | [] => []
  | (node_name, node) :: rest =>
    exported_vectors_node n node_name node.output_terminals ++ exported_vectors n rest

/-- The proxy flowchart at the start of iteration `i` of `process_sequential`. -/
def flowchart_before (E : Engine) (self : NestNode) : Nat → Except Error NodeManager
  | 0 => .ok (copy_nested_flowchart self)
  | i + 1 =>
    match flowchart_before E self i with
    | .error e => .error e
    | .ok flowchart => run_row E self i flowchart

/-- The nodes of the sub-flowchart as iteration `i` leaves them after `run_all`. -/
def nodes_after (E : Engine) (self : NestNode) (i : Nat) : List (String × Node) :=
  match flowchart_before E self (i + 1) with
  | .ok flowchart => flowchart.nodes
  | .error _ => []

/-- What iteration `i` appends to the vector output `n`: the contributions of the
exported terminals of that name and, on the timings output, the measured runtime. -/
def row_entries (E : Engine) (clock : Nat → Int × Int) (self : NestNode) (n : String)
    (i : Nat) : List AnyVal :=
  (exported_vectors n (nodes_after E self i)).flatMap contribution ++
    (if n = timings_name self then [some (.float (runtime_ms E (clock i).1 (clock i).2))]
     else [])

/-- The calls of iteration `i`, in the order of the statements of the loop body: the
invalidation, `set_inputs`, and `run_all` between the two readings of the clock. -/
def row_calls (clock : Nat → Int × Int) (i : Nat) : List Call :=
  [.notify_children, .set_inputs i, .clock (clock i).1, .run_all, .clock (clock i).2]

/-! ## A sample nested flowchart

One nested node `Cell` with a marked input `in`; the engine of the samples sets the
output terminals of `Cell` from the value the proxy node feeds into `Cell.in`. -/

/-- A vector input of the `NestNode` holding `rows`. -/
def vector_input_of (name : String) (rows : List AnyVal) : InputTerminal :=
  { name := name, family := .GF_SINGLE_FEATURE, types := [.int], connected_type := some .int,
    marked := false, has_data := true, data := rows, sub_terminals := [] }

/-- A poly input of the `NestNode` with the given sub-terminals. -/
def poly_input_of (name : String) (subs : List (String × SubTerminal)) : InputTerminal :=
  { name := name, family := .GF_MULTI_FEATURE, types := [.int, .float, .bool, .string],
    connected_type := none, marked := false, has_data := false, data := [],
    sub_terminals := subs }

/-- The marked input `in` of the nested node `Cell`. -/
def cell_input : InputTerminal :=
  { name := "in", family := .GF_SINGLE_FEATURE, types := [.int], connected_type := none,
    marked := true, has_data := false, data := [], sub_terminals := [] }

/-- A marked single-feature output terminal with the given state. -/
def marked_output (has_data : Bool) (data : List AnyVal) : OutputTerminal :=
  { family := .GF_SINGLE_FEATURE, types := [.int], marked := true, has_data := has_data,
    data := data, sub_terminals := [] }

/-- A marked poly output terminal with the given sub-terminals. -/
def marked_poly_output (subs : List (String × SubTerminal)) : OutputTerminal :=
  { family := .GF_MULTI_FEATURE, types := [.int], marked := true, has_data := true,
    data := [], sub_terminals := subs }

/-- A sample `run_all`: the output terminals of `Cell` become `script v`, where `v` is
the value on the proxy output `Cell.in`. -/
def scripted_run (script : AnyVal → List (String × OutputTerminal)) (fc : NodeManager) :
    NodeManager :=
  match map_find proxy_node_name_ fc.nodes with
  | none => fc
  | some proxy =>
    match map_find "Cell.in" proxy.output_terminals with
    | none => fc
    | some po =>
      { fc with
        nodes := map_set "Cell" ⟨[("in", cell_input)], script (po.data.headD none)⟩ fc.nodes }

/-- A sample engine around `scripted_run`. -/
def scripted_engine (script : AnyVal → List (String × OutputTerminal)) : Engine :=
  { run_all := scripted_run script, notify_children := fun _ fc => fc,
    poly_size := fun _ => 0, CLOCKS_PER_SEC := 1000000 }

/-- A sample `NestNode` named `Nest` around `Cell`, loaded, with the given input rows
and the output terminals `outs` besides `Nest.timings`. -/
def sample_nest (rows : List AnyVal) (cell_outs : List (String × OutputTerminal))
    (outs : List (String × OutputTerminal)) : NestNode :=
  { name := "Nest", flowchart_loaded := true, use_parallel_processing := false,
    input_size_ := 0,
    input_terminals := [("Cell.in", vector_input_of "Cell.in" rows),
                        ("Nest.globals", poly_input_of "Nest.globals" [])],
    output_terminals := outs ++ [("Nest.timings", new_output .GF_SINGLE_FEATURE [.float])],
    nested_node_manager_ :=
      { global_flowchart_params := [],
        nodes := [("Cell", ⟨[("in", cell_input)], cell_outs⟩)],
        connections := [] },
    manager_globals := [], calls := [] }

/-- The doubling sub-graph: `Cell.out` is twice `Cell.in`. -/
def doubling (v : AnyVal) : List (String × OutputTerminal) :=
  match v with
  | some (.int n) => [("out", marked_output true [some (.int (2 * n))])]
  | _ => [("out", marked_output false [])]

/-- The doubling sub-graph on the rows 10, 20, 30. -/
def nest_doubling : NestNode :=
  sample_nest [some (.int 10), some (.int 20), some (.int 30)]
    [("out", marked_output false [])] [("Cell.out", new_output .GF_SINGLE_FEATURE [.int])]

/-- The sample clock: every run starts at tick 0 and ends at tick 0. -/
def clock0 : Nat → Int × Int := fun _ => (0, 0)

/-- The one value an exported single-feature terminal stands for in its row: its
value if it has data, the empty placeholder if not. -/
def row_value (t : OutputTerminal) : AnyVal :=
  if t.has_data then t.data.headD none else none

/-- A sub-graph whose exported output holds two values after every run. -/
def two_values (v : AnyVal) : List (String × OutputTerminal) :=
  [("out", marked_output true [v, v])]

/-- That sub-graph on the single row 7. -/
def nest_two_values : NestNode :=
  sample_nest [some (.int 7)]
    [("out", marked_output false [])] [("Cell.out", new_output .GF_SINGLE_FEATURE [.int])]

/-- A sub-graph that produces no data on the row 20 and doubles every other row. -/
def doubling_but_20 (v : AnyVal) : List (String × OutputTerminal) :=
  match v with
  | some (.int 20) => [("out", marked_output false [])]
  | v => doubling v

/-- A sub-graph that holds two values on the row 10 and no data on every other row. -/
def two_then_none (v : AnyVal) : List (String × OutputTerminal) :=
  match v with
  | some (.int 10) => [("out", marked_output true [v, v])]
  | _ => [("out", marked_output false [])]

/-- The rows 10, 20, 30 through the sub-graph without data on the row 20. -/
def nest_missing_row : NestNode :=
  sample_nest [some (.int 10), some (.int 20), some (.int 30)]
    [("out", marked_output false [])] [("Cell.out", new_output .GF_SINGLE_FEATURE [.int])]

/-- The rows 10, 20 through the sub-graph with two values on the row 10 and no data on
the row 20. -/
def nest_two_then_none : NestNode :=
  sample_nest [some (.int 10), some (.int 20)]
    [("out", marked_output false [])] [("Cell.out", new_output .GF_SINGLE_FEATURE [.int])]

/-- A sub-graph with an exported poly output whose sub-terminal `a` holds a value on
the row 10 and has no data on every other row. -/
def poly_missing_row (v : AnyVal) : List (String × OutputTerminal) :=
  match v with
  | some (.int 10) => [("poly", marked_poly_output [("a", ⟨[.int], [some (.int 5)]⟩)])]
  | _ => [("poly", marked_poly_output [("a", ⟨[.int], []⟩)])]

/-- A sub-graph with an exported poly output that has the sub-terminal `a` on the row
10 and the sub-terminals `a` and `b` on every other row. -/
def poly_late_sub (v : AnyVal) : List (String × OutputTerminal) :=
  match v with
  | some (.int 10) => [("poly", marked_poly_output [("a", ⟨[.int], [some (.int 5)]⟩)])]
  | _ => [("poly", marked_poly_output
      [("a", ⟨[.int], [some (.int 6)]⟩), ("b", ⟨[.int], [some (.int 7)]⟩)])]

/-- The rows 10, 20 through a sub-graph with the exported poly output `Cell.poly`. -/
def nest_poly : NestNode :=
  sample_nest [some (.int 10), some (.int 20)]
    [("poly", marked_poly_output [])] [("Cell.poly", new_output .GF_MULTI_FEATURE [.int])]

/-- The sub-terminals of the poly output `n` of the node. -/
def subs_of (outs : List (String × OutputTerminal)) (n : String) :
    List (String × SubTerminal) :=
  match map_find n outs with
  | some t => t.sub_terminals
  | none => []

/-- The doubling sub-graph on the rows 10, 20, 30 with `use_parallel_processing` set. -/
def nest_doubling_parallel : NestNode :=
  { nest_doubling with use_parallel_processing := true }

/-! ## The flowchart editor (`gui/flowchart.cpp`)

The class `ImGui::Nodes`. A `Node*` is the address of the node object, a `Connection*`
names the owning node, the side and the position of the connector in `inputs_` or
`outputs_`. The engine functions `is_compatible`, `detect_loop`, `connect`, `disconnect`
and `NodeManager::run` of `geoflow.hpp` are not part of the sources: the two tests are
fields of `GraphEngine` and may depend on the calls made so far, the three actions are
recorded in the call log `gf_calls`. -/

/-- The states `NodesState_*` of the editor. -/
inductive NodesState where
  | NodesState_Default | NodesState_Block | NodesState_HoverIO | NodesState_HoverConnection
  | NodesState_HoverNode | NodesState_DragingInput | NodesState_DragingInputValid
  | NodesState_DragingOutput | NodesState_DragingOutputValid | NodesState_DragingConnection
  | NodesState_DragingSelected | NodesState_SelectingEmpty | NodesState_SelectingValid
  | NodesState_SelectingMore | NodesState_Selected | NodesState_SelectedConnection
  deriving DecidableEq, Repr

/-- A `Connection*`: the connector `index` among the inputs or the outputs of the
node at address `node`. -/
structure ConnPtr where
  node : Nat
  is_output : Bool
  index : Nat
  deriving DecidableEq, Repr

/-- A connector of the editor (`Nodes::Connection`); `family` is the family of its
`gf_terminal`. The struct is declared in `flowchart.hpp`, which is not part of the
sources: the count `connections_` is an integer here, and a new connector is not
connected. -/
structure Connection where
  name_ : String
  family : Family
  target_ : Option Nat
  input_ : Option ConnPtr
  connections_ : Int
  deriving DecidableEq, Repr

/-- A node of the editor (`Nodes::Node`). -/
structure GuiNode where
  addr : Nat
  id_ : Int
  name_ : String
  inputs_ : List Connection
  outputs_ : List Connection
  deriving DecidableEq, Repr

/-- The member `element_`; `Reset(state)` leaves `node_` and `connection_` null. -/
structure Element where
  state_ : NodesState
  node_ : Option Nat
  connection_ : Option ConnPtr
  deriving DecidableEq, Repr

/-- A call of the editor into the engine. -/
inductive GfCall where
  | connect (output input : ConnPtr)
  | disconnect (output input : ConnPtr)
  | run (node : Nat)
  deriving DecidableEq, Repr

/-- The editor: its nodes, `element_`, and the calls it made into the engine. -/
structure Nodes where
  id_ : Int
  nodes_ : List GuiNode
  element_ : Element
  gf_calls : List GfCall
  deriving DecidableEq, Repr

/-- The tests the editor asks of the engine, given the calls made so far. -/
structure GraphEngine where
  is_compatible : List GfCall → ConnPtr → ConnPtr → Bool
  detect_loop : List GfCall → ConnPtr → ConnPtr → Bool

/-- What the mouse does in a frame, as one connector sees it: `hovered` is
`IsWindowHovered() && IsConnectorHovered(..)`, `clicked` is `IsMouseClicked(0)`,
`down` is `IsMouseDown(0)`. -/
structure Mouse where
  hovered : Bool
  clicked : Bool
  down : Bool
  deriving DecidableEq, Repr

/-- `element_.Reset(state)`. -/
def Element.Reset (state : NodesState) : Element :=
  { state_ := state, node_ := none, connection_ := none }

/-- Apply `f` to element `k` of a list. -/
def modify_at {α : Type} (f : α → α) : Nat → List α → List α
  | _, [] => []
  | 0, x :: xs => f x :: xs
  | k + 1, x :: xs => x :: modify_at f k xs

/-- The connector a `Connection*` points to. -/
def get_conn (nodes : List GuiNode) (p : ConnPtr) : Option Connection :=
  match nodes.find? (fun n => n.addr = p.node) with
  | none => none
  | some n => if p.is_output then n.outputs_.get? p.index else n.inputs_.get? p.index

/-- The node a `Node*` points to. -/
def get_node (nodes : List GuiNode) (a : Nat) : Option GuiNode :=
  nodes.find? (fun n => n.addr = a)

/-- An assignment through a `Connection*`. -/
def modify_conn (p : ConnPtr) (f : Connection → Connection) (nodes : List GuiNode) :
    List GuiNode :=
  nodes.map (fun n =>
    if n.addr = p.node then
      if p.is_output then { n with outputs_ := modify_at f p.index n.outputs_ }
      else { n with inputs_ := modify_at f p.index n.inputs_ }
    else n)

/-- `connections_--`. -/
def Connection.dec (c : Connection) : Connection := { c with connections_ := c.connections_ - 1 }

/-- `connections_++`. -/
def Connection.inc (c : Connection) : Connection := { c with connections_ := c.connections_ + 1 }

/-- `target_ = nullptr; input_ = nullptr; connections_ = 0`. -/
def Connection.clear (c : Connection) : Connection :=
  { c with target_ := none, input_ := none, connections_ := 0 }

/-- `target_ = node; input_ = source; connections_ = 1`. -/
def Connection.attach (node : Option Nat) (source : Option ConnPtr) (c : Connection) :
    Connection :=
  { c with target_ := node, input_ := source, connections_ := 1 }

/-- The removal of the inbound connection of the input `c`, as both the start of a
drag and a drop do it: `if (connection->input_) { connection->input_->connections_--;
geoflow::disconnect(..); }`. -/
def remove_inbound (c : ConnPtr) (ed : Nodes) : Nodes :=
  match (get_conn ed.nodes_ c).bind (fun connection => connection.input_) with
  | some source =>
    { ed with nodes_ := modify_conn source Connection.dec ed.nodes_,
              gf_calls := ed.gf_calls ++ [.disconnect source c] }
  | none => ed

/-- The hover part of `DisplayNode` for one connector `c` of the node at `c.node`
(lines 870-907 for an input, 1000-1026 for an output), up to the start of a drag;
returns the editor and the flag `consider_io`. -/
def hover_connector (m : Mouse) (c : ConnPtr) (ed : Nodes) : Nodes × Bool :=
  if m.hovered then
    let consider_io :=
      ed.element_.state_ = .NodesState_Default ∨
      ed.element_.state_ = .NodesState_HoverConnection ∨
      ed.element_.state_ = .NodesState_HoverNode
    let ed1 : Nodes :=
      if consider_io then
        { ed with element_ :=
            { state_ := NodesState.NodesState_HoverIO, node_ := some c.node,
              connection_ := some c } }
      else ed
    (ed1, true)
  else if ed.element_.state_ = NodesState.NodesState_HoverIO ∧ ed.element_.connection_ = some c then
    ({ ed with element_ := Element.Reset .NodesState_Default }, false)
  else (ed, false)

/-- "we could start draging input now" (lines 886-900). -/
def start_drag_input (m : Mouse) (c : ConnPtr) (ed : Nodes) : Nodes :=
  if m.hovered ∧ m.clicked ∧ ed.element_.connection_ = some c then
    let ed1 := { ed with element_ := { ed.element_ with state_ := .NodesState_DragingInput } }
    let ed2 := remove_inbound c ed1
    { ed2 with nodes_ := modify_conn c Connection.clear ed2.nodes_ }
  else ed

/-- "we could start draging output now" (lines 1016-1019). -/
def start_drag_output (m : Mouse) (c : ConnPtr) (ed : Nodes) : Nodes :=
  if m.hovered ∧ m.clicked ∧ ed.element_.connection_ = some c then
    { ed with element_ := { ed.element_ with state_ := .NodesState_DragingOutput } }
  else ed

/-- The test both drops make: other node, compatible types, no loop. -/
def drop_legal (G : GraphEngine) (ed : Nodes) (node : Nat) (output input : ConnPtr) : Bool :=
  decide (ed.element_.node_ ≠ some node) && G.is_compatible ed.gf_calls output input &&
    !G.detect_loop ed.gf_calls output input

/-- "currently we are dragin some output, check if there is a possibilty to connect
here (this input)" (lines 918-958), for the input `c`. -/
def drop_output_on_input (G : GraphEngine) (m : Mouse) (consider_io : Bool) (c : ConnPtr)
    (ed : Nodes) : Nodes :=
  if ed.element_.state_ = .NodesState_DragingOutput ∨
      ed.element_.state_ = .NodesState_DragingOutputValid then
    match ed.element_.connection_ with
    | none => ed
    | some dragged =>
      if drop_legal G ed c.node dragged c ∧ consider_io then
        let ed1 : Nodes :=
          { ed with element_ := { ed.element_ with state_ := .NodesState_DragingOutputValid } }
        if ¬ m.down then
          let ed2 := remove_inbound c ed1
          let nodes1 := modify_conn c
            (Connection.attach ed2.element_.node_ ed2.element_.connection_) ed2.nodes_
          let nodes2 := modify_conn dragged Connection.inc nodes1
          { id_ := ed.id_, nodes_ := nodes2,
            gf_calls := ed2.gf_calls ++ [.connect dragged c, .run c.node],
            element_ :=
              { state_ := NodesState.NodesState_HoverIO, node_ := some c.node,
                connection_ := some c } }
        else ed1
      else ed
  else ed

/-- "currently we are dragin some input, check if there is a possibilty to connect
here (this output)" (lines 1037-1074), for the output `c`. -/
def drop_input_on_output (G : GraphEngine) (m : Mouse) (consider_io : Bool) (c : ConnPtr)
    (ed : Nodes) : Nodes :=
  if ed.element_.state_ = .NodesState_DragingInput ∨
      ed.element_.state_ = .NodesState_DragingInputValid then
    match ed.element_.connection_ with
    | none => ed
    | some dragged =>
      if drop_legal G ed c.node c dragged ∧ consider_io then
        let ed1 : Nodes :=
          { ed with element_ := { ed.element_ with state_ := .NodesState_DragingInputValid } }
        if ¬ m.down then
          let nodes1 := modify_conn dragged (Connection.attach (some c.node) (some c)) ed1.nodes_
          let nodes2 := modify_conn c Connection.inc nodes1
          { id_ := ed.id_, nodes_ := nodes2,
            gf_calls := ed1.gf_calls ++ [.connect c dragged, .run dragged.node],
            element_ :=
              { state_ := NodesState.NodesState_HoverIO, node_ := some c.node,
                connection_ := some c } }
        else ed1
      else ed
  else ed

/-- `DisplayNode` for the input connector `index` of the node at `node`: what it does
to the editor (the drawing is left out). -/
def display_input (G : GraphEngine) (m : Mouse) (node index : Nat) (ed : Nodes) : Nodes :=
  let c : ConnPtr := ⟨node, false, index⟩
  let h := hover_connector m c ed
  drop_output_on_input G m h.2 c (start_drag_input m c h.1)

/-- `DisplayNode` for the output connector `index` of the node at `node`. -/
def display_output (G : GraphEngine) (m : Mouse) (node index : Nat) (ed : Nodes) : Nodes :=
  let c : ConnPtr := ⟨node, true, index⟩
  let h := hover_connector m c ed
  drop_input_on_output G m h.2 c (start_drag_output m c h.1)

/-- The cases of `UpdateState` for the states in which a connector is dragged, and for
`NodesState_Block` (lines 356-359 and 385-451); `down` is `IsMouseDown(0)`,
`right_clicked` is `IsMouseClicked(1)`. -/
def update_state_draging (down right_clicked : Bool) (ed : Nodes) : Nodes :=
  match ed.element_.state_ with
  | .NodesState_Block => { ed with element_ := Element.Reset .NodesState_Default }
  | .NodesState_DragingInput =>
    if ¬ down ∨ right_clicked then { ed with element_ := Element.Reset .NodesState_Block }
    else ed
  | .NodesState_DragingInputValid =>
    if right_clicked then { ed with element_ := Element.Reset .NodesState_Block }
    else { ed with element_ := { ed.element_ with state_ := .NodesState_DragingInput } }
  | .NodesState_DragingOutput =>
    if ¬ down ∨ right_clicked then { ed with element_ := Element.Reset .NodesState_Block }
    else ed
  | .NodesState_DragingOutputValid =>
    if right_clicked then { ed with element_ := Element.Reset .NodesState_Block }
    else { ed with element_ := { ed.element_ with state_ := .NodesState_DragingOutput } }
  | _ => ed

/-- The four states in which a connector is dragged. -/
def is_draging_io (s : NodesState) : Bool :=
  s = .NodesState_DragingInput ∨ s = .NodesState_DragingInputValid ∨
  s = .NodesState_DragingOutput ∨ s = .NodesState_DragingOutputValid

/-- The step of the loop of the deletion for the input connector `p` of a node with
id `node_id` (lines 525-539). -/
def delete_input (node_id : Int) (p : ConnPtr) (nodes : List GuiNode) : List GuiNode :=
  match get_conn nodes p with
  | none => nodes
  | some connection =>
    if connection.connections_ = 0 then nodes
    else
      let nodes1 :=
        if node_id < 0 then
          match connection.input_ with
          | some source => modify_conn source Connection.dec nodes
          | none => nodes
        else nodes
      match connection.target_.bind (get_node nodes1) with
      | some target => if target.id_ < 0 then modify_conn p Connection.clear nodes1 else nodes1
      | none => nodes1

/-- The input connectors of all nodes, in the order the deletion visits them, each
with the id of its node. -/
def input_ptrs (nodes : List GuiNode) : List (Int × ConnPtr) :=
  nodes.flatMap (fun n => (List.range n.inputs_.length).map (fun k => (n.id_, ⟨n.addr, false, k⟩)))

/-- "delete all selected nodes" (lines 512-558): the connections of the selected nodes
are removed from the connectors, then the nodes with a positive id are kept. -/
def delete_selected (ed : Nodes) : Nodes :=
  let nodes1 := (input_ptrs ed.nodes_).foldl (fun nodes q => delete_input q.1 q.2 nodes) ed.nodes_
  { ed with nodes_ := nodes1.filter (fun n => n.id_ > 0),
            element_ := Element.Reset .NodesState_Default }

/-- A connector as `CreateNodeFromHandle` makes it: named, not connected. -/
def new_connection (t : String × Family) : Connection :=
  { name_ := t.1, family := t.2, target_ := none, input_ := none, connections_ := 0 }

/-- `CreateNodeFromHandle`: a new node at address `addr` with one connector per input
and output terminal of the engine node. -/
def CreateNodeFromHandle (addr : Nat) (name : String) (inputs outputs : List (String × Family))
    (ed : Nodes) : Nodes :=
  { ed with
    id_ := ed.id_ + 1,
    nodes_ := ed.nodes_ ++
      [{ addr := addr, id_ := -(ed.id_ + 1), name_ := name,
         inputs_ := inputs.map new_connection, outputs_ := outputs.map new_connection }] }

/-- What the user can make the editor do, piece by piece. `other` stands for every
place of the editor not listed before it: those assign `element_` only, and never one
of the four states in which a connector is dragged; `select` stands for the places that
flip the sign of the ids of nodes. -/
inductive Gesture where
  | display_input (m : Mouse) (node index : Nat)
  | display_output (m : Mouse) (node index : Nat)
  | update_state (down right_clicked : Bool)
  | delete
  | create (addr : Nat) (name : String) (inputs outputs : List (String × Family))
  | select (selected : List Nat)
  | other (e : Element)

/-- One gesture. `DisplayNode` visits the connectors a node has, nothing else. -/
def Gesture.apply (G : GraphEngine) (ed : Nodes) : Gesture → Nodes
  | .display_input m node index =>
    match get_conn ed.nodes_ ⟨node, false, index⟩ with
    | some _ => Geoflow.display_input G m node index ed
    | none => ed
  | .display_output m node index =>
    match get_conn ed.nodes_ ⟨node, true, index⟩ with
    | some _ => Geoflow.display_output G m node index ed
    | none => ed
  | .update_state down right_clicked => update_state_draging down right_clicked ed
  | .delete => if ed.element_.state_ = .NodesState_Selected then delete_selected ed else ed
  | .create addr name inputs outputs => CreateNodeFromHandle addr name inputs outputs ed
  | .select selected =>
    { ed with nodes_ := ed.nodes_.map (fun n =>
        { n with id_ := if n.addr ∈ selected then -|n.id_| else |n.id_| }) }
  | .other e => if is_draging_io e.state_ then ed else { ed with element_ := e }

/-- A sequence of gestures. -/
def gestures (G : GraphEngine) (ed : Nodes) (gs : List Gesture) : Nodes :=
  gs.foldl (Gesture.apply G) ed

/-- The editor as its constructor leaves it. -/
def Nodes.init : Nodes :=
  { id_ := 0, nodes_ := [], element_ := Element.Reset .NodesState_Default, gf_calls := [] }

/-- What the invariant asks of one input connector: if it is the connector of a
single-feature terminal, its connection count is 0 or 1; and `input_`, if set, points to
an output connector. -/
def input_ok (c : Connection) : Prop :=
  (c.family = .GF_SINGLE_FEATURE → c.connections_ = 0 ∨ c.connections_ = 1) ∧
    ∀ o, c.input_ = some o → o.is_output = true

/-- The invariant on the input connectors of all nodes. -/
def inputs_ok (nodes : List GuiNode) : Prop :=
  ∀ n ∈ nodes, ∀ c ∈ n.inputs_, input_ok c

/-- The invariant of the connectors: every input connector of a single-feature terminal
has a connection count of 0 or 1; `input_` of every input connector, if set, points to
an output connector; and while an output is dragged, `element_.connection_` points to an
output connector. -/
def connectors_ok (ed : Nodes) : Prop :=
  inputs_ok ed.nodes_ ∧
  ((ed.element_.state_ = .NodesState_DragingOutput ∨
    ed.element_.state_ = .NodesState_DragingOutputValid) →
    ∃ o, ed.element_.connection_ = some o ∧ o.is_output = true)

/-! ## A sample graph in the editor -/

/-- An engine that finds every pair of terminals compatible and no connection to
close a loop. -/
def permissive : GraphEngine :=
  { is_compatible := fun _ _ _ => true, detect_loop := fun _ _ _ => false }

/-- An engine that finds every pair compatible and every connection to close a loop. -/
def all_loops : GraphEngine :=
  { is_compatible := fun _ _ _ => true, detect_loop := fun _ _ _ => true }

/-- The output `out` of the node at address 1, of the node at address 2, and the
input `in` of the node at address 3. -/
def a_out : ConnPtr := ⟨1, true, 0⟩

/-- The output `out` of the node at address 2. -/
def b_out : ConnPtr := ⟨2, true, 0⟩

/-- The input `in` of the node at address 3. -/
def c_in : ConnPtr := ⟨3, false, 0⟩

/-- Three nodes `A`, `B`, `C`; the single-feature input `C.in` is fed by `A.out`, and
the output `B.out` is being dragged. -/
def editor_abc : Nodes :=
  { id_ := 3,
    nodes_ :=
      [{ addr := 1, id_ := 1, name_ := "A", inputs_ := [],
         outputs_ := [{ name_ := "out", family := .GF_SINGLE_FEATURE, target_ := none,
                        input_ := none, connections_ := 1 }] },
       { addr := 2, id_ := 2, name_ := "B", inputs_ := [],
         outputs_ := [{ name_ := "out", family := .GF_SINGLE_FEATURE, target_ := none,
                        input_ := none, connections_ := 0 }] },
       { addr := 3, id_ := 3, name_ := "C",
         inputs_ := [{ name_ := "in", family := .GF_SINGLE_FEATURE, target_ := some 1,
                       input_ := some a_out, connections_ := 1 }],
         outputs_ := [] }],
    element_ := { state_ := .NodesState_DragingOutput, node_ := some 2,
                  connection_ := some b_out },
    gf_calls := [.connect a_out c_in, .run 3] }

/-- The mouse over a connector, button released. -/
def mouse_released : Mouse := { hovered := true, clicked := false, down := false }

/-- The mouse over a connector, button held. -/
def mouse_held : Mouse := { hovered := true, clicked := false, down := true }

/-- The mouse over a connector, button just pressed. -/
def mouse_pressed : Mouse := { hovered := true, clicked := true, down := true }

/-- The mouse elsewhere. -/
def mouse_away : Mouse := { hovered := false, clicked := false, down := false }

/-- Drag the output connector 0 of the node at `source` onto the input connector 0 of
the node at `target` and release it there. -/
def drag_and_drop (source target : Nat) : List Gesture :=
  [.display_output mouse_released source 0,
   .display_output mouse_pressed source 0,
   .update_state true false,
   .display_input mouse_held target 0,
   .update_state false false,
   .display_input mouse_released target 0,
   .display_input mouse_away target 0]

/-- Create the nodes `A`, `B`, `C`, connect `A.out` to `C.in`, then drop `B.out` on
`C.in`. -/
def two_producers : List Gesture :=
  [.create 1 "A" [] [("out", .GF_SINGLE_FEATURE)],
   .create 2 "B" [] [("out", .GF_SINGLE_FEATURE)],
   .create 3 "C" [("in", .GF_SINGLE_FEATURE)] []] ++
  drag_and_drop 1 3 ++ drag_and_drop 2 3

/-- The editor after the nodes `A`, `B`, `C` were created and `A.out` was dropped on
`C.in`. -/
def connected_ac : Nodes :=
  gestures permissive Nodes.init
    ([.create 1 "A" [] [("out", .GF_SINGLE_FEATURE)],
      .create 2 "B" [] [("out", .GF_SINGLE_FEATURE)],
      .create 3 "C" [("in", .GF_SINGLE_FEATURE)] []] ++ drag_and_drop 1 3)

/-! ## `run_all`

`NodeManager::run_all` is declared in `geoflow.hpp` and not part of the sources; the
`NestNode` calls it once in every iteration. -/

/-- The Connection Graph of a flowchart with the nodes `0, ..., n-1`, numbered in
creation order: one pair (upstream node, downstream node) per connection. -/
abbrev ConnectionGraph (n : Nat) := List (Fin n × Fin n)

/-- Part of the model of `run_all` from the spec: a node can be invoked when it has
not run yet and every node that feeds one of its inputs has run (and pushed its
outputs, so that the inputs have data). -/
def can_run {n : Nat} (g : ConnectionGraph n) (done : List (Fin n)) (v : Fin n) : Bool :=
  decide (v ∉ done) && g.all (fun e => decide (e.2 = v → e.1 ∈ done))

/-- Part of the model of `run_all` from the spec: the loop of `run_all_order`, `k`
more invocations at most. -/
def run_all_loop {n : Nat} (g : ConnectionGraph n) : Nat → List (Fin n) → List (Fin n)
  | 0, done => done
  | k + 1, done =>
    match (List.finRange n).find? (can_run g done) with
    | some v => run_all_loop g k (done ++ [v])
    | none => done

/-- Modelled from the spec: `NodeManager::run_all` is missing from the sources. The
spec (4.4) has it execute the nodes of the graph in a topological order of the
Connection Graph, ties broken by node creation order, a node being invoked only once
all its connected inputs have data. This is the order of the invocations: again and
again the first node in creation order that can run is invoked. -/
def run_all_order {n : Nat} (g : ConnectionGraph n) : List (Fin n) :=
  run_all_loop g n []

/-- No cycle: no node is reachable from itself along one or more connections. -/
def Acyclic {n : Nat} (g : ConnectionGraph n) : Prop :=
  ∀ v : Fin n, ¬ Relation.TransGen (fun a b => (a, b) ∈ g) v v

/-- The scenario of the spec, numbered against the direction of the data: node 0 is
`Sink`, node 1 is `Doubler`, node 2 is `IntSource`; `IntSource` feeds `Doubler`, which
feeds `Sink`. -/
def source_doubler_sink : ConnectionGraph 3 := [(1, 0), (2, 1)]

/-- What holds of the nodes that have run: none ran twice, and whoever feeds a node
that has run has run before it. -/
def run_order_ok {n : Nat} (g : ConnectionGraph n) (done : List (Fin n)) : Prop :=
  done.Nodup ∧ ∀ e ∈ g, e.2 ∈ done → e.1 ∈ done ∧ done.indexOf e.1 < done.indexOf e.2

/-! ## Readers and samples for `set_inputs` -/

/-- What `set_inputs` can see of an input terminal of the node in iteration `i`: its
connected type, element `i` of its data vector and, of each sub-terminal, the name,
the first type and element `i` of its data vector. -/
def row_view (i : Nat) (t : InputTerminal) :
    Option TypeTag × Option AnyVal × List (String × Option TypeTag × Option AnyVal) :=
  (t.connected_type, t.data.get? i,
   t.sub_terminals.map (fun p => (p.1, p.2.types.head?, p.2.data.get? i)))

/-- The marked poly input `pin` of the nested node `Cell`. -/
def cell_poly_input : InputTerminal :=
  { name := "pin", family := .GF_MULTI_FEATURE, types := [.int], connected_type := none,
    marked := true, has_data := false, data := [], sub_terminals := [] }

/-- A sample `NestNode` around a node `Cell` with the marked inputs `in` and `pin`: the
vector input holds the rows 10, 20, 30, the poly input the sub-terminals `a` and `b`
with three rows each. -/
def nest_mixed : NestNode :=
  { name := "Nest", flowchart_loaded := true, use_parallel_processing := false,
    input_size_ := 0,
    input_terminals :=
      [("Cell.in", vector_input_of "Cell.in" [some (.int 10), some (.int 20), some (.int 30)]),
       ("Cell.pin", poly_input_of "Cell.pin"
          [("a", ⟨[.int], [some (.int 1), some (.int 2), some (.int 3)]⟩),
           ("b", ⟨[.string], [some (.text "x"), some (.text "y"), some (.text "z")]⟩)]),
       ("Nest.globals", poly_input_of "Nest.globals" [])],
    output_terminals := [("Nest.timings", new_output .GF_SINGLE_FEATURE [.float])],
    nested_node_manager_ :=
      { global_flowchart_params := [],
        nodes := [("Cell", ⟨[("in", cell_input), ("pin", cell_poly_input)], []⟩)],
        connections := [] },
    manager_globals := [], calls := [] }

/-! ## Readers and samples for the globals of an iteration -/

/-- The flowchart iteration `i` hands to `run_all`: the part of `run_row` before the
run. -/
def row_before_run (E : Engine) (self : NestNode) (i : Nat) (flowchart : NodeManager) :
    Except Error NodeManager :=
  let flowchart := E.notify_children proxy_node_name_ flowchart
  match set_globals self i flowchart.global_flowchart_params with
  | .error e => .error e
  | .ok globals => set_inputs self { flowchart with global_flowchart_params := globals } i

/-- The test of the loop over the `.globals` sub-terminals: the sub-terminal accepts
`std::string`, `int`, `float` or `bool`, so it writes a global of its name. -/
def gives_global (sterm : SubTerminal) : Bool :=
  sterm.types.contains TypeTag.string || sterm.types.contains TypeTag.int ||
    sterm.types.contains TypeTag.float || sterm.types.contains TypeTag.bool

/-- The names of the globals written from the `.globals` input. -/
def global_names (subs : List (String × SubTerminal)) : List String :=
  (subs.filter (fun p => gives_global p.2)).map Prod.fst

/-- The doubling sample with the parent global `city` and the sub-terminal `tile` on
its `.globals` input. -/
def nest_with_globals : NestNode :=
  { nest_doubling with
    input_terminals :=
      [("Cell.in", vector_input_of "Cell.in" [some (.int 10), some (.int 20), some (.int 30)]),
       ("Nest.globals", poly_input_of "Nest.globals"
          [("tile", ⟨[.int], [some (.int 7), some (.int 8), some (.int 9)]⟩)])],
    manager_globals := [("city", ⟨.string, .text "Delft"⟩)] }

/-- The doubling sample with a sub-terminal named `GF_I` on its `.globals` input. -/
def nest_gf_i : NestNode :=
  { nest_doubling with
    input_terminals :=
      [("Cell.in", vector_input_of "Cell.in" [some (.int 10), some (.int 20), some (.int 30)]),
       ("Nest.globals", poly_input_of "Nest.globals"
          [("GF_I", ⟨[.string],
            [some (.text "x"), some (.text "y"), some (.text "z")]⟩)])] }

/-- A sample clock: the run of row `i` starts at tick `100 * i` and takes `i + 1` ticks. -/
def clock_ticks : Nat → Int × Int := fun i => (100 * (i : Int), 100 * (i : Int) + (i : Int) + 1)

/-! ## Loading the nested flowchart (`NestNode::load_nodes`) -/

/-- A fresh input terminal as `add_vector_input` / `add_poly_input` create it. -/
def new_input (family : Family) (name : String) (types : List TypeTag) : InputTerminal :=
  { name := name, family := family, types := types, connected_type := none, marked := false,
    has_data := false, data := [], sub_terminals := [] }

/-- Modelled from the spec: `Node::add_vector_input(name, types)` of `geoflow.hpp` puts
a new vector (single-feature) input terminal under `name` into `input_terminals`; a
terminal name is unique within its node, an entry of that name is replaced. -/
def add_vector_input (name : String) (types : List TypeTag)
    (ins : List (String × InputTerminal)) : List (String × InputTerminal) :=
  map_insert name (new_input .GF_SINGLE_FEATURE name types) ins

/-- Modelled from the spec: `Node::add_poly_input(name, types)`, the same for a poly
input terminal. -/
def add_poly_input (name : String) (types : List TypeTag)
    (ins : List (String × InputTerminal)) : List (String × InputTerminal) :=
  map_insert name (new_input .GF_MULTI_FEATURE name types) ins

/-- Modelled from the spec: `Node::add_vector_output(name, type)`, a new vector output
terminal under `name` in `output_terminals`. -/
def add_vector_output (name : String) (types : List TypeTag)
    (outs : List (String × OutputTerminal)) : List (String × OutputTerminal) :=
  map_insert name (new_output .GF_SINGLE_FEATURE types) outs

/-- Modelled from the spec: `Node::add_poly_output(name, types)`, the same for a poly
output terminal. -/
def add_poly_output (name : String) (types : List TypeTag)
    (outs : List (String × OutputTerminal)) : List (String × OutputTerminal) :=
  map_insert name (new_output .GF_MULTI_FEATURE types) outs

/-- What `load_nodes` reads from outside the node: `fs::exists(path)` and the nodes and
connections `load_json(path)` creates in the cleared nested manager, in the order in
which it returns them. -/
structure Disk where
  file_exists : String → Bool
  load_json : String → List (String × Node) × List (String × String)

/-- The first inner loop of `load_nodes`, over the input terminals of one loaded node. -/
def load_inputs_of_node (node_name : String) :
    List (String × InputTerminal) → List (String × InputTerminal) →
    List (String × InputTerminal)
  | [], ins => ins
  | (name, input_term) :: rest, ins =>
    if input_term.marked then
      if input_term.family = .GF_SINGLE_FEATURE then
        load_inputs_of_node node_name rest
          (add_vector_input (full_name node_name name) input_term.types ins)
      else
        load_inputs_of_node node_name rest
          (add_poly_input (full_name node_name name) input_term.types ins)
    else load_inputs_of_node node_name rest ins

/-- The second inner loop of `load_nodes`, over the output terminals of one loaded node. -/
def load_outputs_of_node (node_name : String) :
    List (String × OutputTerminal) → List (String × OutputTerminal) →
    List (String × OutputTerminal)
  | [], outs => outs
  | (name, output_term_) :: rest, outs =>
    if output_term_.marked then
      if output_term_.family = .GF_SINGLE_FEATURE then
        load_outputs_of_node node_name rest
          (add_vector_output (full_name node_name name) output_term_.types outs)
      else
        load_outputs_of_node node_name rest
          (add_poly_output (full_name node_name name) output_term_.types outs)
    else load_outputs_of_node node_name rest outs

/-- The loop of `load_nodes` over the loaded nodes. -/
def load_terminals :
    List (String × Node) →
    List (String × InputTerminal) × List (String × OutputTerminal) →
    List (String × InputTerminal) × List (String × OutputTerminal)
  | [], acc => acc
  | (node_name, node) :: rest, (ins, outs) =>
    load_terminals rest
      (load_inputs_of_node node_name node.input_terminals ins,
       load_outputs_of_node node_name node.output_terminals outs)

/-- The types of the `.globals` poly input. -/
def globals_types : List TypeTag := [.int, .float, .bool, .string, .date, .time, .datetime]

/-- `NestNode::load_nodes`: the node after the call and the returned flag. -/
def load_nodes (F : Disk) (self : NestNode) : NestNode × Bool :=
  if F.file_exists self.filepath_ then
    let ins := add_poly_input (globals_name self) globals_types []
    let loaded := F.load_json self.filepath_
    let r := load_terminals loaded.1 (ins, [])
    ({ self with
       input_terminals := r.1,
       output_terminals := add_vector_output (timings_name self) [.float] r.2,
       nested_node_manager_ :=
         { global_flowchart_params := self.manager_globals, nodes := loaded.1,
           connections := loaded.2 } }, true)
  else (self, false)

/-- `NestNode::post_parameter_load`: `flowchart_loaded = load_nodes()`. -/
def post_parameter_load (F : Disk) (self : NestNode) : NestNode :=
  { (load_nodes F self).1 with flowchart_loaded := (load_nodes F self).2 }

/-- Insertion of a list of entries into a map, one after the other. -/
def insert_all {α : Type} : List (String × α) → List (String × α) → List (String × α)
  | [], m => m
  | (k, v) :: rest, m => insert_all rest (map_insert k v m)

/-- The inputs the specification gives the loaded `NestNode` for one node: one per
marked input terminal, named by its full name, of the family of that terminal. -/
def exported_inputs_of_node (node_name : String) (l : List (String × InputTerminal)) :
    List (String × InputTerminal) :=
  (l.filter (fun p => p.2.marked)).map
    (fun p => (full_name node_name p.1, new_input p.2.family (full_name node_name p.1) p.2.types))

/-- The inputs the specification gives the loaded `NestNode` besides `.globals`. -/
def exported_inputs (nodes : List (String × Node)) : List (String × InputTerminal) :=
  nodes.flatMap (fun n => exported_inputs_of_node n.1 n.2.input_terminals)

/-- The outputs the specification gives the loaded `NestNode` for one node: one per
marked output terminal, named by its full name, of the family of that terminal. -/
def exported_outputs_of_node (node_name : String) (l : List (String × OutputTerminal)) :
    List (String × OutputTerminal) :=
  (l.filter (fun p => p.2.marked)).map
    (fun p => (full_name node_name p.1, new_output p.2.family p.2.types))

/-- The outputs the specification gives the loaded `NestNode` besides `.timings`. -/
def exported_outputs (nodes : List (String × Node)) : List (String × OutputTerminal) :=
  nodes.flatMap (fun n => exported_outputs_of_node n.1 n.2.output_terminals)

/-- A sample without a file. -/
def empty_disk : Disk :=
  { file_exists := fun _ => false, load_json := fun _ => ([], []) }

/-- The family of the proxy output `name` when `set_inputs` runs in iteration `i`; `none`
when an earlier iteration failed or there is no such output. -/
def proxy_family (E : Engine) (self : NestNode) (i : Nat) (name : String) : Option Family :=
  match flowchart_before E self i with
  | .error _ => none
  | .ok fc =>
    (map_find proxy_node_name_ (E.notify_children proxy_node_name_ fc).nodes).bind
      (fun proxy => (map_find name proxy.output_terminals).map (fun po => po.family))

/-- The marked input `in2` of the nested node `Cell`. -/
def cell_input2 : InputTerminal := { cell_input with name := "in2" }

/-- A sample `NestNode` whose vector inputs differ in length: `Cell.in` holds three
rows, `Cell.in2` two. -/
def nest_unequal : NestNode :=
  { nest_doubling with
    input_terminals :=
      [("Cell.in", vector_input_of "Cell.in" [some (.int 10), some (.int 20), some (.int 30)]),
       ("Cell.in2", vector_input_of "Cell.in2" [some (.int 1), some (.int 2)]),
       ("Nest.globals", poly_input_of "Nest.globals" [])],
    nested_node_manager_ :=
      { global_flowchart_params := [],
        nodes := [("Cell", ⟨[("in", cell_input), ("in2", cell_input2)],
          [("out", marked_output false [])]⟩)],
        connections := [] } }

/-! ## The plugin loader (`DLLoader/Unix/DLLoader.h`)

A function pointer is what `dlsym` returned: the address of the symbol, or `none` for
the null pointer. What a member function does is recorded as a list of events. -/

/-- The loader object: the path of the library and the names of its two symbols. -/
structure DLLoader where
  _pathToLib : String
  _allocClassSymbol : String
  _deleteClassSymbol : String
  deriving DecidableEq

/-- The dynamic linker: `dlsym(_handle, symbol)` and the value `dlclose(_handle)`
returns. -/
structure DynamicLinker where
  dlsym : String → Option Nat
  dlclose : Int

/-- What the loader does, in order: a line `std::cerr << dlerror() << std::endl`, a
call of `dlclose`, a call through a function pointer. -/
inductive DLEvent where
  | cerr
  | dlclose
  | call (func : Option Nat)
  deriving DecidableEq, Repr

/-- `DLLoader::DLCloseLib`. -/
def DLCloseLib (os : DynamicLinker) : List DLEvent :=
  DLEvent.dlclose :: (if os.dlclose ≠ 0 then [DLEvent.cerr] else [])

/-- `DLLoader::DLGetInstance`: the events, and the deleter stored in the returned
`shared_ptr`. -/
def DLGetInstance (os : DynamicLinker) (self : DLLoader) : List DLEvent × Option Nat :=
  let allocFunc := os.dlsym self._allocClassSymbol
  let e1 := if allocFunc = none then [DLEvent.cerr] else []
  let deleteFunc := os.dlsym self._deleteClassSymbol
  let e2 := if deleteFunc = none then [DLEvent.cerr] else []
  let e3 := if allocFunc = none ∨ deleteFunc = none then DLCloseLib os else []
  (e1 ++ e2 ++ e3 ++ [DLEvent.call allocFunc], deleteFunc)

/-- `DLLoader::DLSetImGuiContext`. -/
def DLSetImGuiContext (os : DynamicLinker) : List DLEvent :=
  let Func := os.dlsym "SetImGuiContext"
  (if Func = none then DLEvent.cerr :: DLCloseLib os else []) ++ [DLEvent.call Func]

/-- A library without any of the symbols. -/
def no_symbols : DynamicLinker := { dlsym := fun _ => none, dlclose := 0 }

/-- A library with the allocator at address 64 and without the deleter. -/
def no_deleter : DynamicLinker :=
  { dlsym := fun s => if s = "allocator" then some 64 else none, dlclose := 0 }

/-- A loader for the symbols `allocator` and `deleter`. -/
def sample_loader : DLLoader :=
  { _pathToLib := "libplugin.so", _allocClassSymbol := "allocator",
    _deleteClassSymbol := "deleter" }

/-! ## The first view of an existing graph (`ProcessNodes`, the block
`if(!gf_manager_checked)`) -/

/-- What `CreateNodeFromHandle` reads of a node of the engine: the address of the new
editor node, the name, the input and the output terminals. -/
structure GfNode where
  addr : Nat
  name : String
  inputs : List (String × Family)
  outputs : List (String × Family)
  deriving DecidableEq, Repr

/-- The loop `for(auto& kv : gf_manager.nodes) CreateNodeFromHandle(..)`. -/
def create_all : List GfNode → Nodes → Nodes
  | [], ed => ed
  | g :: rest, ed => create_all rest (CreateNodeFromHandle g.addr g.name g.inputs g.outputs ed)

/-- The loop over the connectors of one side of a node that fills `node_input_map` or
`node_output_map`: `map[node->name_+conn->name_] = (node, conn)`; `k` is the position of
the next connector. -/
def map_connectors (is_output : Bool) (node : GuiNode) :
    List Connection → Nat → List (String × (Nat × ConnPtr)) → List (String × (Nat × ConnPtr))
  | [], _, m => m
  | conn :: rest, k, m =>
    map_connectors is_output node rest (k + 1)
      (map_set (node.name_ ++ conn.name_) (node.addr, ⟨node.addr, is_output, k⟩) m)

/-- The loop over `nodes_` that fills the two maps: `(node_input_map, node_output_map)`. -/
def map_nodes :
    List GuiNode →
    List (String × (Nat × ConnPtr)) × List (String × (Nat × ConnPtr)) →
    List (String × (Nat × ConnPtr)) × List (String × (Nat × ConnPtr))
  | [], acc => acc
  | node :: rest, (node_input_map, node_output_map) =>
    map_nodes rest
      (map_connectors false node node.inputs_ 0 node_input_map,
       map_connectors true node node.outputs_ 0 node_output_map)

/-- A tuple of `dump_connections()`; its components are `std::get<0>`, ..., `std::get<3>`. -/
abbrev Link := String × String × String × String

/-- The key `std::get<0>(link)+std::get<2>(link)`. -/
def Link.source (link : Link) : String := link.1 ++ link.2.2.1

/-- The key `std::get<1>(link)+std::get<3>(link)`. -/
def Link.target (link : Link) : String := link.2.1 ++ link.2.2.2

/-- The assignments `conn->target_ = node; conn->input_ = other`. -/
def Connection.point_to (node : Nat) (other : ConnPtr) (c : Connection) : Connection :=
  { c with target_ := some node, input_ := some other }

/-- The body of the loop over `dump_connections()`. A key that is not in its map gives
two null pointers, which the body dereferences: `none`. -/
def restore_link (node_input_map node_output_map : List (String × (Nat × ConnPtr)))
    (link : Link) (ed : Nodes) : Option Nodes :=
  match map_find link.source node_output_map, map_find link.target node_input_map with
  | some (node_source, conn_source), some (node_target, conn_target) =>
    let nodes1 := modify_conn conn_source (Connection.point_to node_target conn_target) ed.nodes_
    let nodes2 := modify_conn conn_target (Connection.point_to node_source conn_source) nodes1
    let nodes3 := modify_conn conn_source Connection.inc nodes2
    let nodes4 := modify_conn conn_target Connection.inc nodes3
    some { ed with
           nodes_ := nodes4,
           gf_calls := ed.gf_calls ++ [.connect conn_source conn_target, .run conn_target.node] }
  | _, _ => none

/-- The loop over `dump_connections()`. -/
def restore_links (node_input_map node_output_map : List (String × (Nat × ConnPtr))) :
    List Link → Nodes → Option Nodes
  | [], ed => some ed
  | link :: rest, ed =>
    match restore_link node_input_map node_output_map link ed with
    | none => none
    | some ed1 => restore_links node_input_map node_output_map rest ed1

/-- The block `if(!gf_manager_checked)` of `ProcessNodes`: create the editor nodes of
the nodes of the engine, map their connectors by key, restore the dumped links. -/
def restore_graph (gf_nodes : List GfNode) (links : List Link) (ed : Nodes) : Option Nodes :=
  let ed1 := create_all gf_nodes ed
  let maps := map_nodes ed1.nodes_ ([], [])
  restore_links maps.1 maps.2 links ed1

/-- The curves `RenderLines` draws: one for every input connector whose `connections_`
is not 0, as (node, connector). -/
def RenderLines (nodes : List GuiNode) : List (Nat × Connection) :=
  nodes.flatMap (fun node =>
    (node.inputs_.filter (fun connection => connection.connections_ ≠ 0)).map
      (fun connection => (node.addr, connection)))

/-- Assignment of a list of entries to a map, one after the other. -/
def set_all {α : Type} : List (String × α) → List (String × α) → List (String × α)
  | [], m => m
  | (k, v) :: rest, m => set_all rest (map_set k v m)

/-- The entries one side of a node adds to its map, the first connector at position
`k`. -/
def connector_entries (is_output : Bool) (node : GuiNode) (conns : List Connection) (k : Nat) :
    List (String × (Nat × ConnPtr)) :=
  (conns.enumFrom k).map
    (fun p => (node.name_ ++ p.2.name_, (node.addr, ⟨node.addr, is_output, p.1⟩)))

/-- A saved graph: `A.out` and `B.out` feed the poly input `C.in`, `A.out` also `D.in`. -/
def saved_nodes : List GfNode :=
  [⟨1, "A", [], [("out", .GF_SINGLE_FEATURE)]⟩,
   ⟨2, "B", [], [("out", .GF_SINGLE_FEATURE)]⟩,
   ⟨3, "C", [("in", .GF_MULTI_FEATURE)], []⟩,
   ⟨4, "D", [("in", .GF_SINGLE_FEATURE)], []⟩]

/-- Two links into the one poly input `C.in`. -/
def links_into_c : List Link := [("A", "C", "out", "in"), ("B", "C", "out", "in")]

/-- Two links into different inputs. -/
def links_apart : List Link := [("A", "C", "out", "in"), ("A", "D", "out", "in")]

/-- The calls the loop over `dump_connections()` makes for one tuple. -/
def link_calls (node_input_map node_output_map : List (String × (Nat × ConnPtr)))
    (link : Link) : List GfCall :=
  match map_find link.source node_output_map, map_find link.target node_input_map with
  | some (_, conn_source), some (_, conn_target) =>
    [.connect conn_source conn_target, .run conn_target.node]
  | _, _ => []

/-- The input connector the key of a tuple is resolved to. -/
def link_target (node_input_map : List (String × (Nat × ConnPtr))) (link : Link) :
    Option ConnPtr :=
  (map_find link.target node_input_map).map (fun p => p.2)

/-- The keys of the connectors of one side of the nodes, in the order in which the map
of that side is filled. -/
def connector_keys (is_output : Bool) (nodes : List GuiNode) : List String :=
  nodes.flatMap (fun node =>
    (if is_output then node.outputs_ else node.inputs_).map
      (fun conn => node.name_ ++ conn.name_))

/-! ## The text nodes (`TextNode`, `TextWriterNode`)

`NodeManager::substitute_globals` is declared in `geoflow.hpp`; the nodes are modelled
for every such function, which is a parameter of `process`. -/

/-- A `TextNode`: the parameter `value_` and the output terminals. -/
structure TextNode where
  value_ : String
  output_terminals : List (String × OutputTerminal)
  deriving DecidableEq

/-- `TextNode::init`, as far as the terminals go: `add_output("value", typeid(std::string))`. -/
def TextNode.init (self : TextNode) : TextNode :=
  { self with
    output_terminals := map_insert "value" (new_output .GF_SINGLE_FEATURE [.string])
      self.output_terminals }

/-- `TextNode::process`: `output("value").set( manager.substitute_globals(value_) )`. -/
def TextNode.process (substitute_globals : String → String) (self : TextNode) :
    Except Error TextNode :=
  match map_update "value" (set_from_any (some (.text (substitute_globals self.value_))))
      self.output_terminals with
  | none => .error (.no_such_terminal "value")
  | some outs => .ok { self with output_terminals := outs }

/-- A `TextWriterNode`: the parameter `filepath_` and the input terminals. -/
structure TextWriterNode where
  filepath_ : String
  input_terminals : List (String × InputTerminal)
  deriving DecidableEq

/-- What `TextWriterNode::process` does to the file system: `fs::create_directories(dir)`,
`ofs.open(fname)`, and the write of `content` to the file opened under `fname`. -/
inductive FsCall where
  | create_directories (dir : String)
  | ofs_open (fname : String)
  | write (fname : String) (content : String)
  deriving DecidableEq, Repr

/-- What the file system answers: whether `fs::create_directories(dir)` returns (if not,
it throws a `filesystem_error`, as it does for a directory it cannot create and for the
empty path), and whether `ofs.open(fname)` leaves the stream open (if not, nothing is
thrown and `ofs << value` writes nothing). -/
structure FileSystem where
  create_directories : String → Bool
  ofs_open : String → Bool

/-- `TextWriterNode::process`; `parent_path` is `fs::path(fname).parent_path()`. -/
def TextWriterNode.process (substitute_globals : String → String)
    (parent_path : String → String) (F : FileSystem) (self : TextWriterNode) :
    Except Error (List FsCall) :=
  match map_find "value" self.input_terminals with
  | none => .error (.no_such_terminal "value")
  | some t =>
    match get_as .string "value" t.data 0 with
    | .error e => .error e
    | .ok (.text value) =>
      let fname := substitute_globals self.filepath_
      let dir := parent_path fname
      if F.create_directories dir then
        .ok ([.create_directories dir, .ofs_open fname] ++
          (if F.ofs_open fname then [.write fname value] else []))
      else .error (.filesystem_error dir)
    | .ok _ => .error (.bad_any_cast "value" 0)

/-- A sample substitution: the global `@city` stands for `Delft`. -/
def sample_substitute (s : String) : String :=
  if s = "@city" then "Delft" else if s = "out/@city.txt" then "out/Delft.txt" else s

/-- A sample `parent_path`: a path without a directory part has the empty parent. -/
def sample_parent_path (s : String) : String :=
  if s = "out/Delft.txt" then "out" else ""

/-- A sample file system: every directory but the one of the empty path can be created,
every file can be opened. -/
def sample_fs : FileSystem :=
  { create_directories := fun dir => decide (dir ≠ ""), ofs_open := fun _ => true }

/-- A `TextNode` with the text `@city`, after `init`. -/
def sample_text : TextNode := TextNode.init { value_ := "@city", output_terminals := [] }

/-- A `TextWriterNode` with the path `out/@city.txt` whose input holds `hello`. -/
def sample_writer : TextWriterNode :=
  { filepath_ := "out/@city.txt",
    input_terminals :=
      [("value", { new_input .GF_SINGLE_FEATURE "value" [.string] with
                   has_data := true, data := [some (.text "hello")] })] }

/-- The same node with the path `plain.txt`, a path without a directory part. -/
def plain_writer : TextWriterNode := { sample_writer with filepath_ := "plain.txt" }

/-- The order of a `std::map` with `std::string` keys, on the list of its entries. -/
def key_sorted {α : Type} (m : List (String × α)) : Prop :=
  m.Pairwise (fun a b => a.1.data < b.1.data)

/-- A sample `NestNode` named `A`: its input `A.globals`, without sub-terminals, comes
before the data input `Cell.in` with the rows 10, 20, 30. -/
def nest_globals_first : NestNode :=
  { name := "A", flowchart_loaded := true, use_parallel_processing := false,
    input_size_ := 0,
    input_terminals :=
      [("A.globals", poly_input_of "A.globals" []),
       ("Cell.in", vector_input_of "Cell.in" [some (.int 10), some (.int 20), some (.int 30)])],
    output_terminals :=
      [("A.timings", new_output .GF_SINGLE_FEATURE [.float]),
       ("Cell.out", new_output .GF_SINGLE_FEATURE [.int])],
    nested_node_manager_ :=
      { global_flowchart_params := [],
        nodes := [("Cell", ⟨[("in", cell_input)], [("out", marked_output false [])]⟩)],
        connections := [] },
    manager_globals := [], calls := [] }

/-- The type of the global a sub-terminal of the `.globals` input gives: the first of
`std::string`, `int`, `float`, `bool` it accepts, in the order of the tests of the
loop; `none` when it accepts none of them. -/
def global_type (sterm : SubTerminal) : Option TypeTag :=
  if sterm.types.contains TypeTag.string then some .string
  else if sterm.types.contains TypeTag.int then some .int
  else if sterm.types.contains TypeTag.float then some .float
  else if sterm.types.contains TypeTag.bool then some .bool
  else none

/-- The doubling sample with the parent globals `GF_I` and `city` and the sub-terminal
`city` on its `.globals` input. -/
def nest_overrides : NestNode :=
  { nest_doubling with
    input_terminals :=
      [("Cell.in", vector_input_of "Cell.in" [some (.int 10), some (.int 20), some (.int 30)]),
       ("Nest.globals", poly_input_of "Nest.globals"
          [("city", ⟨[.string],
            [some (.text "Rome"), some (.text "Oslo"), some (.text "Bonn")]⟩)])],
    manager_globals :=
      [("GF_I", ⟨.string, .text "parent"⟩), ("city", ⟨.string, .text "Delft"⟩)] }

/-- Sub-terminals of a `.globals` input: `n` accepts `int` and `bool`, `when` accepts
`Date` only and holds no data. -/
def typed_subs : List (String × SubTerminal) :=
  [("n", ⟨[.bool, .int], [some (.int 4), some (.int 5)]⟩), ("when", ⟨[.date], []⟩)]

/-- The view of a saved graph with the nodes `A` and `C` and the link from `A.out` to
`C.in`, as `ProcessNodes` builds it first. -/
def restored_ac : Nodes :=
  (restore_graph
    [⟨1, "A", [], [("out", .GF_SINGLE_FEATURE)]⟩, ⟨3, "C", [("in", .GF_SINGLE_FEATURE)], []⟩]
    [("A", "C", "out", "in")] Nodes.init).getD Nodes.init

/-- That view with the node `C` selected (negative id), `A` not, in the state
`NodesState_Selected`. -/
def selected_c : Nodes :=
  { Gesture.apply permissive restored_ac (.select [3]) with
    element_ := Element.Reset .NodesState_Selected }

/-- A saved graph in which the names of two input connectors give the same key: the
input `bc` of the node `a` and the input `c` of the node `ab`. -/
def colliding_nodes : List GfNode :=
  [⟨1, "a", [("bc", .GF_SINGLE_FEATURE)], []⟩,
   ⟨2, "ab", [("c", .GF_SINGLE_FEATURE)], []⟩,
   ⟨3, "x", [], [("out", .GF_SINGLE_FEATURE)]⟩]

/-- The one link of that graph: from `x.out` to the input `bc` of `a`. -/
def link_to_a : List Link := [("x", "a", "out", "bc")]

/-! ## The viewer nodes (`gui/povi_nodes.hpp`)

A `float` is modelled as the rational number it stands for, arithmetic on floats as
exact arithmetic. -/

/-- A point or vector: `std::array<float, 3>`, `glm::vec3`. -/
abbrev Vec3 := ℚ × ℚ × ℚ

/-- The difference `u - v` of `glm`. -/
def Vec3.sub (u v : Vec3) : Vec3 := (u.1 - v.1, u.2.1 - v.2.1, u.2.2 - v.2.2)

/-- The sum of two vectors. -/
def Vec3.add (u v : Vec3) : Vec3 := (u.1 + v.1, u.2.1 + v.2.1, u.2.2 + v.2.2)

/-- The product `glm::cross(u, v)`. -/
def cross (u v : Vec3) : Vec3 :=
  (u.2.1 * v.2.2 - u.2.2 * v.2.1, u.2.2 * v.1 - u.1 * v.2.2, u.1 * v.2.1 - u.2.1 * v.1)

/-- The dot product. -/
def dot (u v : Vec3) : ℚ := u.1 * v.1 + u.2.1 * v.2.1 + u.2.2 * v.2.2

/-- A triangle of a `TriangleCollection`: its three vertices. -/
abbrev Triangle := Vec3 × Vec3 × Vec3

/-- The corners `p0`, ..., `p7` of the cube of `CubeNode::process`. -/
def p0 : Vec3 := (-1, -1, -1)
/-- The corner `p1`. -/
def p1 : Vec3 := (1, -1, -1)
/-- The corner `p2`. -/
def p2 : Vec3 := (1, 1, -1)
/-- The corner `p3`. -/
def p3 : Vec3 := (-1, 1, -1)
/-- The corner `p4`. -/
def p4 : Vec3 := (-1, -1, 1)
/-- The corner `p5`. -/
def p5 : Vec3 := (1, -1, 1)
/-- The corner `p6`. -/
def p6 : Vec3 := (1, 1, 1)
/-- The corner `p7`. -/
def p7 : Vec3 := (-1, 1, 1)

/-- The triangle collection `tc` of `CubeNode::process`, in the order of the
`push_back` calls. -/
def cube_triangles : List Triangle :=
  [(p2, p1, p0), (p0, p3, p2), (p4, p5, p6), (p6, p7, p4), (p0, p1, p5), (p5, p4, p0),
   (p1, p2, p6), (p6, p5, p1), (p2, p3, p7), (p7, p6, p2), (p3, p0, p4), (p4, p7, p3)]

/-- The normal the loop computes for one triangle: `glm::cross(b-a, c-b)`. -/
def triangle_normal (t : Triangle) : Vec3 := cross (t.2.1.sub t.1) (t.2.2.sub t.2.1)

/-- The loop over `tc`: three times the normal of each triangle. -/
def cube_normals : List Triangle → List Vec3
  | [] => []
  | t :: rest =>
    triangle_normal t :: triangle_normal t :: triangle_normal t :: cube_normals rest

/-- `CubeNode::process`: the values set on the outputs `triangle_collection` and
`normals`. -/
def CubeNode_process : List Triangle × List Vec3 := (cube_triangles, cube_normals cube_triangles)

/-- Three times the centroid of a triangle: the sum of its vertices. -/
def centroid3 (t : Triangle) : Vec3 := (t.1.add t.2.1).add t.2.2

/-- The triangle lies in the face of the cube on which coordinate `axis` (0, 1 or 2) has
the value `side`. -/
def on_face (axis : Nat) (side : ℚ) (t : Triangle) : Bool :=
  let coord : Vec3 → ℚ := fun v => if axis = 0 then v.1 else if axis = 1 then v.2.1 else v.2.2
  coord t.1 = side && coord t.2.1 = side && coord t.2.2 = side

/-- The centroid of a triangle. -/
def centroid (t : Triangle) : Vec3 :=
  ((centroid3 t).1 / 3, (centroid3 t).2.1 / 3, (centroid3 t).2.2 / 3)

/-- The vector is not zero and parallel to a coordinate axis: exactly one of its
components is not zero. -/
def axis_parallel (n : Vec3) : Prop :=
  (n.1 ≠ 0 ∧ n.2.1 = 0 ∧ n.2.2 = 0) ∨ (n.1 = 0 ∧ n.2.1 ≠ 0 ∧ n.2.2 = 0) ∨
    (n.1 = 0 ∧ n.2.1 = 0 ∧ n.2.2 ≠ 0)

/-- The members of a `GradientMapperNode` the histogram reads and writes; `u_valmin` and
`u_valmax` are the values of `cmap.u_valmin` and `cmap.u_valmax`. The bin counts are
kept as natural numbers (the code keeps them in a `vec1f`). -/
structure GradientMapperNode where
  n_bins : Int
  minval : ℚ
  maxval : ℚ
  bin_width : ℚ
  u_valmin : ℚ
  u_valmax : ℚ
  histogram : List Nat
  max_bin_count : Nat

/-- The body of the loop of `compute_histogram` for one value. -/
def count_in_bin (self : GradientMapperNode) (min max : ℚ) (histogram : List Nat) (val : ℚ) :
    List Nat :=
  if val > max ∨ val < min then histogram
  else
    let bin : Int := ⌊(val - self.u_valmin) / self.bin_width⌋
    if bin ≥ 0 ∧ bin < self.n_bins then modify_at (fun c => c + 1) bin.toNat histogram
    else histogram

/-- `GradientMapperNode::compute_histogram(min, max)`; `data` is the input `values`,
`none` when it has no data. -/
def compute_histogram (min max : ℚ) (data : Option (List ℚ)) (self : GradientMapperNode) :
    GradientMapperNode :=
  match data with
  | none => self
  | some data =>
    let self1 := { self with bin_width := (max - min) / (self.n_bins : ℚ) }
    let histogram :=
      data.foldl (count_in_bin self1 min max) (List.replicate self.n_bins.toNat 0)
    { self1 with histogram := histogram, max_bin_count := histogram.foldl Nat.max 0 }

/-- `GradientMapperNode::on_push` for the input `values` holding `d`; on an empty `d`
the code dereferences `d.end()`: `none`. -/
def GradientMapperNode.on_push (d : List ℚ) (self : GradientMapperNode) :
    Option GradientMapperNode :=
  match d with
  | [] => none
  | x :: rest =>
    let minval := rest.foldl min x
    let maxval := rest.foldl max x
    let self1 := compute_histogram minval maxval (some d)
      { self with minval := minval, maxval := maxval }
    some { self1 with u_valmax := maxval, u_valmin := minval }

/-- A `GradientMapperNode` with 30 bins whose `u_valmin` is 0, as after a push of values
with the minimum 0. -/
def sample_gradient : GradientMapperNode :=
  { n_bins := 30, minval := 0, maxval := 30, bin_width := 1, u_valmin := 0, u_valmax := 30,
    histogram := [], max_bin_count := 0 }

/-- The value of an `int` expression whose mathematical value is `x`: `x` in 32 bits,
two's complement. -/
def wrap_int (x : Int) : Int := (x + 2147483648) % 4294967296 - 2147483648

/-- The members of a `ColorMapperNode` that `count_values` and `process` write:
`value_counts`, a `std::map<int,int>` (entries in key order), and `colormap.mapping`,
a `std::unordered_map<int,int>`. -/
structure ColorMapperNode where
  value_counts : List (Int × Int)
  mapping : List (Int × Int)
  deriving DecidableEq, Repr

/-- Lookup in a map with `int` keys. -/
def imap_find (k : Int) : List (Int × Int) → Option Int
  | [] => none
  | (k', v) :: rest => if k = k' then some v else imap_find k rest

/-- `value_counts[val]++` on the `std::map`: a key that is not there is first inserted
with the count 0. -/
def count_value (val : Int) : List (Int × Int) → List (Int × Int)
  | [] => [(val, wrap_int (0 + 1))]
  | (k, c) :: rest =>
    if val = k then (k, wrap_int (c + 1)) :: rest
    else if val < k then (val, wrap_int (0 + 1)) :: (k, c) :: rest
    else (k, c) :: count_value val rest

/-- `ColorMapperNode::count_values`; `data` is the input `values`. -/
def ColorMapperNode.count_values (data : List Int) (self : ColorMapperNode) :
    ColorMapperNode :=
  { self with value_counts := data.foldl (fun m val => count_value val m) [] }

/-- `colormap.mapping[k] = v` on the `std::unordered_map`. -/
def imap_set (k v : Int) : List (Int × Int) → List (Int × Int)
  | [] => [(k, v)]
  | (k', v') :: rest => if k = k' then (k, v) :: rest else (k', v') :: imap_set k v rest

/-- The loop of `ColorMapperNode::process` over `value_counts`:
`colormap.mapping[cv.first] = i++`. -/
def assign_ranks : List (Int × Int) → Int → List (Int × Int) → List (Int × Int)
  | [], _, mapping => mapping
  | (k, _) :: rest, i, mapping => assign_ranks rest (wrap_int (i + 1)) (imap_set k i mapping)

/-- `ColorMapperNode::process`, as far as `colormap.mapping` goes. -/
def ColorMapperNode.process (self : ColorMapperNode) : ColorMapperNode :=
  { self with mapping := assign_ranks self.value_counts 0 self.mapping }

/-- A `ColorMapperNode` that has mapped the values 1 and 7 before. -/
def sample_mapper : ColorMapperNode :=
  { value_counts := [(1, 4), (7, 2)], mapping := [(7, 1), (1, 0)] }

/-- A sample `run_all` that counts the runs of a flowchart: after a run the exported
output `out` of `Cell` holds the number it held before the run (0 if it held none), plus
one. -/
def counting_run (fc : NodeManager) : NodeManager :=
  match map_find "Cell" fc.nodes with
  | none => fc
  | some cell =>
    let runs : Int :=
      match data_of cell.output_terminals "out" with
      | [some (.int n)] => n
      | _ => 0
    { fc with
      nodes := map_set "Cell"
        { cell with output_terminals := [("out", marked_output true [some (.int (runs + 1))])] }
        fc.nodes }

/-- A sample engine around `counting_run`; its `notify_children` changes nothing. -/
def counting_engine : Engine :=
  { run_all := counting_run, notify_children := fun _ fc => fc,
    poly_size := fun _ => 0, CLOCKS_PER_SEC := 1000000 }

/-- A sample clock with 1000000 ticks in a second: the run of row `i` takes `i + 1`
milliseconds. -/
def clock_whole_ms : Nat → Int × Int :=
  fun i => (5000 * (i : Int), 5000 * (i : Int) + 1000 * ((i : Int) + 1))

/-- A sample file with one node, named `Nest`, that has the marked input `a` and the
marked output `timings`. -/
def own_timings_disk : Disk :=
  { file_exists := fun _ => true,
    load_json := fun _ =>
      ([("Nest", ⟨[("a", { cell_input with name := "a" })],
                  [("timings", marked_output false [])]⟩)], []) }

/-- A sample `run_all` for that file: the output `timings` of the nested node `Nest`
holds the value the proxy node feeds into its input `a`. -/
def echo_run (fc : NodeManager) : NodeManager :=
  match map_find proxy_node_name_ fc.nodes with
  | none => fc
  | some proxy =>
    match map_find "Nest.a" proxy.output_terminals with
    | none => fc
    | some po =>
      { fc with
        nodes := map_set "Nest"
          ⟨[("a", { cell_input with name := "a" })], [("timings", marked_output true po.data)]⟩
          fc.nodes }

/-- A sample engine around `echo_run`. -/
def echo_engine : Engine :=
  { run_all := echo_run, notify_children := fun _ fc => fc,
    poly_size := fun _ => 0, CLOCKS_PER_SEC := 1000000 }

/-- A `NestNode` named `Nest` after `post_parameter_load` on that file, its input
`Nest.a` then holding the rows 10 and 20: the exported output of the nested node has the
full name `Nest.timings`, the name of the timings output. -/
def nest_own_timings : NestNode :=
  let loaded := post_parameter_load own_timings_disk
    { name := "Nest", flowchart_loaded := false, use_parallel_processing := false,
      input_size_ := 0, input_terminals := [], output_terminals := [],
      nested_node_manager_ := { global_flowchart_params := [], nodes := [], connections := [] },
      manager_globals := [], calls := [] }
  { loaded with
    input_terminals := loaded.input_terminals.map (fun p =>
      if p.1 = "Nest.a" then
        (p.1, { p.2 with connected_type := some .int, has_data := true,
                         data := [some (.int 10), some (.int 20)] })
      else p) }

/-- The view of the saved graph with the nodes `A`, `B`, `C`, `D` and the two links from
`A.out` and from `B.out` into the poly input `C.in`, as `ProcessNodes` builds it first:
the count of `C.in` is 2. -/
def restored_two_into_c : Nodes :=
  { id_ := 4,
    nodes_ :=
      [{ addr := 1, id_ := -1, name_ := "A", inputs_ := [],
         outputs_ := [{ name_ := "out", family := .GF_SINGLE_FEATURE, target_ := some 3,
                        input_ := some ⟨3, false, 0⟩, connections_ := 1 }] },
       { addr := 2, id_ := -2, name_ := "B", inputs_ := [],
         outputs_ := [{ name_ := "out", family := .GF_SINGLE_FEATURE, target_ := some 3,
                        input_ := some ⟨3, false, 0⟩, connections_ := 1 }] },
       { addr := 3, id_ := -3, name_ := "C",
         inputs_ := [{ name_ := "in", family := .GF_MULTI_FEATURE, target_ := some 2,
                       input_ := some ⟨2, true, 0⟩, connections_ := 2 }],
         outputs_ := [] },
       { addr := 4, id_ := -4, name_ := "D",
         inputs_ := [{ name_ := "in", family := .GF_SINGLE_FEATURE, target_ := none,
                       input_ := none, connections_ := 0 }],
         outputs_ := [] }],
    element_ := Element.Reset .NodesState_Default,
    gf_calls := [.connect ⟨1, true, 0⟩ ⟨3, false, 0⟩, .run 3,
                 .connect ⟨2, true, 0⟩ ⟨3, false, 0⟩, .run 3] }

/-! ## Readers for the poly outputs of a run -/

/-- The data of the aggregated vector `s` of the poly output `n` of the node; `none` when
the node has no such output or the output no such vector. -/
def sub_data_of (outs : List (String × OutputTerminal)) (n s : String) :
    Option (List AnyVal) :=
  (map_find n outs).bind (fun t => (map_find s t.sub_terminals).map (fun st => st.data))

/-- The data vectors that `collect` pushes onto the aggregated vector `s` of the poly
output `n` in one iteration: that of every sub-terminal named `s` of every marked poly
output terminal with the full name `n`, in the order in which the loops visit them. -/
def poly_writes (n s : String) (nodes : List (String × Node)) : List (List AnyVal) :=
  nodes.flatMap (fun nd => nd.2.output_terminals.flatMap (fun t =>
    if t.2.marked = true ∧ t.2.family = .GF_MULTI_FEATURE ∧ full_name nd.1 t.1 = n then
      (t.2.sub_terminals.filter (fun p => p.1 = s)).map (fun p => p.2.data)
    else []))

/-- What the pushes `ws` of iteration `i` make of an aggregated vector that holds `d`: in
iteration 0 every push is onto a vector that `add_vector` has just made, in a later
iteration every push is onto the vector as it is. -/
def apply_writes (i : Nat) (ws : List (List AnyVal)) (d : Option (List AnyVal)) :
    Option (List AnyVal) :=
  ws.foldl (fun d w => if i = 0 then some w else d.map (fun x => x ++ w)) d

/-! ## Readers and samples for the invalidation before every row -/

/-- A node without the data of its terminals: every terminal is as it was, but has no
data, an empty data vector and no sub-terminal. -/
def Node.without_data (node : Node) : Node :=
  { input_terminals := node.input_terminals.map
      (fun p => (p.1, { p.2 with has_data := false, data := [], sub_terminals := [] })),
    output_terminals := node.output_terminals.map
      (fun p => (p.1, { p.2 with has_data := false, data := [], sub_terminals := [] })) }

/-- A flowchart apart from the data its nested nodes hold: the globals, the connections
and the proxy node as they are, every other node without the data of its terminals. -/
def without_data (fc : NodeManager) : NodeManager :=
  { fc with
    nodes := fc.nodes.map
      (fun p => if p.1 = proxy_node_name_ then p else (p.1, p.2.without_data)) }

/-- The two writes of the loop body of `process_sequential` before the run, taken
together: the flowchart gets the globals `globals` and, as its proxy node,
`proxy_node`. -/
def put_row (globals : List (String × Param)) (proxy_node : Node) (fc : NodeManager) :
    NodeManager :=
  { fc with
    global_flowchart_params := globals,
    nodes := map_set proxy_node_name_ proxy_node fc.nodes }

/-- What the loop body of `process_sequential` writes in iteration `i` before the run,
given the globals and the proxy node it finds: the globals of `set_globals` and the proxy
node with the outputs of `set_inputs`. -/
def row_of (self : NestNode) (i : Nat) (globals : List (String × Param))
    (proxy_node : Option Node) : Except Error (List (String × Param) × Node) :=
  match set_globals self i globals with
  | .error e => .error e
  | .ok globals =>
    match proxy_node with
    | none => .error (.no_such_node proxy_node_name_)
    | some proxy_node =>
      match set_inputs_loop self i proxy_node.output_terminals with
      | .error e => .error e
      | .ok outs => .ok (globals, { proxy_node with output_terminals := outs })

/-- Modelled from the spec: `run_all` and `notify_children` are declared in
`geoflow.hpp`. Section 4.4 has a run gather the inputs of the nodes, invoke `process()`
and push the outputs, and has `notify_children(node)` mark "every transitively
downstream Node's inputs as stale (`has_data = false` where the edge was affected)",
which is "required before a re-run so stale values are not silently reused". As a
contract on the engine: a run and the invalidation from the proxy node change nothing
but the data held by the terminals of the other nodes, and a run that follows the
invalidation reuses none of that data: two flowcharts that differ in nothing but that
data, their globals and their proxy node, once invalidated and given the same globals
and the same proxy node, are run to the same flowchart. -/
def no_stale_values (E : Engine) : Prop :=
  (∀ fc, without_data (E.run_all fc) = without_data fc) ∧
  (∀ fc, without_data (E.notify_children proxy_node_name_ fc) = without_data fc) ∧
  ∀ fc fc' globals proxy_node,
    without_data (put_row globals proxy_node fc) =
      without_data (put_row globals proxy_node fc') →
    E.run_all (put_row globals proxy_node (E.notify_children proxy_node_name_ fc)) =
      E.run_all (put_row globals proxy_node (E.notify_children proxy_node_name_ fc'))

/-- What the loop body of `process_sequential` can see of an input terminal of the node
in iteration `i`: its connected type, element `i` of its data vector and, of each
sub-terminal, the name, the types and element `i` of its data vector. -/
def row_of_input (i : Nat) (t : InputTerminal) :
    Option TypeTag × Option AnyVal × List (String × List TypeTag × Option AnyVal) :=
  (t.connected_type, t.data.get? i,
   t.sub_terminals.map (fun p => (p.1, p.2.types, p.2.data.get? i)))

/-- Twice an `int` value; the empty value for anything else. -/
def twice (v : AnyVal) : AnyVal :=
  match v with
  | some (.int n) => some (.int (2 * n))
  | _ => none

/-- A sample `run_all` that computes only what is missing: an output terminal of a
nested node that has data keeps it, one without data gets twice the value on the proxy
output `Cell.in`. -/
def lazy_run (fc : NodeManager) : NodeManager :=
  let v : AnyVal :=
    match map_find proxy_node_name_ fc.nodes with
    | none => none
    | some proxy_node => (data_of proxy_node.output_terminals "Cell.in").headD none
  { fc with
    nodes := fc.nodes.map (fun p =>
      if p.1 = proxy_node_name_ then p
      else (p.1, { p.2 with
        output_terminals := p.2.output_terminals.map (fun q =>
          (q.1, if q.2.has_data then q.2
                else { q.2 with has_data := true, data := [twice v] })) })) }

/-- A sample engine around `lazy_run` whose `notify_children` takes the data away from
every nested node and keeps the globals and the proxy node. -/
def lazy_engine : Engine :=
  { run_all := lazy_run, notify_children := fun _ fc => without_data fc,
    poly_size := fun _ => 0, CLOCKS_PER_SEC := 1000000 }

/-- The engine around `lazy_run` whose `notify_children` changes nothing. -/
def keeping_engine : Engine :=
  { run_all := lazy_run, notify_children := fun _ fc => fc,
    poly_size := fun _ => 0, CLOCKS_PER_SEC := 1000000 }

/-- The doubling sample with other values in the rows 0 and 2 of its input. -/
def nest_doubling_other_rows : NestNode :=
  sample_nest [some (.int 11), some (.int 20), some (.int 33)]
    [("out", marked_output false [])] [("Cell.out", new_output .GF_SINGLE_FEATURE [.int])]

/-! ## Properties -/

section Maps

variable {α : Type}

theorem map_find_map_update {k : String} {f : α → α} {m m' : List (String × α)}
    (h : map_update k f m = some m') (k' : String) :
    map_find k' m' = if k' = k then (map_find k m).map f else map_find k' m := by
  induction m generalizing m' with
  | nil => simp [map_update] at h
  | cons p rest ih =>
    obtain ⟨k0, v0⟩ := p
    unfold map_update at h
    by_cases hk : k = k0
    · subst hk
      simp only [if_true] at h
      cases h
      by_cases hk' : k' = k
      · subst hk'; simp [map_find]
      · simp [map_find, hk']
    · simp only [hk, if_false] at h
      cases hr : map_update k f rest with
      | none => simp [hr] at h
      | some r =>
        simp only [hr, Option.map_some'] at h
        cases h
        have := ih hr
        by_cases hk' : k' = k0
        · subst hk'
          have : ¬ k' = k := fun e => hk e.symm
          simp [map_find, this]
        · simp [map_find, hk', this, hk]

theorem map_find_map_set (k : String) (v : α) (m : List (String × α)) (k' : String) :
    map_find k' (map_set k v m) = if k' = k then some v else map_find k' m := by
  induction m with
  | nil => by_cases hk' : k' = k <;> simp [map_set, map_find, hk']
  | cons p rest ih =>
    obtain ⟨k0, v0⟩ := p
    unfold map_set
    by_cases hk : k = k0
    · subst hk
      by_cases hk' : k' = k <;> simp [map_find, hk']
    · by_cases hk' : k' = k0
      · subst hk'
        have : ¬ k' = k := fun e => hk e.symm
        simp [map_find, hk, this]
      · simp [map_find, hk, hk', ih]

theorem map_find_of_map_update {k : String} {f : α → α} {m m' : List (String × α)}
    (h : map_update k f m = some m') : ∃ v, map_find k m = some v := by
  induction m generalizing m' with
  | nil => simp [map_update] at h
  | cons p rest ih =>
    obtain ⟨k0, v0⟩ := p
    by_cases hk : k = k0
    · exact ⟨v0, by simp [map_find, hk]⟩
    · unfold map_update at h
      simp only [hk, if_false] at h
      cases hr : map_update k f rest with
      | none => simp [hr] at h
      | some r =>
        obtain ⟨v, hv⟩ := ih hr
        exact ⟨v, by simp [map_find, hk, hv]⟩

end Maps

/-! ## Collecting the outputs of one iteration -/

theorem data_of_push_back_any {name : String} {v : AnyVal}
    {outs outs' : List (String × OutputTerminal)}
    (h : push_back_any name v outs = .ok outs') (k : String) :
    data_of outs' k = data_of outs k ++ (if name = k then [v] else []) := by
  unfold push_back_any at h
  cases hu : map_update name (fun t => { t with data := t.data ++ [v] }) outs with
  | none => simp [hu] at h
  | some m =>
    simp only [hu] at h
    cases h
    have hf := map_find_map_update hu k
    unfold data_of
    rw [hf]
    by_cases hk : k = name
    · subst hk
      obtain ⟨t, ht⟩ := map_find_of_map_update hu
      cases hfind : map_find k outs with
      | none => simp [ht] at hfind
      | some t => simp
    · have : ¬ name = k := fun e => hk e.symm
      simp [hk, this]

theorem data_of_push_back_all {name : String} (ds : List AnyVal) :
    ∀ {outs outs' : List (String × OutputTerminal)},
    push_back_all name ds outs = .ok outs' → ∀ k : String,
    data_of outs' k = data_of outs k ++ (if name = k then ds else []) := by
  induction ds with
  | nil =>
    intro outs outs' h k
    simp only [push_back_all] at h
    cases h
    by_cases hk : name = k <;> simp [hk]
  | cons d ds ih =>
    intro outs outs' h k
    simp only [push_back_all] at h
    cases h1 : push_back_any name d outs with
    | error e => simp [h1] at h
    | ok o1 =>
      simp only [h1] at h
      rw [ih h k, data_of_push_back_any h1 k]
      by_cases hk : name = k <;> simp [hk]

theorem sub_push_back_all_data {name : String} (ds : List AnyVal) :
    ∀ {agg agg' : OutputTerminal},
    sub_push_back_all name ds agg = .ok agg' → agg'.data = agg.data := by
  induction ds with
  | nil =>
    intro agg agg' h
    simp only [sub_push_back_all] at h
    cases h
    rfl
  | cons d ds ih =>
    intro agg agg' h
    simp only [sub_push_back_all] at h
    cases h1 : sub_push_back_any name d agg with
    | error e => simp [h1] at h
    | ok a1 =>
      simp only [h1] at h
      rw [ih h]
      unfold sub_push_back_any at h1
      split at h1
      · cases h1
      · cases h1
        rfl

theorem collect_subs_data {i : Nat} (subs : List (String × SubTerminal)) :
    ∀ {agg agg' : OutputTerminal},
    collect_subs i subs agg = .ok agg' → agg'.data = agg.data := by
  induction subs with
  | nil =>
    intro agg agg' h
    simp only [collect_subs] at h
    cases h
    rfl
  | cons p rest ih =>
    intro agg agg' h
    obtain ⟨name, sub_term⟩ := p
    simp only [collect_subs] at h
    split at h
    · cases h
    · rename_i agg2 h2
      rw [ih h, sub_push_back_all_data _ h2]
      split <;> rfl

/-- What `collect_terminal` appends to the vector output `k`. -/
theorem data_of_collect_terminal {i : Nat} {node_name term_name : String}
    {t : OutputTerminal} {outs outs' : List (String × OutputTerminal)}
    (h : collect_terminal i node_name term_name t outs = .ok outs') (k : String) :
    data_of outs' k = data_of outs k ++ (exported_vectors_node k node_name [(term_name, t)]).flatMap
      contribution := by
  unfold collect_terminal at h
  by_cases hm : t.marked = true
  · simp only [hm, if_true] at h
    cases hf : t.family with
    | GF_SINGLE_FEATURE =>
      simp only [hf] at h
      by_cases hn : full_name node_name term_name = k
      · by_cases hd : t.has_data = true
        · simp only [hd, if_true] at h
          rw [data_of_push_back_all _ h k]
          simp [exported_vectors_node, hm, hf, hn, contribution, hd]
        · simp only [hd] at h
          rw [data_of_push_back_any h k]
          simp [exported_vectors_node, hm, hf, hn, contribution, hd]
      · by_cases hd : t.has_data = true
        · simp only [hd, if_true] at h
          rw [data_of_push_back_all _ h k]
          simp [exported_vectors_node, hm, hf, hn]
        · simp only [hd] at h
          rw [data_of_push_back_any h k]
          simp [exported_vectors_node, hm, hf, hn]
    | GF_MULTI_FEATURE =>
      simp only [hf] at h
      cases hfind : map_find (full_name node_name term_name) outs with
      | none => simp [hfind] at h
      | some agg0 =>
        simp only [hfind] at h
        cases hc : collect_subs i t.sub_terminals agg0 with
        | error e => simp [hc] at h
        | ok agg =>
          simp only [hc] at h
          cases h
          have hdata := collect_subs_data _ hc
          simp only [exported_vectors_node, hm, hf, false_and, and_false, if_false,
            List.flatMap_nil, List.append_nil]
          unfold data_of
          rw [map_find_map_set]
          by_cases hk : k = full_name node_name term_name
          · simp [hk, hfind, hdata]
          · simp [hk]
  · simp only [hm] at h
    cases h
    simp [exported_vectors_node, hm]

theorem data_of_collect_node {i : Nat} {node_name : String}
    (terms : List (String × OutputTerminal)) :
    ∀ {outs outs' : List (String × OutputTerminal)},
    collect_node i node_name terms outs = .ok outs' → ∀ k : String,
    data_of outs' k =
      data_of outs k ++ (exported_vectors_node k node_name terms).flatMap contribution := by
  induction terms with
  | nil =>
    intro outs outs' h k
    simp only [collect_node] at h
    cases h
    simp [exported_vectors_node]
  | cons p rest ih =>
    intro outs outs' h k
    obtain ⟨term_name, t⟩ := p
    simp only [collect_node] at h
    cases h1 : collect_terminal i node_name term_name t outs with
    | error e => simp [h1] at h
    | ok o1 =>
      simp only [h1] at h
      rw [ih h k, data_of_collect_terminal h1 k]
      simp only [exported_vectors_node]
      split <;> simp

theorem data_of_collect {i : Nat} (nodes : List (String × Node)) :
    ∀ {outs outs' : List (String × OutputTerminal)},
    collect i nodes outs = .ok outs' → ∀ k : String,
    data_of outs' k = data_of outs k ++ (exported_vectors k nodes).flatMap contribution := by
  induction nodes with
  | nil =>
    intro outs outs' h k
    simp only [collect] at h
    cases h
    simp [exported_vectors]
  | cons p rest ih =>
    intro outs outs' h k
    obtain ⟨node_name, node⟩ := p
    simp only [collect] at h
    cases h1 : collect_node i node_name node.output_terminals outs with
    | error e => simp [h1] at h
    | ok o1 =>
      simp only [h1] at h
      rw [ih h k, data_of_collect_node _ h1 k]
      simp [exported_vectors]

/-! ## The loop of `process_sequential` -/

/-- One iteration: where the flowchart goes, what is appended, what is called. -/
theorem iteration_ok {E : Engine} {clock : Nat → Int × Int} {self : NestNode} {i : Nat}
    {st st' : LoopState} (h : iteration E clock self i st = .ok st') :
    run_row E self i st.flowchart = .ok st'.flowchart ∧
    st'.calls = st.calls ++ row_calls clock i ∧
    ∀ k : String, data_of st'.output_terminals k =
      data_of st.output_terminals k ++
        ((exported_vectors k st'.flowchart.nodes).flatMap contribution ++
          (if k = timings_name self then
            [some (.float (runtime_ms E (clock i).1 (clock i).2))] else [])) := by
  unfold iteration at h
  unfold run_row
  dsimp only at h ⊢
  cases hg : set_globals self i
      (E.notify_children proxy_node_name_ st.flowchart).global_flowchart_params with
  | error e => simp [hg] at h
  | ok globals =>
    simp only [hg] at h ⊢
    cases hs : set_inputs self
        { E.notify_children proxy_node_name_ st.flowchart with
          global_flowchart_params := globals } i with
    | error e => simp [hs] at h
    | ok fc =>
      simp only [hs] at h ⊢
      cases hc : collect i (E.run_all fc).nodes st.output_terminals with
      | error e => simp [hc] at h
      | ok outs =>
        simp only [hc] at h
        cases hp : push_back_any (timings_name self)
            (some (.float (runtime_ms E (clock i).1 (clock i).2))) outs with
        | error e => simp [hp] at h
        | ok outs' =>
          simp only [hp] at h
          cases h
          refine ⟨rfl, by simp [row_calls], fun k => ?_⟩
          simp only []
          rw [data_of_push_back_any hp k, data_of_collect _ hc k]
          by_cases hk : k = timings_name self
          · subst hk; simp
          · have : ¬ timings_name self = k := fun e => hk e.symm
            simp [hk, this]

/-- The loop from row `i` on, `n` rows: the flowchart follows `flowchart_before`, the
outputs grow by the entries of the rows `i, ..., i+n-1` in this order. -/
theorem rows_from_ok {E : Engine} {clock : Nat → Int × Int} {self : NestNode} (n : Nat) :
    ∀ {i : Nat} {st st' : LoopState},
    flowchart_before E self i = .ok st.flowchart →
    rows_from E clock self n i st = .ok st' →
    flowchart_before E self (i + n) = .ok st'.flowchart ∧
    st'.calls = st.calls ++ (List.range' i n).flatMap (row_calls clock) ∧
    (∀ j, i ≤ j → j < i + n → ∃ fc, flowchart_before E self (j + 1) = .ok fc) ∧
    ∀ k : String, data_of st'.output_terminals k =
      data_of st.output_terminals k ++ (List.range' i n).flatMap (row_entries E clock self k) := by
  induction n with
  | zero =>
    intro i st st' hb h
    simp only [rows_from] at h
    cases h
    refine ⟨by simpa using hb, by simp, ?_, by simp⟩
    intro j h1 h2
    omega
  | succ n ih =>
    intro i st st' hb h
    simp only [rows_from] at h
    cases h1 : iteration E clock self i st with
    | error e => simp [h1] at h
    | ok st1 =>
      simp only [h1] at h
      obtain ⟨hrun, hcalls, hdata⟩ := iteration_ok h1
      have hb1 : flowchart_before E self (i + 1) = .ok st1.flowchart := by
        simp only [flowchart_before, hb, hrun]
      obtain ⟨hfc, hc2, hex, hd2⟩ := ih hb1 h
      have hnodes : nodes_after E self i = st1.flowchart.nodes := by
        simp only [nodes_after, hb1]
      refine ⟨?_, ?_, ?_, ?_⟩
      · rw [← hfc]; congr 1; omega
      · rw [hc2, hcalls, List.range'_succ, List.flatMap_cons, List.append_assoc]
      · intro j hj1 hj2
        by_cases hji : j = i
        · subst hji; exact ⟨_, hb1⟩
        · exact hex j (by omega) (by omega)
      · intro k
        rw [hd2 k, hdata k, List.range'_succ, List.flatMap_cons, List.append_assoc]
        simp only [row_entries, hnodes]

/-- A completed `process_sequential`: the calls it made and what it appended to each
vector output. -/
theorem process_sequential_ok {E : Engine} {clock : Nat → Int × Int} {self self' : NestNode}
    (h : process_sequential E clock self = .ok self') :
    self'.calls = self.calls ++ Call.copy_nested_flowchart ::
      (List.range self.input_size_).flatMap (row_calls clock) ∧
    (∀ j, j < self.input_size_ → ∃ fc, flowchart_before E self (j + 1) = .ok fc) ∧
    (∀ k : String, data_of self'.output_terminals k =
      data_of self.output_terminals k ++
        (List.range self.input_size_).flatMap (row_entries E clock self k)) ∧
    self'.name = self.name ∧ self'.input_terminals = self.input_terminals ∧
    self'.nested_node_manager_ = self.nested_node_manager_ ∧
    self'.manager_globals = self.manager_globals ∧ self'.input_size_ = self.input_size_ ∧
    self'.flowchart_loaded = self.flowchart_loaded ∧
    self'.use_parallel_processing = self.use_parallel_processing := by
  unfold process_sequential at h
  split at h
  · cases h
  · rename_i st hst
    cases h
    obtain ⟨_, hc, hex, hd⟩ := rows_from_ok (self.input_size_) (i := 0) (by rfl) hst
    refine ⟨?_, ?_, ?_, rfl, rfl, rfl, rfl, rfl, rfl, rfl⟩
    · simp only [hc, List.range_eq_range', List.append_assoc, List.singleton_append]
    · intro j hj
      exact hex j (Nat.zero_le _) (by omega)
    · intro k
      simp only [hd k, List.range_eq_range']

/-! ## Claims about the `NestNode` -/

theorem inputs_valid_loop_iff (gname : String) (l : List (String × InputTerminal)) :
    inputs_valid_loop gname l = true ↔
      ∀ p ∈ l, p.2.name ≠ gname → p.2.has_data = true := by
  induction l with
  | nil => simp [inputs_valid_loop]
  | cons p rest ih =>
    obtain ⟨k, iT⟩ := p
    unfold inputs_valid_loop
    by_cases hn : iT.name = gname
    · simp [hn, ih]
    · by_cases hd : iT.has_data = true
      · simp [hn, hd, ih]
      · simp [hn, hd]

theorem inputs_valid_loop_globals (gname : String) (b : Bool)
    (l : List (String × InputTerminal)) :
    inputs_valid_loop gname
      (l.map (fun p => if p.2.name = gname then (p.1, { p.2 with has_data := b }) else p)) =
    inputs_valid_loop gname l := by
  induction l with
  | nil => rfl
  | cons p rest ih =>
    obtain ⟨k, iT⟩ := p
    rw [List.map_cons]
    by_cases hn : iT.name = gname
    · rw [if_pos (show (k, iT).2.name = gname from hn)]
      unfold inputs_valid_loop
      rw [if_pos (show ({ iT with has_data := b } : InputTerminal).name = gname from hn),
        if_pos hn]
      exact ih
    · rw [if_neg (show ¬ (k, iT).2.name = gname from hn)]
      unfold inputs_valid_loop
      rw [ih]

/-- C4: `inputs_valid` returns true exactly when every input terminal whose name is
not `<node name>.globals` has data, and setting `has_data` of the globals input to any
value leaves the result as it is. -/
theorem C4_inputs_valid (self : NestNode) :
    (inputs_valid self = true ↔
      ∀ p ∈ self.input_terminals, p.2.name ≠ globals_name self → p.2.has_data = true) ∧
    ∀ b : Bool,
      inputs_valid { self with
        input_terminals := self.input_terminals.map (fun p =>
          if p.2.name = globals_name self then (p.1, { p.2 with has_data := b }) else p) } =
      inputs_valid self := by
  refine ⟨inputs_valid_loop_iff _ _, fun b => ?_⟩
  exact inputs_valid_loop_globals (globals_name self) b self.input_terminals

theorem flatMap_eq_map_of_singleton {α β : Type} (f : α → List β) (g : α → β) (l : List α)
    (h : ∀ a ∈ l, f a = [g a]) : l.flatMap f = l.map g := by
  induction l with
  | nil => rfl
  | cons a rest ih =>
    rw [List.flatMap_cons, List.map_cons, h a (List.mem_cons_self _ _),
      ih (fun b hb => h b (List.mem_cons_of_mem _ hb))]
    rfl

theorem flatMap_congr_mem {α β : Type} (f g : α → List β) (l : List α)
    (h : ∀ a ∈ l, f a = g a) : l.flatMap f = l.flatMap g := by
  induction l with
  | nil => rfl
  | cons a rest ih =>
    rw [List.flatMap_cons, List.flatMap_cons, h a (List.mem_cons_self _ _),
      ih (fun b hb => h b (List.mem_cons_of_mem _ hb))]

/-- A terminal that holds one value, or no data, contributes its row value. -/
theorem contribution_of_single {t : OutputTerminal}
    (h : t.has_data = true → t.data.length = 1) : contribution t = [row_value t] := by
  unfold contribution row_value
  by_cases hd : t.has_data = true
  · have hl := h hd
    simp only [hd, if_true]
    match hdata : t.data, hl with
    | [v], _ => rfl
  · simp [hd]

/-- On a vector output other than the timings, a row adds the contributions of the
exported terminals of that name. -/
theorem row_entries_of_ne_timings {E : Engine} {clock : Nat → Int × Int} {self : NestNode}
    {n : String} (hn : n ≠ timings_name self) (i : Nat) :
    row_entries E clock self n i =
      (exported_vectors n (nodes_after E self i)).flatMap contribution := by
  simp [row_entries, hn]

/-- Rows that each hold one value or no data fill one entry each, in row order. -/
theorem entries_of_single_rows (t : Nat → OutputTerminal) (N : Nat)
    (hone : ∀ i < N, (t i).has_data = true → (t i).data.length = 1) :
    (List.range N).flatMap (fun i => contribution (t i)) =
      (List.range N).map (fun i => row_value (t i)) :=
  flatMap_eq_map_of_singleton _ _ _
    (fun i hi => contribution_of_single (hone i (List.mem_range.mp hi)))

/-- What a completed `process_sequential` leaves on the vector output `n`, when in
every iteration exactly one exported terminal `t i` has that name. -/
theorem vector_output_of_rows {E : Engine} {clock : Nat → Int × Int} {self self' : NestNode}
    (h : process_sequential E clock self = .ok self') {n : String}
    (hn : n ≠ timings_name self) (t : Nat → OutputTerminal)
    (ht : ∀ i < self.input_size_, exported_vectors n (nodes_after E self i) = [t i]) :
    data_of self'.output_terminals n =
      data_of self.output_terminals n ++
        (List.range self.input_size_).flatMap (fun i => contribution (t i)) := by
  obtain ⟨_, _, hd, _⟩ := process_sequential_ok h
  rw [hd n]
  congr 1
  apply flatMap_congr_mem
  intro i hi
  rw [row_entries_of_ne_timings hn, ht i (List.mem_range.mp hi)]
  simp

/-- C1 (amended): a completed `process_sequential` leaves on every vector output other
than the timings what it held before, followed by the contributions of the iterations
0, ..., N-1 in this order: the whole data vector of the exported terminal of that name
if it has data, one empty placeholder if not. So when in every iteration exactly one
exported terminal has that name and it holds one value or no data, the output, empty
at the start, has exactly N entries and entry i is the value of iteration i. -/
theorem C1_row_order (E : Engine) (clock : Nat → Int × Int) (self self' : NestNode)
    (h : process_sequential E clock self = .ok self') (n : String)
    (hn : n ≠ timings_name self) :
    data_of self'.output_terminals n =
      data_of self.output_terminals n ++
        (List.range self.input_size_).flatMap
          (fun i => (exported_vectors n (nodes_after E self i)).flatMap contribution) ∧
    ∀ t : Nat → OutputTerminal,
      (∀ i < self.input_size_, exported_vectors n (nodes_after E self i) = [t i]) →
      (∀ i < self.input_size_, (t i).has_data = true → (t i).data.length = 1) →
      data_of self.output_terminals n = [] →
      (data_of self'.output_terminals n).length = self.input_size_ ∧
      ∀ i < self.input_size_, (data_of self'.output_terminals n)[i]? = some (row_value (t i)) := by
  constructor
  · obtain ⟨_, _, hd, _⟩ := process_sequential_ok h
    rw [hd n]
    congr 1
    exact flatMap_congr_mem _ _ _ (fun i _ => row_entries_of_ne_timings hn i)
  · intro t ht hone hempty
    have hv := vector_output_of_rows h hn t ht
    rw [hempty, List.nil_append, entries_of_single_rows t _ hone] at hv
    rw [hv]
    refine ⟨by simp, fun i hi => ?_⟩
    rw [List.getElem?_map, List.getElem?_range hi]
    rfl

/-- C1, at the doubling sub-graph: the rows 10, 20, 30 give exactly 20, 40, 60. -/
theorem C1_row_order_witness :
    data_of nest_doubling.output_terminals "Cell.out" = [] ∧
    (data_of ((process (scripted_engine doubling) clock0 nest_doubling).toOption.getD
        nest_doubling).output_terminals "Cell.out") =
      [some (.int 20), some (.int 40), some (.int 60)] ∧
    (data_of ((process (scripted_engine doubling) clock0 nest_doubling).toOption.getD
        nest_doubling).output_terminals "Cell.out").length = 3 := by
  have h := (C1_row_order (scripted_engine doubling) clock0
    { nest_doubling with input_size_ := 3 }
    ((process (scripted_engine doubling) clock0 nest_doubling).toOption.getD nest_doubling)
    (by rfl) "Cell.out" (by decide)).2
    (fun i => marked_output true [some (.int (2 * (10 * (i + 1))))])
    (by decide) (by decide) (by decide)
  exact ⟨by decide, by decide, h.1⟩

/-- C1 as stated fails: a sub-graph whose exported single-feature output holds two
values after the run of the one input row leaves two entries in the vector output. -/
theorem C1_counterexample :
    nest_two_values.input_terminals.head?.map (fun p => p.2.data.length) = some 1 ∧
    data_of nest_two_values.output_terminals "Cell.out" = [] ∧
    (process (scripted_engine two_values) clock0 nest_two_values).toOption.map
      (fun s => data_of s.output_terminals "Cell.out") =
      some [some (.int 7), some (.int 7)] := by
  decide

theorem range_split {i N : Nat} (hi : i < N) :
    List.range N = List.range i ++ i :: List.range' (i + 1) (N - (i + 1)) := by
  have h1 : N = (1 + (N - (i + 1))) + i := by omega
  conv_lhs => rw [h1]
  rw [List.range_eq_range', ← List.range'_append 0 i (1 + (N - (i + 1))) 1,
    List.range_eq_range']
  congr 1
  rw [Nat.add_comm 1, List.range'_succ]
  simp

/-- C2 (amended): in an iteration `i` in which the exported single-feature terminal
has no data, `process_sequential` appends exactly one empty placeholder for that row,
after everything the rows before `i` appended and before everything the later rows
append. So when every row's terminal holds one value or no data, the placeholder sits
at index `i` of the output (empty at the start) and every other row's value at its own
index. -/
theorem C2_placeholder (E : Engine) (clock : Nat → Int × Int) (self self' : NestNode)
    (h : process_sequential E clock self = .ok self') (n : String)
    (hn : n ≠ timings_name self) (t : Nat → OutputTerminal)
    (ht : ∀ j < self.input_size_, exported_vectors n (nodes_after E self j) = [t j])
    (i : Nat) (hi : i < self.input_size_) (hmiss : (t i).has_data = false) :
    data_of self'.output_terminals n =
      data_of self.output_terminals n ++
        ((List.range i).flatMap (fun j => contribution (t j)) ++
          none :: (List.range' (i + 1) (self.input_size_ - (i + 1))).flatMap
            (fun j => contribution (t j))) ∧
    ((∀ j < self.input_size_, (t j).has_data = true → (t j).data.length = 1) →
      data_of self.output_terminals n = [] →
      (data_of self'.output_terminals n)[i]? = some none ∧
      ∀ j < self.input_size_, j ≠ i →
        (data_of self'.output_terminals n)[j]? = some (row_value (t j))) := by
  have hv := vector_output_of_rows h hn t ht
  constructor
  · rw [hv, range_split hi, List.flatMap_append, List.flatMap_cons]
    simp [contribution, hmiss]
  · intro hone hempty
    rw [hempty, List.nil_append, entries_of_single_rows t _ hone] at hv
    rw [hv]
    constructor
    · rw [List.getElem?_map, List.getElem?_range hi]
      simp [row_value, hmiss]
    · intro j hj _
      rw [List.getElem?_map, List.getElem?_range hj]
      rfl

/-- C2, at three rows of which row 1 produces no data: index 1 holds the placeholder,
the indices 0 and 2 the values of their rows. -/
theorem C2_placeholder_witness :
    data_of ((process (scripted_engine doubling_but_20) clock0 nest_missing_row).toOption.getD
        nest_missing_row).output_terminals "Cell.out" =
      [some (.int 20), none, some (.int 60)] := by
  have h := (C2_placeholder (scripted_engine doubling_but_20) clock0
    { nest_missing_row with input_size_ := 3 }
    ((process (scripted_engine doubling_but_20) clock0 nest_missing_row).toOption.getD
      nest_missing_row)
    (by rfl) "Cell.out" (by decide)
    (fun j => if j = 1 then marked_output false []
      else marked_output true [some (.int (2 * (10 * (j + 1))))])
    (by decide) 1 (by decide) (by decide)).1
  rw [h]
  decide

/-- C2 as stated fails: with two values on row 0 and no data on row 1, the placeholder
of row 1 sits at index 2 and index 1 holds a value of row 0. -/
theorem C2_counterexample :
    (process (scripted_engine two_then_none) clock0 nest_two_then_none).toOption.map
      (fun s => data_of s.output_terminals "Cell.out") =
      some [some (.int 10), some (.int 10), none] ∧
    (exported_vectors "Cell.out"
      (nodes_after (scripted_engine two_then_none)
        { nest_two_then_none with input_size_ := 2 } 1)).map (fun t => t.has_data) = [false] := by
  decide

theorem count_run_all (clock : Nat → Int × Int) (N : Nat) :
    ((List.range N).flatMap (row_calls clock)).count Call.run_all = N := by
  induction N with
  | zero => rfl
  | succ N ih =>
    rw [List.range_succ, List.flatMap_append, List.count_append, ih]
    simp [row_calls]

theorem process_sequential_no_rows (E : Engine) (clock : Nat → Int × Int) (self : NestNode)
    (h0 : self.input_size_ = 0) :
    process_sequential E clock self =
      .ok { self with calls := self.calls ++ [.copy_nested_flowchart] } := by
  unfold process_sequential
  rw [h0]
  rfl

/-! ## Running twice, running in parallel -/

theorem set_inputs_loop_congr {s1 s2 : NestNode}
    (hin : s1.input_terminals = s2.input_terminals) (i : Nat)
    (l : List (String × OutputTerminal)) :
    set_inputs_loop s1 i l = set_inputs_loop s2 i l := by
  induction l with
  | nil => rfl
  | cons p rest ih =>
    obtain ⟨name, po⟩ := p
    simp only [set_inputs_loop, set_proxy_output, hin, ih]

/-- The run of a row reads the node's name, inputs and parent globals only. -/
theorem run_row_congr {E : Engine} {s1 s2 : NestNode} (hname : s1.name = s2.name)
    (hin : s1.input_terminals = s2.input_terminals)
    (hg : s1.manager_globals = s2.manager_globals) (i : Nat) (fc : NodeManager) :
    run_row E s1 i fc = run_row E s2 i fc := by
  have hl : ∀ l, set_inputs_loop s1 i l = set_inputs_loop s2 i l :=
    set_inputs_loop_congr hin i
  simp only [run_row, set_globals, globals_name, set_inputs, hname, hin, hg, hl]

theorem flowchart_before_congr {E : Engine} {s1 s2 : NestNode} (hname : s1.name = s2.name)
    (hin : s1.input_terminals = s2.input_terminals)
    (hg : s1.manager_globals = s2.manager_globals)
    (hm : s1.nested_node_manager_ = s2.nested_node_manager_) (i : Nat) :
    flowchart_before E s1 i = flowchart_before E s2 i := by
  induction i with
  | zero => simp only [flowchart_before, copy_nested_flowchart, hm]
  | succ i ih =>
    simp only [flowchart_before, ih]
    cases flowchart_before E s2 i with
    | error e => rfl
    | ok fc => exact run_row_congr hname hin hg i fc

theorem row_entries_congr {E : Engine} {clock : Nat → Int × Int} {s1 s2 : NestNode}
    (hname : s1.name = s2.name) (hin : s1.input_terminals = s2.input_terminals)
    (hg : s1.manager_globals = s2.manager_globals)
    (hm : s1.nested_node_manager_ = s2.nested_node_manager_) (n : String) (i : Nat) :
    row_entries E clock s1 n i = row_entries E clock s2 n i := by
  simp only [row_entries, nodes_after, flowchart_before_congr hname hin hg hm, timings_name,
    hname]

/-- `process` on a loaded node whose first input terminal is `first`. -/
theorem process_eq (E : Engine) (clock : Nat → Int × Int) (self : NestNode)
    (first : String × InputTerminal) (rest : List (String × InputTerminal))
    (hl : self.flowchart_loaded = true) (hin : self.input_terminals = first :: rest) :
    process E clock self =
      if self.use_parallel_processing = true then
        .ok (process_parallel { self with input_size_ := first.2.size E })
      else process_sequential E clock { self with input_size_ := first.2.size E } := by
  unfold process
  rw [if_pos hl]
  split
  · rename_i heq
    rw [hin] at heq
    cases heq
  · rename_i k fi r heq
    rw [hin] at heq
    cases heq
    rfl

/-- A completed sequential `process`: the row count it took and what it appended. -/
theorem process_ok {E : Engine} {clock : Nat → Int × Int} {self self' : NestNode}
    (hl : self.flowchart_loaded = true) (hs : self.use_parallel_processing = false)
    (h : process E clock self = .ok self') :
    ∃ first rest, self.input_terminals = first :: rest ∧
      self'.input_size_ = first.2.size E ∧
      self'.name = self.name ∧ self'.input_terminals = self.input_terminals ∧
      self'.nested_node_manager_ = self.nested_node_manager_ ∧
      self'.manager_globals = self.manager_globals ∧
      self'.flowchart_loaded = self.flowchart_loaded ∧
      self'.use_parallel_processing = self.use_parallel_processing ∧
      ∀ n : String, data_of self'.output_terminals n =
        data_of self.output_terminals n ++
          (List.range (first.2.size E)).flatMap (row_entries E clock self n) := by
  cases hin : self.input_terminals with
  | nil =>
    unfold process at h
    rw [if_pos hl] at h
    split at h
    · cases h
    · rename_i heq
      rw [hin] at heq
      cases heq
  | cons first rest =>
    rw [process_eq E clock self first rest hl hin, if_neg (by simp [hs])] at h
    obtain ⟨_, _, hd, h1, h2, h3, h4, h5, h6, h7⟩ := process_sequential_ok h
    refine ⟨first, rest, rfl, h5, h1, h2.trans hin, h3, h4, h6, h7, fun n => ?_⟩
    rw [hd n]
    congr 1
    exact flatMap_congr_mem _ _ _
      (fun i _ => @row_entries_congr E clock { self with input_size_ := first.2.size E } self
        rfl rfl rfl rfl n i)

/-- C8 as stated fails: after the first run of the doubling sub-graph the output is
20, 40, 60, after the second run on the unchanged node it has six entries. -/
theorem C8_counterexample :
    (process (scripted_engine doubling) clock0 nest_doubling).toOption.map
      (fun s => data_of s.output_terminals "Cell.out") =
      some [some (.int 20), some (.int 40), some (.int 60)] ∧
    ((process (scripted_engine doubling) clock0 nest_doubling).toOption.bind
      (fun s1 => (process (scripted_engine doubling) clock0 s1).toOption)).map
      (fun s => data_of s.output_terminals "Cell.out") =
      some [some (.int 20), some (.int 40), some (.int 60),
            some (.int 20), some (.int 40), some (.int 60)] := by
  decide

theorem row_entries_timings_ne_nil (E : Engine) (clock : Nat → Int × Int) (self : NestNode)
    (i : Nat) : 1 ≤ (row_entries E clock self (timings_name self) i).length := by
  simp [row_entries]

theorem length_flatMap_ge {α β : Type} (f : α → List β) (l : List α)
    (h : ∀ a ∈ l, 1 ≤ (f a).length) : l.length ≤ (l.flatMap f).length := by
  induction l with
  | nil => simp
  | cons a rest ih =>
    rw [List.flatMap_cons, List.length_append, List.length_cons]
    have h1 := h a (List.mem_cons_self _ _)
    have h2 := ih (fun b hb => h b (List.mem_cons_of_mem _ hb))
    omega

/-- C9 (amended): with `use_parallel_processing` set, `process` records the row count
N and changes nothing else, since `process_parallel` has an empty body: every output
terminal is left as it was. Sequential processing of the same node leaves the same
outputs when N = 0 and, when N > 0, a longer timings output, so the two strategies
agree on the outputs only for N = 0. -/
theorem C9_parallel_changes_no_output (E : Engine) (clock : Nat → Int × Int)
    (self : NestNode) (first : String × InputTerminal) (rest : List (String × InputTerminal))
    (hl : self.flowchart_loaded = true) (hin : self.input_terminals = first :: rest)
    (hp : self.use_parallel_processing = true) :
    process E clock self = .ok { self with input_size_ := first.2.size E } ∧
    ∀ s : NestNode,
      process E clock { self with use_parallel_processing := false } = .ok s →
      (first.2.size E = 0 → s.output_terminals = self.output_terminals) ∧
      (0 < first.2.size E →
        (data_of self.output_terminals (timings_name self)).length <
          (data_of s.output_terminals (timings_name self)).length) := by
  constructor
  · rw [process_eq E clock self first rest hl hin, if_pos hp]
    rfl
  · intro s hs
    constructor
    · intro h0
      rw [process_eq E clock { self with use_parallel_processing := false } first rest hl hin,
        if_neg (by simp)] at hs
      rw [process_sequential_no_rows E clock _ h0] at hs
      cases hs
      rfl
    · intro hpos
      obtain ⟨first', rest', hin', _, _, _, _, _, _, _, hd⟩ :=
        @process_ok E clock { self with use_parallel_processing := false } s hl rfl hs
      have hff : first' = first := by
        have : first' :: rest' = first :: rest := hin'.symm.trans hin
        cases this
        rfl
      subst hff
      have := hd (timings_name self)
      simp only [data_of] at this ⊢
      rw [this, List.length_append]
      have hge := length_flatMap_ge
        (row_entries E clock { self with use_parallel_processing := false } (timings_name self))
        (List.range (first'.2.size E))
        (fun i _ => row_entries_timings_ne_nil E clock
          { self with use_parallel_processing := false } i)
      rw [List.length_range] at hge
      omega

/-- C9, at the doubling sub-graph with `use_parallel_processing` set. -/
theorem C9_parallel_changes_no_output_witness :
    (process (scripted_engine doubling) clock0 nest_doubling_parallel).toOption.map
      (fun s => s.output_terminals) = some nest_doubling.output_terminals := by
  rw [(C9_parallel_changes_no_output (scripted_engine doubling) clock0 nest_doubling_parallel
    ("Cell.in", vector_input_of "Cell.in" [some (.int 10), some (.int 20), some (.int 30)])
    [("Nest.globals", poly_input_of "Nest.globals" [])] (by decide) (by decide) (by decide)).1]
  rfl

/-- C9 as stated fails: on the rows 10, 20, 30 of the doubling sub-graph the parallel
strategy leaves the output `Cell.out` empty, the sequential one leaves 20, 40, 60. -/
theorem C9_counterexample :
    (process (scripted_engine doubling) clock0 nest_doubling_parallel).toOption.map
      (fun s => data_of s.output_terminals "Cell.out") = some [] ∧
    (process (scripted_engine doubling) clock0
      { nest_doubling_parallel with use_parallel_processing := false }).toOption.map
      (fun s => data_of s.output_terminals "Cell.out") =
      some [some (.int 20), some (.int 40), some (.int 60)] := by
  decide

/-- C10, the code at two inputs of two rows each. When the sub-terminal `a` of the
exported poly output has no data in row 1, nothing is appended for that row: the
aggregated vector `a` has one entry after two iterations and no placeholder. When a
sub-terminal `b` first appears in row 1, no vector is added for it (`add_vector` is
called for `i == 0` only) and the lookup `sub_terminal("b")` fails. -/
theorem C10_poly_rows_not_aligned :
    (process (scripted_engine poly_missing_row) clock0 nest_poly).toOption.map
      (fun s => (s.input_size_, subs_of s.output_terminals "Cell.poly")) =
      some (2, [("a", ⟨[.int], [some (.int 5)]⟩)]) ∧
    process (scripted_engine poly_late_sub) clock0 nest_poly =
      .error (.no_such_terminal "b") := by
  exact ⟨by decide, by rfl⟩

/-! ## The flowchart editor -/

theorem mem_modify_at {α : Type} (f : α → α) (k : Nat) (l : List α) (x : α)
    (hx : x ∈ modify_at f k l) : x ∈ l ∨ ∃ y ∈ l, x = f y := by
  induction l generalizing k with
  | nil => simp [modify_at] at hx
  | cons a rest ih =>
    cases k with
    | zero =>
      simp only [modify_at, List.mem_cons] at hx
      rcases hx with h | h
      · exact Or.inr ⟨a, List.mem_cons_self _ _, h⟩
      · exact Or.inl (List.mem_cons_of_mem _ h)
    | succ k =>
      simp only [modify_at, List.mem_cons] at hx
      rcases hx with h | h
      · exact Or.inl (h ▸ List.mem_cons_self _ _)
      · rcases ih k h with h1 | ⟨y, hy, hxy⟩
        · exact Or.inl (List.mem_cons_of_mem _ h1)
        · exact Or.inr ⟨y, List.mem_cons_of_mem _ hy, hxy⟩

theorem getElem?_modify_at {α : Type} (f : α → α) (k j : Nat) (l : List α) :
    (modify_at f k l)[j]? = if j = k then (l[k]?).map f else l[j]? := by
  induction l generalizing k j with
  | nil => cases k <;> simp [modify_at]
  | cons a rest ih =>
    cases k with
    | zero =>
      cases j with
      | zero => simp [modify_at]
      | succ j => simp [modify_at]
    | succ k =>
      cases j with
      | zero => simp [modify_at]
      | succ j => simpa [modify_at] using ih k j

/-- An assignment through a pointer to an output connector, or one that keeps input
connectors in order, keeps the input connectors in order. -/
theorem inputs_ok_modify_conn {nodes : List GuiNode} (h : inputs_ok nodes) (p : ConnPtr)
    (f : Connection → Connection)
    (hf : p.is_output = true ∨ ∀ c, input_ok c → input_ok (f c)) :
    inputs_ok (modify_conn p f nodes) := by
  intro n hn c hc
  simp only [modify_conn, List.mem_map] at hn
  obtain ⟨n0, hn0, rfl⟩ := hn
  by_cases ha : n0.addr = p.node
  · rw [if_pos ha] at hc
    by_cases hside : p.is_output = true
    · rw [if_pos hside] at hc
      exact h n0 hn0 c hc
    · rw [if_neg hside] at hc
      rcases mem_modify_at f p.index n0.inputs_ c hc with h1 | ⟨y, hy, rfl⟩
      · exact h n0 hn0 c h1
      · rcases hf with hf | hf
        · exact absurd hf hside
        · exact hf y (h n0 hn0 y hy)
  · rw [if_neg ha] at hc
    exact h n0 hn0 c hc

/-- The connector an input pointer points to is one of the input connectors. -/
theorem get_conn_input_mem {nodes : List GuiNode} {p : ConnPtr} {c : Connection}
    (hp : p.is_output = false) (h : get_conn nodes p = some c) :
    ∃ n ∈ nodes, c ∈ n.inputs_ := by
  unfold get_conn at h
  cases hf : nodes.find? (fun n => n.addr = p.node) with
  | none => simp [hf] at h
  | some n =>
    simp only [hf, hp] at h
    refine ⟨n, List.mem_of_find?_eq_some hf, ?_⟩
    exact List.get?_mem h

theorem get_conn_modify_conn (p q : ConnPtr) (f : Connection → Connection)
    (nodes : List GuiNode) :
    get_conn (modify_conn p f nodes) q =
      if q = p then (get_conn nodes p).map f else get_conn nodes q := by
  have hfind : ∀ (g : GuiNode → GuiNode) (hg : ∀ n, (g n).addr = n.addr) (a : Nat),
      (nodes.map g).find? (fun n => n.addr = a) = (nodes.find? (fun n => n.addr = a)).map g := by
    intro g hg a
    induction nodes with
    | nil => rfl
    | cons n rest ih =>
      simp only [List.map_cons, List.find?_cons, hg]
      split <;> simp [ih]
  unfold get_conn modify_conn
  rw [hfind _ (by intro n; split <;> [split <;> rfl; rfl]) q.node]
  obtain ⟨pn, po, pi⟩ := p
  obtain ⟨qn, qo, qi⟩ := q
  simp only [ConnPtr.mk.injEq]
  by_cases hn : qn = pn
  · subst hn
    cases hfq : nodes.find? (fun n => decide (n.addr = qn)) with
    | none => simp
    | some n =>
      have hna : n.addr = qn := by simpa using List.find?_some hfq
      simp only [Option.map_some', hna, if_true, true_and]
      cases po <;> cases qo <;> simp [getElem?_modify_at]
  · cases hfq : nodes.find? (fun n => decide (n.addr = qn)) with
    | none => simp [hn]
    | some n =>
      have hna : n.addr = qn := by simpa using List.find?_some hfq
      have : ¬ n.addr = pn := by rw [hna]; exact hn
      simp [hn, this]

theorem input_ok_clear (c : Connection) : input_ok c.clear := by
  constructor
  · exact fun _ => Or.inl rfl
  · intro o h
    exact absurd h (by simp [Connection.clear])

theorem input_ok_attach (node : Option Nat) (source : ConnPtr) (hs : source.is_output = true)
    (c : Connection) : input_ok (c.attach node (some source)) := by
  constructor
  · exact fun _ => Or.inr rfl
  · intro o h
    simp only [Connection.attach, Option.some.injEq] at h
    exact h ▸ hs

theorem remove_inbound_element (c : ConnPtr) (ed : Nodes) :
    (remove_inbound c ed).element_ = ed.element_ := by
  unfold remove_inbound
  split <;> rfl

theorem remove_inbound_inputs_ok {c : ConnPtr} {ed : Nodes} (hc : c.is_output = false)
    (h : inputs_ok ed.nodes_) : inputs_ok (remove_inbound c ed).nodes_ := by
  unfold remove_inbound
  split
  · rename_i source hsrc
    cases hg : get_conn ed.nodes_ c with
    | none => simp [hg] at hsrc
    | some connection =>
      simp only [hg, Option.bind_some] at hsrc
      obtain ⟨n, hn, hmem⟩ := get_conn_input_mem hc hg
      exact inputs_ok_modify_conn h source _ (Or.inl ((h n hn connection hmem).2 source hsrc))
  · exact h

theorem hover_connector_nodes (m : Mouse) (c : ConnPtr) (ed : Nodes) :
    (hover_connector m c ed).1.nodes_ = ed.nodes_ := by
  unfold hover_connector
  split
  · dsimp only
    split <;> rfl
  · split <;> rfl

/-- After the hover part, the element is as before, or hovers the connector, or is
reset. -/
theorem hover_connector_element (m : Mouse) (c : ConnPtr) (ed : Nodes) :
    (hover_connector m c ed).1.element_ = ed.element_ ∨
    (hover_connector m c ed).1.element_ =
      { state_ := NodesState.NodesState_HoverIO, node_ := some c.node, connection_ := some c } ∨
    (hover_connector m c ed).1.element_ = Element.Reset .NodesState_Default := by
  unfold hover_connector
  split
  · dsimp only
    split
    · exact Or.inr (Or.inl rfl)
    · exact Or.inl rfl
  · split
    · exact Or.inr (Or.inr rfl)
    · exact Or.inl rfl

theorem hover_connector_ok {m : Mouse} {c : ConnPtr} {ed : Nodes} (h : connectors_ok ed) :
    connectors_ok (hover_connector m c ed).1 := by
  refine ⟨by rw [hover_connector_nodes]; exact h.1, ?_⟩
  rcases hover_connector_element m c ed with he | he | he
  · rw [he]; exact h.2
  · rw [he]; intro hs; rcases hs with hs | hs <;> cases hs
  · rw [he]; intro hs; rcases hs with hs | hs <;> cases hs

theorem start_drag_input_ok {m : Mouse} {c : ConnPtr} {ed : Nodes} (hc : c.is_output = false)
    (h : connectors_ok ed) : connectors_ok (start_drag_input m c ed) := by
  unfold start_drag_input
  split
  · constructor
    · apply inputs_ok_modify_conn _ c _ (Or.inr (fun x _ => input_ok_clear x))
      exact remove_inbound_inputs_ok hc h.1
    · intro hs
      simp only [remove_inbound_element] at hs
      rcases hs with hs | hs <;> cases hs
  · exact h

theorem start_drag_output_ok {m : Mouse} {c : ConnPtr} {ed : Nodes} (hc : c.is_output = true)
    (h : connectors_ok ed) : connectors_ok (start_drag_output m c ed) := by
  unfold start_drag_output
  split
  · rename_i hcond
    exact ⟨h.1, fun _ => ⟨c, hcond.2.2, hc⟩⟩
  · exact h

theorem drop_output_on_input_ok {G : GraphEngine} {m : Mouse} {b : Bool} {c : ConnPtr}
    {ed : Nodes} (hc : c.is_output = false) (h : connectors_ok ed) :
    connectors_ok (drop_output_on_input G m b c ed) := by
  unfold drop_output_on_input
  split
  · rename_i hstate
    obtain ⟨o, ho, hout⟩ := h.2 hstate
    rw [ho]
    simp only []
    split
    · split
      · constructor
        · apply inputs_ok_modify_conn _ o _ (Or.inl hout)
          apply inputs_ok_modify_conn _ c _ (Or.inr ?_)
          · exact remove_inbound_inputs_ok hc h.1
          · intro x _
            rw [remove_inbound_element]
            simp only [ho]
            exact input_ok_attach _ o hout x
        · intro hs
          rcases hs with hs | hs <;> cases hs
      · exact ⟨h.1, fun _ => ⟨o, ho, hout⟩⟩
    · exact h
  · exact h

theorem drop_input_on_output_ok {G : GraphEngine} {m : Mouse} {b : Bool} {c : ConnPtr}
    {ed : Nodes} (hc : c.is_output = true) (h : connectors_ok ed) :
    connectors_ok (drop_input_on_output G m b c ed) := by
  unfold drop_input_on_output
  split
  · rename_i hstate
    cases hd : ed.element_.connection_ with
    | none => exact h
    | some dragged =>
      simp only []
      split
      · split
        · constructor
          · apply inputs_ok_modify_conn _ c _ (Or.inl hc)
            apply inputs_ok_modify_conn _ dragged _ (Or.inr ?_)
            · exact h.1
            · intro x _
              exact input_ok_attach _ c hc x
          · intro hs
            rcases hs with hs | hs <;> cases hs
        · refine ⟨h.1, fun hs => ?_⟩
          rcases hs with hs | hs <;> cases hs
      · exact h
  · exact h

theorem display_input_ok {G : GraphEngine} {m : Mouse} {node index : Nat} {ed : Nodes}
    (h : connectors_ok ed) : connectors_ok (display_input G m node index ed) :=
  drop_output_on_input_ok rfl (start_drag_input_ok rfl (hover_connector_ok h))

theorem display_output_ok {G : GraphEngine} {m : Mouse} {node index : Nat} {ed : Nodes}
    (h : connectors_ok ed) : connectors_ok (display_output G m node index ed) :=
  drop_input_on_output_ok rfl (start_drag_output_ok rfl (hover_connector_ok h))

theorem update_state_draging_ok {down right_clicked : Bool} {ed : Nodes}
    (h : connectors_ok ed) : connectors_ok (update_state_draging down right_clicked ed) := by
  unfold update_state_draging
  split
  · exact ⟨h.1, fun hs => by rcases hs with hs | hs <;> cases hs⟩
  · split
    · exact ⟨h.1, fun hs => by rcases hs with hs | hs <;> cases hs⟩
    · exact h
  · split
    · exact ⟨h.1, fun hs => by rcases hs with hs | hs <;> cases hs⟩
    · exact ⟨h.1, fun hs => by rcases hs with hs | hs <;> cases hs⟩
  · split
    · exact ⟨h.1, fun hs => by rcases hs with hs | hs <;> cases hs⟩
    · exact h
  · rename_i hst
    split
    · exact ⟨h.1, fun hs => by rcases hs with hs | hs <;> cases hs⟩
    · exact ⟨h.1, fun _ => h.2 (Or.inr hst)⟩
  · exact h

theorem delete_input_ok {node_id : Int} {p : ConnPtr} {nodes : List GuiNode}
    (hp : p.is_output = false) (h : inputs_ok nodes) :
    inputs_ok (delete_input node_id p nodes) := by
  unfold delete_input
  cases hg : get_conn nodes p with
  | none => exact h
  | some connection =>
    dsimp only
    split
    · exact h
    · have h1 : inputs_ok (if node_id < 0 then
          match connection.input_ with
          | some source => modify_conn source Connection.dec nodes
          | none => nodes
        else nodes) := by
        split
        · cases hsrc : connection.input_ with
          | none => exact h
          | some source =>
            obtain ⟨n, hn, hmem⟩ := get_conn_input_mem hp hg
            exact inputs_ok_modify_conn h source _
              (Or.inl ((h n hn connection hmem).2 source hsrc))
        · exact h
      split
      · split
        · exact inputs_ok_modify_conn h1 p _ (Or.inr (fun x _ => input_ok_clear x))
        · exact h1
      · exact h1

theorem input_ptrs_is_input (nodes : List GuiNode) :
    ∀ q ∈ input_ptrs nodes, q.2.is_output = false := by
  intro q hq
  simp only [input_ptrs, List.mem_flatMap, List.mem_map] at hq
  obtain ⟨n, _, k, _, rfl⟩ := hq
  rfl

theorem delete_fold_ok (ptrs : List (Int × ConnPtr)) :
    ∀ nodes : List GuiNode, (∀ q ∈ ptrs, q.2.is_output = false) → inputs_ok nodes →
    inputs_ok (ptrs.foldl (fun nodes q => delete_input q.1 q.2 nodes) nodes) := by
  induction ptrs with
  | nil => intro nodes _ h; exact h
  | cons q rest ih =>
    intro nodes hq h
    rw [List.foldl_cons]
    exact ih _ (fun r hr => hq r (List.mem_cons_of_mem _ hr))
      (delete_input_ok (hq q (List.mem_cons_self _ _)) h)

theorem delete_selected_ok {ed : Nodes} (h : connectors_ok ed) :
    connectors_ok (delete_selected ed) := by
  constructor
  · intro n hn c hc
    simp only [delete_selected, List.mem_filter] at hn
    exact delete_fold_ok _ _ (input_ptrs_is_input _) h.1 n hn.1 c hc
  · intro hs
    rcases hs with hs | hs <;> cases hs

theorem CreateNodeFromHandle_ok {addr : Nat} {name : String}
    {inputs outputs : List (String × Family)} {ed : Nodes} (h : connectors_ok ed) :
    connectors_ok (CreateNodeFromHandle addr name inputs outputs ed) := by
  refine ⟨?_, h.2⟩
  intro n hn c hc
  simp only [CreateNodeFromHandle, List.mem_append, List.mem_singleton] at hn
  rcases hn with hn | rfl
  · exact h.1 n hn c hc
  · simp only [List.mem_map] at hc
    obtain ⟨t, _, rfl⟩ := hc
    exact ⟨fun _ => Or.inl rfl, fun o ho => by simp [new_connection] at ho⟩

/-- Every gesture keeps the connectors in order. -/
theorem gesture_ok (G : GraphEngine) (ed : Nodes) (g : Gesture) (h : connectors_ok ed) :
    connectors_ok (g.apply G ed) := by
  cases g with
  | display_input m node index =>
    simp only [Gesture.apply]
    split
    · exact display_input_ok h
    · exact h
  | display_output m node index =>
    simp only [Gesture.apply]
    split
    · exact display_output_ok h
    · exact h
  | update_state down right_clicked => exact update_state_draging_ok h
  | delete =>
    simp only [Gesture.apply]
    split
    · exact delete_selected_ok h
    · exact h
  | create addr name inputs outputs => exact CreateNodeFromHandle_ok h
  | select selected =>
    refine ⟨?_, h.2⟩
    intro n hn c hc
    simp only [Gesture.apply, List.mem_map] at hn
    obtain ⟨n0, hn0, rfl⟩ := hn
    exact h.1 n0 hn0 c hc
  | other e =>
    simp only [Gesture.apply]
    split
    · exact h
    · rename_i hne
      refine ⟨h.1, fun hs => ?_⟩
      exfalso
      apply hne
      dsimp only at hs
      rcases hs with hs | hs <;> simp [is_draging_io, hs]

/-- Every sequence of gestures keeps the connectors in order. -/
theorem gestures_ok (G : GraphEngine) (gs : List Gesture) :
    ∀ ed : Nodes, connectors_ok ed → connectors_ok (gestures G ed gs) := by
  induction gs with
  | nil => intro ed h; exact h
  | cons g rest ih =>
    intro ed h
    exact ih _ (gesture_ok G ed g h)

theorem connectors_ok_init : connectors_ok Nodes.init := by
  constructor
  · intro n hn
    simp [Nodes.init] at hn
  · intro hs
    rcases hs with hs | hs <;> cases hs

theorem drop_legal_iff (G : GraphEngine) (ed : Nodes) (node : Nat) (o i : ConnPtr) :
    drop_legal G ed node o i = true ↔
      (ed.element_.node_ ≠ some node ∧ G.is_compatible ed.gf_calls o i = true ∧
        G.detect_loop ed.gf_calls o i = false) := by
  simp [drop_legal, and_assoc]

theorem remove_inbound_calls (c : ConnPtr) (ed : Nodes) :
    (remove_inbound c ed).gf_calls = ed.gf_calls ++
      (((get_conn ed.nodes_ c).bind (fun connection => connection.input_)).toList.map
        (fun source => GfCall.disconnect source c)) := by
  unfold remove_inbound
  split
  · rename_i source h
    simp [h]
  · rename_i h
    simp [h]

theorem remove_inbound_with_element (c : ConnPtr) (ed : Nodes) (e : Element) :
    remove_inbound c { ed with element_ := e } =
      { remove_inbound c ed with element_ := e } := by
  unfold remove_inbound
  dsimp only
  cases (get_conn ed.nodes_ c).bind (fun connection => connection.input_) <;> rfl

/-- In a frame in which an output is dragged and the mouse, not just pressed, is
over the input `index` of `node`, `DisplayNode` does for that input what the drop
block does. -/
theorem display_input_while_draging (G : GraphEngine) (m : Mouse) (node index : Nat)
    (ed : Nodes) (hh : m.hovered = true) (hc : m.clicked = false)
    (hs : ed.element_.state_ = .NodesState_DragingOutput ∨
      ed.element_.state_ = .NodesState_DragingOutputValid) :
    display_input G m node index ed =
      drop_output_on_input G m true ⟨node, false, index⟩ ed := by
  have hh1 : hover_connector m ⟨node, false, index⟩ ed = (ed, true) := by
    unfold hover_connector
    rw [if_pos hh]
    dsimp only
    rw [if_neg]
    rintro (h | h | h) <;> rcases hs with hs | hs <;> rw [hs] at h <;> cases h
  unfold display_input
  dsimp only
  rw [hh1]
  dsimp only
  unfold start_drag_input
  rw [if_neg]
  simp [hc]

/-- The same for an output connector while an input is dragged. -/
theorem display_output_while_draging (G : GraphEngine) (m : Mouse) (node index : Nat)
    (ed : Nodes) (hh : m.hovered = true) (hc : m.clicked = false)
    (hs : ed.element_.state_ = .NodesState_DragingInput ∨
      ed.element_.state_ = .NodesState_DragingInputValid) :
    display_output G m node index ed =
      drop_input_on_output G m true ⟨node, true, index⟩ ed := by
  have hh1 : hover_connector m ⟨node, true, index⟩ ed = (ed, true) := by
    unfold hover_connector
    rw [if_pos hh]
    dsimp only
    rw [if_neg]
    rintro (h | h | h) <;> rcases hs with hs | hs <;> rw [hs] at h <;> cases h
  unfold display_output
  dsimp only
  rw [hh1]
  dsimp only
  unfold start_drag_output
  rw [if_neg]
  simp [hc]

/-- A legal drop of the dragged output on the input `c`: the calls and the connectors. -/
theorem drop_output_on_input_legal (G : GraphEngine) (m : Mouse) (ed : Nodes)
    (c dragged : ConnPtr) (hup : m.down = false)
    (hdrag : ed.element_.connection_ = some dragged)
    (hs : ed.element_.state_ = .NodesState_DragingOutput ∨
      ed.element_.state_ = .NodesState_DragingOutputValid)
    (hl : drop_legal G ed c.node dragged c = true) :
    (drop_output_on_input G m true c ed).gf_calls =
      ed.gf_calls ++
        (((get_conn ed.nodes_ c).bind (fun connection => connection.input_)).toList.map
          (fun source => GfCall.disconnect source c)) ++
        [.connect dragged c, .run c.node] ∧
    (drop_output_on_input G m true c ed).nodes_ =
      modify_conn dragged Connection.inc
        (modify_conn c (Connection.attach ed.element_.node_ (some dragged))
          (remove_inbound c ed).nodes_) := by
  unfold drop_output_on_input
  rw [if_pos hs, hdrag]
  dsimp only
  rw [if_pos ⟨hl, rfl⟩, if_pos (by simp [hup])]
  rw [remove_inbound_with_element]
  refine ⟨?_, ?_⟩
  · dsimp only
    rw [← remove_inbound_calls]
  · dsimp only
    rw [hdrag]

/-- A legal drop of the dragged input on the output `c`: the calls and the connectors. -/
theorem drop_input_on_output_legal (G : GraphEngine) (m : Mouse) (ed : Nodes)
    (c dragged : ConnPtr) (hup : m.down = false)
    (hdrag : ed.element_.connection_ = some dragged)
    (hs : ed.element_.state_ = .NodesState_DragingInput ∨
      ed.element_.state_ = .NodesState_DragingInputValid)
    (hl : drop_legal G ed c.node c dragged = true) :
    (drop_input_on_output G m true c ed).gf_calls =
      ed.gf_calls ++ [.connect c dragged, .run dragged.node] ∧
    (drop_input_on_output G m true c ed).nodes_ =
      modify_conn c Connection.inc
        (modify_conn dragged (Connection.attach (some c.node) (some c)) ed.nodes_) := by
  unfold drop_input_on_output
  rw [if_pos hs, hdrag]
  dsimp only
  rw [if_pos ⟨hl, rfl⟩, if_pos (by simp [hup])]
  exact ⟨rfl, rfl⟩

/-- A drop that fails the test of the editor changes nothing. -/
theorem drop_output_on_input_rejected (G : GraphEngine) (m : Mouse) (b : Bool) (ed : Nodes)
    (c dragged : ConnPtr) (hdrag : ed.element_.connection_ = some dragged)
    (hl : drop_legal G ed c.node dragged c = false) :
    drop_output_on_input G m b c ed = ed := by
  unfold drop_output_on_input
  split
  · rw [hdrag]
    dsimp only
    rw [if_neg (by simp [hl])]
  · rfl

/-- A drop that fails the test of the editor changes nothing. -/
theorem drop_input_on_output_rejected (G : GraphEngine) (m : Mouse) (b : Bool) (ed : Nodes)
    (c dragged : ConnPtr) (hdrag : ed.element_.connection_ = some dragged)
    (hl : drop_legal G ed c.node c dragged = false) :
    drop_input_on_output G m b c ed = ed := by
  unfold drop_input_on_output
  split
  · rw [hdrag]
    dsimp only
    rw [if_neg (by simp [hl])]
  · rfl

/-- C5 (amended): a drop (the mouse released over connector `index` of `node` while
the connector `dragged` is dragged) connects if and only if the two connectors are on
different nodes, `is_compatible` holds and `detect_loop` is false; no family or arity
rule is tested. When it connects on an input, the editor first disconnects the inbound
connection the input had, if any, then sets the connectors and calls `connect` and
`run`. In every other case the drop issues no call and leaves the editor, its
connectors and counts included, exactly as it was; so does a drop that would close a
loop. -/
theorem C5_drop_connects_iff_legal (G : GraphEngine) (m : Mouse) (ed : Nodes)
    (node index : Nat) (dragged : ConnPtr)
    (hh : m.hovered = true) (hc : m.clicked = false) (hup : m.down = false)
    (hdrag : ed.element_.connection_ = some dragged) :
    (∀ n o i, drop_legal G ed n o i = true ↔
      (ed.element_.node_ ≠ some n ∧ G.is_compatible ed.gf_calls o i = true ∧
        G.detect_loop ed.gf_calls o i = false)) ∧
    ((ed.element_.state_ = .NodesState_DragingOutput ∨
        ed.element_.state_ = .NodesState_DragingOutputValid) →
      (drop_legal G ed node dragged ⟨node, false, index⟩ = true →
        (display_input G m node index ed).gf_calls =
          ed.gf_calls ++
            (((get_conn ed.nodes_ ⟨node, false, index⟩).bind
                (fun connection => connection.input_)).toList.map
              (fun source => GfCall.disconnect source ⟨node, false, index⟩)) ++
            [.connect dragged ⟨node, false, index⟩, .run node] ∧
        (display_input G m node index ed).nodes_ =
          modify_conn dragged Connection.inc
            (modify_conn ⟨node, false, index⟩
              (Connection.attach ed.element_.node_ (some dragged))
              (remove_inbound ⟨node, false, index⟩ ed).nodes_)) ∧
      (drop_legal G ed node dragged ⟨node, false, index⟩ = false →
        display_input G m node index ed = ed)) ∧
    ((ed.element_.state_ = .NodesState_DragingInput ∨
        ed.element_.state_ = .NodesState_DragingInputValid) →
      (drop_legal G ed node ⟨node, true, index⟩ dragged = true →
        (display_output G m node index ed).gf_calls =
          ed.gf_calls ++ [.connect ⟨node, true, index⟩ dragged, .run dragged.node] ∧
        (display_output G m node index ed).nodes_ =
          modify_conn ⟨node, true, index⟩ Connection.inc
            (modify_conn dragged
              (Connection.attach (some node) (some ⟨node, true, index⟩)) ed.nodes_)) ∧
      (drop_legal G ed node ⟨node, true, index⟩ dragged = false →
        display_output G m node index ed = ed)) := by
  refine ⟨drop_legal_iff G ed, fun hs => ?_, fun hs => ?_⟩
  · rw [display_input_while_draging G m node index ed hh hc hs]
    exact ⟨drop_output_on_input_legal G m ed ⟨node, false, index⟩ dragged hup hdrag hs,
      drop_output_on_input_rejected G m true ed ⟨node, false, index⟩ dragged hdrag⟩
  · rw [display_output_while_draging G m node index ed hh hc hs]
    exact ⟨drop_input_on_output_legal G m ed ⟨node, true, index⟩ dragged hup hdrag hs,
      drop_input_on_output_rejected G m true ed ⟨node, true, index⟩ dragged hdrag⟩

/-- C5, at the sample graph: dropping `B.out` on `C.in` connects when the engine sees
no loop, and changes nothing when it sees one. -/
theorem C5_drop_connects_iff_legal_witness :
    (display_input permissive mouse_released 3 0 editor_abc).gf_calls =
      editor_abc.gf_calls ++
        (((get_conn editor_abc.nodes_ ⟨3, false, 0⟩).bind
            (fun connection => connection.input_)).toList.map
          (fun source => GfCall.disconnect source ⟨3, false, 0⟩)) ++
        [.connect b_out ⟨3, false, 0⟩, .run 3] ∧
    display_input all_loops mouse_released 3 0 editor_abc = editor_abc :=
  ⟨(((C5_drop_connects_iff_legal permissive mouse_released editor_abc 3 0 b_out
      (by decide) (by decide) (by decide) (by decide)).2.1 (by decide)).1 (by decide)).1,
   ((C5_drop_connects_iff_legal all_loops mouse_released editor_abc 3 0 b_out
      (by decide) (by decide) (by decide) (by decide)).2.1 (by decide)).2 (by decide)⟩

/-- C5 as stated fails: the single-feature input `C.in` already has an inbound
connection, so the arity rule does not hold, and yet the drop of `B.out` on it
calls `connect`. -/
theorem C5_counterexample :
    (get_conn editor_abc.nodes_ c_in).map (fun x => (x.family, x.connections_)) =
      some (.GF_SINGLE_FEATURE, 1) ∧
    GfCall.connect b_out c_in ∈
      ((display_input permissive mouse_released 3 0 editor_abc).gf_calls.drop
        editor_abc.gf_calls.length) := by
  decide

/-- C6 (amended): a second producer replaces the first. When an output is dropped on
an input that already has an inbound connection from `old` (and the drop passes the
test of the editor), the editor disconnects `old`, connects the dropped output in its
place and leaves the input with one inbound connection, the new one. So after any
sequence of editor gestures, from the empty editor or from any other state in which the
connectors are in order (every input connector of a single-feature terminal has a count
of 0 or 1, the source pointer of every input connector that has one points to an output
connector, and so does the pointer to a dragged output), every input connector of a
single-feature terminal has at most one inbound connection: its count is 0 or 1. -/
theorem C6_second_producer_replaces (G : GraphEngine) (m : Mouse) (ed : Nodes)
    (node index : Nat) (dragged old : ConnPtr) (connection : Connection)
    (hh : m.hovered = true) (hc : m.clicked = false) (hup : m.down = false)
    (hs : ed.element_.state_ = .NodesState_DragingOutput ∨
      ed.element_.state_ = .NodesState_DragingOutputValid)
    (hdrag : ed.element_.connection_ = some dragged)
    (hl : drop_legal G ed node dragged ⟨node, false, index⟩ = true)
    (hd : dragged.is_output = true)
    (hconn : get_conn ed.nodes_ ⟨node, false, index⟩ = some connection)
    (hold : connection.input_ = some old) :
    (display_input G m node index ed).gf_calls =
      ed.gf_calls ++ [.disconnect old ⟨node, false, index⟩,
        .connect dragged ⟨node, false, index⟩, .run node] ∧
    (get_conn (display_input G m node index ed).nodes_ ⟨node, false, index⟩).map
      (fun x => (x.input_, x.connections_)) = some (some dragged, 1) ∧
    (∀ (ed0 : Nodes) (gs : List Gesture),
      (∀ n ∈ ed0.nodes_, ∀ x ∈ n.inputs_,
        (x.family = .GF_SINGLE_FEATURE → x.connections_ = 0 ∨ x.connections_ = 1) ∧
        ∀ o, x.input_ = some o → o.is_output = true) →
      ((ed0.element_.state_ = .NodesState_DragingOutput ∨
        ed0.element_.state_ = .NodesState_DragingOutputValid) →
        ∃ o, ed0.element_.connection_ = some o ∧ o.is_output = true) →
      ∀ n ∈ (gestures G ed0 gs).nodes_, ∀ x ∈ n.inputs_,
        x.family = .GF_SINGLE_FEATURE → x.connections_ = 0 ∨ x.connections_ = 1) ∧
    ∀ gs : List Gesture, ∀ n ∈ (gestures G Nodes.init gs).nodes_, ∀ x ∈ n.inputs_,
      x.family = .GF_SINGLE_FEATURE → x.connections_ = 0 ∨ x.connections_ = 1 := by
  rw [display_input_while_draging G m node index ed hh hc hs]
  obtain ⟨hcalls, hnodes⟩ :=
    drop_output_on_input_legal G m ed ⟨node, false, index⟩ dragged hup hdrag hs hl
  have hb : (get_conn ed.nodes_ ⟨node, false, index⟩).bind
      (fun connection => connection.input_) = some old := by
    rw [hconn]
    exact hold
  refine ⟨?_, ?_,
    fun ed0 gs h0 h1 n hn x hx => ((gestures_ok G gs ed0 ⟨h0, h1⟩).1 n hn x hx).1,
    fun gs n hn x hx => ((gestures_ok G gs Nodes.init connectors_ok_init).1 n hn x hx).1⟩
  · rw [hcalls, hb]
    simp
  · rw [hnodes, get_conn_modify_conn, if_neg, get_conn_modify_conn, if_pos rfl]
    · have hrem : ∃ y, get_conn (remove_inbound ⟨node, false, index⟩ ed).nodes_
          ⟨node, false, index⟩ = some y := by
        unfold remove_inbound
        rw [hb]
        dsimp only
        rw [get_conn_modify_conn]
        by_cases hco : (⟨node, false, index⟩ : ConnPtr) = old
        · rw [if_pos hco, ← hco, hconn]
          exact ⟨_, rfl⟩
        · rw [if_neg hco, hconn]
          exact ⟨_, rfl⟩
      obtain ⟨y, hy⟩ := hrem
      rw [hy]
      simp [Connection.attach]
    · intro h
      rw [← h] at hd
      cases hd

/-- C6, at the sample graph: `B.out` dropped on the single-feature input `C.in`, which
`A.out` feeds, replaces `A.out`; after connecting `A.out` and then `B.out` to `C.in` by
gestures from the empty editor, every input connector has a count of 0 or 1; and in the
view of the saved graph with two links into the poly input `C.in`, whose count is 2, the
single-feature input `D.in` keeps a count of 0 or 1 when `A.out` and then `B.out` are
dropped on it. -/
theorem C6_second_producer_replaces_witness :
    (get_conn editor_abc.nodes_ c_in).map (fun x => x.family) = some .GF_SINGLE_FEATURE ∧
    (display_input permissive mouse_released 3 0 editor_abc).gf_calls =
      editor_abc.gf_calls ++ [.disconnect a_out ⟨3, false, 0⟩,
        .connect b_out ⟨3, false, 0⟩, .run 3] ∧
    (get_conn (display_input permissive mouse_released 3 0 editor_abc).nodes_
      ⟨3, false, 0⟩).map (fun x => (x.input_, x.connections_)) = some (some b_out, 1) ∧
    (gestures permissive Nodes.init two_producers).nodes_.all
      (fun n => n.inputs_.all (fun x => x.connections_ = 0 ∨ x.connections_ = 1)) = true ∧
    restore_graph saved_nodes links_into_c Nodes.init = some restored_two_into_c ∧
    (∀ n ∈ (gestures permissive restored_two_into_c
        (drag_and_drop 1 4 ++ drag_and_drop 2 4)).nodes_, ∀ x ∈ n.inputs_,
      x.family = .GF_SINGLE_FEATURE → x.connections_ = 0 ∨ x.connections_ = 1) ∧
    (gestures permissive restored_two_into_c (drag_and_drop 1 4 ++ drag_and_drop 2 4)).nodes_.map
      (fun n => n.inputs_.map (fun x => (x.family, x.input_, x.connections_))) =
      [[], [], [(.GF_MULTI_FEATURE, some ⟨2, true, 0⟩, 2)],
        [(.GF_SINGLE_FEATURE, some ⟨2, true, 0⟩, 1)]] := by
  have h := C6_second_producer_replaces permissive mouse_released editor_abc 3 0 b_out a_out
    { name_ := "in", family := .GF_SINGLE_FEATURE, target_ := some 1, input_ := some a_out,
      connections_ := 1 }
    (by decide) (by decide) (by decide) (by decide) (by decide) (by decide) (by decide)
    (by decide) (by decide)
  refine ⟨by decide, h.1, h.2.1, ?_, by decide, ?_, by decide⟩
  · simp only [List.all_eq_true, decide_eq_true_eq]
    intro n hn x hx
    have hall : ∀ n ∈ (gestures permissive Nodes.init two_producers).nodes_, ∀ x ∈ n.inputs_,
        x.family = .GF_SINGLE_FEATURE := by decide
    exact h.2.2.2 two_producers n hn x hx (hall n hn x hx)
  · apply h.2.2.1 restored_two_into_c
    · intro n hn x hx
      simp only [restored_two_into_c, List.mem_cons, List.mem_singleton, List.not_mem_nil,
        or_false] at hn
      rcases hn with rfl | rfl | rfl | rfl
      · simp at hx
      · simp at hx
      · simp only [List.mem_singleton] at hx
        subst hx
        refine ⟨fun hf => ?_, fun o ho => ?_⟩
        · cases hf
        · simp only [Option.some.injEq] at ho
          rw [← ho]
      · simp only [List.mem_singleton] at hx
        subst hx
        refine ⟨fun _ => Or.inl rfl, fun o ho => ?_⟩
        cases ho
    · intro hs
      rcases hs with hs | hs <;> cases hs

/-- C6 as stated fails: `C.in` is a single-feature input fed by `A.out`; after the drop
of `B.out` on it the connection from `A.out` is gone (`disconnect` was called) and the
input is fed by `B.out`. -/
theorem C6_counterexample :
    (get_conn editor_abc.nodes_ c_in).map (fun x => (x.family, x.input_)) =
      some (.GF_SINGLE_FEATURE, some a_out) ∧
    (get_conn (display_input permissive mouse_released 3 0 editor_abc).nodes_ c_in).map
      (fun x => x.input_) = some (some b_out) ∧
    GfCall.disconnect a_out c_in ∈
      (display_input permissive mouse_released 3 0 editor_abc).gf_calls := by
  decide

/-! ## `run_all` -/

/-- A graph whose connections all go up in some ranking of the nodes has no cycle. -/
theorem acyclic_of_rank {n : Nat} (g : ConnectionGraph n) (rank : Fin n → Nat)
    (h : ∀ e ∈ g, rank e.1 < rank e.2) : Acyclic g := by
  have hlt : ∀ a b, Relation.TransGen (fun a b => (a, b) ∈ g) a b → rank a < rank b := by
    intro a b hab
    induction hab with
    | single hab => exact h _ hab
    | tail _ hbc ih => exact lt_trans ih (h _ hbc)
  intro v hv
  exact lt_irrefl _ (hlt v v hv)

theorem can_run_iff {n : Nat} (g : ConnectionGraph n) (done : List (Fin n)) (v : Fin n) :
    can_run g done v = true ↔ v ∉ done ∧ ∀ e ∈ g, e.2 = v → e.1 ∈ done := by
  simp only [can_run, Bool.and_eq_true, decide_eq_true_eq, List.all_eq_true]

/-- In a graph without a cycle, as long as some node has not run, some node can run. -/
theorem exists_can_run {n : Nat} (g : ConnectionGraph n) (hg : Acyclic g)
    (done : List (Fin n)) (v : Fin n) (hv : v ∉ done) :
    ∃ w, can_run g done w = true := by
  haveI : IsTrans (Fin n) (Relation.TransGen (fun a b => (a, b) ∈ g)) :=
    ⟨fun _ _ _ => Relation.TransGen.trans⟩
  haveI : IsIrrefl (Fin n) (Relation.TransGen (fun a b => (a, b) ∈ g)) := ⟨hg⟩
  have hwf := Finite.wellFounded_of_trans_of_irrefl
    (Relation.TransGen (fun a b : Fin n => (a, b) ∈ g))
  obtain ⟨w, hw, hmin⟩ := hwf.has_min { x | x ∉ done } ⟨v, hv⟩
  refine ⟨w, (can_run_iff g done w).2 ⟨hw, fun e he hew => ?_⟩⟩
  by_contra hnot
  apply hmin e.1 hnot
  apply Relation.TransGen.single
  rw [← hew]
  exact he


theorem indexOf_append_of_mem {α : Type} [DecidableEq α] {l : List α} {a : α} (b : α)
    (h : a ∈ l) : (l ++ [b]).indexOf a = l.indexOf a := by
  induction l with
  | nil => simp at h
  | cons x rest ih =>
    by_cases hx : x = a
    · subst hx
      simp
    · have hmem : a ∈ rest := by
        rcases List.mem_cons.mp h with h1 | h1
        · exact absurd h1.symm hx
        · exact h1
      simp only [List.cons_append, List.indexOf_cons_ne _ hx, ih hmem]

theorem indexOf_append_self {α : Type} [DecidableEq α] {l : List α} {b : α} (h : b ∉ l) :
    (l ++ [b]).indexOf b = l.length := by
  induction l with
  | nil => simp
  | cons x rest ih =>
    have hx : x ≠ b := fun e => h (e ▸ List.mem_cons_self _ _)
    have hr : b ∉ rest := fun hm => h (List.mem_cons_of_mem _ hm)
    simp only [List.cons_append, List.indexOf_cons_ne _ hx, ih hr, List.length_cons]

/-- Invoking a node that can run keeps the order of the invocations right. -/
theorem run_order_ok_step {n : Nat} {g : ConnectionGraph n} {done : List (Fin n)}
    {v : Fin n} (h : run_order_ok g done) (hv : can_run g done v = true) :
    run_order_ok g (done ++ [v]) := by
  obtain ⟨hnot, hup⟩ := (can_run_iff g done v).1 hv
  refine ⟨List.Nodup.append h.1 (List.nodup_singleton v) (by simpa using hnot), ?_⟩
  intro e he hmem
  rcases List.mem_append.mp hmem with h2 | h2
  · obtain ⟨h1, hlt⟩ := h.2 e he h2
    refine ⟨List.mem_append_left _ h1, ?_⟩
    rw [indexOf_append_of_mem v h1, indexOf_append_of_mem v h2]
    exact hlt
  · have hev : e.2 = v := by simpa using h2
    have h1 := hup e he hev
    refine ⟨List.mem_append_left _ h1, ?_⟩
    rw [indexOf_append_of_mem v h1, hev, indexOf_append_self hnot]
    exact List.indexOf_lt_length.2 h1

/-- A list of nodes without repetition that is as long as there are nodes holds every
node. -/
theorem mem_of_nodup_of_length {n : Nat} {l : List (Fin n)} (hn : l.Nodup)
    (hl : l.length = n) (v : Fin n) : v ∈ l := by
  have hcard : l.toFinset.card = Fintype.card (Fin n) := by
    rw [List.toFinset_card_of_nodup hn, hl, Fintype.card_fin]
  have := Finset.eq_univ_of_card _ hcard
  have hv : v ∈ l.toFinset := by rw [this]; exact Finset.mem_univ v
  exact List.mem_toFinset.mp hv

/-- The loop, started with `k` nodes still to run, invokes them all. -/
theorem run_all_loop_ok {n : Nat} (g : ConnectionGraph n) (hg : Acyclic g) (k : Nat) :
    ∀ done : List (Fin n), run_order_ok g done → done.length + k = n →
      run_order_ok g (run_all_loop g k done) ∧ (run_all_loop g k done).length = n := by
  induction k with
  | zero =>
    intro done h hl
    exact ⟨h, by simpa using hl⟩
  | succ k ih =>
    intro done h hl
    unfold run_all_loop
    cases hf : (List.finRange n).find? (can_run g done) with
    | some v =>
      dsimp only
      have hv : can_run g done v = true := List.find?_some hf
      exact ih _ (run_order_ok_step h hv) (by simp; omega)
    | none =>
      exfalso
      have hex : ∃ v : Fin n, v ∉ done := by
        by_contra hall
        push_neg at hall
        have hle : (List.finRange n).length ≤ done.length := by
          apply List.Subperm.length_le
          apply List.subperm_of_subset (List.nodup_finRange n)
          intro x _
          exact hall x
        simp at hle
        omega
      obtain ⟨v, hv⟩ := hex
      obtain ⟨w, hw⟩ := exists_can_run g hg done v hv
      have := List.find?_eq_none.mp hf w (List.mem_finRange w)
      exact this hw

/-- C7: for every graph without a cycle, `run_all` invokes every node exactly once,
in an order in which, for every connection, the upstream node is invoked strictly
before the downstream node. -/
theorem C7_run_all_topological {n : Nat} (g : ConnectionGraph n) (hg : Acyclic g) :
    (∀ v : Fin n, (run_all_order g).count v = 1) ∧
    ∀ e ∈ g, (run_all_order g).indexOf e.1 < (run_all_order g).indexOf e.2 := by
  obtain ⟨hok, hlen⟩ := run_all_loop_ok g hg n [] ⟨List.nodup_nil, by simp⟩ (by simp)
  have hmem := mem_of_nodup_of_length hok.1 hlen
  refine ⟨fun v => List.count_eq_one_of_mem hok.1 (hmem v), fun e he => ?_⟩
  exact (hok.2 e he (hmem e.2)).2

/-- C7, at the scenario of the spec: `IntSource`, then `Doubler`, then `Sink`. -/
theorem C7_run_all_topological_witness :
    run_all_order source_doubler_sink = [2, 1, 0] ∧
    (∀ v : Fin 3, (run_all_order source_doubler_sink).count v = 1) ∧
    ∀ e ∈ source_doubler_sink,
      (run_all_order source_doubler_sink).indexOf e.1 <
        (run_all_order source_doubler_sink).indexOf e.2 :=
  ⟨by decide, C7_run_all_topological source_doubler_sink
    (acyclic_of_rank source_doubler_sink (fun v => 3 - v.val) (by decide))⟩

/-! ## Feeding one row into the proxy node -/

theorem mem_of_map_find {α : Type} {k : String} {v : α} {m : List (String × α)}
    (h : map_find k m = some v) : (k, v) ∈ m := by
  induction m with
  | nil => simp [map_find] at h
  | cons p rest ih =>
    obtain ⟨k0, v0⟩ := p
    unfold map_find at h
    by_cases hk : k = k0
    · subst hk
      simp only [if_true, Option.some.injEq] at h
      subst h
      exact List.mem_cons_self _ _
    · simp only [hk, if_false] at h
      exact List.mem_cons_of_mem _ (ih h)

theorem data_at_ok {name : String} {data : List AnyVal} {i : Nat} {v : AnyVal}
    (h : data_at name data i = .ok v) : data.get? i = some v := by
  unfold data_at at h
  cases hd : data.get? i with
  | none => rw [hd] at h; cases h
  | some w => rw [hd] at h; cases h; rfl

theorem data_at_congr (name : String) {d1 d2 : List AnyVal} {i : Nat}
    (h : d1.get? i = d2.get? i) : data_at name d1 i = data_at name d2 i := by
  unfold data_at
  rw [h]

theorem set_proxy_subs_frame (i : Nat) (subs : List (String × SubTerminal)) :
    ∀ (po po' : OutputTerminal), set_proxy_subs i subs po = .ok po' →
      ∀ s, s ∉ subs.map Prod.fst →
        map_find s po'.sub_terminals = map_find s po.sub_terminals := by
  induction subs with
  | nil =>
    intro po po' h s _
    simp only [set_proxy_subs, Except.ok.injEq] at h
    rw [h]
  | cons p rest ih =>
    obtain ⟨sub_name, sub_iterm⟩ := p
    intro po po' h s hs
    unfold set_proxy_subs at h
    cases hty : sub_iterm.types with
    | nil => simp [hty] at h
    | cons ty tys =>
      simp only [hty] at h
      cases hd : data_at sub_name sub_iterm.data i with
      | error e => simp [hd] at h
      | ok v =>
        simp only [hd] at h
        simp only [List.map_cons, List.mem_cons, not_or] at hs
        rw [ih _ _ h s hs.2]
        simp only [map_find_map_set, hs.1, if_false]

theorem set_proxy_subs_row (i : Nat) (subs : List (String × SubTerminal)) :
    ∀ (po po' : OutputTerminal), set_proxy_subs i subs po = .ok po' →
      (subs.map Prod.fst).Nodup →
      ∀ s st, (s, st) ∈ subs →
        ∃ ty v, st.types.head? = some ty ∧ st.data.get? i = some v ∧
          map_find s po'.sub_terminals = some ⟨[ty], [v]⟩ := by
  induction subs with
  | nil => intro po po' _ _ s st hm; simp at hm
  | cons p rest ih =>
    obtain ⟨sub_name, sub_iterm⟩ := p
    intro po po' h hnd s st hm
    unfold set_proxy_subs at h
    simp only [List.map_cons, List.nodup_cons] at hnd
    cases hty : sub_iterm.types with
    | nil => simp [hty] at h
    | cons ty tys =>
      simp only [hty] at h
      cases hd : data_at sub_name sub_iterm.data i with
      | error e => simp [hd] at h
      | ok v =>
        simp only [hd] at h
        rcases List.mem_cons.1 hm with heq | hrest
        · rw [(Prod.mk.inj heq).1, (Prod.mk.inj heq).2]
          refine ⟨ty, v, by simp [hty], data_at_ok hd, ?_⟩
          rw [set_proxy_subs_frame i rest _ _ h sub_name hnd.1]
          simp [map_find_map_set]
        · exact ih _ _ h hnd.2 s st hrest

theorem set_proxy_subs_congr (i : Nat) (subs1 : List (String × SubTerminal)) :
    ∀ (subs2 : List (String × SubTerminal)) (po : OutputTerminal),
      subs1.map (fun p => (p.1, p.2.types.head?, p.2.data.get? i)) =
        subs2.map (fun p => (p.1, p.2.types.head?, p.2.data.get? i)) →
      set_proxy_subs i subs1 po = set_proxy_subs i subs2 po := by
  induction subs1 with
  | nil =>
    intro subs2 po h
    cases subs2 with
    | nil => rfl
    | cons q r => simp at h
  | cons p rest ih =>
    intro subs2 po h
    cases subs2 with
    | nil => simp at h
    | cons q r =>
      obtain ⟨n1, t1⟩ := p
      obtain ⟨n2, t2⟩ := q
      simp only [List.map_cons, List.cons.injEq, Prod.mk.injEq] at h
      obtain ⟨⟨hn, hty, hd⟩, hr⟩ := h
      subst hn
      unfold set_proxy_subs
      cases h1 : t1.types with
      | nil =>
        cases h2 : t2.types with
        | nil => rfl
        | cons b bs => simp [h1, h2] at hty
      | cons a as =>
        cases h2 : t2.types with
        | nil => simp [h1, h2] at hty
        | cons b bs =>
          simp only [h1, h2, List.head?_cons, Option.some.injEq] at hty
          subst hty
          simp only [data_at_congr n1 hd]
          cases data_at n1 t2.data i with
          | error e => rfl
          | ok v => exact ih r _ hr

theorem set_proxy_output_congr {s1 s2 : NestNode} (i : Nat) (name : String)
    (po : OutputTerminal)
    (h : (map_find name s1.input_terminals).map (row_view i) =
      (map_find name s2.input_terminals).map (row_view i)) :
    set_proxy_output s1 i name po = set_proxy_output s2 i name po := by
  unfold set_proxy_output
  cases h1 : map_find name s1.input_terminals with
  | none =>
    cases h2 : map_find name s2.input_terminals with
    | none => rfl
    | some t2 => simp [h1, h2] at h
  | some t1 =>
    cases h2 : map_find name s2.input_terminals with
    | none => simp [h1, h2] at h
    | some t2 =>
      simp only [h1, h2, Option.map_some', Option.some.injEq, row_view, Prod.mk.injEq] at h
      obtain ⟨hct, hd, hsubs⟩ := h
      cases po.family with
      | GF_SINGLE_FEATURE => simp only [data_at_congr name hd, hct]
      | GF_MULTI_FEATURE => exact set_proxy_subs_congr i _ _ _ hsubs

theorem set_inputs_loop_row_congr {s1 s2 : NestNode} (i : Nat)
    (h : ∀ n, (map_find n s1.input_terminals).map (row_view i) =
      (map_find n s2.input_terminals).map (row_view i))
    (l : List (String × OutputTerminal)) :
    set_inputs_loop s1 i l = set_inputs_loop s2 i l := by
  induction l with
  | nil => rfl
  | cons p rest ih =>
    obtain ⟨name, po⟩ := p
    simp only [set_inputs_loop, set_proxy_output_congr i name po (h name), ih]

theorem set_inputs_loop_ok (self : NestNode) (i : Nat) (l : List (String × OutputTerminal)) :
    ∀ l', set_inputs_loop self i l = .ok l' →
      l'.map Prod.fst = l.map Prod.fst ∧
      ∀ k n po, l.get? k = some (n, po) →
        ∃ po', l'.get? k = some (n, po') ∧ set_proxy_output self i n po = .ok po' := by
  induction l with
  | nil =>
    intro l' h
    simp only [set_inputs_loop, Except.ok.injEq] at h
    subst h
    simp
  | cons p rest ih =>
    obtain ⟨name, po0⟩ := p
    intro l' h
    unfold set_inputs_loop at h
    cases h1 : set_proxy_output self i name po0 with
    | error e => simp [h1] at h
    | ok po1 =>
      simp only [h1] at h
      cases h2 : set_inputs_loop self i rest with
      | error e => simp [h2] at h
      | ok rest' =>
        simp only [h2, Except.ok.injEq] at h
        subst h
        obtain ⟨hk, hr⟩ := ih rest' h2
        refine ⟨by simp [hk], ?_⟩
        intro k n po hget
        cases k with
        | zero =>
          simp only [List.get?_cons_zero, Option.some.injEq, Prod.mk.injEq] at hget
          obtain ⟨hn, hp⟩ := hget
          subst hn; subst hp
          exact ⟨po1, by simp, h1⟩
        | succ k =>
          simp only [List.get?_cons_succ] at hget
          obtain ⟨po', hg, hs⟩ := hr k n po hget
          exact ⟨po', by simpa using hg, hs⟩

/-- What `set_inputs` leaves on one proxy output. -/
theorem set_proxy_output_ok {self : NestNode} {i : Nat} {n : String} {po po' : OutputTerminal}
    (h : set_proxy_output self i n po = .ok po') :
    ∃ iterm, map_find n self.input_terminals = some iterm ∧
      (po.family = .GF_SINGLE_FEATURE →
        ∃ v, iterm.data.get? i = some v ∧ po'.data = [v] ∧ po'.has_data = true ∧
          po'.types = iterm.connected_type.toList) ∧
      (po.family = .GF_MULTI_FEATURE → (iterm.sub_terminals.map Prod.fst).Nodup →
        ∀ s st, (s, st) ∈ iterm.sub_terminals →
          ∃ ty v, st.types.head? = some ty ∧ st.data.get? i = some v ∧
            map_find s po'.sub_terminals = some ⟨[ty], [v]⟩) := by
  unfold set_proxy_output at h
  cases hf : map_find n self.input_terminals with
  | none => simp [hf] at h
  | some iterm =>
    simp only [hf] at h
    refine ⟨iterm, rfl, ?_, ?_⟩
    · intro hfam
      simp only [hfam] at h
      cases hd : data_at n iterm.data i with
      | error e => simp [hd] at h
      | ok v =>
        simp only [hd, Except.ok.injEq] at h
        subst h
        exact ⟨v, data_at_ok hd, rfl, rfl, rfl⟩
    · intro hfam hnd s st hm
      simp only [hfam] at h
      exact set_proxy_subs_row i _ _ _ h hnd s st hm

/-- C11: a completed `set_inputs(flowchart, i)` leaves the proxy node with the same
output terminals by name; every single-feature proxy output named `n` holds exactly
element `i` of the data vector of the node's input `n` and has that input's connected
type; every poly proxy output named `n` has, for every sub-terminal `s` of the node's
poly input `n` (the names of the sub-terminals being distinct), a sub-terminal named
`s` that holds exactly element `i` of the data of `s`; and the result is the same for
every node whose inputs agree with this one in row `i`, whatever the other rows are. -/
theorem C11_set_inputs_feeds_row (self : NestNode) (flowchart flowchart' : NodeManager)
    (i : Nat) (h : set_inputs self flowchart i = .ok flowchart') :
    ∃ proxy outs,
      map_find proxy_node_name_ flowchart.nodes = some proxy ∧
      map_find proxy_node_name_ flowchart'.nodes =
        some { proxy with output_terminals := outs } ∧
      outs.map Prod.fst = proxy.output_terminals.map Prod.fst ∧
      (∀ k n po, proxy.output_terminals.get? k = some (n, po) →
        ∃ po' iterm, outs.get? k = some (n, po') ∧
          map_find n self.input_terminals = some iterm ∧
          (po.family = .GF_SINGLE_FEATURE →
            ∃ v, iterm.data.get? i = some v ∧ po'.data = [v] ∧ po'.has_data = true ∧
              po'.types = iterm.connected_type.toList) ∧
          (po.family = .GF_MULTI_FEATURE → (iterm.sub_terminals.map Prod.fst).Nodup →
            ∀ s st, (s, st) ∈ iterm.sub_terminals →
              ∃ ty v, st.types.head? = some ty ∧ st.data.get? i = some v ∧
                map_find s po'.sub_terminals = some ⟨[ty], [v]⟩)) ∧
      (∀ other : NestNode,
        (∀ n, (map_find n other.input_terminals).map (row_view i) =
              (map_find n self.input_terminals).map (row_view i)) →
        set_inputs other flowchart i = .ok flowchart') := by
  have h0 := h
  unfold set_inputs at h
  cases hp : map_find proxy_node_name_ flowchart.nodes with
  | none => simp [hp] at h
  | some proxy =>
    simp only [hp] at h
    cases hl : set_inputs_loop self i proxy.output_terminals with
    | error e => simp [hl] at h
    | ok outs =>
      simp only [hl, Except.ok.injEq] at h
      subst h
      obtain ⟨hk, hr⟩ := set_inputs_loop_ok self i _ outs hl
      refine ⟨proxy, outs, rfl, ?_, hk, ?_, ?_⟩
      · simp [map_find_map_set]
      · intro k n po hget
        obtain ⟨po', hg, hs⟩ := hr k n po hget
        obtain ⟨iterm, hi, h1, h2⟩ := set_proxy_output_ok hs
        exact ⟨po', iterm, hg, hi, h1, h2⟩
      · intro other hview
        rw [← h0]
        simp only [set_inputs, set_inputs_loop_row_congr i hview]
/-- C11, at the sample with a vector and a poly input: row 1 puts 20 on the proxy output
`Cell.in` and the sub-terminals `a = 2`, `b = "y"` on the proxy poly output `Cell.pin`. -/
theorem C11_set_inputs_feeds_row_witness :
    (set_inputs nest_mixed (copy_nested_flowchart nest_mixed) 1).toOption.map
        (fun fc => (map_find proxy_node_name_ fc.nodes).map (fun p => p.output_terminals)) =
      some (some [
        ("Cell.in", set_from_any (some (.int 20)) (new_output .GF_SINGLE_FEATURE [.int])),
        ("Cell.pin", ⟨.GF_MULTI_FEATURE, [.int], false, false, [],
          [("a", ⟨[.int], [some (.int 2)]⟩), ("b", ⟨[.string], [some (.text "y")]⟩)]⟩)]) ∧
    ∃ proxy outs,
      map_find proxy_node_name_ (copy_nested_flowchart nest_mixed).nodes = some proxy ∧
      map_find proxy_node_name_
        ((set_inputs nest_mixed (copy_nested_flowchart nest_mixed) 1).toOption.getD
          (copy_nested_flowchart nest_mixed)).nodes =
        some { proxy with output_terminals := outs } ∧
      outs.map Prod.fst = proxy.output_terminals.map Prod.fst := by
  obtain ⟨proxy, outs, h1, h2, h3, _⟩ :=
    C11_set_inputs_feeds_row nest_mixed (copy_nested_flowchart nest_mixed)
      ((set_inputs nest_mixed (copy_nested_flowchart nest_mixed) 1).toOption.getD
        (copy_nested_flowchart nest_mixed)) 1 (by rfl)
  exact ⟨by decide, proxy, outs, h1, h2, h3⟩

/-! ## The globals of an iteration -/

theorem map_find_map_insert {α : Type} (k : String) (v : α) (m : List (String × α))
    (k' : String) :
    map_find k' (map_insert k v m) = if k' = k then some v else map_find k' m := by
  induction m with
  | nil => by_cases hk' : k' = k <;> simp [map_insert, map_find, hk']
  | cons p rest ih =>
    obtain ⟨k0, v0⟩ := p
    unfold map_insert
    by_cases hk : k = k0
    · subst hk
      by_cases hk' : k' = k <;> simp [map_find, hk']
    · simp only [hk, if_false]
      by_cases hlt : k.data < k0.data
      · simp only [hlt, if_true]
        by_cases hk' : k' = k
        · simp [map_find, hk']
        · simp [map_find, hk']
      · simp only [hlt, if_false]
        by_cases hk' : k' = k0
        · subst hk'
          have : ¬ k' = k := fun e => hk e.symm
          simp [map_find, this]
        · simp [map_find, hk', ih]

theorem run_row_eq (E : Engine) (self : NestNode) (i : Nat) (flowchart : NodeManager) :
    run_row E self i flowchart = (row_before_run E self i flowchart).map E.run_all := by
  unfold run_row row_before_run
  dsimp only
  cases set_globals self i
      (E.notify_children proxy_node_name_ flowchart).global_flowchart_params with
  | error e => rfl
  | ok globals =>
    dsimp only
    cases set_inputs self _ i with
    | error e => rfl
    | ok fc => rfl

theorem set_inputs_globals {self : NestNode} {flowchart flowchart' : NodeManager} {i : Nat}
    (h : set_inputs self flowchart i = .ok flowchart') :
    flowchart'.global_flowchart_params = flowchart.global_flowchart_params := by
  unfold set_inputs at h
  cases hp : map_find proxy_node_name_ flowchart.nodes with
  | none => simp [hp] at h
  | some proxy =>
    simp only [hp] at h
    cases hl : set_inputs_loop self i proxy.output_terminals with
    | error e => simp [hl] at h
    | ok outs =>
      simp only [hl, Except.ok.injEq] at h
      subst h
      rfl

theorem copy_globals_frame (parent : List (String × Param)) :
    ∀ (g : List (String × Param)) (key : String), key ∉ parent.map Prod.fst →
      map_find key (copy_globals parent g) = map_find key g := by
  induction parent with
  | nil => intro g key _; rfl
  | cons p rest ih =>
    obtain ⟨k0, v0⟩ := p
    intro g key hk
    simp only [List.map_cons, List.mem_cons, not_or] at hk
    unfold copy_globals
    rw [ih _ key hk.2, map_find_map_insert]
    simp [hk.1]

theorem copy_globals_isSome (parent : List (String × Param)) :
    ∀ (g : List (String × Param)) (key : String),
      (key ∈ parent.map Prod.fst ∨ (map_find key g).isSome = true) →
      (map_find key (copy_globals parent g)).isSome = true := by
  induction parent with
  | nil =>
    intro g key h
    rcases h with h | h
    · simp at h
    · exact h
  | cons p rest ih =>
    obtain ⟨k0, v0⟩ := p
    intro g key h
    unfold copy_globals
    apply ih
    by_cases hk : key = k0
    · right
      rw [map_find_map_insert]
      simp [hk]
    · rcases h with h | h
      · simp only [List.map_cons, List.mem_cons] at h
        rcases h with h | h
        · exact absurd h hk
        · exact Or.inl h
      · right
        rw [map_find_map_insert]
        simp [hk, h]

theorem copy_globals_find (parent : List (String × Param)) :
    ∀ (g : List (String × Param)) (key : String) (val : Param),
      (parent.map Prod.fst).Nodup → (key, val) ∈ parent →
      map_find key (copy_globals parent g) = some val := by
  induction parent with
  | nil => intro g key val _ hm; simp at hm
  | cons p rest ih =>
    obtain ⟨k0, v0⟩ := p
    intro g key val hnd hm
    simp only [List.map_cons, List.nodup_cons] at hnd
    unfold copy_globals
    rcases List.mem_cons.1 hm with heq | hrest
    · rw [(Prod.mk.inj heq).1, (Prod.mk.inj heq).2, copy_globals_frame rest _ k0 hnd.1,
        map_find_map_insert]
      simp
    · exact ih _ key val hnd.2 hrest

theorem globals_from_input_frame (i : Nat) (subs : List (String × SubTerminal)) :
    ∀ (g g' : List (String × Param)), globals_from_input i subs g = .ok g' →
      ∀ key, (key ∉ global_names subs → map_find key g' = map_find key g) ∧
        ((map_find key g).isSome = true → (map_find key g').isSome = true) := by
  induction subs with
  | nil =>
    intro g g' h key
    simp only [globals_from_input, Except.ok.injEq] at h
    subst h
    exact ⟨fun _ => rfl, fun h => h⟩
  | cons p rest ih =>
    obtain ⟨sname, sterm⟩ := p
    intro g g' h key
    have step : ∀ (T : TypeTag) (val : Payload), gives_global sterm = true →
        globals_from_input i rest (map_insert sname ⟨T, val⟩ g) = .ok g' →
        (key ∉ global_names ((sname, sterm) :: rest) → map_find key g' = map_find key g) ∧
        ((map_find key g).isSome = true → (map_find key g').isSome = true) := by
      intro T val hg hrest
      obtain ⟨h1, h2⟩ := ih _ _ hrest key
      constructor
      · intro hk
        simp only [global_names, List.filter_cons, hg, if_true, List.map_cons, List.mem_cons,
          not_or] at hk
        rw [h1 hk.2, map_find_map_insert]
        simp [hk.1]
      · intro hs
        apply h2
        rw [map_find_map_insert]
        by_cases hk : key = sname <;> simp [hk, hs]
    unfold globals_from_input at h
    cases h1 : sterm.types.contains TypeTag.string with
    | true =>
      simp only [h1, if_true] at h
      cases hv : get_as .string sname sterm.data i with
      | error e => simp [hv] at h
      | ok val =>
        simp only [hv] at h
        exact step _ val (by rw [gives_global, h1]; rfl) h
    | false =>
      simp only [h1, Bool.false_eq_true, if_false] at h
      cases h2 : sterm.types.contains TypeTag.int with
      | true =>
        simp only [h2, if_true] at h
        cases hv : get_as .int sname sterm.data i with
        | error e => simp [hv] at h
        | ok val =>
          simp only [hv] at h
          exact step _ val (by rw [gives_global, h1, h2]; rfl) h
      | false =>
        simp only [h2, Bool.false_eq_true, if_false] at h
        cases h3 : sterm.types.contains TypeTag.float with
        | true =>
          simp only [h3, if_true] at h
          cases hv : get_as .float sname sterm.data i with
          | error e => simp [hv] at h
          | ok val =>
            simp only [hv] at h
            exact step _ val (by rw [gives_global, h1, h2, h3]; rfl) h
        | false =>
          simp only [h3, Bool.false_eq_true, if_false] at h
          cases h4 : sterm.types.contains TypeTag.bool with
          | true =>
            simp only [h4, if_true] at h
            cases hv : get_as .bool sname sterm.data i with
            | error e => simp [hv] at h
            | ok val =>
              simp only [hv] at h
              exact step _ val (by rw [gives_global, h1, h2, h3, h4]; rfl) h
          | false =>
            simp only [h4, Bool.false_eq_true, if_false] at h
            obtain ⟨r1, r2⟩ := ih _ _ h key
            refine ⟨fun hk => r1 ?_, r2⟩
            intro hmem
            apply hk
            have hg : gives_global sterm = false := by rw [gives_global, h1, h2, h3, h4]; rfl
            simp only [global_names, List.filter_cons, hg, Bool.false_eq_true, if_false]
            exact hmem

/-- The globals of the flowchart that iteration `i` hands to `run_all`. -/
theorem row_before_run_globals {E : Engine} {self : NestNode} {i : Nat}
    {flowchart prepared : NodeManager} (h : row_before_run E self i flowchart = .ok prepared) :
    ∃ glterm, map_find (globals_name self) self.input_terminals = some glterm ∧
      globals_from_input i glterm.sub_terminals
        (map_insert "GF_I" ⟨.string, .text (to_string i)⟩
          (copy_globals self.manager_globals
            (E.notify_children proxy_node_name_ flowchart).global_flowchart_params)) =
        .ok prepared.global_flowchart_params := by
  unfold row_before_run at h
  dsimp only at h
  cases hg : set_globals self i
      (E.notify_children proxy_node_name_ flowchart).global_flowchart_params with
  | error e => simp [hg] at h
  | ok globals =>
    simp only [hg] at h
    rw [set_inputs_globals h]
    unfold set_globals at hg
    dsimp only at hg
    cases hf : map_find (globals_name self) self.input_terminals with
    | none => simp [hf] at hg
    | some glterm =>
      simp only [hf] at hg
      exact ⟨glterm, rfl, hg⟩

/-- C12 (amended): the flowchart that iteration `i` hands to `run_all` has a global for
every name of a parent global; it is the parent value unless the name is `GF_I` or the
name of a sub-terminal of the `.globals` input that accepts `std::string`, `int`,
`float` or `bool`; and `GF_I` is the decimal text of `i` unless such a sub-terminal is
named `GF_I`. -/
theorem C12_globals_at_run (E : Engine) (self : NestNode) (i : Nat)
    (flowchart prepared : NodeManager)
    (h : row_before_run E self i flowchart = .ok prepared) :
    run_row E self i flowchart = .ok (E.run_all prepared) ∧
    ∃ glterm, map_find (globals_name self) self.input_terminals = some glterm ∧
      (∀ key ∈ self.manager_globals.map Prod.fst,
        (map_find key prepared.global_flowchart_params).isSome = true) ∧
      (∀ key val, (key, val) ∈ self.manager_globals →
        (self.manager_globals.map Prod.fst).Nodup → key ≠ "GF_I" →
        key ∉ global_names glterm.sub_terminals →
        map_find key prepared.global_flowchart_params = some val) ∧
      ("GF_I" ∉ global_names glterm.sub_terminals →
        map_find "GF_I" prepared.global_flowchart_params =
          some ⟨.string, .text (to_string i)⟩) := by
  refine ⟨by rw [run_row_eq, h]; rfl, ?_⟩
  obtain ⟨glterm, hf, hg⟩ := row_before_run_globals h
  refine ⟨glterm, hf, ?_, ?_, ?_⟩
  · intro key hk
    apply (globals_from_input_frame i _ _ _ hg key).2
    rw [map_find_map_insert]
    by_cases hkey : key = "GF_I"
    · simp [hkey]
    · simp only [hkey, if_false]
      exact copy_globals_isSome _ _ key (Or.inl hk)
  · intro key val hm hnd hkey hnames
    rw [(globals_from_input_frame i _ _ _ hg key).1 hnames, map_find_map_insert]
    simp only [hkey, if_false]
    exact copy_globals_find _ _ key val hnd hm
  · intro hnames
    rw [(globals_from_input_frame i _ _ _ hg "GF_I").1 hnames, map_find_map_insert]
    simp

/-- C12, at the sample with the parent global `city` and the sub-terminal `tile`: the
last of the three rows runs with `GF_I = "2"`, `city` and `tile = 9`. -/
theorem C12_globals_at_run_witness :
    (row_before_run (scripted_engine doubling) nest_with_globals 2
        (copy_nested_flowchart nest_with_globals)).toOption.map
      (fun fc => fc.global_flowchart_params) =
      some [("GF_I", ⟨.string, .text "2"⟩), ("city", ⟨.string, .text "Delft"⟩),
        ("tile", ⟨.int, .int 9⟩)] ∧
    ∃ glterm, map_find (globals_name nest_with_globals) nest_with_globals.input_terminals =
        some glterm ∧
      ("GF_I" ∉ global_names glterm.sub_terminals →
        map_find "GF_I" ((row_before_run (scripted_engine doubling) nest_with_globals 2
          (copy_nested_flowchart nest_with_globals)).toOption.getD
            (copy_nested_flowchart nest_with_globals)).global_flowchart_params =
          some ⟨.string, .text (to_string 2)⟩) := by
  obtain ⟨_, glterm, h1, _, _, h4⟩ :=
    C12_globals_at_run (scripted_engine doubling) nest_with_globals 2
      (copy_nested_flowchart nest_with_globals)
      ((row_before_run (scripted_engine doubling) nest_with_globals 2
        (copy_nested_flowchart nest_with_globals)).toOption.getD
          (copy_nested_flowchart nest_with_globals)) (by rfl)
  exact ⟨by decide, glterm, h1, h4⟩

/-- C12 as stated fails: with a sub-terminal named `GF_I` on the `.globals` input the
first row runs with `GF_I = "x"`, not with the decimal text `"0"` of the row. -/
theorem C12_counterexample :
    (row_before_run (scripted_engine doubling) nest_gf_i 0
        (copy_nested_flowchart nest_gf_i)).toOption.map
      (fun fc => map_find "GF_I" fc.global_flowchart_params) =
      some (some ⟨.string, .text "x"⟩) ∧
    to_string 0 = "0" := by
  decide

/-! ## The terminals of a loaded `NestNode` -/

theorem insert_all_append {α : Type} (e1 e2 : List (String × α)) :
    ∀ (m : List (String × α)), insert_all (e1 ++ e2) m = insert_all e2 (insert_all e1 m) := by
  induction e1 with
  | nil => intro m; rfl
  | cons e rest ih =>
    obtain ⟨k0, v0⟩ := e
    intro m
    show insert_all (rest ++ e2) (map_insert k0 v0 m) =
      insert_all e2 (insert_all rest (map_insert k0 v0 m))
    exact ih _

theorem load_inputs_of_node_eq (node_name : String) (l : List (String × InputTerminal)) :
    ∀ ins, load_inputs_of_node node_name l ins =
      insert_all (exported_inputs_of_node node_name l) ins := by
  induction l with
  | nil => intro ins; rfl
  | cons p rest ih =>
    obtain ⟨name, t⟩ := p
    intro ins
    unfold load_inputs_of_node
    cases hm : t.marked with
    | false =>
      simp only [Bool.false_eq_true, if_false, ih]
      simp [exported_inputs_of_node, List.filter_cons, hm]
    | true =>
      simp only [if_true]
      cases hf : t.family with
      | GF_SINGLE_FEATURE =>
        simp only [if_true, ih]
        simp [exported_inputs_of_node, List.filter_cons, hm, hf, insert_all, add_vector_input]
      | GF_MULTI_FEATURE =>
        simp only [reduceCtorEq, if_false, ih]
        simp [exported_inputs_of_node, List.filter_cons, hm, hf, insert_all, add_poly_input]

theorem load_outputs_of_node_eq (node_name : String) (l : List (String × OutputTerminal)) :
    ∀ outs, load_outputs_of_node node_name l outs =
      insert_all (exported_outputs_of_node node_name l) outs := by
  induction l with
  | nil => intro outs; rfl
  | cons p rest ih =>
    obtain ⟨name, t⟩ := p
    intro outs
    unfold load_outputs_of_node
    cases hm : t.marked with
    | false =>
      simp only [Bool.false_eq_true, if_false, ih]
      simp [exported_outputs_of_node, List.filter_cons, hm]
    | true =>
      simp only [if_true]
      cases hf : t.family with
      | GF_SINGLE_FEATURE =>
        simp only [if_true, ih]
        simp [exported_outputs_of_node, List.filter_cons, hm, hf, insert_all,
          add_vector_output]
      | GF_MULTI_FEATURE =>
        simp only [reduceCtorEq, if_false, ih]
        simp [exported_outputs_of_node, List.filter_cons, hm, hf, insert_all,
          add_poly_output]

theorem load_terminals_eq (nodes : List (String × Node)) :
    ∀ ins outs, load_terminals nodes (ins, outs) =
      (insert_all (exported_inputs nodes) ins, insert_all (exported_outputs nodes) outs) := by
  induction nodes with
  | nil => intro ins outs; rfl
  | cons n rest ih =>
    obtain ⟨node_name, node⟩ := n
    intro ins outs
    unfold load_terminals
    rw [ih, load_inputs_of_node_eq, load_outputs_of_node_eq]
    simp only [exported_inputs, exported_outputs, List.flatMap_cons, insert_all_append]

/-- The terminals of the node after a successful `load_nodes`. -/
theorem load_nodes_terminals (F : Disk) (self : NestNode)
    (h : (load_nodes F self).2 = true) :
    (load_nodes F self).1.input_terminals =
      insert_all (exported_inputs (F.load_json self.filepath_).1)
        [(globals_name self, new_input .GF_MULTI_FEATURE (globals_name self) globals_types)] ∧
    (load_nodes F self).1.output_terminals =
      map_insert (timings_name self) (new_output .GF_SINGLE_FEATURE [.float])
        (insert_all (exported_outputs (F.load_json self.filepath_).1) []) := by
  unfold load_nodes at h ⊢
  cases he : F.file_exists self.filepath_ with
  | false => simp [he] at h
  | true =>
    simp only [if_true, load_terminals_eq]
    exact ⟨rfl, rfl⟩

theorem data_at_in_range {name : String} {data : List AnyVal} {i : Nat}
    (hi : i < data.length) : ∃ v, data_at name data i = .ok v ∧ data.get? i = some v := by
  unfold data_at
  cases hd : data.get? i with
  | none =>
    rw [List.get?_eq_none] at hd
    omega
  | some v => exact ⟨v, rfl, rfl⟩

theorem get_as_in_range (T : TypeTag) {name : String} {data : List AnyVal} {i : Nat}
    (hi : i < data.length) (n : String) (j : Nat) :
    get_as T name data i ≠ .error (.out_of_range n j) := by
  unfold get_as
  cases hd : data.get? i with
  | none =>
    rw [List.get?_eq_none] at hd
    omega
  | some v =>
    cases v with
    | none => simp
    | some p =>
      by_cases hp : p.type = T <;> simp [hp]

theorem globals_from_input_in_range (i : Nat) (subs : List (String × SubTerminal)) :
    ∀ (g : List (String × Param)), (∀ q ∈ subs, i < q.2.data.length) →
      ∀ n j, globals_from_input i subs g ≠ .error (.out_of_range n j) := by
  induction subs with
  | nil => intro g _ n j; simp [globals_from_input]
  | cons p rest ih =>
    obtain ⟨sname, sterm⟩ := p
    intro g hlen n j
    have hhead : i < sterm.data.length := hlen (sname, sterm) (List.mem_cons_self _ _)
    have hrest : ∀ q ∈ rest, i < q.2.data.length :=
      fun q hq => hlen q (List.mem_cons_of_mem _ hq)
    have step : ∀ (T : TypeTag),
        (match get_as T sname sterm.data i with
          | .ok val => globals_from_input i rest (map_insert sname ⟨T, val⟩ g)
          | .error e => .error e) ≠ .error (.out_of_range n j) := by
      intro T
      cases hv : get_as T sname sterm.data i with
      | error e =>
        intro he
        simp only [Except.error.injEq] at he
        exact get_as_in_range T hhead n j (by rw [hv, he])
      | ok val => exact ih _ hrest n j
    unfold globals_from_input
    cases h1 : sterm.types.contains TypeTag.string with
    | true => simp only [if_true]; exact step _
    | false =>
      simp only [Bool.false_eq_true, if_false]
      cases h2 : sterm.types.contains TypeTag.int with
      | true => simp only [if_true]; exact step _
      | false =>
        simp only [Bool.false_eq_true, if_false]
        cases h3 : sterm.types.contains TypeTag.float with
        | true => simp only [if_true]; exact step _
        | false =>
          simp only [Bool.false_eq_true, if_false]
          cases h4 : sterm.types.contains TypeTag.bool with
          | true => simp only [if_true]; exact step _
          | false =>
            simp only [Bool.false_eq_true, if_false]
            exact ih _ hrest n j

theorem set_proxy_subs_in_range (i : Nat) (subs : List (String × SubTerminal)) :
    ∀ (po : OutputTerminal), (∀ q ∈ subs, i < q.2.data.length) →
      ∀ n j, set_proxy_subs i subs po ≠ .error (.out_of_range n j) := by
  induction subs with
  | nil => intro po _ n j; simp [set_proxy_subs]
  | cons p rest ih =>
    obtain ⟨sub_name, sub_iterm⟩ := p
    intro po hlen n j
    have hhead : i < sub_iterm.data.length := hlen (sub_name, sub_iterm) (List.mem_cons_self _ _)
    have hrest : ∀ q ∈ rest, i < q.2.data.length :=
      fun q hq => hlen q (List.mem_cons_of_mem _ hq)
    unfold set_proxy_subs
    cases hty : sub_iterm.types with
    | nil => simp
    | cons ty tys =>
      obtain ⟨v, hv, _⟩ := @data_at_in_range sub_name _ _ hhead
      simp only [hv]
      exact ih _ hrest n j

theorem set_inputs_loop_in_range (self : NestNode) (i : Nat)
    (l : List (String × OutputTerminal))
    (h : ∀ q ∈ l, ∀ n j, set_proxy_output self i q.1 q.2 ≠ .error (.out_of_range n j)) :
    ∀ n j, set_inputs_loop self i l ≠ .error (.out_of_range n j) := by
  induction l with
  | nil => intro n j; simp [set_inputs_loop]
  | cons p rest ih =>
    obtain ⟨name, po⟩ := p
    intro n j
    have hhead := h (name, po) (List.mem_cons_self _ _) n j
    have hrest := ih (fun q hq => h q (List.mem_cons_of_mem _ hq)) n j
    unfold set_inputs_loop
    cases h1 : set_proxy_output self i name po with
    | error e =>
      intro he
      simp only [Except.error.injEq] at he
      exact hhead (by rw [h1, he])
    | ok po' =>
      simp only []
      cases h2 : set_inputs_loop self i rest with
      | error e =>
        intro he
        simp only [Except.error.injEq] at he
        exact hrest (by rw [h2, he])
      | ok rest' => simp

/-- With `N` values on every vector input and on every sub-terminal of a poly input,
`set_inputs` reads within range in every iteration `i < N`. -/
theorem set_inputs_in_range {self : NestNode} {N i : Nat} (hi : i < N)
    (hvec : ∀ p ∈ self.input_terminals,
      p.2.family = .GF_SINGLE_FEATURE → p.2.data.length = N)
    (hsub : ∀ p ∈ self.input_terminals, ∀ q ∈ p.2.sub_terminals, q.2.data.length = N)
    (flowchart : NodeManager)
    (hfam : ∀ proxy, map_find proxy_node_name_ flowchart.nodes = some proxy →
      ∀ q ∈ proxy.output_terminals, q.2.family = .GF_SINGLE_FEATURE →
        ∀ iterm, map_find q.1 self.input_terminals = some iterm →
          iterm.family = .GF_SINGLE_FEATURE) :
    ∀ n j, set_inputs self flowchart i ≠ .error (.out_of_range n j) := by
  intro n j
  unfold set_inputs
  cases hp : map_find proxy_node_name_ flowchart.nodes with
  | none => simp
  | some proxy =>
    simp only []
    have hl := set_inputs_loop_in_range self i proxy.output_terminals (by
      intro q hq n j
      unfold set_proxy_output
      cases hf : map_find q.1 self.input_terminals with
      | none => simp
      | some iterm =>
        simp only []
        have hmem := mem_of_map_find hf
        cases hfam' : q.2.family with
        | GF_SINGLE_FEATURE =>
          have hlen := hvec _ hmem (hfam proxy hp q hq hfam' iterm hf)
          obtain ⟨v, hv, _⟩ := @data_at_in_range q.1 iterm.data i (by
            show i < iterm.data.length
            have : iterm.data.length = N := hlen
            omega)
          simp only [hv]
          simp
        | GF_MULTI_FEATURE =>
          simp only []
          exact set_proxy_subs_in_range i _ _ (fun s hs => by
            have := hsub _ hmem s hs
            omega) n j) n j
    cases h2 : set_inputs_loop self i proxy.output_terminals with
    | error e =>
      intro he
      simp only [Except.error.injEq] at he
      exact hl (by rw [h2, he])
    | ok outs => simp

/-- C15: when every vector input and every sub-terminal of a poly input of the node,
those of `.globals` included, holds exactly `N` values, no element read of iteration
`i < N` is out of range: neither `get<T>(i)` in the globals injection nor `data_vec[i]`
in `set_inputs` (where a single-feature proxy output is fed by a vector input), so the
preparation of row `i` never fails with an out-of-range read. -/
theorem C15_reads_in_range (E : Engine) (self : NestNode) (N i : Nat) (hi : i < N)
    (hvec : ∀ p ∈ self.input_terminals,
      p.2.family = .GF_SINGLE_FEATURE → p.2.data.length = N)
    (hsub : ∀ p ∈ self.input_terminals, ∀ q ∈ p.2.sub_terminals, q.2.data.length = N) :
    (∀ g n j, set_globals self i g ≠ .error (.out_of_range n j)) ∧
    (∀ p ∈ self.input_terminals,
      (p.2.family = .GF_SINGLE_FEATURE →
        ∃ v, data_at p.1 p.2.data i = .ok v ∧ p.2.data.get? i = some v) ∧
      ∀ q ∈ p.2.sub_terminals,
        ∃ v, data_at q.1 q.2.data i = .ok v ∧ q.2.data.get? i = some v) ∧
    (∀ flowchart : NodeManager,
      (∀ proxy,
        map_find proxy_node_name_ (E.notify_children proxy_node_name_ flowchart).nodes =
          some proxy →
        ∀ q ∈ proxy.output_terminals, q.2.family = .GF_SINGLE_FEATURE →
          ∀ iterm, map_find q.1 self.input_terminals = some iterm →
            iterm.family = .GF_SINGLE_FEATURE) →
      ∀ n j, row_before_run E self i flowchart ≠ .error (.out_of_range n j)) := by
  have hg : ∀ g n j, set_globals self i g ≠ .error (.out_of_range n j) := by
    intro g n j
    unfold set_globals
    dsimp only
    cases hf : map_find (globals_name self) self.input_terminals with
    | none => simp
    | some glterm =>
      simp only []
      exact globals_from_input_in_range i _ _ (fun q hq => by
        have := hsub _ (mem_of_map_find hf) q hq
        omega) n j
  refine ⟨hg, ?_, ?_⟩
  · intro p hp
    refine ⟨fun hf => data_at_in_range (by have := hvec p hp hf; omega), fun q hq => ?_⟩
    exact data_at_in_range (by have := hsub p hp q hq; omega)
  · intro flowchart hfam n j
    unfold row_before_run
    dsimp only
    cases h1 : set_globals self i
        (E.notify_children proxy_node_name_ flowchart).global_flowchart_params with
    | error e =>
      intro he
      simp only [Except.error.injEq] at he
      exact hg _ n j (by rw [h1, he])
    | ok globals =>
      simp only []
      exact set_inputs_in_range hi hvec hsub ⟨globals, _, _⟩ hfam n j

/-- C15, at the sample with a vector and a poly input of three rows each: the last row
is prepared without a failing read. -/
theorem C15_reads_in_range_witness :
    (row_before_run (scripted_engine doubling) nest_mixed 2
      (copy_nested_flowchart nest_mixed)).toOption.isSome = true ∧
    ∀ n j, row_before_run (scripted_engine doubling) nest_mixed 2
      (copy_nested_flowchart nest_mixed) ≠ .error (.out_of_range n j) :=
  ⟨by decide,
    (C15_reads_in_range (scripted_engine doubling) nest_mixed 3 2 (by decide) (by decide)
      (by decide)).2.2 (copy_nested_flowchart nest_mixed) (by decide)⟩

/-! ## Row counts are not validated -/

theorem set_proxy_output_short {self : NestNode} {name : String} {iterm : InputTerminal}
    {po : OutputTerminal} {i : Nat}
    (hf : map_find name self.input_terminals = some iterm)
    (hfam : po.family = .GF_SINGLE_FEATURE) (hi : iterm.data.length ≤ i) :
    set_proxy_output self i name po = .error (.out_of_range name i) := by
  unfold set_proxy_output
  simp only [hf, hfam]
  unfold data_at
  have : iterm.data.get? i = none := List.get?_eq_none.2 hi
  rw [this]

/-- A row in which a single-feature proxy output is fed from a vector input with too
few values cannot be prepared. -/
theorem row_before_run_short {E : Engine} {self : NestNode} {name : String}
    {iterm : InputTerminal} {i : Nat} {flowchart : NodeManager}
    (hf : map_find name self.input_terminals = some iterm) (hi : iterm.data.length ≤ i)
    (hp : (map_find proxy_node_name_ (E.notify_children proxy_node_name_ flowchart).nodes).bind
      (fun proxy => (map_find name proxy.output_terminals).map (fun po => po.family)) =
        some .GF_SINGLE_FEATURE) :
    ∀ prepared, row_before_run E self i flowchart ≠ .ok prepared := by
  intro prepared h
  unfold row_before_run at h
  dsimp only at h
  cases hg : set_globals self i
      (E.notify_children proxy_node_name_ flowchart).global_flowchart_params with
  | error e => simp [hg] at h
  | ok globals =>
    simp only [hg] at h
    unfold set_inputs at h
    cases hpn : map_find proxy_node_name_ (E.notify_children proxy_node_name_ flowchart).nodes with
    | none => simp [hpn] at h
    | some proxy =>
      simp only [hpn] at h
      cases hl : set_inputs_loop self i proxy.output_terminals with
      | error e => simp [hl] at h
      | ok outs =>
        rw [hpn] at hp
        simp only [Option.some_bind] at hp
        cases hpo : map_find name proxy.output_terminals with
        | none => simp [hpo] at hp
        | some po =>
          simp only [hpo, Option.map_some', Option.some.injEq] at hp
          obtain ⟨k, hk⟩ := List.get?_of_mem (mem_of_map_find hpo)
          obtain ⟨po', _, hs⟩ := (set_inputs_loop_ok self i _ outs hl).2 k name po hk
          rw [set_proxy_output_short hf hp hi] at hs
          cases hs

/-- C16: `process` goes straight into the loop with the size of the first input as
iteration count, whatever the lengths of the other inputs are; feeding a single-feature
proxy output from a vector input of fewer values reads past the end of the data vector
in the iteration equal to its length, so that iteration fails and `process` does not
complete. -/
theorem C16_no_row_count_check (E : Engine) (clock : Nat → Int × Int) (self : NestNode)
    (first : String × InputTerminal) (rest : List (String × InputTerminal))
    (hl : self.flowchart_loaded = true) (hs : self.use_parallel_processing = false)
    (hin : self.input_terminals = first :: rest) :
    process E clock self =
      process_sequential E clock { self with input_size_ := first.2.size E } ∧
    (∀ (name : String) (iterm : InputTerminal) (po : OutputTerminal),
      map_find name self.input_terminals = some iterm → po.family = .GF_SINGLE_FEATURE →
      set_proxy_output self iterm.data.length name po =
        .error (.out_of_range name iterm.data.length)) ∧
    (∀ (name : String) (iterm : InputTerminal),
      map_find name self.input_terminals = some iterm →
      iterm.data.length < first.2.size E →
      proxy_family E self iterm.data.length name = some .GF_SINGLE_FEATURE →
      (∃ fc, flowchart_before E self iterm.data.length = .ok fc ∧
        ∀ prepared, row_before_run E self iterm.data.length fc ≠ .ok prepared) ∧
      ∀ self', process E clock self ≠ .ok self') := by
  have hproc : process E clock self =
      process_sequential E clock { self with input_size_ := first.2.size E } := by
    rw [process_eq E clock self first rest hl hin, if_neg (by simp [hs])]
  refine ⟨hproc, ?_, ?_⟩
  · intro name iterm po hf hfam
    exact set_proxy_output_short hf hfam (le_refl _)
  · intro name iterm hf hlt hpf
    unfold proxy_family at hpf
    cases hfb : flowchart_before E self iterm.data.length with
    | error e => simp [hfb] at hpf
    | ok fc =>
      simp only [hfb] at hpf
      have hrow := @row_before_run_short E self name iterm iterm.data.length fc hf
        (le_refl _) hpf
      refine ⟨⟨fc, rfl, hrow⟩, ?_⟩
      intro self' h
      rw [hproc] at h
      obtain ⟨_, hex, _⟩ := process_sequential_ok h
      obtain ⟨fc', hfc'⟩ := hex iterm.data.length hlt
      rw [@flowchart_before_congr E { self with input_size_ := first.2.size E } self
        rfl rfl rfl rfl] at hfc'
      unfold flowchart_before at hfc'
      rw [hfb] at hfc'
      simp only [] at hfc'
      rw [run_row_eq] at hfc'
      cases hr : row_before_run E self iterm.data.length fc with
      | error e => rw [hr] at hfc'; cases hfc'
      | ok prepared => exact hrow prepared hr

/-- C16, at the sample with a vector input of three and one of two rows: iteration 2
reads element 2 of the two-row input and `process` ends in that error. -/
theorem C16_no_row_count_check_witness :
    process (scripted_engine doubling) clock0 nest_unequal =
      .error (.out_of_range "Cell.in2" 2) ∧
    ∀ self', process (scripted_engine doubling) clock0 nest_unequal ≠ .ok self' :=
  ⟨by rfl,
    ((C16_no_row_count_check (scripted_engine doubling) clock0 nest_unequal
      ("Cell.in", vector_input_of "Cell.in" [some (.int 10), some (.int 20), some (.int 30)])
      [("Cell.in2", vector_input_of "Cell.in2" [some (.int 1), some (.int 2)]),
       ("Nest.globals", poly_input_of "Nest.globals" [])]
      (by decide) (by decide) (by rfl)).2.2 "Cell.in2"
      (vector_input_of "Cell.in2" [some (.int 1), some (.int 2)])
      (by decide) (by decide) (by decide)).2⟩

/-! ## The plugin loader -/

/-- C17 fails in the code: `DLGetInstance` ends with the call through the pointer
`dlsym` returned for the allocator, and `DLSetImGuiContext` with the call through the
pointer for `SetImGuiContext`, whatever `dlsym` returned. With a library without the
symbols both report the error, close the library and then call the null pointer; with
the deleter alone missing the returned `shared_ptr` holds the null deleter. -/
theorem C17_unresolved_pointer_is_called (os : DynamicLinker) (self : DLLoader) :
    (DLGetInstance os self).1.getLast? =
      some (DLEvent.call (os.dlsym self._allocClassSymbol)) ∧
    (DLSetImGuiContext os).getLast? = some (DLEvent.call (os.dlsym "SetImGuiContext")) ∧
    (DLGetInstance no_symbols sample_loader).1 =
      [DLEvent.cerr, DLEvent.cerr, DLEvent.dlclose, DLEvent.call none] ∧
    DLSetImGuiContext no_symbols = [DLEvent.cerr, DLEvent.dlclose, DLEvent.call none] ∧
    DLGetInstance no_deleter sample_loader =
      ([DLEvent.cerr, DLEvent.dlclose, DLEvent.call (some 64)], none) := by
  refine ⟨?_, ?_, by decide, by decide, by decide⟩
  · simp [DLGetInstance]
  · simp [DLSetImGuiContext]
/-! ## Starting a drag on an input -/

/-- A frame in which the mouse is pressed over the input `c`, and `c` is or becomes the
hovered connector, starts a drag: what `DisplayNode` leaves. -/
theorem display_input_start_drag (G : GraphEngine) (m : Mouse) (node index : Nat)
    (ed : Nodes) (hh : m.hovered = true) (hcl : m.clicked = true)
    (hel : ed.element_.state_ = .NodesState_Default ∨
      ed.element_.state_ = .NodesState_HoverConnection ∨
      ed.element_.state_ = .NodesState_HoverNode ∨
      ed.element_.connection_ = some ⟨node, false, index⟩) :
    (display_input G m node index ed).element_.state_ = .NodesState_DragingInput ∧
    (display_input G m node index ed).nodes_ =
      modify_conn ⟨node, false, index⟩ Connection.clear
        (remove_inbound ⟨node, false, index⟩ ed).nodes_ ∧
    (display_input G m node index ed).gf_calls =
      (remove_inbound ⟨node, false, index⟩ ed).gf_calls := by
  have hhov : ∃ e : Element, e.connection_ = some ⟨node, false, index⟩ ∧
      hover_connector m ⟨node, false, index⟩ ed = ({ ed with element_ := e }, true) := by
    unfold hover_connector
    simp only [hh, if_true]
    by_cases hc : ed.element_.state_ = .NodesState_Default ∨
        ed.element_.state_ = .NodesState_HoverConnection ∨
        ed.element_.state_ = .NodesState_HoverNode
    · exact ⟨{ state_ := NodesState.NodesState_HoverIO, node_ := some node,
               connection_ := some ⟨node, false, index⟩ }, rfl, by simp only [hc, if_true]⟩
    · refine ⟨ed.element_, ?_, by simp only [hc, if_false]⟩
      rcases hel with h | h | h | h
      · exact absurd (Or.inl h) hc
      · exact absurd (Or.inr (Or.inl h)) hc
      · exact absurd (Or.inr (Or.inr h)) hc
      · exact h
  obtain ⟨e, he, hhover⟩ := hhov
  unfold display_input
  simp only [hhover]
  unfold start_drag_input
  simp only [hh, hcl, he, and_self, if_true]
  rw [remove_inbound_with_element]
  unfold drop_output_on_input
  simp only [reduceCtorEq, or_self, if_false]
  refine ⟨?_, ?_, ?_⟩ <;> trivial

/-- C18: a frame that starts a drag on the input connector `c`, in an editor whose
connectors satisfy the invariant: if `c` has an inbound connection from the output
`source`, the frame issues exactly the one call `disconnect(source, c)`, lowers the
count of `source` by one, leaves every other connector alone and resets `c` to no
source node, no source connector and the count 0; if `c` has none, the frame issues no
call, leaves every other connector alone and, `c` being unconnected with the count 0,
changes no count. -/
theorem C18_start_drag_input (G : GraphEngine) (m : Mouse) (node index : Nat) (ed : Nodes)
    (connection : Connection) (hok : connectors_ok ed)
    (hh : m.hovered = true) (hcl : m.clicked = true)
    (hel : ed.element_.state_ = .NodesState_Default ∨
      ed.element_.state_ = .NodesState_HoverConnection ∨
      ed.element_.state_ = .NodesState_HoverNode ∨
      ed.element_.connection_ = some ⟨node, false, index⟩)
    (hget : get_conn ed.nodes_ ⟨node, false, index⟩ = some connection) :
    (display_input G m node index ed).element_.state_ = .NodesState_DragingInput ∧
    get_conn (display_input G m node index ed).nodes_ ⟨node, false, index⟩ =
      some { connection with target_ := none, input_ := none, connections_ := 0 } ∧
    (∀ source, connection.input_ = some source →
      (display_input G m node index ed).gf_calls =
        ed.gf_calls ++ [.disconnect source ⟨node, false, index⟩] ∧
      (get_conn (display_input G m node index ed).nodes_ source).map
          (fun x => x.connections_) =
        (get_conn ed.nodes_ source).map (fun x => x.connections_ - 1) ∧
      ∀ q, q ≠ source → q ≠ ⟨node, false, index⟩ →
        get_conn (display_input G m node index ed).nodes_ q = get_conn ed.nodes_ q) ∧
    (connection.input_ = none →
      (display_input G m node index ed).gf_calls = ed.gf_calls ∧
      (∀ q, q ≠ ⟨node, false, index⟩ →
        get_conn (display_input G m node index ed).nodes_ q = get_conn ed.nodes_ q) ∧
      (connection.connections_ = 0 →
        ∀ q, (get_conn (display_input G m node index ed).nodes_ q).map
            (fun x => x.connections_) =
          (get_conn ed.nodes_ q).map (fun x => x.connections_))) := by
  obtain ⟨hst, hnodes, hcalls⟩ := display_input_start_drag G m node index ed hh hcl hel
  have hbind : (get_conn ed.nodes_ ⟨node, false, index⟩).bind
      (fun connection => connection.input_) = connection.input_ := by
    rw [hget]; rfl
  refine ⟨hst, ?_, ?_, ?_⟩
  · rw [hnodes, get_conn_modify_conn, if_pos rfl]
    cases hin : connection.input_ with
    | none =>
      have hrem : remove_inbound ⟨node, false, index⟩ ed = ed := by
        simp only [remove_inbound, hbind, hin]
      rw [hrem, hget]
      rfl
    | some source =>
      obtain ⟨n, hn, hmem⟩ := get_conn_input_mem (p := ⟨node, false, index⟩) rfl hget
      have hout : source.is_output = true := (hok.1 n hn connection hmem).2 source hin
      have hne : (⟨node, false, index⟩ : ConnPtr) ≠ source := by
        intro e
        rw [← e] at hout
        cases hout
      have hrem : (remove_inbound ⟨node, false, index⟩ ed).nodes_ =
          modify_conn source Connection.dec ed.nodes_ := by
        simp only [remove_inbound, hbind, hin]
      rw [hrem, get_conn_modify_conn, if_neg hne, hget]
      rfl
  · intro source hin
    obtain ⟨n, hn, hmem⟩ := get_conn_input_mem (p := ⟨node, false, index⟩) rfl hget
    have hout : source.is_output = true := (hok.1 n hn connection hmem).2 source hin
    have hne : source ≠ (⟨node, false, index⟩ : ConnPtr) := by
      intro e
      rw [e] at hout
      cases hout
    have hrem : (remove_inbound ⟨node, false, index⟩ ed).nodes_ =
        modify_conn source Connection.dec ed.nodes_ := by
      simp only [remove_inbound, hbind, hin]
    refine ⟨?_, ?_, ?_⟩
    · rw [hcalls, remove_inbound_calls, hbind, hin]
      rfl
    · rw [hnodes, get_conn_modify_conn, if_neg hne, hrem, get_conn_modify_conn, if_pos rfl]
      cases get_conn ed.nodes_ source <;> rfl
    · intro q hq1 hq2
      rw [hnodes, get_conn_modify_conn, if_neg hq2, hrem, get_conn_modify_conn, if_neg hq1]
  · intro hin
    have hrem : remove_inbound ⟨node, false, index⟩ ed = ed := by
      simp only [remove_inbound, hbind, hin]
    refine ⟨by rw [hcalls, hrem], ?_, ?_⟩
    · intro q hq
      rw [hnodes, hrem, get_conn_modify_conn, if_neg hq]
    · intro h0 q
      rw [hnodes, hrem, get_conn_modify_conn]
      by_cases hq : q = ⟨node, false, index⟩
      · rw [if_pos hq, hq, hget]
        simp [Connection.clear, h0]
      · rw [if_neg hq]

/-- C18, at the editor in which `A.out` feeds `C.in`: pressing the mouse on `C.in`
issues the one call `disconnect(A.out, C.in)`, takes the count of `A.out` from 1 to 0
and leaves `C.in` without source and with the count 0. -/
theorem C18_start_drag_input_witness :
    (display_input permissive mouse_pressed 3 0 connected_ac).gf_calls =
      connected_ac.gf_calls ++ [.disconnect a_out ⟨3, false, 0⟩] ∧
    (get_conn connected_ac.nodes_ a_out).map (fun x => x.connections_) = some 1 ∧
    (get_conn (display_input permissive mouse_pressed 3 0 connected_ac).nodes_ a_out).map
      (fun x => x.connections_) = some 0 ∧
    (get_conn (display_input permissive mouse_pressed 3 0 connected_ac).nodes_
      ⟨3, false, 0⟩).map (fun x => (x.target_, x.input_, x.connections_)) =
        some (none, none, 0) := by
  have h := C18_start_drag_input permissive mouse_pressed 3 0 connected_ac
    { name_ := "in", family := .GF_SINGLE_FEATURE, target_ := some 1, input_ := some a_out,
      connections_ := 1 }
    (gestures_ok permissive _ Nodes.init connectors_ok_init)
    (by decide) (by decide) (by decide) (by decide)
  exact ⟨(h.2.2.1 a_out rfl).1, by decide, by decide, by decide⟩

/-! ## The first view of an existing graph -/

theorem modify_conn_addr (p : ConnPtr) (f : Connection → Connection) (nodes : List GuiNode) :
    (modify_conn p f nodes).map (fun n => n.addr) = nodes.map (fun n => n.addr) := by
  unfold modify_conn
  rw [List.map_map]
  apply List.map_congr_left
  intro n _
  simp only [Function.comp]
  split
  · split <;> rfl
  · rfl

theorem modify_conn_of_not_mem (p : ConnPtr) (f : Connection → Connection)
    (nodes : List GuiNode) (h : p.node ∉ nodes.map (fun n => n.addr)) :
    modify_conn p f nodes = nodes := by
  unfold modify_conn
  conv_rhs => rw [← List.map_id nodes]
  apply List.map_congr_left
  intro n hn
  have : n.addr ≠ p.node := fun e => h (e ▸ List.mem_map_of_mem (fun n => n.addr) hn)
  simp [this]

/-- Changing an output connector changes no curve. -/
theorem RenderLines_modify_output (p : ConnPtr) (hp : p.is_output = true)
    (f : Connection → Connection) (nodes : List GuiNode) :
    RenderLines (modify_conn p f nodes) = RenderLines nodes := by
  unfold RenderLines modify_conn
  rw [List.flatMap_map]
  apply flatMap_congr_mem
  intro n _
  simp only [hp, if_true]
  split <;> rfl

theorem countP_modify_at_same (f : Connection → Connection)
    (hf : ∀ c, (f c).connections_ = c.connections_) (k : Nat) (l : List Connection) :
    (modify_at f k l).countP (fun c => c.connections_ ≠ 0) =
      l.countP (fun c => c.connections_ ≠ 0) := by
  induction l generalizing k with
  | nil => cases k <;> rfl
  | cons c rest ih =>
    cases k with
    | zero =>
      show List.countP _ (f c :: rest) = List.countP _ (c :: rest)
      rw [List.countP_cons, List.countP_cons, hf]
    | succ k =>
      show List.countP _ (c :: modify_at f k rest) = List.countP _ (c :: rest)
      rw [List.countP_cons, List.countP_cons, ih]

theorem filter_modify_at_same (f : Connection → Connection)
    (hf : ∀ c, (f c).connections_ = c.connections_) (k : Nat) (l : List Connection) :
    ((modify_at f k l).filter (fun c => c.connections_ ≠ 0)).length =
      (l.filter (fun c => c.connections_ ≠ 0)).length := by
  rw [← List.countP_eq_length_filter, ← List.countP_eq_length_filter]
  exact countP_modify_at_same f hf k l

theorem countP_modify_at_inc (k : Nat) (l : List Connection) (c : Connection)
    (hget : l.get? k = some c) (h0 : c.connections_ = 0) :
    (modify_at Connection.inc k l).countP (fun c => c.connections_ ≠ 0) =
      l.countP (fun c => c.connections_ ≠ 0) + 1 := by
  induction l generalizing k with
  | nil => simp at hget
  | cons c0 rest ih =>
    cases k with
    | zero =>
      simp only [List.get?_cons_zero, Option.some.injEq] at hget
      subst hget
      show List.countP _ (Connection.inc c0 :: rest) = List.countP _ (c0 :: rest) + 1
      rw [List.countP_cons, List.countP_cons]
      simp [Connection.inc, h0]
    | succ k =>
      simp only [List.get?_cons_succ] at hget
      show List.countP _ (c0 :: modify_at Connection.inc k rest) = List.countP _ (c0 :: rest) + 1
      rw [List.countP_cons, List.countP_cons, ih k hget]
      omega

theorem filter_modify_at_inc (k : Nat) (l : List Connection) (c : Connection)
    (hget : l.get? k = some c) (h0 : c.connections_ = 0) :
    ((modify_at Connection.inc k l).filter (fun c => c.connections_ ≠ 0)).length =
      (l.filter (fun c => c.connections_ ≠ 0)).length + 1 := by
  rw [← List.countP_eq_length_filter, ← List.countP_eq_length_filter]
  exact countP_modify_at_inc k l c hget h0

theorem RenderLines_cons (n : GuiNode) (rest : List GuiNode) :
    (RenderLines (n :: rest)).length =
      (n.inputs_.filter (fun c => c.connections_ ≠ 0)).length + (RenderLines rest).length := by
  simp [RenderLines]

/-- Changing an input connector without changing its count changes no number of
curves. -/
theorem RenderLines_modify_same (p : ConnPtr) (f : Connection → Connection)
    (hf : ∀ c, (f c).connections_ = c.connections_) (nodes : List GuiNode) :
    (RenderLines (modify_conn p f nodes)).length = (RenderLines nodes).length := by
  induction nodes with
  | nil => rfl
  | cons n rest ih =>
    have hcons : modify_conn p f (n :: rest) =
        (if n.addr = p.node then
          if p.is_output then { n with outputs_ := modify_at f p.index n.outputs_ }
          else { n with inputs_ := modify_at f p.index n.inputs_ }
        else n) :: modify_conn p f rest := rfl
    rw [hcons, RenderLines_cons, RenderLines_cons, ih]
    congr 1
    split
    · split
      · rfl
      · exact filter_modify_at_same f hf _ _
    · rfl

/-- Raising the count of an unconnected input connector adds one curve. -/
theorem RenderLines_modify_inc (p : ConnPtr) (hp : p.is_output = false)
    (nodes : List GuiNode) (hnd : (nodes.map (fun n => n.addr)).Nodup) (c : Connection)
    (hget : get_conn nodes p = some c) (h0 : c.connections_ = 0) :
    (RenderLines (modify_conn p Connection.inc nodes)).length =
      (RenderLines nodes).length + 1 := by
  induction nodes with
  | nil => simp [get_conn] at hget
  | cons n rest ih =>
    have hcons : modify_conn p Connection.inc (n :: rest) =
        (if n.addr = p.node then
          if p.is_output then { n with outputs_ := modify_at Connection.inc p.index n.outputs_ }
          else { n with inputs_ := modify_at Connection.inc p.index n.inputs_ }
        else n) :: modify_conn p Connection.inc rest := rfl
    simp only [List.map_cons, List.nodup_cons] at hnd
    rw [hcons, RenderLines_cons, RenderLines_cons]
    by_cases ha : n.addr = p.node
    · have hrest : modify_conn p Connection.inc rest = rest :=
        modify_conn_of_not_mem p _ rest (ha ▸ hnd.1)
      have hg : n.inputs_.get? p.index = some c := by
        simpa [get_conn, List.find?_cons, ha, hp] using hget
      rw [hrest]
      simp only [ha, if_true, hp, Bool.false_eq_true, if_false]
      rw [filter_modify_at_inc _ _ c hg h0]
      omega
    · have hg : get_conn rest p = some c := by
        simpa [get_conn, List.find?_cons, ha] using hget
      simp only [ha, if_false]
      rw [ih hnd.2 hg]
      omega

theorem restore_link_eq {im om : List (String × (Nat × ConnPtr))} {link : Link} {ed : Nodes}
    {ns nt : Nat} {cs ct : ConnPtr}
    (hs : map_find link.source om = some (ns, cs))
    (ht : map_find link.target im = some (nt, ct)) :
    restore_link im om link ed = some
      { ed with
        nodes_ := modify_conn ct Connection.inc (modify_conn cs Connection.inc
          (modify_conn ct (Connection.point_to ns cs)
            (modify_conn cs (Connection.point_to nt ct) ed.nodes_))),
        gf_calls := ed.gf_calls ++ [.connect cs ct, .run ct.node] } := by
  unfold restore_link
  rw [hs, ht]

theorem restore_link_some {im om : List (String × (Nat × ConnPtr))} {link : Link}
    {ed ed1 : Nodes} (h : restore_link im om link ed = some ed1) :
    ∃ ns cs nt ct, map_find link.source om = some (ns, cs) ∧
      map_find link.target im = some (nt, ct) := by
  unfold restore_link at h
  cases hs : map_find link.source om with
  | none => simp [hs] at h
  | some s =>
    cases ht : map_find link.target im with
    | none => simp [hs, ht] at h
    | some t => exact ⟨s.1, s.2, t.1, t.2, rfl, rfl⟩

/-- What one tuple changes on the connectors. -/
theorem restore_link_conn {im om : List (String × (Nat × ConnPtr))} {link : Link}
    {ed ed1 : Nodes} {ns nt : Nat} {cs ct : ConnPtr}
    (hs : map_find link.source om = some (ns, cs))
    (ht : map_find link.target im = some (nt, ct)) (hne : cs ≠ ct)
    (h : restore_link im om link ed = some ed1) :
    get_conn ed1.nodes_ cs =
      (get_conn ed.nodes_ cs).map (fun c => (c.point_to nt ct).inc) ∧
    get_conn ed1.nodes_ ct =
      (get_conn ed.nodes_ ct).map (fun c => (c.point_to ns cs).inc) ∧
    (∀ q, q ≠ cs → q ≠ ct → get_conn ed1.nodes_ q = get_conn ed.nodes_ q) ∧
    ed1.gf_calls = ed.gf_calls ++ [.connect cs ct, .run ct.node] := by
  rw [restore_link_eq hs ht] at h
  cases h
  have hne' : ct ≠ cs := fun e => hne e.symm
  refine ⟨?_, ?_, ?_, rfl⟩
  · simp only [get_conn_modify_conn, hne, if_false, if_true, Option.map_map]
    rfl
  · simp only [get_conn_modify_conn, hne', if_false, if_true, Option.map_map]
    rfl
  · intro q h1 h2
    simp only [get_conn_modify_conn, h1, h2, if_false]

theorem restore_links_calls (im om : List (String × (Nat × ConnPtr))) (links : List Link) :
    ∀ ed ed' : Nodes, restore_links im om links ed = some ed' →
      ed'.gf_calls = ed.gf_calls ++ links.flatMap (link_calls im om) := by
  induction links with
  | nil =>
    intro ed ed' h
    simp only [restore_links, Option.some.injEq] at h
    subst h
    simp
  | cons link rest ih =>
    intro ed ed' h
    unfold restore_links at h
    cases h1 : restore_link im om link ed with
    | none => simp [h1] at h
    | some ed1 =>
      simp only [h1] at h
      obtain ⟨ns, cs, nt, ct, hs, ht⟩ := restore_link_some h1
      rw [restore_link_eq hs ht] at h1
      cases h1
      rw [ih _ _ h]
      simp [link_calls, hs, ht]

/-- The number of curves after the loop over the tuples, when the tuples are resolved
to pairwise different input connectors, all unconnected before. -/
theorem restore_links_shown (im om : List (String × (Nat × ConnPtr)))
    (hom : ∀ key ns cs, map_find key om = some (ns, cs) → cs.is_output = true)
    (him : ∀ key nt ct, map_find key im = some (nt, ct) → ct.is_output = false)
    (links : List Link) :
    ∀ ed ed' : Nodes, (ed.nodes_.map (fun n => n.addr)).Nodup →
      (links.map (link_target im)).Nodup →
      (∀ l ∈ links, ∀ nt ct, map_find l.target im = some (nt, ct) →
        ∃ c, get_conn ed.nodes_ ct = some c ∧ c.connections_ = 0) →
      restore_links im om links ed = some ed' →
      (RenderLines ed'.nodes_).length = (RenderLines ed.nodes_).length + links.length := by
  induction links with
  | nil =>
    intro ed ed' _ _ _ h
    simp only [restore_links, Option.some.injEq] at h
    subst h
    rfl
  | cons link rest ih =>
    intro ed ed' haddr hnd hval h
    unfold restore_links at h
    cases h1 : restore_link im om link ed with
    | none => simp [h1] at h
    | some ed1 =>
      simp only [h1] at h
      obtain ⟨ns, cs, nt, ct, hs, ht⟩ := restore_link_some h1
      have hcs := hom _ _ _ hs
      have hct := him _ _ _ ht
      have hne : cs ≠ ct := by
        intro e
        rw [e, hct] at hcs
        cases hcs
      obtain ⟨hc1, hc2, hframe, _⟩ := restore_link_conn hs ht hne h1
      obtain ⟨c, hget, h0⟩ := hval link (List.mem_cons_self _ _) nt ct ht
      simp only [List.map_cons, List.nodup_cons] at hnd
      have hne' : ct ≠ cs := fun e => hne e.symm
      have hlen : (RenderLines ed1.nodes_).length = (RenderLines ed.nodes_).length + 1 := by
        rw [restore_link_eq hs ht] at h1
        cases h1
        show (RenderLines (modify_conn ct Connection.inc _)).length = _
        rw [RenderLines_modify_inc ct hct _ (by simp only [modify_conn_addr]; exact haddr)
          (c.point_to ns cs) (by
            simp only [get_conn_modify_conn, hne', if_false, if_true, hget,
              Option.map_some']) h0,
          RenderLines_modify_output cs hcs,
          RenderLines_modify_same ct (Connection.point_to ns cs) (fun _ => rfl),
          RenderLines_modify_output cs hcs]
      have haddr1 : (ed1.nodes_.map (fun n => n.addr)).Nodup := by
        rw [restore_link_eq hs ht] at h1
        cases h1
        simp only [modify_conn_addr]
        exact haddr
      have hval1 : ∀ l ∈ rest, ∀ nt' ct', map_find l.target im = some (nt', ct') →
          ∃ c, get_conn ed1.nodes_ ct' = some c ∧ c.connections_ = 0 := by
        intro l hl nt' ct' ht'
        obtain ⟨c', hget', h0'⟩ := hval l (List.mem_cons_of_mem _ hl) nt' ct' ht'
        have hct' := him _ _ _ ht'
        have hne1 : ct' ≠ cs := by
          intro e
          rw [← e, hct'] at hcs
          cases hcs
        have hne2 : ct' ≠ ct := by
          intro e
          apply hnd.1
          have : link_target im link = link_target im l := by
            simp only [link_target, ht, ht', Option.map_some', e]
          rw [this]
          exact List.mem_map_of_mem _ hl
        exact ⟨c', by rw [hframe ct' hne1 hne2]; exact hget', h0'⟩
      rw [ih ed1 ed' haddr1 hnd.2 hval1 h, hlen, List.length_cons]
      omega

theorem set_all_append {α : Type} (e1 e2 : List (String × α)) :
    ∀ (m : List (String × α)), set_all (e1 ++ e2) m = set_all e2 (set_all e1 m) := by
  induction e1 with
  | nil => intro m; rfl
  | cons e rest ih =>
    obtain ⟨k0, v0⟩ := e
    intro m
    show set_all (rest ++ e2) (map_set k0 v0 m) = set_all e2 (set_all rest (map_set k0 v0 m))
    exact ih _

theorem map_find_set_all_frame {α : Type} (entries : List (String × α)) :
    ∀ (m : List (String × α)) (k : String), k ∉ entries.map Prod.fst →
      map_find k (set_all entries m) = map_find k m := by
  induction entries with
  | nil => intro m k _; rfl
  | cons e rest ih =>
    obtain ⟨k0, v0⟩ := e
    intro m k hk
    simp only [List.map_cons, List.mem_cons, not_or] at hk
    show map_find k (set_all rest (map_set k0 v0 m)) = map_find k m
    rw [ih _ k hk.2, map_find_map_set]
    simp [hk.1]

theorem map_find_set_all {α : Type} (entries : List (String × α)) :
    ∀ (m : List (String × α)) (k : String) (v : α), (entries.map Prod.fst).Nodup →
      (k, v) ∈ entries → map_find k (set_all entries m) = some v := by
  induction entries with
  | nil => intro m k v _ hm; simp at hm
  | cons e rest ih =>
    obtain ⟨k0, v0⟩ := e
    intro m k v hnd hm
    simp only [List.map_cons, List.nodup_cons] at hnd
    show map_find k (set_all rest (map_set k0 v0 m)) = some v
    rcases List.mem_cons.1 hm with heq | hrest
    · rw [(Prod.mk.inj heq).1, (Prod.mk.inj heq).2, map_find_set_all_frame rest _ k0 hnd.1,
        map_find_map_set]
      simp
    · exact ih _ k v hnd.2 hrest

theorem mem_of_map_find_set_all {α : Type} (entries : List (String × α)) :
    ∀ (m : List (String × α)) (k : String) (v : α),
      map_find k (set_all entries m) = some v → (k, v) ∈ entries ∨ map_find k m = some v := by
  induction entries with
  | nil => intro m k v h; exact Or.inr h
  | cons e rest ih =>
    obtain ⟨k0, v0⟩ := e
    intro m k v h
    have h' : map_find k (set_all rest (map_set k0 v0 m)) = some v := h
    rcases ih _ k v h' with hm | hf
    · exact Or.inl (List.mem_cons_of_mem _ hm)
    · rw [map_find_map_set] at hf
      by_cases hk : k = k0
      · simp only [hk, if_true, Option.some.injEq] at hf
        left
        rw [hk, ← hf]
        exact List.mem_cons_self _ _
      · simp only [hk, if_false] at hf
        exact Or.inr hf

theorem map_connectors_eq (is_output : Bool) (node : GuiNode) (conns : List Connection) :
    ∀ (k : Nat) (m : List (String × (Nat × ConnPtr))),
      map_connectors is_output node conns k m =
        set_all (connector_entries is_output node conns k) m := by
  induction conns with
  | nil => intro k m; rfl
  | cons c rest ih =>
    intro k m
    show map_connectors is_output node rest (k + 1) _ = _
    rw [ih]
    rfl

theorem map_nodes_eq (nodes : List GuiNode) :
    ∀ (im om : List (String × (Nat × ConnPtr))),
      map_nodes nodes (im, om) =
        (set_all (nodes.flatMap (fun n => connector_entries false n n.inputs_ 0)) im,
         set_all (nodes.flatMap (fun n => connector_entries true n n.outputs_ 0)) om) := by
  induction nodes with
  | nil => intro im om; rfl
  | cons n rest ih =>
    intro im om
    show map_nodes rest _ = _
    rw [ih, map_connectors_eq, map_connectors_eq]
    simp only [List.flatMap_cons, set_all_append]

theorem connector_entries_keys (is_output : Bool) (node : GuiNode) (conns : List Connection)
    (k : Nat) :
    (connector_entries is_output node conns k).map Prod.fst =
      conns.map (fun c => node.name_ ++ c.name_) := by
  induction conns generalizing k with
  | nil => rfl
  | cons c rest ih =>
    simp only [connector_entries, List.enumFrom_cons, List.map_cons, List.cons.injEq,
      true_and]
    exact ih (k + 1)

theorem flatMap_entries_keys (is_output : Bool) (nodes : List GuiNode) :
    (nodes.flatMap (fun n => connector_entries is_output n
      (if is_output then n.outputs_ else n.inputs_) 0)).map Prod.fst =
      connector_keys is_output nodes := by
  induction nodes with
  | nil => rfl
  | cons n rest ih =>
    simp only [List.flatMap_cons, List.map_append, ih, connector_entries_keys, connector_keys]

theorem mem_connector_entries {is_output : Bool} {node : GuiNode} {conns : List Connection}
    {key : String} {a : Nat} {p : ConnPtr}
    (h : (key, (a, p)) ∈ connector_entries is_output node conns 0) :
    a = node.addr ∧ p.node = node.addr ∧ p.is_output = is_output ∧
      ∃ c, conns.get? p.index = some c ∧ key = node.name_ ++ c.name_ := by
  unfold connector_entries at h
  obtain ⟨⟨j, c⟩, hm, heq⟩ := List.mem_map.1 h
  simp only [Prod.mk.injEq] at heq
  obtain ⟨hk, ha, hp⟩ := heq
  subst hp
  have := List.mk_mem_enumFrom_iff_le_and_getElem?_sub.1 hm
  refine ⟨ha.symm, rfl, rfl, c, ?_, hk.symm⟩
  simpa using this.2

theorem find_addr_of_nodup {nodes : List GuiNode} (hnd : (nodes.map (fun n => n.addr)).Nodup)
    {n : GuiNode} (hn : n ∈ nodes) :
    nodes.find? (fun m => m.addr = n.addr) = some n := by
  induction nodes with
  | nil => simp at hn
  | cons m rest ih =>
    simp only [List.map_cons, List.nodup_cons] at hnd
    rcases List.mem_cons.1 hn with heq | hrest
    · subst heq
      simp [List.find?_cons]
    · have hne : m.addr ≠ n.addr := by
        intro e
        exact hnd.1 (e ▸ List.mem_map_of_mem (fun n => n.addr) hrest)
      simp only [List.find?_cons, hne, decide_False]
      exact ih hnd.2 hrest

/-- What an entry of the two maps is: the connector at some position of some node,
under the key made of the name of the node and the name of the connector. -/
theorem map_nodes_entry {nodes : List GuiNode}
    (hnd : (nodes.map (fun n => n.addr)).Nodup) (is_output : Bool) {key : String} {a : Nat}
    {p : ConnPtr}
    (h : map_find key (if is_output then (map_nodes nodes ([], [])).2
      else (map_nodes nodes ([], [])).1) = some (a, p)) :
    a = p.node ∧ p.is_output = is_output ∧
      ∃ n ∈ nodes, ∃ c, n.addr = p.node ∧ get_conn nodes p = some c ∧
        (if is_output then n.outputs_ else n.inputs_).get? p.index = some c ∧
        key = n.name_ ++ c.name_ := by
  rw [map_nodes_eq] at h
  have hmem : ∃ n ∈ nodes, (key, (a, p)) ∈ connector_entries is_output n
      (if is_output then n.outputs_ else n.inputs_) 0 := by
    cases is_output with
    | true =>
      simp only [if_true] at h ⊢
      rcases mem_of_map_find_set_all _ _ _ _ h with hm | hf
      · exact List.mem_flatMap.1 hm
      · simp [map_find] at hf
    | false =>
      simp only [Bool.false_eq_true, if_false] at h ⊢
      rcases mem_of_map_find_set_all _ _ _ _ h with hm | hf
      · exact List.mem_flatMap.1 hm
      · simp [map_find] at hf
  obtain ⟨n, hn, hm⟩ := hmem
  obtain ⟨ha, hp, hout, c, hget, hkey⟩ := mem_connector_entries hm
  refine ⟨by rw [ha, hp], hout, n, hn, c, hp.symm, ?_, hget, hkey⟩
  unfold get_conn
  rw [hp, find_addr_of_nodup hnd hn]
  cases is_output with
  | true => simpa [hout] using hget
  | false => simpa [hout] using hget

/-- With keys that differ from each other, a connector is found under its key. -/
theorem map_nodes_find {nodes : List GuiNode} (is_output : Bool)
    (hkeys : (connector_keys is_output nodes).Nodup) {n : GuiNode} (hn : n ∈ nodes)
    {k : Nat} {c : Connection}
    (hget : (if is_output then n.outputs_ else n.inputs_).get? k = some c) :
    map_find (n.name_ ++ c.name_) (if is_output then (map_nodes nodes ([], [])).2
      else (map_nodes nodes ([], [])).1) = some (n.addr, ⟨n.addr, is_output, k⟩) := by
  rw [map_nodes_eq]
  have hm : (n.name_ ++ c.name_, (n.addr, (⟨n.addr, is_output, k⟩ : ConnPtr))) ∈
      nodes.flatMap (fun n => connector_entries is_output n
        (if is_output then n.outputs_ else n.inputs_) 0) := by
    refine List.mem_flatMap.2 ⟨n, hn, ?_⟩
    unfold connector_entries
    refine List.mem_map.2 ⟨(k, c), ?_, rfl⟩
    exact List.mk_mem_enumFrom_iff_le_and_getElem?_sub.2 ⟨Nat.zero_le _, by simpa using hget⟩
  have := map_find_set_all _ [] _ _ (by rw [flatMap_entries_keys]; exact hkeys) hm
  cases is_output with
  | true => simpa using this
  | false => simpa using this

theorem create_all_nodes (gs : List GfNode) :
    ∀ ed : Nodes,
      (create_all gs ed).nodes_.map (fun n => (n.addr, n.name_, n.inputs_, n.outputs_)) =
        ed.nodes_.map (fun n => (n.addr, n.name_, n.inputs_, n.outputs_)) ++
          gs.map (fun g => (g.addr, g.name, g.inputs.map new_connection,
            g.outputs.map new_connection)) := by
  induction gs with
  | nil => intro ed; simp [create_all]
  | cons g rest ih =>
    intro ed
    show (create_all rest _).nodes_.map _ = _
    rw [ih]
    simp [CreateNodeFromHandle]

theorem RenderLines_of_unconnected (nodes : List GuiNode)
    (h : ∀ n ∈ nodes, ∀ c ∈ n.inputs_, c.connections_ = 0) : RenderLines nodes = [] := by
  unfold RenderLines
  rw [List.flatMap_eq_nil_iff]
  intro n hn
  rw [List.map_eq_nil_iff, List.filter_eq_nil_iff]
  intro c hc
  simp [h n hn c hc]

/-- The nodes of a fresh view: their addresses are those of the nodes of the engine,
and no input connector is connected. -/
theorem create_all_init (gs : List GfNode) :
    (create_all gs Nodes.init).nodes_.map (fun n => n.addr) = gs.map (fun g => g.addr) ∧
    ∀ n ∈ (create_all gs Nodes.init).nodes_, ∀ c ∈ n.inputs_, c.connections_ = 0 := by
  have h := create_all_nodes gs Nodes.init
  simp only [Nodes.init, List.map_nil, List.nil_append] at h
  constructor
  · have := congrArg (List.map (fun q : Nat × String × List Connection × List Connection =>
      q.1)) h
    simpa [List.map_map, Function.comp] using this
  · intro n hn c hc
    have hm : (n.addr, n.name_, n.inputs_, n.outputs_) ∈
        gs.map (fun g => (g.addr, g.name, g.inputs.map new_connection,
          g.outputs.map new_connection)) := by
      rw [← h]
      exact List.mem_map_of_mem _ hn
    obtain ⟨g, _, hg⟩ := List.mem_map.1 hm
    simp only [Prod.mk.injEq] at hg
    rw [← hg.2.2.1] at hc
    obtain ⟨t, _, ht⟩ := List.mem_map.1 hc
    rw [← ht]
    rfl

/-- C19 (amended): in the first view of a graph, built from an empty editor for nodes
at different addresses, every tuple of `dump_connections` is read as (source node,
target node, source terminal, target terminal): the output connector found under the
key source node + source terminal and the input connector found under the key target
node + target terminal are pointed at each other, both counts rise by one, and
`connect` and `run` are called once; with keys that differ from each other the
connector found is the one the tuple names. One `connect` is made per tuple, in order.
The view draws one curve per input connector with a count other than 0: as many as
there are tuples when the tuples are resolved to pairwise different input connectors. -/
theorem C19_restore_links (gf_nodes : List GfNode) (links : List Link) (ed' : Nodes)
    (haddr : (gf_nodes.map (fun g => g.addr)).Nodup)
    (h : restore_graph gf_nodes links Nodes.init = some ed') :
    (∀ (link : Link) (ed ed1 : Nodes) (ns nt : Nat) (cs ct : ConnPtr),
      map_find link.source
        (map_nodes (create_all gf_nodes Nodes.init).nodes_ ([], [])).2 = some (ns, cs) →
      map_find link.target
        (map_nodes (create_all gf_nodes Nodes.init).nodes_ ([], [])).1 = some (nt, ct) →
      restore_link (map_nodes (create_all gf_nodes Nodes.init).nodes_ ([], [])).1
        (map_nodes (create_all gf_nodes Nodes.init).nodes_ ([], [])).2 link ed = some ed1 →
      (ns = cs.node ∧ cs.is_output = true ∧ nt = ct.node ∧ ct.is_output = false) ∧
      get_conn ed1.nodes_ cs = (get_conn ed.nodes_ cs).map (fun c =>
        { c with target_ := some nt, input_ := some ct, connections_ := c.connections_ + 1 }) ∧
      get_conn ed1.nodes_ ct = (get_conn ed.nodes_ ct).map (fun c =>
        { c with target_ := some ns, input_ := some cs, connections_ := c.connections_ + 1 }) ∧
      (∀ q, q ≠ cs → q ≠ ct → get_conn ed1.nodes_ q = get_conn ed.nodes_ q) ∧
      ed1.gf_calls = ed.gf_calls ++ [.connect cs ct, .run ct.node]) ∧
    (∀ is_output : Bool,
      (connector_keys is_output (create_all gf_nodes Nodes.init).nodes_).Nodup →
      ∀ n ∈ (create_all gf_nodes Nodes.init).nodes_, ∀ (k : Nat) (c : Connection),
        (if is_output then n.outputs_ else n.inputs_).get? k = some c →
        map_find (n.name_ ++ c.name_)
          (if is_output then (map_nodes (create_all gf_nodes Nodes.init).nodes_ ([], [])).2
           else (map_nodes (create_all gf_nodes Nodes.init).nodes_ ([], [])).1) =
          some (n.addr, ⟨n.addr, is_output, k⟩)) ∧
    ed'.gf_calls = links.flatMap
      (link_calls (map_nodes (create_all gf_nodes Nodes.init).nodes_ ([], [])).1
        (map_nodes (create_all gf_nodes Nodes.init).nodes_ ([], [])).2) ∧
    ((links.map
        (link_target (map_nodes (create_all gf_nodes Nodes.init).nodes_ ([], [])).1)).Nodup →
      (RenderLines ed'.nodes_).length = links.length) := by
  obtain ⟨hadr, hzero⟩ := create_all_init gf_nodes
  have hnd : ((create_all gf_nodes Nodes.init).nodes_.map (fun n => n.addr)).Nodup := by
    rw [hadr]; exact haddr
  have hom : ∀ key ns cs,
      map_find key (map_nodes (create_all gf_nodes Nodes.init).nodes_ ([], [])).2 =
        some (ns, cs) → ns = cs.node ∧ cs.is_output = true := by
    intro key ns cs hf
    obtain ⟨h1, h2, _⟩ := @map_nodes_entry _ hnd true key ns cs (by simpa using hf)
    exact ⟨h1, h2⟩
  have him : ∀ key nt ct,
      map_find key (map_nodes (create_all gf_nodes Nodes.init).nodes_ ([], [])).1 =
        some (nt, ct) → nt = ct.node ∧ ct.is_output = false ∧
          ∃ c, get_conn (create_all gf_nodes Nodes.init).nodes_ ct = some c ∧
            c.connections_ = 0 := by
    intro key nt ct hf
    obtain ⟨h1, h2, n, hn, c, _, hg, hget, _⟩ :=
      @map_nodes_entry _ hnd false key nt ct (by simpa using hf)
    refine ⟨h1, h2, c, hg, hzero n hn c ?_⟩
    simp only [Bool.false_eq_true, if_false] at hget
    exact List.get?_mem hget
  unfold restore_graph at h
  dsimp only at h
  refine ⟨?_, ?_, ?_, ?_⟩
  · intro link ed ed1 ns nt cs ct hs ht hr
    obtain ⟨a1, a2⟩ := hom _ _ _ hs
    obtain ⟨b1, b2, _⟩ := him _ _ _ ht
    have hne : cs ≠ ct := by
      intro e
      rw [e, b2] at a2
      cases a2
    obtain ⟨c1, c2, c3, c4⟩ := restore_link_conn hs ht hne hr
    exact ⟨⟨a1, a2, b1, b2⟩, c1, c2, c3, c4⟩
  · intro is_output hkeys n hn k c hget
    exact map_nodes_find is_output hkeys hn hget
  · have := restore_links_calls _ _ links _ _ h
    rw [this]
    have hinit : (create_all gf_nodes Nodes.init).gf_calls = [] := by
      have : ∀ (gs : List GfNode) (ed : Nodes), (create_all gs ed).gf_calls = ed.gf_calls := by
        intro gs
        induction gs with
        | nil => intro ed; rfl
        | cons g rest ih => intro ed; exact ih _
      rw [this]; rfl
    rw [hinit, List.nil_append]
  · intro hdist
    have := restore_links_shown _ _ (fun key ns cs hf => (hom key ns cs hf).2)
      (fun key nt ct hf => (him key nt ct hf).2.1) links _ _ hnd hdist
      (fun l _ nt ct hf => (him _ nt ct hf).2.2) h
    rw [this, RenderLines_of_unconnected _ hzero]
    simp

/-- C19, at the saved graph with a link from `A.out` to `C.in` and one to `D.in`: two
tuples, two `connect` calls, two curves. -/
theorem C19_restore_links_witness :
    ((restore_graph saved_nodes links_apart Nodes.init).map (fun ed => ed.gf_calls)) =
      some [.connect ⟨1, true, 0⟩ ⟨3, false, 0⟩, .run 3,
        .connect ⟨1, true, 0⟩ ⟨4, false, 0⟩, .run 4] ∧
    (RenderLines ((restore_graph saved_nodes links_apart Nodes.init).getD
      Nodes.init).nodes_).length = links_apart.length :=
  ⟨by decide,
    (C19_restore_links saved_nodes links_apart
      ((restore_graph saved_nodes links_apart Nodes.init).getD Nodes.init)
      (by decide) (by rfl)).2.2.2 (by decide)⟩

/-- C19 as stated fails: the saved graph has two links into the poly input `C.in`; the
view raises the count of `C.in` to 2 and shows one curve for the two tuples. -/
theorem C19_counterexample :
    links_into_c.length = 2 ∧
    (restore_graph saved_nodes links_into_c Nodes.init).map
      (fun ed => (RenderLines ed.nodes_).length) = some 1 ∧
    (restore_graph saved_nodes links_into_c Nodes.init).map
      (fun ed => (get_conn ed.nodes_ ⟨3, false, 0⟩).map
        (fun c => (c.input_, c.connections_))) = some (some (some ⟨2, true, 0⟩, 2)) := by
  decide

/-! ## The text nodes -/

theorem map_find_of_map_update_none {α : Type} (k : String) (f : α → α) :
    ∀ m : List (String × α), map_update k f m = none → map_find k m = none := by
  intro m
  induction m with
  | nil => intro _; rfl
  | cons p rest ih =>
    obtain ⟨k0, v0⟩ := p
    intro hm
    unfold map_update at hm
    by_cases hk : k = k0
    · simp [hk] at hm
    · simp only [hk, if_false, Option.map_eq_none'] at hm
      simp only [map_find, hk, if_false]
      exact ih hm

/-- C20: on a `TextNode` that has its output `value`, `process` completes and leaves on
that output exactly `substitute_globals(value_)`, so never the raw text where the
substitution changes it. On a `TextWriterNode` whose input `value` holds a text,
`process` takes `fname = substitute_globals(filepath_)` and calls
`fs::create_directories` on the parent path of `fname`: if that call throws, as for a
path without a directory part, `process` ends with the exception and no file is opened;
if it returns, `process` completes, having opened `fname` and, when the stream is open,
written the text to it. Every file a completed `process` opens or writes is `fname`,
never the raw `filepath_` where the substitution changes it. -/
theorem C20_text_substituted (substitute_globals parent_path : String → String)
    (F : FileSystem) (text : TextNode) (writer : TextWriterNode) (t : InputTerminal)
    (value : String)
    (hout : (map_find "value" text.output_terminals).isSome = true)
    (hin : map_find "value" writer.input_terminals = some t)
    (hval : t.data.get? 0 = some (some (.text value))) :
    (∃ text', TextNode.process substitute_globals text = .ok text' ∧
      data_of text'.output_terminals "value" =
        [some (.text (substitute_globals text.value_))] ∧
      (substitute_globals text.value_ ≠ text.value_ →
        data_of text'.output_terminals "value" ≠ [some (.text text.value_)])) ∧
    (F.create_directories (parent_path (substitute_globals writer.filepath_)) = true →
      TextWriterNode.process substitute_globals parent_path F writer =
        .ok ([.create_directories (parent_path (substitute_globals writer.filepath_)),
            .ofs_open (substitute_globals writer.filepath_)] ++
          (if F.ofs_open (substitute_globals writer.filepath_) = true then
            [.write (substitute_globals writer.filepath_) value] else []))) ∧
    (F.create_directories (parent_path (substitute_globals writer.filepath_)) = false →
      TextWriterNode.process substitute_globals parent_path F writer =
        .error (.filesystem_error (parent_path (substitute_globals writer.filepath_)))) ∧
    (∀ calls, TextWriterNode.process substitute_globals parent_path F writer = .ok calls →
      (∀ p, FsCall.ofs_open p ∈ calls → p = substitute_globals writer.filepath_) ∧
      (∀ p content, FsCall.write p content ∈ calls →
        p = substitute_globals writer.filepath_ ∧ content = value) ∧
      (substitute_globals writer.filepath_ ≠ writer.filepath_ →
        FsCall.ofs_open writer.filepath_ ∉ calls ∧
        ∀ content, FsCall.write writer.filepath_ content ∉ calls)) := by
  have hproc : TextWriterNode.process substitute_globals parent_path F writer =
      if F.create_directories (parent_path (substitute_globals writer.filepath_)) = true then
        .ok ([.create_directories (parent_path (substitute_globals writer.filepath_)),
            .ofs_open (substitute_globals writer.filepath_)] ++
          (if F.ofs_open (substitute_globals writer.filepath_) = true then
            [.write (substitute_globals writer.filepath_) value] else []))
      else .error (.filesystem_error (parent_path (substitute_globals writer.filepath_))) := by
    unfold TextWriterNode.process
    rw [hin]
    simp only [get_as, hval, Payload.type, if_true]
  have hopen : ∀ calls, TextWriterNode.process substitute_globals parent_path F writer =
        .ok calls →
      (∀ p, FsCall.ofs_open p ∈ calls → p = substitute_globals writer.filepath_) ∧
      (∀ p content, FsCall.write p content ∈ calls →
        p = substitute_globals writer.filepath_ ∧ content = value) := by
    intro calls hc
    rw [hproc] at hc
    by_cases hd : F.create_directories (parent_path (substitute_globals writer.filepath_)) = true
    · rw [if_pos hd, Except.ok.injEq] at hc
      subst hc
      by_cases ho : F.ofs_open (substitute_globals writer.filepath_) = true
      · simp [ho]
      · simp [ho]
    · rw [if_neg hd] at hc
      cases hc
  refine ⟨?_, ?_, ?_, ?_⟩
  · unfold TextNode.process
    cases hu : map_update "value"
        (set_from_any (some (.text (substitute_globals text.value_))))
        text.output_terminals with
    | none =>
      exfalso
      rw [map_find_of_map_update_none _ _ _ hu] at hout
      cases hout
    | some outs =>
      have hf := map_find_map_update hu "value"
      simp only [if_true] at hf
      have hd : data_of outs "value" = [some (.text (substitute_globals text.value_))] := by
        unfold data_of
        rw [hf]
        cases hm : map_find "value" text.output_terminals with
        | none => rw [hm] at hout; cases hout
        | some o => rfl
      refine ⟨_, rfl, hd, ?_⟩
      intro hne
      show data_of outs "value" ≠ _
      rw [hd]
      intro e
      simp only [List.cons.injEq, Option.some.injEq, Payload.text.injEq, and_true] at e
      exact hne e
  · intro hd
    rw [hproc, if_pos hd]
  · intro hd
    rw [hproc, if_neg (by simp [hd])]
  · intro calls hc
    obtain ⟨h1, h2⟩ := hopen calls hc
    refine ⟨h1, h2, fun hne => ⟨fun hm => hne (h1 _ hm).symm, fun content hm => ?_⟩⟩
    exact hne (h2 _ _ hm).1.symm

/-- C20, at the sample nodes: the text `@city` leaves `Delft` on the output; the writer
with the path `out/@city.txt` creates `out` and writes `hello` to `out/Delft.txt`; the
writer with the path `plain.txt`, whose parent path is empty, ends with the exception of
`create_directories`. -/
theorem C20_text_substituted_witness :
    (TextNode.process sample_substitute sample_text).toOption.map
      (fun n => data_of n.output_terminals "value") = some [some (.text "Delft")] ∧
    TextWriterNode.process sample_substitute sample_parent_path sample_fs sample_writer =
      .ok [.create_directories "out", .ofs_open "out/Delft.txt",
        .write "out/Delft.txt" "hello"] ∧
    TextWriterNode.process sample_substitute sample_parent_path sample_fs plain_writer =
      .error (.filesystem_error "") :=
  ⟨by decide,
    (C20_text_substituted sample_substitute sample_parent_path sample_fs sample_text
      sample_writer
      { new_input .GF_SINGLE_FEATURE "value" [.string] with
        has_data := true, data := [some (.text "hello")] } "hello"
      (by decide) (by decide) (by decide)).2.1 (by decide),
    (C20_text_substituted sample_substitute sample_parent_path sample_fs sample_text
      plain_writer
      { new_input .GF_SINGLE_FEATURE "value" [.string] with
        has_data := true, data := [some (.text "hello")] } "hello"
      (by decide) (by decide) (by decide)).2.2.1 (by decide)⟩

/-! ## The input that decides the number of rows -/

theorem key_lt_trans {a b c : String} (h1 : a.data < b.data) (h2 : b.data < c.data) :
    a.data < c.data := lt_trans h1 h2

theorem key_lt_irrefl (a : String) : ¬ a.data < a.data := lt_irrefl _

theorem key_lt_or_lt {a b : String} (h : a ≠ b) : a.data < b.data ∨ b.data < a.data := by
  have : a.data ≠ b.data := fun e => h (String.ext e)
  exact lt_or_gt_of_ne this

theorem mem_map_insert {α : Type} {k : String} {v : α} {m : List (String × α)}
    {b : String × α} (h : b ∈ map_insert k v m) : b = (k, v) ∨ b ∈ m := by
  induction m with
  | nil => simp only [map_insert, List.mem_singleton] at h; exact Or.inl h
  | cons p rest ih =>
    obtain ⟨k0, v0⟩ := p
    unfold map_insert at h
    by_cases hk : k = k0
    · simp only [hk, if_true, List.mem_cons] at h
      rcases h with h | h
      · exact Or.inl (by rw [h, hk])
      · exact Or.inr (List.mem_cons_of_mem _ h)
    · simp only [hk, if_false] at h
      by_cases hlt : k.data < k0.data
      · simp only [hlt, if_true, List.mem_cons] at h
        rcases h with h | h | h
        · exact Or.inl h
        · exact Or.inr (h ▸ List.mem_cons_self _ _)
        · exact Or.inr (List.mem_cons_of_mem _ h)
      · simp only [hlt, if_false, List.mem_cons] at h
        rcases h with h | h
        · exact Or.inr (h ▸ List.mem_cons_self _ _)
        · rcases ih h with h' | h'
          · exact Or.inl h'
          · exact Or.inr (List.mem_cons_of_mem _ h')

/-- Insertion keeps the entries of a map in key order. -/
theorem map_insert_sorted {α : Type} (k : String) (v : α) (m : List (String × α))
    (h : key_sorted m) : key_sorted (map_insert k v m) := by
  unfold key_sorted at h ⊢
  induction m with
  | nil => simp [map_insert]
  | cons p rest ih =>
    obtain ⟨k0, v0⟩ := p
    rw [List.pairwise_cons] at h
    unfold map_insert
    by_cases hk : k = k0
    · simp only [hk, if_true]
      exact List.pairwise_cons.2 ⟨h.1, h.2⟩
    · simp only [hk, if_false]
      by_cases hlt : k.data < k0.data
      · simp only [hlt, if_true]
        refine List.pairwise_cons.2 ⟨?_, List.pairwise_cons.2 h⟩
        intro b hb
        rcases List.mem_cons.1 hb with hb | hb
        · rw [hb]; exact hlt
        · exact key_lt_trans hlt (h.1 b hb)
      · simp only [hlt, if_false]
        refine List.pairwise_cons.2 ⟨?_, ih h.2⟩
        intro b hb
        rcases mem_map_insert hb with hb | hb
        · rw [hb]
          rcases key_lt_or_lt hk with h1 | h1
          · exact absurd h1 hlt
          · exact h1
        · exact h.1 b hb

theorem insert_all_sorted {α : Type} (entries : List (String × α)) :
    ∀ m : List (String × α), key_sorted m → key_sorted (insert_all entries m) := by
  induction entries with
  | nil => intro m h; exact h
  | cons e rest ih =>
    obtain ⟨k0, v0⟩ := e
    intro m h
    exact ih _ (map_insert_sorted k0 v0 m h)

/-- The first entry of a map in key order is the entry of the smallest key. -/
theorem head_of_smallest {α : Type} {m : List (String × α)} (hs : key_sorted m) {k : String}
    {v : α} (hf : map_find k m = some v) (hmin : ∀ p ∈ m, ¬ p.1.data < k.data) :
    m.head? = some (k, v) := by
  cases m with
  | nil => simp [map_find] at hf
  | cons first rest =>
    obtain ⟨k0, v0⟩ := first
    unfold key_sorted at hs
    rw [List.pairwise_cons] at hs
    by_cases hk : k = k0
    · subst hk
      simp only [map_find, if_true, Option.some.injEq] at hf
      rw [hf]
      rfl
    · simp only [map_find, hk, if_false] at hf
      have hmem := mem_of_map_find hf
      exact absurd (hs.1 _ hmem) (hmin (k0, v0) (List.mem_cons_self _ _))

/-- C22: `process` takes N from the first entry of the input terminals in key order,
whatever terminal that is. The input terminals `load_nodes` makes are in key order;
when `<name>.globals` is the smallest name among them, it is the first entry, and N is
the size that terminal reports (for a poly terminal, what the engine reports for its
sub-terminals), not the length of a data input. -/
theorem C22_first_input_decides (E : Engine) (clock : Nat → Int × Int)
    (self self' : NestNode) (glterm : InputTerminal)
    (hl : self.flowchart_loaded = true) (hs : self.use_parallel_processing = false)
    (h : process E clock self = .ok self')
    (hsorted : key_sorted self.input_terminals)
    (hg : map_find (globals_name self) self.input_terminals = some glterm)
    (hmin : ∀ p ∈ self.input_terminals, ¬ p.1.data < (globals_name self).data) :
    self.input_terminals.head? = some (globals_name self, glterm) ∧
    self'.input_size_ = glterm.size E ∧
    (glterm.family = .GF_MULTI_FEATURE →
      self'.input_size_ = E.poly_size glterm.sub_terminals) ∧
    (∀ (F : Disk) (s : NestNode), (load_nodes F s).2 = true →
      key_sorted (load_nodes F s).1.input_terminals) := by
  have hhead := head_of_smallest hsorted hg hmin
  obtain ⟨first, rest, hin, hN, _⟩ := process_ok hl hs h
  rw [hin] at hhead
  simp only [List.head?_cons, Option.some.injEq] at hhead
  have hsize : self'.input_size_ = glterm.size E := by
    rw [hN, hhead]
  refine ⟨by rw [hin, hhead]; rfl, hsize, ?_, ?_⟩
  · intro hf
    rw [hsize]
    simp only [InputTerminal.size, hf]
  · intro F s hload
    rw [(load_nodes_terminals F s hload).1]
    apply insert_all_sorted
    simp [key_sorted]

/-- C22, at the sample named `A`: `A.globals` comes before `Cell.in`, the engine
reports the size 0 for it, and `process` runs no row though `Cell.in` holds three. -/
theorem C22_first_input_decides_witness :
    ((process (scripted_engine doubling) clock0 nest_globals_first).toOption.getD
      nest_doubling).input_size_ = 0 ∧
    (map_find "Cell.in" nest_globals_first.input_terminals).map (fun t => t.data.length) =
      some 3 ∧
    ((process (scripted_engine doubling) clock0 nest_globals_first).toOption.getD
      nest_doubling).calls = [.copy_nested_flowchart] := by
  have h := C22_first_input_decides (scripted_engine doubling) clock0 nest_globals_first
    ((process (scripted_engine doubling) clock0 nest_globals_first).toOption.getD
      nest_doubling) (poly_input_of "A.globals" [])
    (by decide) (by decide) (by rfl)
    (by unfold key_sorted; decide) (by decide) (by decide)
  exact ⟨h.2.1, by decide, by decide⟩

/-! ## The order and the types of the globals of a row -/

theorem gives_global_iff (sterm : SubTerminal) :
    gives_global sterm = (global_type sterm).isSome := by
  unfold gives_global global_type
  cases sterm.types.contains TypeTag.string <;> cases sterm.types.contains TypeTag.int <;>
    cases sterm.types.contains TypeTag.float <;> cases sterm.types.contains TypeTag.bool <;> rfl

/-- One step of the loop over the `.globals` sub-terminals. -/
theorem globals_from_input_cons (i : Nat) (sname : String) (sterm : SubTerminal)
    (rest : List (String × SubTerminal)) (g : List (String × Param)) :
    globals_from_input i ((sname, sterm) :: rest) g =
      match global_type sterm with
      | none => globals_from_input i rest g
      | some T =>
        match get_as T sname sterm.data i with
        | .ok val => globals_from_input i rest (map_insert sname ⟨T, val⟩ g)
        | .error e => .error e := by
  conv_lhs => unfold globals_from_input
  unfold global_type
  cases sterm.types.contains TypeTag.string <;> cases sterm.types.contains TypeTag.int <;>
    cases sterm.types.contains TypeTag.float <;> cases sterm.types.contains TypeTag.bool <;> rfl

/-- The global a sub-terminal of the `.globals` input leaves. -/
theorem globals_from_input_value (i : Nat) (subs : List (String × SubTerminal)) :
    ∀ (g g' : List (String × Param)), globals_from_input i subs g = .ok g' →
      (global_names subs).Nodup →
      ∀ k st T, (k, st) ∈ subs → global_type st = some T →
        ∃ val, get_as T k st.data i = .ok val ∧ map_find k g' = some ⟨T, val⟩ := by
  induction subs with
  | nil => intro g g' _ _ k st T hm; simp at hm
  | cons p rest ih =>
    obtain ⟨sname, sterm⟩ := p
    intro g g' h hnd k st T hm hT
    rw [globals_from_input_cons] at h
    cases hgt : global_type sterm with
    | none =>
      simp only [hgt] at h
      have hg : gives_global sterm = false := by rw [gives_global_iff, hgt]; rfl
      have hnd' : (global_names rest).Nodup := by
        simpa [global_names, List.filter_cons, hg] using hnd
      rcases List.mem_cons.1 hm with heq | hrest
      · rw [(Prod.mk.inj heq).2, hgt] at hT
        cases hT
      · exact ih g g' h hnd' k st T hrest hT
    | some T0 =>
      simp only [hgt] at h
      have hg : gives_global sterm = true := by rw [gives_global_iff, hgt]; rfl
      have hnd' : sname ∉ global_names rest ∧ (global_names rest).Nodup := by
        simpa [global_names, List.filter_cons, hg] using hnd
      cases hv : get_as T0 sname sterm.data i with
      | error e => simp [hv] at h
      | ok val =>
        simp only [hv] at h
        rcases List.mem_cons.1 hm with heq | hrest
        · obtain ⟨hk, hst⟩ := Prod.mk.inj heq
          rw [hst, hgt] at hT
          cases hT
          refine ⟨val, by rw [hk, hst]; exact hv, ?_⟩
          rw [hk, (globals_from_input_frame i rest _ _ h sname).1 hnd'.1, map_find_map_insert]
          simp
        · exact ih _ g' h hnd'.2 k st T hrest hT

/-- The copy of the parent globals is one write per parent global, in their order. -/
theorem copy_globals_eq_foldl (parent : List (String × Param)) :
    ∀ g : List (String × Param),
      copy_globals parent g = parent.foldl (fun g w => map_insert w.1 w.2 g) g := by
  induction parent with
  | nil => intro g; rfl
  | cons p rest ih =>
    obtain ⟨k0, v0⟩ := p
    intro g
    rw [copy_globals, ih, List.foldl_cons]

/-- The loop over the `.globals` sub-terminals is one write per sub-terminal that gives
a global, in their order: its name, the type it gives and its element `i`. -/
theorem globals_from_input_eq_foldl (i : Nat) (subs : List (String × SubTerminal)) :
    ∀ (g g' : List (String × Param)), globals_from_input i subs g = .ok g' →
      ∃ S : List (String × Param),
        List.Forall₂ (fun (w : String × Param) (p : String × SubTerminal) =>
            w.1 = p.1 ∧ global_type p.2 = some w.2.type ∧
            get_as w.2.type p.1 p.2.data i = .ok w.2.value)
          S (subs.filter (fun p => gives_global p.2)) ∧
        ∀ g0 : List (String × Param),
          globals_from_input i subs g0 = .ok (S.foldl (fun g w => map_insert w.1 w.2 g) g0) := by
  induction subs with
  | nil =>
    intro g g' _
    exact ⟨[], List.Forall₂.nil, fun g0 => rfl⟩
  | cons p rest ih =>
    obtain ⟨sname, sterm⟩ := p
    intro g g' h
    rw [globals_from_input_cons] at h
    cases hgt : global_type sterm with
    | none =>
      simp only [hgt] at h
      have hg : gives_global sterm = false := by rw [gives_global_iff, hgt]; rfl
      obtain ⟨S, hS, hfold⟩ := ih g g' h
      refine ⟨S, ?_, fun g0 => ?_⟩
      · simpa [List.filter_cons, hg] using hS
      · rw [globals_from_input_cons, hgt]
        exact hfold g0
    | some T =>
      simp only [hgt] at h
      have hg : gives_global sterm = true := by rw [gives_global_iff, hgt]; rfl
      cases hv : get_as T sname sterm.data i with
      | error e => simp [hv] at h
      | ok val =>
        simp only [hv] at h
        obtain ⟨S, hS, hfold⟩ := ih _ g' h
        refine ⟨(sname, ⟨T, val⟩) :: S, ?_, fun g0 => ?_⟩
        · simp only [List.filter_cons, hg, if_true]
          exact List.Forall₂.cons ⟨rfl, hgt, hv⟩ hS
        · rw [globals_from_input_cons, hgt]
          simp only [hv, List.foldl_cons]
          exact hfold _

/-- C23: the globals of the flowchart iteration `i` runs on are the globals of the
invalidated flowchart after a sequence of writes `global_flowchart_params[name] = value`
in this order: one for every parent global, in their order; then `GF_I` with the decimal
text of `i`; then one for every sub-terminal of the `.globals` input that gives a
global, in their order, with its name, the type it gives and its element `i`. After a
write the name holds the written value and every other name what it held before, so a
later write replaces an earlier one of the same name: a parent global keeps its value
unless it is named `GF_I` or like such a sub-terminal; whatever the parent has under
`GF_I`, the row counter is there unless a sub-terminal is named `GF_I`; and a
sub-terminal named `k` leaves its element `i` under `k`, whatever the parent has under
`k` and also when `k` is `GF_I`. -/
theorem C23_globals_write_order (E : Engine) (self : NestNode) (i : Nat)
    (flowchart prepared : NodeManager)
    (h : row_before_run E self i flowchart = .ok prepared) :
    ∃ (glterm : InputTerminal) (S : List (String × Param)),
      map_find (globals_name self) self.input_terminals = some glterm ∧
      List.Forall₂ (fun (w : String × Param) (p : String × SubTerminal) =>
          w.1 = p.1 ∧ global_type p.2 = some w.2.type ∧
          get_as w.2.type p.1 p.2.data i = .ok w.2.value)
        S (glterm.sub_terminals.filter (fun p => gives_global p.2)) ∧
      prepared.global_flowchart_params =
        (self.manager_globals ++ ("GF_I", ⟨.string, .text (to_string i)⟩) :: S).foldl
          (fun g w => map_insert w.1 w.2 g)
          (E.notify_children proxy_node_name_ flowchart).global_flowchart_params ∧
      (∀ (g : List (String × Param)) (w : String × Param) (k : String),
        map_find k (map_insert w.1 w.2 g) = if k = w.1 then some w.2 else map_find k g) ∧
      (∀ key val, (key, val) ∈ self.manager_globals →
        (self.manager_globals.map Prod.fst).Nodup → key ≠ "GF_I" →
        key ∉ global_names glterm.sub_terminals →
        map_find key prepared.global_flowchart_params = some val) ∧
      ("GF_I" ∉ global_names glterm.sub_terminals →
        map_find "GF_I" prepared.global_flowchart_params =
          some ⟨.string, .text (to_string i)⟩) ∧
      ((global_names glterm.sub_terminals).Nodup →
        ∀ k st T, (k, st) ∈ glterm.sub_terminals → global_type st = some T →
          ∃ val, get_as T k st.data i = .ok val ∧
            map_find k prepared.global_flowchart_params = some ⟨T, val⟩) ∧
      (∀ key, key ∉ self.manager_globals.map Prod.fst → key ≠ "GF_I" →
        key ∉ global_names glterm.sub_terminals →
        map_find key prepared.global_flowchart_params =
          map_find key
            (E.notify_children proxy_node_name_ flowchart).global_flowchart_params) := by
  obtain ⟨glterm, hf, hg⟩ := row_before_run_globals h
  obtain ⟨S, hS, hfold⟩ := globals_from_input_eq_foldl i _ _ _ hg
  refine ⟨glterm, S, hf, hS, ?_, fun g w k => map_find_map_insert w.1 w.2 g k, ?_, ?_, ?_, ?_⟩
  · have h2 := hfold (map_insert "GF_I" ⟨.string, .text (to_string i)⟩
      (copy_globals self.manager_globals
        (E.notify_children proxy_node_name_ flowchart).global_flowchart_params))
    rw [hg, Except.ok.injEq] at h2
    rw [h2, copy_globals_eq_foldl, List.foldl_append, List.foldl_cons]
  · intro key val hm hnd hkey hnames
    rw [(globals_from_input_frame i _ _ _ hg key).1 hnames, map_find_map_insert]
    simp only [hkey, if_false]
    exact copy_globals_find _ _ key val hnd hm
  · intro hnames
    rw [(globals_from_input_frame i _ _ _ hg "GF_I").1 hnames, map_find_map_insert]
    simp
  · intro hnd k st T hm hT
    exact globals_from_input_value i _ _ _ hg hnd k st T hm hT
  · intro key hp hkey hnames
    rw [(globals_from_input_frame i _ _ _ hg key).1 hnames, map_find_map_insert]
    simp only [hkey, if_false]
    exact copy_globals_frame _ _ key hp

/-- C23, at the sample with the parent globals `GF_I = "parent"` and `city = "Delft"` and
the sub-terminal `city`: row 1 runs with `GF_I = "1"` and `city = "Oslo"`, the result of
the writes `GF_I = "parent"`, `city = "Delft"`, `GF_I = "1"`, `city = "Oslo"`; and at
the sample with a sub-terminal `GF_I`, row 1 runs with `GF_I = "y"`. -/
theorem C23_globals_write_order_witness :
    (row_before_run (scripted_engine doubling) nest_overrides 1
        (copy_nested_flowchart nest_overrides)).toOption.map
      (fun fc => fc.global_flowchart_params) =
      some [("GF_I", ⟨.string, .text "1"⟩), ("city", ⟨.string, .text "Oslo"⟩)] ∧
    ([("GF_I", ⟨.string, .text "parent"⟩), ("city", ⟨.string, .text "Delft"⟩),
      ("GF_I", ⟨.string, .text "1"⟩), ("city", ⟨.string, .text "Oslo"⟩)].foldl
        (fun g (w : String × Param) => map_insert w.1 w.2 g) [] =
      [("GF_I", ⟨.string, .text "1"⟩), ("city", ⟨.string, .text "Oslo"⟩)]) ∧
    (row_before_run (scripted_engine doubling) nest_gf_i 1
        (copy_nested_flowchart nest_gf_i)).toOption.map
      (fun fc => fc.global_flowchart_params) = some [("GF_I", ⟨.string, .text "y"⟩)] ∧
    ∃ (glterm : InputTerminal) (S : List (String × Param)),
      map_find (globals_name nest_overrides) nest_overrides.input_terminals = some glterm ∧
      ((row_before_run (scripted_engine doubling) nest_overrides 1
          (copy_nested_flowchart nest_overrides)).toOption.getD
            (copy_nested_flowchart nest_overrides)).global_flowchart_params =
        (nest_overrides.manager_globals ++ ("GF_I", ⟨.string, .text (to_string 1)⟩) :: S).foldl
          (fun g w => map_insert w.1 w.2 g)
          ((scripted_engine doubling).notify_children proxy_node_name_
            (copy_nested_flowchart nest_overrides)).global_flowchart_params := by
  obtain ⟨glterm, S, h1, _, h3, _⟩ :=
    C23_globals_write_order (scripted_engine doubling) nest_overrides 1
      (copy_nested_flowchart nest_overrides)
      ((row_before_run (scripted_engine doubling) nest_overrides 1
        (copy_nested_flowchart nest_overrides)).toOption.getD
          (copy_nested_flowchart nest_overrides)) (by rfl)
  exact ⟨by decide, by decide, by decide, glterm, S, h1, h3⟩

/-- C24: in the loop over the sub-terminals of the `.globals` input a sub-terminal
gives a global exactly when it accepts `std::string`, `int`, `float` or `bool`; the
type of the global is the first of these, in this order, that it accepts, and its
value the element `i` read as that type. A name that no such sub-terminal has keeps
what it had. A sub-terminal that accepts `Date`, `Time` or `DateTime` only, types the
`.globals` input declares, is passed over: no global, no read, no error. -/
theorem C24_global_types (i : Nat) (subs : List (String × SubTerminal))
    (g g' : List (String × Param)) (h : globals_from_input i subs g = .ok g') :
    (∀ key, key ∉ global_names subs → map_find key g' = map_find key g) ∧
    ((global_names subs).Nodup → ∀ k st T, (k, st) ∈ subs → global_type st = some T →
      ∃ val, get_as T k st.data i = .ok val ∧ map_find k g' = some ⟨T, val⟩) ∧
    (∀ k st, (k, st) ∈ subs →
      (k ∈ global_names subs ↔ ∃ st', (k, st') ∈ subs ∧ (global_type st').isSome = true) ∧
      (global_type st = some .string ↔ TypeTag.string ∈ st.types) ∧
      (global_type st = some .int ↔ TypeTag.string ∉ st.types ∧ TypeTag.int ∈ st.types) ∧
      (global_type st = some .float ↔
        TypeTag.string ∉ st.types ∧ TypeTag.int ∉ st.types ∧ TypeTag.float ∈ st.types) ∧
      (global_type st = some .bool ↔
        TypeTag.string ∉ st.types ∧ TypeTag.int ∉ st.types ∧ TypeTag.float ∉ st.types ∧
          TypeTag.bool ∈ st.types)) ∧
    (∀ (s : String) (st : SubTerminal) (rest : List (String × SubTerminal))
        (g0 : List (String × Param)),
      (∀ t ∈ st.types, t = .date ∨ t = .time ∨ t = .datetime) →
      global_type st = none ∧
      globals_from_input i ((s, st) :: rest) g0 = globals_from_input i rest g0) ∧
    TypeTag.date ∈ globals_types ∧ TypeTag.time ∈ globals_types ∧
      TypeTag.datetime ∈ globals_types := by
  refine ⟨fun key hk => (globals_from_input_frame i subs g g' h key).1 hk,
    fun hnd k st T hm hT => globals_from_input_value i subs g g' h hnd k st T hm hT,
    ?_, ?_, by decide, by decide, by decide⟩
  · intro k st _
    refine ⟨?_, ?_, ?_, ?_, ?_⟩
    · simp only [global_names, List.mem_map, List.mem_filter, gives_global_iff]
      constructor
      · rintro ⟨⟨k', st'⟩, ⟨hm, hg⟩, rfl⟩
        exact ⟨st', hm, hg⟩
      · rintro ⟨st', hm, hg⟩
        exact ⟨(k, st'), ⟨hm, hg⟩, rfl⟩
    all_goals
      unfold global_type
      by_cases h1 : TypeTag.string ∈ st.types <;> by_cases h2 : TypeTag.int ∈ st.types <;>
        by_cases h3 : TypeTag.float ∈ st.types <;> by_cases h4 : TypeTag.bool ∈ st.types <;>
        simp [h1, h2, h3, h4]
  · intro s st rest g0 hdate
    have hnone : global_type st = none := by
      have hn : ∀ T : TypeTag, T = .string ∨ T = .int ∨ T = .float ∨ T = .bool →
          st.types.contains T = false := by
        intro T hT
        cases hc : st.types.contains T with
        | false => rfl
        | true =>
          exfalso
          have hmem : T ∈ st.types := by simpa using hc
          rcases hdate T hmem with e | e | e <;> rcases hT with e' | e' | e' | e' <;>
            rw [e] at e' <;> cases e'
      unfold global_type
      rw [hn .string (Or.inl rfl), hn .int (Or.inr (Or.inl rfl)),
        hn .float (Or.inr (Or.inr (Or.inl rfl))), hn .bool (Or.inr (Or.inr (Or.inr rfl)))]
      rfl
    refine ⟨hnone, ?_⟩
    rw [globals_from_input_cons, hnone]

/-- C24, at the sub-terminals `n` (accepts `bool` and `int`) and `when` (accepts `Date`,
no data): row 1 gives the one global `n = 5` of type `int`, and no error. -/
theorem C24_global_types_witness :
    (globals_from_input 1 typed_subs []).toOption = some [("n", ⟨.int, .int 5⟩)] ∧
    ∀ key, key ∉ global_names typed_subs →
      map_find key ((globals_from_input 1 typed_subs []).toOption.getD []) =
        map_find key [] :=
  ⟨by decide,
    (C24_global_types 1 typed_subs [] ((globals_from_input 1 typed_subs []).toOption.getD [])
      (by rfl)).1⟩

/-! ## A flowchart file that is not there -/

/-- C25: when `fs::exists(filepath_)` is false, `load_nodes` returns false and leaves the
node as it is, input terminals, output terminals and nested manager included;
`post_parameter_load` then sets `flowchart_loaded` to false and nothing else; and
`process` on a node whose `flowchart_loaded` is false returns at once with the node
unchanged: no call into the engine, no change of an output. -/
theorem C25_missing_file (F : Disk) (E : Engine) (clock : Nat → Int × Int) (self : NestNode)
    (hfile : F.file_exists self.filepath_ = false) :
    load_nodes F self = (self, false) ∧
    post_parameter_load F self = { self with flowchart_loaded := false } ∧
    process E clock (post_parameter_load F self) = .ok (post_parameter_load F self) ∧
    ∀ s : NestNode, s.flowchart_loaded = false → process E clock s = .ok s := by
  have hload : load_nodes F self = (self, false) := by
    unfold load_nodes
    rw [hfile]
    rfl
  have hproc : ∀ s : NestNode, s.flowchart_loaded = false → process E clock s = .ok s := by
    intro s hs
    unfold process
    rw [hs]
    rfl
  refine ⟨hload, ?_, ?_, hproc⟩
  · unfold post_parameter_load
    rw [hload]
  · apply hproc
    unfold post_parameter_load
    rw [hload]

/-- C25, at the doubling sample without a file: nothing is loaded and `process` leaves
the node, its outputs and its call log as they are. -/
theorem C25_missing_file_witness :
    load_nodes empty_disk nest_doubling = (nest_doubling, false) ∧
    (process (scripted_engine doubling) clock0
      (post_parameter_load empty_disk nest_doubling)).toOption.map
        (fun s => (s.output_terminals, s.calls)) =
      some (nest_doubling.output_terminals, nest_doubling.calls) :=
  ⟨(C25_missing_file empty_disk (scripted_engine doubling) clock0 nest_doubling
      (by decide)).1, by decide⟩

/-! ## Deleting the selected nodes -/

theorem modify_conn_ids (p : ConnPtr) (f : Connection → Connection) (nodes : List GuiNode) :
    (modify_conn p f nodes).map (fun n => (n.addr, n.id_)) =
      nodes.map (fun n => (n.addr, n.id_)) := by
  unfold modify_conn
  rw [List.map_map]
  apply List.map_congr_left
  intro n _
  simp only [Function.comp]
  split
  · split <;> rfl
  · rfl

theorem delete_input_ids (node_id : Int) (p : ConnPtr) (nodes : List GuiNode) :
    (delete_input node_id p nodes).map (fun n => (n.addr, n.id_)) =
      nodes.map (fun n => (n.addr, n.id_)) := by
  unfold delete_input
  cases get_conn nodes p with
  | none => rfl
  | some connection =>
    dsimp only
    split
    · rfl
    · have h1 : (if node_id < 0 then
          match connection.input_ with
          | some source => modify_conn source Connection.dec nodes
          | none => nodes
        else nodes).map (fun n => (n.addr, n.id_)) = nodes.map (fun n => (n.addr, n.id_)) := by
        split
        · cases connection.input_ with
          | none => rfl
          | some source => exact modify_conn_ids _ _ _
        · rfl
      split
      · split
        · rw [modify_conn_ids, h1]
        · exact h1
      · exact h1

theorem delete_fold_ids (ptrs : List (Int × ConnPtr)) :
    ∀ nodes : List GuiNode,
      (ptrs.foldl (fun nodes q => delete_input q.1 q.2 nodes) nodes).map
          (fun n => (n.addr, n.id_)) =
        nodes.map (fun n => (n.addr, n.id_)) := by
  induction ptrs with
  | nil => intro nodes; rfl
  | cons q rest ih =>
    intro nodes
    rw [List.foldl_cons, ih, delete_input_ids]

theorem filter_ids_of_map_eq :
    ∀ (l1 l2 : List GuiNode),
      l1.map (fun n => (n.addr, n.id_)) = l2.map (fun n => (n.addr, n.id_)) →
      (l1.filter (fun n => n.id_ > 0)).map (fun n => (n.addr, n.id_)) =
        (l2.filter (fun n => n.id_ > 0)).map (fun n => (n.addr, n.id_)) := by
  intro l1
  induction l1 with
  | nil =>
    intro l2 h
    cases l2 with
    | nil => rfl
    | cons b r => simp at h
  | cons a r ih =>
    intro l2 h
    cases l2 with
    | nil => simp at h
    | cons b r2 =>
      simp only [List.map_cons, List.cons.injEq, Prod.mk.injEq] at h
      obtain ⟨⟨ha, hid⟩, hr⟩ := h
      simp only [List.filter_cons, hid]
      split
      · simp only [List.map_cons, ha, hid, ih r2 hr]
      · exact ih r2 hr

/-- C26 fails in the code. The deletion keeps exactly the nodes with a positive id, in
their order; but it never changes `target_` or `input_` of an output connector. In the
view of a saved graph the link restore has set both on `A.out`: after the selected
node `C` is deleted, the surviving output `A.out`, its count lowered to 0, still points
to the deleted node `C` and to its connector. -/
theorem C26_output_still_refers_to_deleted (ed : Nodes) :
    (delete_selected ed).nodes_.map (fun n => (n.addr, n.id_)) =
      (ed.nodes_.filter (fun n => n.id_ > 0)).map (fun n => (n.addr, n.id_)) ∧
    selected_c.nodes_.map (fun n => (n.addr, n.id_)) = [(1, 1), (3, -2)] ∧
    selected_c.element_.state_ = .NodesState_Selected ∧
    (Gesture.apply permissive selected_c .delete).nodes_.map (fun n => n.addr) = [1] ∧
    (get_conn (Gesture.apply permissive selected_c .delete).nodes_ ⟨1, true, 0⟩).map
      (fun c => (c.target_, c.input_, c.connections_)) =
      some (some 3, some ⟨3, false, 0⟩, 0) ∧
    get_node (Gesture.apply permissive selected_c .delete).nodes_ 3 = none := by
  refine ⟨?_, by decide, by decide, by decide, by decide, by decide⟩
  unfold delete_selected
  exact filter_ids_of_map_eq _ _ (delete_fold_ids _ _)

/-! ## The keys of the connector maps -/

/-- C30 fails in the code. The keys are the node name directly followed by the
connector name: the input `bc` of the node `a` and the input `c` of the node `ab` both
get the key `abc`, though the node names differ and each node has one input. The later
entry replaces the earlier one in the map, and the dumped link from `x.out` to the
input `bc` of `a` is attached to the input `c` of `ab`; the input of `a` stays
unconnected. -/
theorem C30_keys_collide :
    (colliding_nodes.map (fun g => g.name)).Nodup ∧
    (∀ g ∈ colliding_nodes, (g.inputs.map Prod.fst).Nodup ∧ (g.outputs.map Prod.fst).Nodup) ∧
    connector_keys false (create_all colliding_nodes Nodes.init).nodes_ = ["abc", "abc"] ∧
    map_find "abc" (map_nodes (create_all colliding_nodes Nodes.init).nodes_ ([], [])).1 =
      some (2, ⟨2, false, 0⟩) ∧
    (restore_graph colliding_nodes link_to_a Nodes.init).map
      (fun ed => ((get_conn ed.nodes_ ⟨1, false, 0⟩).map
          (fun c => (c.name_, c.input_, c.connections_)),
        (get_conn ed.nodes_ ⟨2, false, 0⟩).map
          (fun c => (c.name_, c.input_, c.connections_)))) =
      some (some ("bc", none, 0), some ("c", some ⟨3, true, 0⟩, 1)) := by
  decide

/-! ## The cube -/

/-- C29: `CubeNode::process` sets 12 triangles and 36 normals: for each triangle
(a, b, c), in the order of the triangles, three times `cross(b - a, c - b)`. Each of
these normals has exactly one component that is not zero, so it is not zero and
parallel to a coordinate axis, and its dot product with the centroid of its triangle is
positive, so it points out of the cube. Each of the six faces holds exactly two of the
triangles, and these two are (a, b, c) and (c, d, a) with a + c = b + d: they share the
diagonal from a to c of the face and have the two other corners b and d, so together
they cover the face. -/
theorem C29_cube_normals :
    CubeNode_process.1.length = 12 ∧ CubeNode_process.2.length = 36 ∧
    CubeNode_process.2 = CubeNode_process.1.flatMap (fun t =>
      [cross (t.2.1.sub t.1) (t.2.2.sub t.2.1), cross (t.2.1.sub t.1) (t.2.2.sub t.2.1),
       cross (t.2.1.sub t.1) (t.2.2.sub t.2.1)]) ∧
    (∀ t ∈ CubeNode_process.1,
      axis_parallel (cross (t.2.1.sub t.1) (t.2.2.sub t.2.1)) ∧
      0 < dot (cross (t.2.1.sub t.1) (t.2.2.sub t.2.1)) (centroid t)) ∧
    (∀ axis ∈ [0, 1, 2], ∀ side ∈ [(-1 : ℚ), 1],
      CubeNode_process.1.countP (on_face axis side) = 2) ∧
    (∀ axis ∈ [0, 1, 2], ∀ side ∈ [(-1 : ℚ), 1], ∃ a b c d : Vec3,
      CubeNode_process.1.filter (on_face axis side) = [(a, b, c), (c, d, a)] ∧
      a.add c = b.add d) := by
  refine ⟨rfl, rfl, rfl, ?_, ?_, ?_⟩
  · simp only [CubeNode_process, cube_triangles, List.forall_mem_cons, List.not_mem_nil,
      false_implies, implies_true, and_true, axis_parallel, cross, dot, centroid, centroid3,
      Vec3.sub, Vec3.add, p0, p1, p2, p3, p4, p5, p6, p7]
    norm_num
  · simp only [CubeNode_process, cube_triangles, List.forall_mem_cons, List.not_mem_nil,
      false_implies, implies_true, and_true, List.countP_cons, List.countP_nil, on_face,
      p0, p1, p2, p3, p4, p5, p6, p7]
    norm_num
  · simp only [List.forall_mem_cons, List.not_mem_nil, false_implies, implies_true, and_true]
    refine ⟨⟨⟨p3, p0, p4, p7, ?_, ?_⟩, ⟨p1, p2, p6, p5, ?_, ?_⟩⟩,
      ⟨⟨p0, p1, p5, p4, ?_, ?_⟩, ⟨p2, p3, p7, p6, ?_, ?_⟩⟩,
      ⟨⟨p2, p1, p0, p3, ?_, ?_⟩, ⟨p4, p5, p6, p7, ?_, ?_⟩⟩⟩
    all_goals first
      | (simp only [Vec3.add, p0, p1, p2, p3, p4, p5, p6, p7]; norm_num; done)
      | (simp only [CubeNode_process, cube_triangles, on_face, p0, p1, p2, p3, p4, p5, p6,
          p7, List.filter_cons, List.filter_nil]; norm_num)

/-! ## The histogram of the gradient mapper -/

/-- C28 fails in the code. A node with 30 bins whose `u_valmin` is 0 is pushed the values
0, 15, 30: the minimum is 0, the maximum 30, `bin_width` 1; the value 30, the maximum,
gets the bin `floor((30 - 0) / 1) = 30`, which is not below `n_bins`, and is counted in
no bin: the counts sum to 2 for 3 values. Pushed the values 100, 115, 130 next, the
node computes the bins with the minimum 0 of the push before, since `u_valmin` is set
after `compute_histogram` has run: the bins 100, 115, 130 are not below `n_bins` and no
value is counted. -/
theorem C28_histogram_drops_values :
    (GradientMapperNode.on_push [0, 15, 30] sample_gradient).map
      (fun s => (s.minval, s.maxval, s.bin_width, s.histogram.length, s.histogram.sum)) =
      some (0, 30, 1, 30, 2) ∧
    (⌊((30 : ℚ) - 0) / ((30 - 0) / 30)⌋ = 30) ∧
    ((GradientMapperNode.on_push [0, 15, 30] sample_gradient).bind
      (GradientMapperNode.on_push [100, 115, 130])).map
      (fun s => (s.minval, s.maxval, s.bin_width, s.u_valmin, s.histogram.sum)) =
      some (100, 130, 1, 100, 0) := by
  refine ⟨?_, ?_, ?_⟩
  · simp only [GradientMapperNode.on_push, compute_histogram, sample_gradient, List.foldl,
      count_in_bin, Option.map_some']
    norm_num [modify_at, List.replicate]
  · norm_num
  · simp only [GradientMapperNode.on_push, compute_histogram, sample_gradient, List.foldl,
      count_in_bin, Option.map_some', Option.some_bind]
    norm_num [modify_at, List.replicate]

/-! ## The ranks of the color mapper -/

theorem wrap_int_of_small {x : Int} (h0 : 0 ≤ x) (h1 : x < 2147483648) : wrap_int x = x := by
  unfold wrap_int
  omega

/-- The keys of a `std::map<int,int>` are in ascending order. -/
theorem imap_find_of_lt {val : Int} {m : List (Int × Int)}
    (h : ∀ p ∈ m, val < p.1) : imap_find val m = none := by
  induction m with
  | nil => rfl
  | cons p rest ih =>
    obtain ⟨k, c⟩ := p
    have hk : val ≠ k := by
      have := h (k, c) (List.mem_cons_self _ _)
      intro e
      simp only [e, lt_self_iff_false] at this
    simp only [imap_find, hk, if_false]
    exact ih (fun q hq => h q (List.mem_cons_of_mem _ hq))

theorem imap_find_count_value (val : Int) (m : List (Int × Int))
    (hs : m.Pairwise (fun a b => a.1 < b.1)) (v : Int) :
    imap_find v (count_value val m) =
      if v = val then some (wrap_int ((imap_find val m).getD 0 + 1)) else imap_find v m := by
  induction m with
  | nil => by_cases hv : v = val <;> simp [count_value, imap_find, hv]
  | cons p rest ih =>
    obtain ⟨k, c⟩ := p
    rw [List.pairwise_cons] at hs
    unfold count_value
    by_cases hk : val = k
    · subst hk
      by_cases hv : v = val <;> simp [imap_find, hv]
    · simp only [hk, if_false]
      by_cases hlt : val < k
      · simp only [hlt, if_true]
        have hnone : imap_find val ((k, c) :: rest) = none := by
          apply imap_find_of_lt
          intro q hq
          rcases List.mem_cons.1 hq with hq | hq
          · rw [hq]; exact hlt
          · exact lt_trans hlt (hs.1 q hq)
        rw [hnone]
        by_cases hv : v = val
        · simp [imap_find, hv]
        · simp only [hv, if_false]
          conv_lhs => unfold imap_find
          simp only [hv, if_false]
      · simp only [hlt, if_false]
        by_cases hv : v = k
        · subst hv
          have : ¬ v = val := fun e => hk e.symm
          simp [imap_find, this]
        · simp only [imap_find, hv, if_false, hk, ih hs.2]

theorem mem_keys_count_value (val : Int) (m : List (Int × Int)) (x : Int) :
    x ∈ (count_value val m).map Prod.fst ↔ x = val ∨ x ∈ m.map Prod.fst := by
  induction m with
  | nil => simp [count_value]
  | cons p rest ih =>
    obtain ⟨k, c⟩ := p
    unfold count_value
    by_cases hk : val = k
    · subst hk
      simp
    · simp only [hk, if_false]
      by_cases hlt : val < k
      · simp [hlt]
      · simp only [hlt, if_false, List.map_cons, List.mem_cons, ih]
        tauto

theorem count_value_sorted (val : Int) (m : List (Int × Int))
    (hs : m.Pairwise (fun a b => a.1 < b.1)) :
    (count_value val m).Pairwise (fun a b => a.1 < b.1) := by
  induction m with
  | nil => simp [count_value]
  | cons p rest ih =>
    obtain ⟨k, c⟩ := p
    rw [List.pairwise_cons] at hs
    unfold count_value
    by_cases hk : val = k
    · simp only [hk, if_true]
      exact List.pairwise_cons.2 ⟨hs.1, hs.2⟩
    · simp only [hk, if_false]
      by_cases hlt : val < k
      · simp only [hlt, if_true]
        refine List.pairwise_cons.2 ⟨?_, List.pairwise_cons.2 hs⟩
        intro b hb
        rcases List.mem_cons.1 hb with hb | hb
        · rw [hb]; exact hlt
        · exact lt_trans hlt (hs.1 b hb)
      · simp only [hlt, if_false]
        refine List.pairwise_cons.2 ⟨?_, ih hs.2⟩
        intro b hb
        have hb' : b.1 ∈ (count_value val rest).map Prod.fst := List.mem_map_of_mem _ hb
        rw [mem_keys_count_value] at hb'
        rcases hb' with hb' | hb'
        · rw [hb']
          show k < val
          omega
        · obtain ⟨q, hq, hq1⟩ := List.mem_map.1 hb'
          rw [← hq1]
          exact hs.1 q hq

theorem sum_count_value (val : Int) (m : List (Int × Int))
    (hs : m.Pairwise (fun a b => a.1 < b.1)) :
    ((count_value val m).map Prod.snd).sum =
      (m.map Prod.snd).sum +
        (wrap_int ((imap_find val m).getD 0 + 1) - (imap_find val m).getD 0) := by
  induction m with
  | nil => simp [count_value, imap_find]
  | cons p rest ih =>
    obtain ⟨k, c⟩ := p
    rw [List.pairwise_cons] at hs
    unfold count_value
    by_cases hk : val = k
    · subst hk
      simp only [if_true, List.map_cons, List.sum_cons, imap_find, Option.getD_some]
      omega
    · simp only [hk, if_false]
      by_cases hlt : val < k
      · have hnone : imap_find val ((k, c) :: rest) = none := by
          apply imap_find_of_lt
          intro q hq
          rcases List.mem_cons.1 hq with hq | hq
          · rw [hq]; exact hlt
          · exact lt_trans hlt (hs.1 q hq)
        simp only [hlt, if_true, List.map_cons, List.sum_cons, hnone, Option.getD_none]
        omega
      · simp only [hlt, if_false, List.map_cons, List.sum_cons, ih hs.2, imap_find, hk]
        omega

/-- What `value_counts` is after the values `pre` were counted. -/
theorem count_values_fold (rest : List Int) :
    ∀ (pre : List Int) (m : List (Int × Int)),
      (pre ++ rest).length < 2147483648 →
      m.Pairwise (fun a b => a.1 < b.1) →
      (∀ v, imap_find v m = if v ∈ pre then some (pre.count v : Int) else none) →
      (m.map Prod.snd).sum = pre.length →
      (∀ x, x ∈ m.map Prod.fst ↔ x ∈ pre) →
      (rest.foldl (fun m val => count_value val m) m).Pairwise (fun a b => a.1 < b.1) ∧
      (∀ v, imap_find v (rest.foldl (fun m val => count_value val m) m) =
        if v ∈ pre ++ rest then some ((pre ++ rest).count v : Int) else none) ∧
      ((rest.foldl (fun m val => count_value val m) m).map Prod.snd).sum =
        (pre ++ rest).length ∧
      (∀ x, x ∈ (rest.foldl (fun m val => count_value val m) m).map Prod.fst ↔
        x ∈ pre ++ rest) := by
  induction rest with
  | nil =>
    intro pre m _ h1 h2 h3 h4
    simp only [List.foldl_nil, List.append_nil]
    exact ⟨h1, h2, h3, h4⟩
  | cons x rest ih =>
    intro pre m hlen h1 h2 h3 h4
    have hassoc : pre ++ x :: rest = (pre ++ [x]) ++ rest := by simp
    rw [List.foldl_cons, hassoc]
    have hc : (imap_find x m).getD 0 = (pre.count x : Int) := by
      rw [h2 x]
      by_cases hx : x ∈ pre
      · simp [hx]
      · simp [hx, List.count_eq_zero_of_not_mem hx]
    have hcount : pre.count x ≤ pre.length := List.count_le_length _ _
    have hplen : pre.length + 1 + rest.length < 2147483648 := by
      have := hlen
      simp only [List.length_append, List.length_cons] at this
      omega
    have hwrap : wrap_int ((imap_find x m).getD 0 + 1) = (pre.count x : Int) + 1 := by
      rw [hc]
      apply wrap_int_of_small <;> omega
    apply ih (pre ++ [x]) (count_value x m)
    · rw [← hassoc]; exact hlen
    · exact count_value_sorted x m h1
    · intro v
      rw [imap_find_count_value x m h1 v, hwrap]
      by_cases hv : v = x
      · subst hv
        simp
      · simp only [hv, if_false, h2 v, List.mem_append, List.mem_singleton, or_false,
          List.count_append]
        have : List.count v [x] = 0 := by
          simp [List.count_cons, hv, fun e : x = v => hv e.symm]
        simp [this]
    · rw [sum_count_value x m h1, hwrap, hc, h3]
      simp only [List.length_append, List.length_singleton, Nat.cast_add, Nat.cast_one]
      omega
    · intro y
      rw [mem_keys_count_value, h4]
      simp only [List.mem_append, List.mem_singleton]
      tauto

theorem imap_find_imap_set (k x : Int) (m : List (Int × Int)) (v : Int) :
    imap_find v (imap_set k x m) = if v = k then some x else imap_find v m := by
  induction m with
  | nil => by_cases hv : v = k <;> simp [imap_set, imap_find, hv]
  | cons p rest ih =>
    obtain ⟨k0, v0⟩ := p
    unfold imap_set
    by_cases hk : k = k0
    · subst hk
      by_cases hv : v = k <;> simp [imap_find, hv]
    · by_cases hv : v = k0
      · subst hv
        have : ¬ v = k := fun e => hk e.symm
        simp [imap_find, hk, this]
      · simp [imap_find, hk, hv, ih]

theorem assign_ranks_frame (vc : List (Int × Int)) :
    ∀ (i : Int) (mapping : List (Int × Int)) (k : Int), k ∉ vc.map Prod.fst →
      imap_find k (assign_ranks vc i mapping) = imap_find k mapping := by
  induction vc with
  | nil => intro i mapping k _; rfl
  | cons p rest ih =>
    obtain ⟨k0, c0⟩ := p
    intro i mapping k hk
    simp only [List.map_cons, List.mem_cons, not_or] at hk
    show imap_find k (assign_ranks rest _ _) = _
    rw [ih _ _ k hk.2, imap_find_imap_set]
    simp [hk.1]

/-- The key at position `j` of `value_counts` gets the number `i + j`. -/
theorem assign_ranks_at (vc : List (Int × Int)) :
    ∀ (i : Int) (mapping : List (Int × Int)), 0 ≤ i → i + vc.length < 2147483648 →
      vc.Pairwise (fun a b => a.1 < b.1) →
      ∀ (j : Nat) (k c : Int), vc.get? j = some (k, c) →
        imap_find k (assign_ranks vc i mapping) = some (i + j) := by
  induction vc with
  | nil => intro i mapping _ _ _ j k c h; simp at h
  | cons p rest ih =>
    obtain ⟨k0, c0⟩ := p
    intro i mapping h0 hlen hs j k c hget
    rw [List.pairwise_cons] at hs
    simp only [List.length_cons, Nat.cast_add, Nat.cast_one] at hlen
    have hw : wrap_int (i + 1) = i + 1 := by apply wrap_int_of_small <;> omega
    show imap_find k (assign_ranks rest (wrap_int (i + 1)) (imap_set k0 i mapping)) = _
    rw [hw]
    cases j with
    | zero =>
      simp only [List.get?_cons_zero, Option.some.injEq, Prod.mk.injEq] at hget
      rw [← hget.1]
      have hnot : k0 ∉ rest.map Prod.fst := by
        intro hmem
        obtain ⟨q, hq, hq1⟩ := List.mem_map.1 hmem
        have := hs.1 q hq
        rw [hq1] at this
        exact lt_irrefl _ this
      rw [assign_ranks_frame rest _ _ k0 hnot, imap_find_imap_set]
      simp
    | succ j =>
      simp only [List.get?_cons_succ] at hget
      rw [ih (i + 1) _ (by omega) (by omega) hs.2 j k c hget]
      simp only [Nat.cast_add, Nat.cast_one]
      congr 1
      omega

/-- In an ascending list the values below the one at position `j` are `j` many. -/
theorem filter_lt_length (K : List Int) :
    K.Pairwise (fun a b => a < b) → ∀ (j : Nat) (k : Int), K.get? j = some k →
      (K.filter (fun w => w < k)).length = j := by
  induction K with
  | nil => intro _ j k h; simp at h
  | cons a r ih =>
    intro hs j k hget
    rw [List.pairwise_cons] at hs
    cases j with
    | zero =>
      simp only [List.get?_cons_zero, Option.some.injEq] at hget
      subst hget
      rw [List.filter_cons, if_neg (by simp)]
      rw [List.length_eq_zero, List.filter_eq_nil_iff]
      intro w hw
      have := hs.1 w hw
      simp only [decide_eq_true_eq, not_lt]
      omega
    | succ j =>
      simp only [List.get?_cons_succ] at hget
      have hak : a < k := hs.1 k (List.get?_mem hget)
      rw [List.filter_cons, if_pos (by simpa using hak), List.length_cons, ih hs.2 j k hget]

theorem filter_lt_length_lt (l : List Int) (v w : Int) (hv : v ∈ l) (hvw : v < w) :
    (l.filter (fun x => x < v)).length < (l.filter (fun x => x < w)).length := by
  have hsub : List.Sublist (l.filter (fun x => decide (x < v)))
      (l.filter (fun x => decide (x < w))) := by
    apply List.monotone_filter_right
    intro a ha
    simp only [decide_eq_true_eq] at ha ⊢
    omega
  rcases Nat.lt_or_ge (l.filter (fun x => decide (x < v))).length
      (l.filter (fun x => decide (x < w))).length with h | h
  · exact h
  · exfalso
    have heq := hsub.eq_of_length_le h
    have hmem : v ∈ l.filter (fun x => decide (x < w)) := by
      rw [List.mem_filter]
      exact ⟨hv, by simpa using hvw⟩
    rw [← heq, List.mem_filter] at hmem
    simp at hmem

/-- The keys of `value_counts` after counting `data`: ascending, and the distinct values
of `data` up to order. -/
theorem count_values_keys (data : List Int) (self : ColorMapperNode)
    (hlen : data.length < 2147483648) :
    (self.count_values data).value_counts.Pairwise (fun a b => a.1 < b.1) ∧
    (∀ v, imap_find v (self.count_values data).value_counts =
      if v ∈ data then some (data.count v : Int) else none) ∧
    ((self.count_values data).value_counts.map Prod.snd).sum = data.length ∧
    (∀ x, x ∈ (self.count_values data).value_counts.map Prod.fst ↔ x ∈ data) := by
  have h := count_values_fold data [] [] (by simpa using hlen) List.Pairwise.nil
    (by intro v; simp [imap_find]) (by simp) (by intro x; simp)
  simpa [ColorMapperNode.count_values] using h

theorem keys_perm_dedup (K data : List Int) (hs : K.Pairwise (fun a b => a < b))
    (hm : ∀ x, x ∈ K ↔ x ∈ data) : K.Perm data.dedup := by
  have hnd : K.Nodup := hs.imp (fun h => ne_of_lt h)
  rw [List.perm_ext_iff_of_nodup hnd (List.nodup_dedup data)]
  intro a
  rw [hm a, List.mem_dedup]

/-- C27: for a `values` input of fewer than 2^31 entries (so that no `int` counter
wraps), `count_values` leaves in `value_counts` exactly the values of the input, each with
the number of its occurrences, and the counts sum to the length of the input; `process`
then maps every value `v` of the input to the number of distinct input values strictly
smaller than `v`. The keys of `value_counts` are strictly ascending, the key at position
`j` is mapped to `j`, and there are as many keys as distinct values: the mapping is
one-to-one from the distinct values onto `0 .. k-1`, and ascending. -/
theorem C27_dense_ranks (data : List Int) (self : ColorMapperNode)
    (hlen : data.length < 2147483648) :
    (∀ v, imap_find v (self.count_values data).value_counts =
      if v ∈ data then some (data.count v : Int) else none) ∧
    ((self.count_values data).value_counts.map Prod.snd).sum = data.length ∧
    (∀ v, v ∈ data → imap_find v (self.count_values data).process.mapping =
      some (((data.dedup.filter (fun w => w < v)).length : Nat) : Int)) ∧
    ((self.count_values data).value_counts.map Prod.fst).Pairwise (fun a b => a < b) ∧
    (∀ x, x ∈ (self.count_values data).value_counts.map Prod.fst ↔ x ∈ data) ∧
    ((self.count_values data).value_counts.map Prod.fst).length = data.dedup.length ∧
    (∀ (j : Nat) (k : Int),
      ((self.count_values data).value_counts.map Prod.fst).get? j = some k →
      imap_find k (self.count_values data).process.mapping = some (j : Int)) ∧
    (∀ j : Nat, j < data.dedup.length →
      ∃ v, v ∈ data ∧
        imap_find v (self.count_values data).process.mapping = some (j : Int)) ∧
    (∀ v, v ∈ data → ∃ j : Nat, j < data.dedup.length ∧
      imap_find v (self.count_values data).process.mapping = some (j : Int)) ∧
    (∀ v w, v ∈ data → w ∈ data → v < w → ∃ a b : Int,
      imap_find v (self.count_values data).process.mapping = some a ∧
      imap_find w (self.count_values data).process.mapping = some b ∧ a < b) ∧
    (∀ v w, v ∈ data → w ∈ data →
      imap_find v (self.count_values data).process.mapping =
        imap_find w (self.count_values data).process.mapping → v = w) := by
  obtain ⟨hs, hfind, hsum, hkeys⟩ := count_values_keys data self hlen
  have hsK : ((self.count_values data).value_counts.map Prod.fst).Pairwise
      (fun a b => a < b) := by
    rw [List.pairwise_map]
    exact hs
  have hperm := keys_perm_dedup _ data hsK hkeys
  have hKlen : ((self.count_values data).value_counts.map Prod.fst).length =
      data.dedup.length := hperm.length_eq
  have hvclen : ((self.count_values data).value_counts.length : Int) < 2147483648 := by
    have h1 : data.dedup.length ≤ data.length := (List.dedup_sublist data).length_le
    rw [List.length_map] at hKlen
    omega
  have hpos : ∀ (j : Nat) (k : Int),
      ((self.count_values data).value_counts.map Prod.fst).get? j = some k →
      imap_find k (self.count_values data).process.mapping = some (j : Int) := by
    intro j k hget
    rw [List.get?_eq_getElem?, List.getElem?_map, ← List.get?_eq_getElem?] at hget
    cases hvc : (self.count_values data).value_counts.get? j with
    | none => rw [hvc] at hget; simp at hget
    | some p =>
      obtain ⟨k0, c0⟩ := p
      rw [hvc] at hget
      simp only [Option.map_some', Option.some.injEq] at hget
      subst hget
      have := assign_ranks_at (self.count_values data).value_counts 0
        (self.count_values data).mapping (le_refl 0) (by omega) hs j k0 c0 hvc
      simpa [ColorMapperNode.process] using this
  have hrank : ∀ v, v ∈ data → imap_find v (self.count_values data).process.mapping =
      some (((data.dedup.filter (fun w => w < v)).length : Nat) : Int) := by
    intro v hv
    obtain ⟨j, hj⟩ := List.mem_iff_get?.1 ((hkeys v).2 hv)
    rw [hpos j v hj]
    have h1 := filter_lt_length _ hsK j v hj
    have h2 := (hperm.filter (fun w => decide (w < v))).length_eq
    rw [← h2, h1]
  have hin : ∀ v, v ∈ data → (data.dedup.filter (fun w => w < v)).length <
      data.dedup.length := by
    intro v hv
    have hle := List.length_filter_le (fun w => decide (w < v)) data.dedup
    rcases Nat.lt_or_ge (data.dedup.filter (fun w => decide (w < v))).length
        data.dedup.length with h | h
    · exact h
    · exfalso
      have heq := (List.filter_sublist data.dedup).eq_of_length_le h
      have hmem : v ∈ data.dedup.filter (fun w => decide (w < v)) := by
        rw [heq]
        exact List.mem_dedup.2 hv
      rw [List.mem_filter] at hmem
      simp at hmem
  refine ⟨hfind, hsum, hrank, hsK, hkeys, hKlen, hpos, ?_, ?_, ?_, ?_⟩
  · intro j hj
    rw [← hKlen] at hj
    cases hget : ((self.count_values data).value_counts.map Prod.fst).get? j with
    | none =>
      rw [List.get?_eq_none] at hget
      omega
    | some k =>
      exact ⟨k, (hkeys k).1 (List.get?_mem hget), hpos j k hget⟩
  · intro v hv
    exact ⟨_, hin v hv, hrank v hv⟩
  · intro v w hv hw hvw
    refine ⟨_, _, hrank v hv, hrank w hw, ?_⟩
    exact_mod_cast filter_lt_length_lt data.dedup v w (List.mem_dedup.2 hv) hvw
  · intro v w hv hw heq
    rw [hrank v hv, hrank w hw] at heq
    simp only [Option.some.injEq, Nat.cast_inj] at heq
    rcases lt_trichotomy v w with h | h | h
    · have := filter_lt_length_lt data.dedup v w (List.mem_dedup.2 hv) h
      omega
    · exact h
    · have := filter_lt_length_lt data.dedup w v (List.mem_dedup.2 hw) h
      omega

theorem C27_dense_ranks_witness :
    ([5, 3, 5, 9, 3, 5] : List Int).length < 2147483648 ∧
    (sample_mapper.count_values [5, 3, 5, 9, 3, 5]).value_counts = [(3, 2), (5, 3), (9, 1)] ∧
    (sample_mapper.count_values [5, 3, 5, 9, 3, 5]).process.mapping =
      [(7, 1), (1, 0), (3, 0), (5, 1), (9, 2)] ∧
    ∀ (j : Nat) (k : Int),
      ((sample_mapper.count_values [5, 3, 5, 9, 3, 5]).value_counts.map Prod.fst).get? j =
        some k →
      imap_find k (sample_mapper.count_values [5, 3, 5, 9, 3, 5]).process.mapping =
        some (j : Int) :=
  ⟨by decide, by decide, by decide,
    (C27_dense_ranks [5, 3, 5, 9, 3, 5] sample_mapper (by decide)).2.2.2.2.2.2.1⟩

/-! ## One run of the sub-flowchart per row -/

/-- The flowchart after row `i` is `run_all` of the flowchart prepared for row `i`. -/
theorem flowchart_before_succ {E : Engine} {self : NestNode} {i : Nat} {fc' : NodeManager}
    (h : flowchart_before E self (i + 1) = .ok fc') :
    ∃ fc prepared, flowchart_before E self i = .ok fc ∧
      row_before_run E self i fc = .ok prepared ∧ fc' = E.run_all prepared := by
  unfold flowchart_before at h
  cases hb : flowchart_before E self i with
  | error e => simp [hb] at h
  | ok fc =>
    simp only [hb] at h
    rw [run_row_eq] at h
    cases hp : row_before_run E self i fc with
    | error e => rw [hp] at h; cases h
    | ok prepared =>
      rw [hp] at h
      cases h
      exact ⟨fc, prepared, rfl, hp, rfl⟩

/-- A completed sequential `process`: the row count, the calls, and the run of every
row. -/
theorem process_rows {E : Engine} {clock : Nat → Int × Int} {self self' : NestNode}
    (hl : self.flowchart_loaded = true) (hs : self.use_parallel_processing = false)
    (h : process E clock self = .ok self') :
    ∃ first rest, self.input_terminals = first :: rest ∧
      self'.input_size_ = first.2.size E ∧
      self'.calls = self.calls ++ Call.copy_nested_flowchart ::
        (List.range (first.2.size E)).flatMap (row_calls clock) ∧
      (∀ i < first.2.size E, ∃ fc prepared,
        flowchart_before E self i = .ok fc ∧
        row_before_run E self i fc = .ok prepared ∧
        flowchart_before E self (i + 1) = .ok (E.run_all prepared)) ∧
      (first.2.size E = 0 → self'.output_terminals = self.output_terminals) := by
  cases hin : self.input_terminals with
  | nil =>
    unfold process at h
    rw [if_pos hl] at h
    split at h
    · cases h
    · rename_i heq
      rw [hin] at heq
      cases heq
  | cons first rest =>
    rw [process_eq E clock self first rest hl hin, if_neg (by simp [hs])] at h
    obtain ⟨hc, hex, _, _, _, _, _, h5, _, _⟩ := process_sequential_ok h
    refine ⟨first, rest, rfl, h5, hc, ?_, ?_⟩
    · intro i hi
      obtain ⟨fc', hfc'⟩ := hex i hi
      rw [@flowchart_before_congr E { self with input_size_ := first.2.size E } self
        rfl rfl rfl rfl (i + 1)] at hfc'
      obtain ⟨fc, prepared, h1, h2, h3⟩ := flowchart_before_succ hfc'
      exact ⟨fc, prepared, h1, h2, by rw [hfc', h3]⟩
    · intro h0
      rw [process_sequential_no_rows E clock _ h0] at h
      cases h
      rfl

/-- C3: `process` on a node with a loaded flowchart (and `use_parallel_processing`
false, as the code leaves it) takes N from `size()` of the first input terminal, the
number of rows of a vector input, and runs the sub-flowchart once for each i = 0, ...,
N-1 in this order: run i is `run_all` applied to the flowchart that run i-1 left (the
fresh copy for i = 0) after it was invalidated and given the globals and the inputs of
row i; every output holds what it held before, followed by what the results of the runs
0, ..., N-1 add, in this order; and the calls logged where they are made are, after the
copy of the flowchart and for i = 0, ..., N-1, `notify_children`, `set_inputs(flowchart,
i)` and `run_all` between two readings of the clock, N calls of `run_all` in all. With
N = 0 no run is made and every output terminal is left as it was. -/
theorem C3_runs_once_per_row (E : Engine) (clock : Nat → Int × Int) (self self' : NestNode)
    (hl : self.flowchart_loaded = true) (hs : self.use_parallel_processing = false)
    (h : process E clock self = .ok self') :
    ∃ first rest, self.input_terminals = first :: rest ∧
      self'.input_size_ = first.2.size E ∧
      (first.2.family = .GF_SINGLE_FEATURE → first.2.size E = first.2.data.length) ∧
      (∀ i < first.2.size E, ∃ fc prepared,
        flowchart_before E self i = .ok fc ∧
        row_before_run E self i fc = .ok prepared ∧
        flowchart_before E self (i + 1) = .ok (E.run_all prepared) ∧
        nodes_after E self i = (E.run_all prepared).nodes) ∧
      (∀ n : String, data_of self'.output_terminals n =
        data_of self.output_terminals n ++
          (List.range (first.2.size E)).flatMap (row_entries E clock self n)) ∧
      self'.calls = self.calls ++ Call.copy_nested_flowchart ::
        (List.range (first.2.size E)).flatMap (row_calls clock) ∧
      (self'.calls.drop self.calls.length).count Call.run_all = first.2.size E ∧
      (first.2.size E = 0 → self'.output_terminals = self.output_terminals) := by
  obtain ⟨first, rest, hin, hN, hc, hrows, h0⟩ := process_rows hl hs h
  obtain ⟨first', rest', hin', _, _, _, _, _, _, _, hd⟩ := process_ok hl hs h
  have hff : first' = first := by
    rw [hin] at hin'
    cases hin'
    rfl
  subst hff
  refine ⟨first', rest, hin, hN, ?_, ?_, hd, hc, ?_, h0⟩
  · intro hf
    simp [InputTerminal.size, hf]
  · intro i hi
    obtain ⟨fc, prepared, h1, h2, h3⟩ := hrows i hi
    refine ⟨fc, prepared, h1, h2, h3, ?_⟩
    simp only [nodes_after, h3]
  · rw [hc]
    simp only [List.drop_left']
    rw [List.count_cons, count_run_all]
    simp

/-- C3, at an engine that counts its runs, on three rows: the output holds 1, 2, 3, the
counts after the first, the second and the third run; N is 3 and the log shows three
calls of `run_all`. -/
theorem C3_runs_once_per_row_witness :
    (process counting_engine clock0 nest_doubling).toOption.map
      (fun s => (s.input_size_, data_of s.output_terminals "Cell.out",
        s.calls.count Call.run_all)) =
      some (3, [some (.int 1), some (.int 2), some (.int 3)], 3) ∧
    ∃ first rest, nest_doubling.input_terminals = first :: rest ∧
      ((process counting_engine clock0 nest_doubling).toOption.getD
        nest_doubling).input_size_ = first.2.size counting_engine ∧
      ∀ i < first.2.size counting_engine, ∃ fc prepared,
        flowchart_before counting_engine nest_doubling i = .ok fc ∧
        row_before_run counting_engine nest_doubling i fc = .ok prepared ∧
        flowchart_before counting_engine nest_doubling (i + 1) =
          .ok (counting_engine.run_all prepared) ∧
        nodes_after counting_engine nest_doubling i =
          (counting_engine.run_all prepared).nodes := by
  obtain ⟨first, rest, h1, h2, _, h4, _⟩ :=
    C3_runs_once_per_row counting_engine clock0 nest_doubling
      ((process counting_engine clock0 nest_doubling).toOption.getD nest_doubling)
      (by decide) (by decide) (by rfl)
  exact ⟨by decide, first, rest, h1, h2, h4⟩

/-! ## Rounding -/

/-- An integer of fewer than `p` bits is a value of the format: rounding leaves it. -/
theorem round_exact (p : Nat) (n : Int) (h : |n| < 2 ^ p) :
    round_to_nearest_even p (n : ℚ) = n := by
  unfold round_to_nearest_even
  by_cases h0 : (n : ℚ) = 0
  · rw [if_pos h0, h0]
  · rw [if_neg h0]
    have hn0 : n ≠ 0 := fun e => h0 (by rw [e]; rfl)
    have hcast : |(n : ℚ)| = ((|n| : Int) : ℚ) := by push_cast; rfl
    have habs1 : (1 : ℚ) ≤ |(n : ℚ)| := by
      rw [hcast]
      exact_mod_cast Int.one_le_abs hn0
    have hpos : (0 : ℚ) < |(n : ℚ)| := lt_of_lt_of_le one_pos habs1
    have hnonneg : 0 ≤ Int.log 2 |(n : ℚ)| := by
      rw [Int.log_of_one_le_right 2 habs1]
      exact Int.natCast_nonneg _
    have hlt : Int.log 2 |(n : ℚ)| < (p : Int) := by
      rw [← Int.lt_zpow_iff_log_lt (by norm_num) hpos, zpow_natCast, hcast]
      exact_mod_cast h
    obtain ⟨k, hk⟩ : ∃ k : ℕ, (p : Int) - 1 - Int.log 2 |(n : ℚ)| = k :=
      Int.eq_ofNat_of_zero_le (by omega)
    have hexp : Int.log 2 |(n : ℚ)| - ((p : Int) - 1) = -(k : Int) := by omega
    have hulp : (2 : ℚ) ^ (-(k : Int)) = ((2 : ℚ) ^ k)⁻¹ := by
      rw [zpow_neg, zpow_natCast]
    have h2k : (0 : ℚ) < (2 : ℚ) ^ k := by positivity
    have hm : |(n : ℚ)| / (2 : ℚ) ^ (-(k : Int)) = ((|n| * 2 ^ k : Int) : ℚ) := by
      rw [hulp, div_inv_eq_mul, hcast]
      push_cast
      rfl
    dsimp only
    rw [hexp, hm, Int.floor_intCast, sub_self, if_pos (show (0 : ℚ) < 1 / 2 by norm_num), hulp]
    push_cast
    by_cases hneg : (n : ℚ) < 0
    · rw [if_pos hneg, abs_of_neg hneg]
      field_simp
    · rw [if_neg hneg, abs_of_nonneg (not_lt.1 hneg)]
      field_simp

/-- A run of a whole number of milliseconds, with 1000000 clock ticks in a second, is
measured exactly. -/
theorem runtime_ms_whole (E : Engine) (c_start c_end k : Int)
    (hcps : E.CLOCKS_PER_SEC = 1000000) (hd : c_end - c_start = 1000 * k)
    (hk : |k| < 2 ^ 24) : runtime_ms E c_start c_end = (k : ℚ) := by
  have hk' : |k| < 16777216 := by simpa using hk
  have hb := abs_lt.1 hk'
  unfold runtime_ms to_float to_double
  rw [hd, hcps]
  have e1 : round_to_nearest_even 53 ((1000 * k : Int) : ℚ) = ((1000 * k : Int) : ℚ) :=
    round_exact 53 _ (by rw [abs_lt]; constructor <;> norm_num <;> omega)
  have e2 : (1000 : ℚ) * ((1000 * k : Int) : ℚ) = ((1000000 * k : Int) : ℚ) := by
    push_cast; ring
  have e3 : round_to_nearest_even 53 ((1000000 * k : Int) : ℚ) = ((1000000 * k : Int) : ℚ) :=
    round_exact 53 _ (by rw [abs_lt]; constructor <;> norm_num <;> omega)
  have e4 : round_to_nearest_even 53 (((1000000 : ℕ) : ℚ)) = 1000000 := by
    have := round_exact 53 1000000 (by norm_num)
    simpa using this
  have e5 : ((1000000 * k : Int) : ℚ) / 1000000 = (k : ℚ) := by
    push_cast
    field_simp
  rw [e1, e2, e3, e4, e5, round_exact 53 k (lt_of_lt_of_le hk (by norm_num)),
    round_exact 24 k hk]

/-! ## The timings output -/

/-- C13 (amended): a completed `process` over N rows (N is `input_size_`, the size of
the first input) on a node whose timings output is empty, and whose sub-flowchart
exports no single-feature terminal under the name of the timings output, leaves exactly
N entries on the timings output, in row order. Entry `i` is the `float` that `runtime`
holds in iteration `i`: `1000.0 * (c_end - c_start) / CLOCKS_PER_SEC` in `double`
arithmetic, rounded to `float`, where `c_start` and `c_end` are the readings of the
clock logged right before and right after the call of `run_all` of iteration `i`, the
run of the flowchart prepared for row `i`. -/
theorem C13_timings (E : Engine) (clock : Nat → Int × Int) (self self' : NestNode)
    (hl : self.flowchart_loaded = true) (hs : self.use_parallel_processing = false)
    (h : process E clock self = .ok self')
    (hno : ∀ i < self'.input_size_,
      exported_vectors (timings_name self) (nodes_after E self i) = [])
    (hempty : data_of self.output_terminals (timings_name self) = []) :
    data_of self'.output_terminals (timings_name self) =
      (List.range self'.input_size_).map (fun i =>
        some (.float (to_float
          (to_double (to_double (1000 * to_double (((clock i).2 - (clock i).1 : Int) : ℚ)) /
            to_double (E.CLOCKS_PER_SEC : ℚ)))))) ∧
    (data_of self'.output_terminals (timings_name self)).length = self'.input_size_ ∧
    (∀ i < self'.input_size_,
      (data_of self'.output_terminals (timings_name self))[i]? =
        some (some (.float (runtime_ms E (clock i).1 (clock i).2)))) ∧
    self'.calls = self.calls ++ Call.copy_nested_flowchart ::
      (List.range self'.input_size_).flatMap (fun i =>
        [Call.notify_children, Call.set_inputs i, Call.clock (clock i).1, Call.run_all,
          Call.clock (clock i).2]) ∧
    ∀ i < self'.input_size_, ∃ fc prepared,
      flowchart_before E self i = .ok fc ∧
      row_before_run E self i fc = .ok prepared ∧
      flowchart_before E self (i + 1) = .ok (E.run_all prepared) := by
  obtain ⟨first, rest, _, hN, _, _, _, _, _, _, hd⟩ := process_ok hl hs h
  obtain ⟨first', rest', _, hN', hc, hrows, _⟩ := process_rows hl hs h
  have heq : data_of self'.output_terminals (timings_name self) =
      (List.range self'.input_size_).map (fun i =>
        some (.float (runtime_ms E (clock i).1 (clock i).2))) := by
    rw [hd, hempty, List.nil_append, hN]
    apply flatMap_eq_map_of_singleton
    intro i hi
    have hi' : i < self'.input_size_ := by rw [hN]; exact List.mem_range.mp hi
    simp [row_entries, hno i hi']
  refine ⟨heq, by rw [heq]; simp, fun i hi => ?_, ?_, ?_⟩
  · rw [heq, List.getElem?_map, List.getElem?_range hi]
    rfl
  · rw [hc, hN']
    rfl
  · intro i hi
    exact hrows i (by rw [← hN']; exact hi)

/-- C13, at the doubling sub-graph on three rows whose runs take 1, 2 and 3
milliseconds: the timings output holds 1, 2, 3. -/
theorem C13_timings_witness :
    data_of nest_doubling.output_terminals (timings_name nest_doubling) = [] ∧
    data_of ((process (scripted_engine doubling) clock_whole_ms nest_doubling).toOption.getD
        nest_doubling).output_terminals (timings_name nest_doubling) =
      [some (.float 1), some (.float 2), some (.float 3)] := by
  have h := (C13_timings (scripted_engine doubling) clock_whole_ms nest_doubling
    ((process (scripted_engine doubling) clock_whole_ms nest_doubling).toOption.getD
      nest_doubling)
    (by decide) (by decide) (by rfl) (by decide) (by decide)).2.2.1
  have hlen := (C13_timings (scripted_engine doubling) clock_whole_ms nest_doubling
    ((process (scripted_engine doubling) clock_whole_ms nest_doubling).toOption.getD
      nest_doubling)
    (by decide) (by decide) (by rfl) (by decide) (by decide)).2.1
  have hN : ((process (scripted_engine doubling) clock_whole_ms nest_doubling).toOption.getD
      nest_doubling).input_size_ = 3 := by decide
  rw [hN] at h hlen
  have r0 : runtime_ms (scripted_engine doubling) (clock_whole_ms 0).1 (clock_whole_ms 0).2 =
      1 := by
    rw [runtime_ms_whole _ _ _ 1 rfl (by simp [clock_whole_ms]) (by norm_num)]
    norm_num
  have r1 : runtime_ms (scripted_engine doubling) (clock_whole_ms 1).1 (clock_whole_ms 1).2 =
      2 := by
    rw [runtime_ms_whole _ _ _ 2 rfl (by simp [clock_whole_ms]) (by norm_num)]
    norm_num
  have r2 : runtime_ms (scripted_engine doubling) (clock_whole_ms 2).1 (clock_whole_ms 2).2 =
      3 := by
    rw [runtime_ms_whole _ _ _ 3 rfl (by simp [clock_whole_ms]) (by norm_num)]
    norm_num
  have h0 := h 0 (by norm_num)
  have h1 := h 1 (by norm_num)
  have h2 := h 2 (by norm_num)
  rw [r0] at h0
  rw [r1] at h1
  rw [r2] at h2
  refine ⟨by decide, ?_⟩
  apply List.ext_getElem?
  intro j
  match j with
  | 0 => rw [h0]; rfl
  | 1 => rw [h1]; rfl
  | 2 => rw [h2]; rfl
  | j + 3 =>
    rw [List.getElem?_eq_none (by rw [hlen]; omega), List.getElem?_eq_none (by simp)]

/-- C13 as stated fails: when the sub-flowchart has a node named like the `NestNode`
with an exported output `timings`, the timings output is also the vector output of that
terminal; starting empty, after `process` over 2 rows it has 4 entries, and entry 0 is
the value of the exported terminal in row 0, not a duration. -/
theorem C13_counterexample :
    nest_own_timings.flowchart_loaded = true ∧
    nest_own_timings.output_terminals.map Prod.fst = ["Nest.timings"] ∧
    timings_name nest_own_timings = "Nest.timings" ∧
    data_of nest_own_timings.output_terminals "Nest.timings" = [] ∧
    (process echo_engine clock0 nest_own_timings).toOption.map
      (fun s => (s.input_size_, (data_of s.output_terminals "Nest.timings").length,
        (data_of s.output_terminals "Nest.timings")[0]?,
        (data_of s.output_terminals "Nest.timings")[2]?)) =
      some (2, 4, some (some (.int 10)), some (some (.int 20))) := by
  decide

/-! ## The poly outputs of a run -/

theorem sub_push_back_any_find {name : String} {v : AnyVal} {agg agg' : OutputTerminal}
    (h : sub_push_back_any name v agg = .ok agg') (s : String) :
    (map_find s agg'.sub_terminals).map (fun st => st.data) =
      if s = name then (map_find s agg.sub_terminals).map (fun st => st.data ++ [v])
      else (map_find s agg.sub_terminals).map (fun st => st.data) := by
  unfold sub_push_back_any at h
  cases hu : map_update name (fun (t : SubTerminal) => { t with data := t.data ++ [v] })
      agg.sub_terminals with
  | none => simp [hu] at h
  | some subs =>
    simp only [hu, Except.ok.injEq] at h
    subst h
    rw [map_find_map_update hu s]
    by_cases hs : s = name
    · subst hs
      simp only [if_true]
      cases map_find s agg.sub_terminals <;> rfl
    · simp only [hs, if_false]

theorem sub_push_back_all_find {name : String} (ds : List AnyVal) :
    ∀ {agg agg' : OutputTerminal}, sub_push_back_all name ds agg = .ok agg' →
      ∀ s : String, (map_find s agg'.sub_terminals).map (fun st => st.data) =
        if s = name then (map_find s agg.sub_terminals).map (fun st => st.data ++ ds)
        else (map_find s agg.sub_terminals).map (fun st => st.data) := by
  induction ds with
  | nil =>
    intro agg agg' h s
    simp only [sub_push_back_all, Except.ok.injEq] at h
    subst h
    by_cases hs : s = name <;> simp [hs]
  | cons d ds ih =>
    intro agg agg' h s
    simp only [sub_push_back_all] at h
    cases h1 : sub_push_back_any name d agg with
    | error e => simp [h1] at h
    | ok a1 =>
      simp only [h1] at h
      rw [ih h s]
      by_cases hs : s = name
      · simp only [hs, if_true]
        have := sub_push_back_any_find h1 name
        simp only [if_true] at this
        cases hf : map_find name a1.sub_terminals with
        | none =>
          rw [hf] at this
          cases hg : map_find name agg.sub_terminals with
          | none => rfl
          | some st0 => rw [hg] at this; cases this
        | some st1 =>
          rw [hf] at this
          cases hg : map_find name agg.sub_terminals with
          | none => rw [hg] at this; cases this
          | some st0 =>
            rw [hg] at this
            simp only [Option.map_some', Option.some.injEq] at this ⊢
            rw [this]
            simp
      · simp only [hs, if_false]
        have := sub_push_back_any_find h1 s
        simp only [hs, if_false] at this
        exact this

theorem apply_writes_append (i : Nat) (ws1 ws2 : List (List AnyVal))
    (d : Option (List AnyVal)) :
    apply_writes i (ws1 ++ ws2) d = apply_writes i ws2 (apply_writes i ws1 d) := by
  unfold apply_writes
  rw [List.foldl_append]

/-- The loop over the sub-terminals of one exported poly terminal. -/
theorem collect_subs_find {i : Nat} (subs : List (String × SubTerminal)) :
    ∀ {agg agg' : OutputTerminal}, collect_subs i subs agg = .ok agg' →
      ∀ s : String, (map_find s agg'.sub_terminals).map (fun st => st.data) =
        apply_writes i ((subs.filter (fun p => p.1 = s)).map (fun p => p.2.data))
          ((map_find s agg.sub_terminals).map (fun st => st.data)) := by
  induction subs with
  | nil =>
    intro agg agg' h s
    simp only [collect_subs, Except.ok.injEq] at h
    subst h
    rfl
  | cons p rest ih =>
    obtain ⟨name, sub_term⟩ := p
    intro agg agg' h s
    simp only [collect_subs] at h
    cases h2 : sub_push_back_all name sub_term.data
        (if i = 0 then add_vector name sub_term.types agg else agg) with
    | error e => simp [h2] at h
    | ok agg2 =>
      simp only [h2] at h
      rw [ih h s, sub_push_back_all_find _ h2 s]
      by_cases hs : name = s
      · subst hs
        simp only [List.filter_cons, decide_True, if_true, List.map_cons]
        unfold apply_writes
        rw [List.foldl_cons]
        congr 1
        by_cases hi : i = 0
        · simp only [hi, if_true, add_vector, map_find_map_set]
          simp
        · simp only [hi, if_false]
          cases map_find name agg.sub_terminals <;> rfl
      · have hs' : ¬ s = name := fun e => hs e.symm
        simp only [List.filter_cons, hs, decide_False, hs', if_false]
        by_cases hi : i = 0
        · simp only [hi, if_true, add_vector, map_find_map_set, hs', if_false]
          simp
        · simp only [hi, if_false]
          simp

theorem sub_data_of_push_back_any {name : String} {v : AnyVal}
    {outs outs' : List (String × OutputTerminal)}
    (h : push_back_any name v outs = .ok outs') (n s : String) :
    sub_data_of outs' n s = sub_data_of outs n s := by
  unfold push_back_any at h
  cases hu : map_update name (fun t => { t with data := t.data ++ [v] }) outs with
  | none => simp [hu] at h
  | some m =>
    simp only [hu, Except.ok.injEq] at h
    subst h
    unfold sub_data_of
    rw [map_find_map_update hu n]
    by_cases hn : n = name
    · subst hn
      simp only [if_true]
      cases map_find n outs <;> rfl
    · simp only [hn, if_false]

theorem sub_data_of_push_back_all {name : String} (ds : List AnyVal) :
    ∀ {outs outs' : List (String × OutputTerminal)},
      push_back_all name ds outs = .ok outs' →
      ∀ n s : String, sub_data_of outs' n s = sub_data_of outs n s := by
  induction ds with
  | nil =>
    intro outs outs' h n s
    simp only [push_back_all, Except.ok.injEq] at h
    subst h
    rfl
  | cons d ds ih =>
    intro outs outs' h n s
    simp only [push_back_all] at h
    cases h1 : push_back_any name d outs with
    | error e => simp [h1] at h
    | ok o1 =>
      simp only [h1] at h
      rw [ih h n s, sub_data_of_push_back_any h1 n s]

/-- What `collect_terminal` does to the aggregated vector `s` of the poly output `n`. -/
theorem sub_data_of_collect_terminal {i : Nat} {node_name term_name : String}
    {t : OutputTerminal} {outs outs' : List (String × OutputTerminal)}
    (h : collect_terminal i node_name term_name t outs = .ok outs') (n s : String) :
    sub_data_of outs' n s =
      apply_writes i
        (if t.marked = true ∧ t.family = .GF_MULTI_FEATURE ∧ full_name node_name term_name = n
          then (t.sub_terminals.filter (fun p => p.1 = s)).map (fun p => p.2.data) else [])
        (sub_data_of outs n s) := by
  unfold collect_terminal at h
  by_cases hm : t.marked = true
  · simp only [hm, if_true] at h
    cases hf : t.family with
    | GF_SINGLE_FEATURE =>
      simp only [hf] at h
      have hnot : ¬ (t.marked = true ∧ Family.GF_SINGLE_FEATURE = Family.GF_MULTI_FEATURE ∧
          full_name node_name term_name = n) := by
        rintro ⟨_, h2, _⟩
        cases h2
      rw [if_neg hnot]
      by_cases hd : t.has_data = true
      · simp only [hd, if_true] at h
        rw [sub_data_of_push_back_all _ h n s]
        rfl
      · simp only [hd] at h
        rw [sub_data_of_push_back_any h n s]
        rfl
    | GF_MULTI_FEATURE =>
      simp only [hf] at h
      cases hfind : map_find (full_name node_name term_name) outs with
      | none => simp [hfind] at h
      | some agg0 =>
        simp only [hfind] at h
        cases hc : collect_subs i t.sub_terminals agg0 with
        | error e => simp [hc] at h
        | ok agg =>
          simp only [hc, Except.ok.injEq] at h
          subst h
          by_cases hn : full_name node_name term_name = n
          · subst hn
            rw [if_pos ⟨hm, rfl, rfl⟩]
            unfold sub_data_of
            rw [map_find_map_set, if_pos rfl, hfind]
            exact collect_subs_find _ hc s
          · have hn' : ¬ n = full_name node_name term_name := fun e => hn e.symm
            rw [if_neg (fun hh => hn hh.2.2)]
            unfold sub_data_of
            rw [map_find_map_set, if_neg hn']
            rfl
  · simp only [hm] at h
    cases h
    rw [if_neg (fun hh => hm hh.1)]
    rfl

theorem sub_data_of_collect_node {i : Nat} {node_name : String}
    (terms : List (String × OutputTerminal)) :
    ∀ {outs outs' : List (String × OutputTerminal)},
      collect_node i node_name terms outs = .ok outs' → ∀ n s : String,
      sub_data_of outs' n s =
        apply_writes i
          (terms.flatMap (fun t =>
            if t.2.marked = true ∧ t.2.family = .GF_MULTI_FEATURE ∧ full_name node_name t.1 = n
            then (t.2.sub_terminals.filter (fun p => p.1 = s)).map (fun p => p.2.data) else []))
          (sub_data_of outs n s) := by
  induction terms with
  | nil =>
    intro outs outs' h n s
    simp only [collect_node, Except.ok.injEq] at h
    subst h
    rfl
  | cons p rest ih =>
    intro outs outs' h n s
    obtain ⟨term_name, t⟩ := p
    simp only [collect_node] at h
    cases h1 : collect_terminal i node_name term_name t outs with
    | error e => simp [h1] at h
    | ok o1 =>
      simp only [h1] at h
      rw [ih h n s, sub_data_of_collect_terminal h1 n s, List.flatMap_cons,
        apply_writes_append]

/-- What `collect` does to the aggregated vector `s` of the poly output `n`. -/
theorem sub_data_of_collect {i : Nat} (nodes : List (String × Node)) :
    ∀ {outs outs' : List (String × OutputTerminal)},
      collect i nodes outs = .ok outs' → ∀ n s : String,
      sub_data_of outs' n s = apply_writes i (poly_writes n s nodes) (sub_data_of outs n s) := by
  induction nodes with
  | nil =>
    intro outs outs' h n s
    simp only [collect, Except.ok.injEq] at h
    subst h
    rfl
  | cons p rest ih =>
    intro outs outs' h n s
    obtain ⟨node_name, node⟩ := p
    simp only [collect] at h
    cases h1 : collect_node i node_name node.output_terminals outs with
    | error e => simp [h1] at h
    | ok o1 =>
      simp only [h1] at h
      rw [ih h n s, sub_data_of_collect_node _ h1 n s]
      unfold poly_writes
      rw [List.flatMap_cons, apply_writes_append]

/-- One iteration and the aggregated vector `s` of the poly output `n`. -/
theorem iteration_sub_data {E : Engine} {clock : Nat → Int × Int} {self : NestNode} {i : Nat}
    {st st' : LoopState} (h : iteration E clock self i st = .ok st') (n s : String) :
    sub_data_of st'.output_terminals n s =
      apply_writes i (poly_writes n s st'.flowchart.nodes)
        (sub_data_of st.output_terminals n s) := by
  unfold iteration at h
  dsimp only at h
  cases hg : set_globals self i
      (E.notify_children proxy_node_name_ st.flowchart).global_flowchart_params with
  | error e => simp [hg] at h
  | ok globals =>
    simp only [hg] at h
    cases hs : set_inputs self
        { E.notify_children proxy_node_name_ st.flowchart with
          global_flowchart_params := globals } i with
    | error e => simp [hs] at h
    | ok fc =>
      simp only [hs] at h
      cases hc : collect i (E.run_all fc).nodes st.output_terminals with
      | error e => simp [hc] at h
      | ok outs =>
        simp only [hc] at h
        cases hp : push_back_any (timings_name self)
            (some (.float (runtime_ms E (clock i).1 (clock i).2))) outs with
        | error e => simp [hp] at h
        | ok outs' =>
          simp only [hp, Except.ok.injEq] at h
          subst h
          simp only []
          rw [sub_data_of_push_back_any hp n s, sub_data_of_collect _ hc n s]

/-- The rows `i, ..., i+n-1` and the aggregated vector `s` of the poly output `n`. -/
theorem rows_from_sub_data {E : Engine} {clock : Nat → Int × Int} {self : NestNode}
    (k : Nat) :
    ∀ {i : Nat} {st st' : LoopState},
    flowchart_before E self i = .ok st.flowchart →
    rows_from E clock self k i st = .ok st' →
    ∀ n s : String, sub_data_of st'.output_terminals n s =
      (List.range' i k).foldl
        (fun d j => apply_writes j (poly_writes n s (nodes_after E self j)) d)
        (sub_data_of st.output_terminals n s) := by
  induction k with
  | zero =>
    intro i st st' _ h n s
    simp only [rows_from, Except.ok.injEq] at h
    subst h
    rfl
  | succ k ih =>
    intro i st st' hb h n s
    simp only [rows_from] at h
    cases h1 : iteration E clock self i st with
    | error e => simp [h1] at h
    | ok st1 =>
      simp only [h1] at h
      obtain ⟨hrun, _, _⟩ := iteration_ok h1
      have hb1 : flowchart_before E self (i + 1) = .ok st1.flowchart := by
        simp only [flowchart_before, hb, hrun]
      have hnodes : nodes_after E self i = st1.flowchart.nodes := by
        simp only [nodes_after, hb1]
      rw [ih hb1 h n s, iteration_sub_data h1 n s, List.range'_succ, List.foldl_cons, hnodes]

/-- In iteration 0 pushes that are not empty leave the last of them, whatever the
aggregated vector held. -/
theorem apply_writes_zero (ws : List (List AnyVal)) (hws : ws ≠ [])
    (d d' : Option (List AnyVal)) : apply_writes 0 ws d = apply_writes 0 ws d' := by
  cases ws with
  | nil => exact absurd rfl hws
  | cons w rest =>
    unfold apply_writes
    simp only [List.foldl_cons, if_true]

/-- A completed sequential `process` and the aggregated vector `s` of the poly output
`n`: the rows 0, ..., N-1 push onto it in this order. -/
theorem process_sub_data {E : Engine} {clock : Nat → Int × Int} {self self' : NestNode}
    (hl : self.flowchart_loaded = true) (hs : self.use_parallel_processing = false)
    (h : process E clock self = .ok self') :
    ∀ n s : String, sub_data_of self'.output_terminals n s =
      (List.range self'.input_size_).foldl
        (fun d j => apply_writes j (poly_writes n s (nodes_after E self j)) d)
        (sub_data_of self.output_terminals n s) := by
  obtain ⟨first, rest, hin, hN, _⟩ := process_ok hl hs h
  rw [process_eq E clock self first rest hl hin, if_neg (by simp [hs])] at h
  unfold process_sequential at h
  intro n s
  split at h
  · cases h
  · rename_i st hst
    simp only [Except.ok.injEq] at h
    subst h
    have := rows_from_sub_data (first.2.size E) (i := 0) (by rfl) hst n s
    simp only [] at this ⊢
    rw [this, List.range_eq_range']
    have hcongr : ∀ j, nodes_after E { self with input_size_ := first.2.size E } j =
        nodes_after E self j := by
      intro j
      simp only [nodes_after,
        @flowchart_before_congr E { self with input_size_ := first.2.size E } self
          rfl rfl rfl rfl (j + 1)]
    simp only [hcongr]

/-- C8 (amended): a second `process` on the unchanged node runs the same N rows on a
fresh copy of the nested flowchart. Onto a vector output and onto the timings output it
appends: after the second run they hold what they held after the first run, followed
by the entries of the second run, so an exported vector output that was empty before
the first run holds the first run's entries twice. On an aggregated vector of a poly
output the rows push in their order, in iteration 0 onto a vector that `add_vector` has
just made: a vector that iteration 0 pushes onto holds after the second run exactly what
it held after the first run. -/
theorem C8_second_run_appends (E : Engine) (clock1 clock2 : Nat → Int × Int)
    (self s1 s2 : NestNode)
    (hl : self.flowchart_loaded = true) (hs : self.use_parallel_processing = false)
    (h1 : process E clock1 self = .ok s1) (h2 : process E clock2 s1 = .ok s2) :
    s2.input_size_ = s1.input_size_ ∧
    (∀ n : String,
      data_of s1.output_terminals n = data_of self.output_terminals n ++
        (List.range s1.input_size_).flatMap (row_entries E clock1 self n) ∧
      data_of s2.output_terminals n = data_of s1.output_terminals n ++
        (List.range s1.input_size_).flatMap (row_entries E clock2 self n)) ∧
    (∀ n : String, n ≠ timings_name self → data_of self.output_terminals n = [] →
      data_of s2.output_terminals n =
        data_of s1.output_terminals n ++ data_of s1.output_terminals n) ∧
    (∀ n s : String,
      sub_data_of s1.output_terminals n s =
        (List.range s1.input_size_).foldl
          (fun d j => apply_writes j (poly_writes n s (nodes_after E self j)) d)
          (sub_data_of self.output_terminals n s) ∧
      sub_data_of s2.output_terminals n s =
        (List.range s1.input_size_).foldl
          (fun d j => apply_writes j (poly_writes n s (nodes_after E self j)) d)
          (sub_data_of s1.output_terminals n s)) ∧
    (∀ n s : String, 0 < s1.input_size_ → poly_writes n s (nodes_after E self 0) ≠ [] →
      sub_data_of s2.output_terminals n s = sub_data_of s1.output_terminals n s) := by
  obtain ⟨first, rest, hin, hN, hname, hinp, hm, hg, hl1, hs1, hd1⟩ := process_ok hl hs h1
  obtain ⟨first', rest', hin', hN', _, _, _, _, _, _, hd2⟩ :=
    process_ok (hl1.trans hl) (hs1.trans hs) h2
  have hff : first' = first := by
    rw [hinp, hin] at hin'
    cases hin'
    rfl
  subst hff
  have hboth : ∀ n : String,
      data_of s1.output_terminals n = data_of self.output_terminals n ++
        (List.range s1.input_size_).flatMap (row_entries E clock1 self n) ∧
      data_of s2.output_terminals n = data_of s1.output_terminals n ++
        (List.range s1.input_size_).flatMap (row_entries E clock2 self n) := by
    intro n
    refine ⟨by rw [hN]; exact hd1 n, ?_⟩
    rw [hd2 n, hN]
    congr 1
    exact flatMap_congr_mem _ _ _ (fun i _ => row_entries_congr hname hinp hg hm n i)
  have hNN : s2.input_size_ = s1.input_size_ := by rw [hN', hN]
  have hnodes : ∀ j, nodes_after E s1 j = nodes_after E self j := by
    intro j
    simp only [nodes_after, flowchart_before_congr hname hinp hg hm (j + 1)]
  have hsub : ∀ n s : String,
      sub_data_of s1.output_terminals n s =
        (List.range s1.input_size_).foldl
          (fun d j => apply_writes j (poly_writes n s (nodes_after E self j)) d)
          (sub_data_of self.output_terminals n s) ∧
      sub_data_of s2.output_terminals n s =
        (List.range s1.input_size_).foldl
          (fun d j => apply_writes j (poly_writes n s (nodes_after E self j)) d)
          (sub_data_of s1.output_terminals n s) := by
    intro n s
    refine ⟨process_sub_data hl hs h1 n s, ?_⟩
    rw [process_sub_data (hl1.trans hl) (hs1.trans hs) h2 n s, hNN]
    simp only [hnodes]
  refine ⟨hNN, hboth, fun n hn hempty => ?_, hsub, fun n s hpos hw => ?_⟩
  · obtain ⟨ha, hb⟩ := hboth n
    have hsame : (List.range s1.input_size_).flatMap (row_entries E clock2 self n) =
        (List.range s1.input_size_).flatMap (row_entries E clock1 self n) :=
      flatMap_congr_mem _ _ _ (fun i _ => by
        rw [row_entries_of_ne_timings hn, row_entries_of_ne_timings hn])
    rw [hb, hsame]
    congr 1
    rw [ha, hempty, List.nil_append]
  · obtain ⟨ha, hb⟩ := hsub n s
    rw [hb, ha]
    obtain ⟨k, hk⟩ : ∃ k, s1.input_size_ = k + 1 := ⟨s1.input_size_ - 1, by omega⟩
    rw [hk, List.range_succ_eq_map, List.foldl_cons, List.foldl_cons]
    rw [apply_writes_zero _ hw _ (sub_data_of self.output_terminals n s)]

/-- C8, at the doubling sub-graph: the second run leaves 20, 40, 60 twice on the vector
output; and at the sub-graph with the exported poly output: the aggregated vector `a`,
which holds 5 after the first run, holds 5 after the second run. -/
theorem C8_second_run_appends_witness :
    data_of ((process (scripted_engine doubling) clock0
      ((process (scripted_engine doubling) clock0 nest_doubling).toOption.getD
        nest_doubling)).toOption.getD nest_doubling).output_terminals "Cell.out" =
      [some (.int 20), some (.int 40), some (.int 60)] ++
        [some (.int 20), some (.int 40), some (.int 60)] ∧
    sub_data_of ((process (scripted_engine poly_missing_row) clock0
      nest_poly).toOption.getD nest_poly).output_terminals "Cell.poly" "a" =
      some [some (.int 5)] ∧
    sub_data_of ((process (scripted_engine poly_missing_row) clock0
      ((process (scripted_engine poly_missing_row) clock0 nest_poly).toOption.getD
        nest_poly)).toOption.getD nest_poly).output_terminals "Cell.poly" "a" =
      sub_data_of ((process (scripted_engine poly_missing_row) clock0
        nest_poly).toOption.getD nest_poly).output_terminals "Cell.poly" "a" := by
  have h := (C8_second_run_appends (scripted_engine doubling) clock0 clock0 nest_doubling
    ((process (scripted_engine doubling) clock0 nest_doubling).toOption.getD nest_doubling)
    ((process (scripted_engine doubling) clock0
      ((process (scripted_engine doubling) clock0 nest_doubling).toOption.getD
        nest_doubling)).toOption.getD nest_doubling)
    (by decide) (by decide) (by rfl) (by rfl)).2.2.1 "Cell.out" (by decide) (by decide)
  have hp := (C8_second_run_appends (scripted_engine poly_missing_row) clock0 clock0 nest_poly
    ((process (scripted_engine poly_missing_row) clock0 nest_poly).toOption.getD nest_poly)
    ((process (scripted_engine poly_missing_row) clock0
      ((process (scripted_engine poly_missing_row) clock0 nest_poly).toOption.getD
        nest_poly)).toOption.getD nest_poly)
    (by decide) (by decide) (by rfl) (by rfl)).2.2.2.2 "Cell.poly" "a" (by decide) (by decide)
  refine ⟨?_, by decide, hp⟩
  rw [h]
  decide

/-! ## Writes that later writes of the same keys undo -/

theorem map_insert_same {α : Type} (k : String) (v v' : α) (l : List (String × α)) :
    map_insert k v' (map_insert k v l) = map_insert k v' l := by
  induction l with
  | nil => simp [map_insert]
  | cons p rest ih =>
    obtain ⟨k0, v0⟩ := p
    by_cases hk : k = k0
    · simp [map_insert, hk]
    · by_cases hlt : k.data < k0.data
      · simp [map_insert, hk, hlt]
      · simp [map_insert, hk, hlt, ih]

theorem map_insert_comm {α : Type} {k k2 : String} (h : k ≠ k2) (v w : α)
    (l : List (String × α)) :
    map_insert k v (map_insert k2 w l) = map_insert k2 w (map_insert k v l) := by
  have h' : k2 ≠ k := fun e => h e.symm
  induction l with
  | nil =>
    rcases key_lt_or_lt h with hlt | hlt
    · have hn : ¬ k2.data < k.data := fun h2 => key_lt_irrefl _ (key_lt_trans hlt h2)
      simp [map_insert, h, h', hlt, hn]
    · have hn : ¬ k.data < k2.data := fun h2 => key_lt_irrefl _ (key_lt_trans hlt h2)
      simp [map_insert, h, h', hlt, hn]
  | cons p rest ih =>
    obtain ⟨k0, v0⟩ := p
    by_cases hk : k = k0
    · subst hk
      by_cases hlt : k2.data < k.data
      · have hn : ¬ k.data < k2.data := fun h2 => key_lt_irrefl _ (key_lt_trans hlt h2)
        simp [map_insert, h, h', hlt, hn]
      · simp [map_insert, h, h', hlt]
    · by_cases hk2 : k2 = k0
      · subst hk2
        by_cases hlt : k.data < k2.data
        · have hn : ¬ k2.data < k.data := fun h2 => key_lt_irrefl _ (key_lt_trans hlt h2)
          simp [map_insert, h, h', hlt, hn]
        · simp [map_insert, h, h', hlt]
      · by_cases hlt : k.data < k0.data
        · by_cases hlt2 : k2.data < k0.data
          · rcases key_lt_or_lt h with hkk | hkk
            · have hn : ¬ k2.data < k.data :=
                fun h2 => key_lt_irrefl _ (key_lt_trans hkk h2)
              simp [map_insert, h, h', hk, hk2, hlt, hlt2, hkk, hn]
            · have hn : ¬ k.data < k2.data :=
                fun h2 => key_lt_irrefl _ (key_lt_trans hkk h2)
              simp [map_insert, h, h', hk, hk2, hlt, hlt2, hkk, hn]
          · have hkk : k.data < k2.data := by
              rcases key_lt_or_lt hk2 with h3 | h3
              · exact absurd h3 hlt2
              · exact key_lt_trans hlt h3
            have hn : ¬ k2.data < k.data := fun h2 => key_lt_irrefl _ (key_lt_trans hkk h2)
            simp [map_insert, h, h', hk, hk2, hlt, hlt2, hkk, hn]
        · by_cases hlt2 : k2.data < k0.data
          · have hkk : k2.data < k.data := by
              rcases key_lt_or_lt hk with h3 | h3
              · exact absurd h3 hlt
              · exact key_lt_trans hlt2 h3
            have hn : ¬ k.data < k2.data := fun h2 => key_lt_irrefl _ (key_lt_trans hkk h2)
            simp [map_insert, h, h', hk, hk2, hlt, hlt2, hkk, hn]
          · simp [map_insert, hk, hk2, hlt, hlt2, ih]

/-- A write into a map is undone by later writes that write its key again. -/
theorem insert_writes_absorb_one {α : Type} (W : List (String × α)) :
    ∀ (x : List (String × α)) (k : String) (v : α), k ∈ W.map Prod.fst →
      W.foldl (fun g w => map_insert w.1 w.2 g) (map_insert k v x) =
        W.foldl (fun g w => map_insert w.1 w.2 g) x := by
  induction W with
  | nil => intro x k v hk; simp at hk
  | cons w rest ih =>
    intro x k v hk
    simp only [List.foldl_cons]
    by_cases hw : w.1 = k
    · rw [hw, map_insert_same]
    · have hk' : k ∈ rest.map Prod.fst := by
        simp only [List.map_cons, List.mem_cons] at hk
        rcases hk with hk | hk
        · exact absurd hk.symm hw
        · exact hk
      rw [map_insert_comm hw, ih _ k v hk']

theorem insert_writes_absorb {α : Type} (W W' : List (String × α))
    (h : ∀ k ∈ W.map Prod.fst, k ∈ W'.map Prod.fst) :
    ∀ x : List (String × α),
      W'.foldl (fun g w => map_insert w.1 w.2 g)
          (W.foldl (fun g w => map_insert w.1 w.2 g) x) =
        W'.foldl (fun g w => map_insert w.1 w.2 g) x := by
  induction W with
  | nil => intro x; rfl
  | cons w rest ih =>
    intro x
    simp only [List.foldl_cons]
    rw [ih (fun k hk => h k (by simp only [List.map_cons, List.mem_cons]; exact Or.inr hk))]
    exact insert_writes_absorb_one W' x w.1 w.2 (h w.1 (by simp))

theorem map_set_same {α : Type} (k : String) (v v' : α) (l : List (String × α)) :
    map_set k v' (map_set k v l) = map_set k v' l := by
  induction l with
  | nil => simp [map_set]
  | cons p rest ih =>
    obtain ⟨k0, v0⟩ := p
    by_cases hk : k = k0
    · simp [map_set, hk]
    · simp [map_set, hk, ih]

/-- The writes `B` on a map that starts with the key `k0`: the first entry gets the last
value written under `k0`, the other writes go to the rest of the map. -/
theorem set_all_cons {α : Type} (B : List (String × α)) :
    ∀ (k0 : String) (v0 : α) (rest : List (String × α)),
      set_all B ((k0, v0) :: rest) =
        (k0, B.foldl (fun d b => if b.1 = k0 then b.2 else d) v0) ::
          set_all (B.filter (fun b => decide (b.1 ≠ k0))) rest := by
  induction B with
  | nil => intro k0 v0 rest; rfl
  | cons b B ih =>
    obtain ⟨k, v⟩ := b
    intro k0 v0 rest
    by_cases hk : k = k0
    · subst hk
      simp [set_all, map_set, ih]
    · simp [set_all, map_set, hk, ih]

theorem last_write_absorb {α : Type} (k0 : String) (B : List (String × α)) :
    ∀ d d' : α, k0 ∈ B.map Prod.fst →
      B.foldl (fun d b => if b.1 = k0 then b.2 else d) d =
        B.foldl (fun d b => if b.1 = k0 then b.2 else d) d' := by
  induction B with
  | nil => intro d d' h; simp at h
  | cons b B ih =>
    intro d d' h
    simp only [List.foldl_cons]
    by_cases hb : b.1 = k0
    · simp only [hb, if_true]
    · simp only [hb, if_false]
      simp only [List.map_cons, List.mem_cons] at h
      rcases h with h | h
      · exact absurd h.symm hb
      · exact ih d d' h

theorem last_write_none {α : Type} (k0 : String) (B : List (String × α)) :
    ∀ d : α, k0 ∉ B.map Prod.fst →
      B.foldl (fun d b => if b.1 = k0 then b.2 else d) d = d := by
  induction B with
  | nil => intro d _; rfl
  | cons b B ih =>
    intro d h
    simp only [List.map_cons, List.mem_cons, not_or] at h
    have hb : ¬ b.1 = k0 := fun e => h.1 e.symm
    simp only [List.foldl_cons, hb, if_false]
    exact ih d h.2

theorem keys_filter_eq {α : Type} (p : String → Bool) (B : List (String × α)) :
    (B.filter (fun b => p b.1)).map Prod.fst = (B.map Prod.fst).filter p := by
  induction B with
  | nil => rfl
  | cons b B ih =>
    by_cases hb : p b.1 = true
    · simp [List.filter_cons, hb, ih]
    · simp [List.filter_cons, hb, ih]

theorem set_all_absorb_le {α : Type} (n : Nat) :
    ∀ (B B' : List (String × α)), B.length ≤ n → B.map Prod.fst = B'.map Prod.fst →
      ∀ x : List (String × α), set_all B' (set_all B x) = set_all B' x := by
  induction n with
  | zero =>
    intro B B' hlen hk x
    have hB : B = [] := List.length_eq_zero.1 (Nat.le_zero.1 hlen)
    subst hB
    rfl
  | succ n ihn =>
    intro B B' hlen hk x
    induction x generalizing B B' with
    | nil =>
      cases B with
      | nil => rfl
      | cons b B1 =>
        cases B' with
        | nil => simp at hk
        | cons b' B1' =>
          obtain ⟨k, v⟩ := b
          obtain ⟨k', v'⟩ := b'
          simp only [List.map_cons, List.cons.injEq] at hk
          obtain ⟨hkk, hk1⟩ := hk
          subst hkk
          have hf : (B1.filter (fun b => decide (b.1 ≠ k))).map Prod.fst =
              (B1'.filter (fun b => decide (b.1 ≠ k))).map Prod.fst := by
            rw [keys_filter_eq (fun s => decide (s ≠ k)),
              keys_filter_eq (fun s => decide (s ≠ k)), hk1]
          have hl : (B1.filter (fun b => decide (b.1 ≠ k))).length ≤ n :=
            le_trans (List.length_filter_le _ _) (by simpa using hlen)
          have h1 : set_all ((k, v) :: B1) [] = set_all B1 [(k, v)] := rfl
          have h2 : set_all ((k, v') :: B1') [] = set_all B1' [(k, v')] := rfl
          rw [h1, h2, set_all_cons B1, set_all_cons ((k, v') :: B1'), set_all_cons B1']
          simp only [List.foldl_cons, if_true, List.filter_cons, ne_eq, not_true_eq_false,
            decide_False, Bool.false_eq_true, if_false]
          rw [ihn _ _ hl hf]
    | cons p rest ihx =>
      obtain ⟨k0, v0⟩ := p
      have hf : (B.filter (fun b => decide (b.1 ≠ k0))).map Prod.fst =
          (B'.filter (fun b => decide (b.1 ≠ k0))).map Prod.fst := by
        rw [keys_filter_eq (fun s => decide (s ≠ k0)),
          keys_filter_eq (fun s => decide (s ≠ k0)), hk]
      have hl : (B.filter (fun b => decide (b.1 ≠ k0))).length ≤ n + 1 :=
        le_trans (List.length_filter_le _ _) hlen
      rw [set_all_cons B, set_all_cons B', set_all_cons B', ihx _ _ hl hf]
      congr 2
      by_cases hm : k0 ∈ B'.map Prod.fst
      · exact last_write_absorb k0 B' _ _ hm
      · rw [last_write_none k0 B v0 (by rw [hk]; exact hm)]

/-- Writes into a sub-terminal map are undone by later writes of the same keys in the
same order. -/
theorem set_all_absorb {α : Type} (B B' : List (String × α))
    (h : B.map Prod.fst = B'.map Prod.fst) (x : List (String × α)) :
    set_all B' (set_all B x) = set_all B' x :=
  set_all_absorb_le B.length B B' (le_refl _) h x

/-! ## What a row writes does not depend on what the row before wrote -/

/-- The loop over the `.globals` sub-terminals is a list of writes that does not depend
on the globals it starts from; their keys do not depend on the row. -/
theorem globals_from_input_writes (i : Nat) (subs : List (String × SubTerminal)) :
    ∃ r : Except Error (List (String × Param)),
      (∀ S, r = .ok S → S.map Prod.fst = global_names subs) ∧
      ∀ g, globals_from_input i subs g =
        r.map (fun S => S.foldl (fun g w => map_insert w.1 w.2 g) g) := by
  induction subs with
  | nil => exact ⟨.ok [], by intro S h; cases h; rfl, fun g => rfl⟩
  | cons p rest ih =>
    obtain ⟨sname, sterm⟩ := p
    obtain ⟨r, hk, hr⟩ := ih
    cases hgt : global_type sterm with
    | none =>
      have hg : gives_global sterm = false := by rw [gives_global_iff, hgt]; rfl
      refine ⟨r, ?_, fun g => ?_⟩
      · intro S hS
        rw [hk S hS]
        simp [global_names, List.filter_cons, hg]
      · rw [globals_from_input_cons, hgt]
        exact hr g
    | some T =>
      have hg : gives_global sterm = true := by rw [gives_global_iff, hgt]; rfl
      cases hv : get_as T sname sterm.data i with
      | error e =>
        refine ⟨.error e, (by intro S h; cases h), fun g => ?_⟩
        rw [globals_from_input_cons, hgt]
        simp only [hv]
        rfl
      | ok val =>
        refine ⟨r.map (fun S => (sname, ⟨T, val⟩) :: S), ?_, fun g => ?_⟩
        · intro S hS
          cases r with
          | error e => cases hS
          | ok S0 =>
            cases hS
            simp only [List.map_cons, hk S0 rfl]
            simp [global_names, List.filter_cons, hg]
        · rw [globals_from_input_cons, hgt]
          simp only [hv, hr]
          cases r with
          | error e => rfl
          | ok S0 => rfl

/-- The globals of a row are a list of writes that does not depend on the globals the
row starts from; their keys do not depend on the row. -/
theorem set_globals_writes (self : NestNode) :
    ∃ K : List String, ∀ i, ∃ r : Except Error (List (String × Param)),
      (∀ W, r = .ok W → W.map Prod.fst = K) ∧
      ∀ g, set_globals self i g =
        r.map (fun W => W.foldl (fun g w => map_insert w.1 w.2 g) g) := by
  cases hf : map_find (globals_name self) self.input_terminals with
  | none =>
    refine ⟨[], fun i => ⟨.error (.no_such_terminal (globals_name self)),
      (by intro W h; cases h), fun g => ?_⟩⟩
    simp only [set_globals, hf]
    rfl
  | some glterm =>
    refine ⟨self.manager_globals.map Prod.fst ++ "GF_I" :: global_names glterm.sub_terminals,
      fun i => ?_⟩
    obtain ⟨r, hk, hr⟩ := globals_from_input_writes i glterm.sub_terminals
    refine ⟨r.map (fun S => self.manager_globals ++
      ("GF_I", ⟨.string, .text (to_string i)⟩) :: S), ?_, fun g => ?_⟩
    · intro W hW
      cases r with
      | error e => cases hW
      | ok S =>
        cases hW
        simp [hk S rfl]
    · simp only [set_globals, hf, hr, copy_globals_eq_foldl]
      cases r with
      | error e => rfl
      | ok S => simp [Except.map, List.foldl_append]

/-- What `set_globals` wrote for one row is undone by `set_globals` for another. -/
theorem set_globals_absorb {self : NestNode} {i : Nat} {g gi : List (String × Param)}
    (h : set_globals self i g = .ok gi) (j : Nat) :
    set_globals self j gi = set_globals self j g := by
  obtain ⟨K, hK⟩ := set_globals_writes self
  obtain ⟨ri, hki, hri⟩ := hK i
  obtain ⟨rj, hkj, hrj⟩ := hK j
  rw [hri] at h
  rw [hrj, hrj]
  cases ri with
  | error e => cases h
  | ok Wi =>
    cases h
    cases rj with
    | error e => rfl
    | ok Wj =>
      simp only [Except.map]
      rw [insert_writes_absorb Wi Wj (by rw [hki Wi rfl, hkj Wj rfl]; exact fun k hk => hk)]

/-- The loop of `set_inputs` over the sub-terminals of a poly input is a list of writes
that does not depend on the proxy output; their keys do not depend on the row. -/
theorem set_proxy_subs_writes (i : Nat) (subs : List (String × SubTerminal)) :
    ∃ r : Except Error (List (String × SubTerminal)),
      (∀ W, r = .ok W → W.map Prod.fst = subs.map Prod.fst) ∧
      ∀ po : OutputTerminal, set_proxy_subs i subs po =
        r.map (fun W => { po with sub_terminals := set_all W po.sub_terminals }) := by
  induction subs with
  | nil => exact ⟨.ok [], by intro W h; cases h; rfl, fun po => rfl⟩
  | cons p rest ih =>
    obtain ⟨sub_name, sub_iterm⟩ := p
    obtain ⟨r, hk, hr⟩ := ih
    cases hty : sub_iterm.types with
    | nil =>
      refine ⟨.error (.no_type sub_name), (by intro W h; cases h), fun po => ?_⟩
      simp only [set_proxy_subs, hty]
      rfl
    | cons ty tys =>
      cases hd : data_at sub_name sub_iterm.data i with
      | error e =>
        refine ⟨.error e, (by intro W h; cases h), fun po => ?_⟩
        simp only [set_proxy_subs, hty, hd]
        rfl
      | ok v =>
        refine ⟨r.map (fun W => (sub_name, ⟨[ty], [v]⟩) :: W), ?_, fun po => ?_⟩
        · intro W hW
          cases r with
          | error e => cases hW
          | ok W0 =>
            cases hW
            simp only [List.map_cons, hk W0 rfl]
        · simp only [set_proxy_subs, hty, hd, hr]
          cases r with
          | error e => rfl
          | ok W0 => rfl

/-- What `set_inputs` wrote on a proxy output for one row is undone by `set_inputs` for
another. -/
theorem set_proxy_output_absorb {self : NestNode} {i : Nat} {name : String}
    {po poi : OutputTerminal} (h : set_proxy_output self i name po = .ok poi) (j : Nat) :
    set_proxy_output self j name poi = set_proxy_output self j name po := by
  unfold set_proxy_output at h ⊢
  cases hf : map_find name self.input_terminals with
  | none => simp [hf] at h
  | some iterm =>
    simp only [hf] at h ⊢
    cases hfam : po.family with
    | GF_SINGLE_FEATURE =>
      simp only [hfam] at h
      cases hd : data_at name iterm.data i with
      | error e => simp [hd] at h
      | ok v =>
        simp only [hd, Except.ok.injEq] at h
        subst h
        simp only [set_from_any, set_type, hfam]
    | GF_MULTI_FEATURE =>
      simp only [hfam] at h
      obtain ⟨ri, hki, hri⟩ := set_proxy_subs_writes i iterm.sub_terminals
      obtain ⟨rj, hkj, hrj⟩ := set_proxy_subs_writes j iterm.sub_terminals
      rw [hri] at h
      cases ri with
      | error e => cases h
      | ok Wi =>
        cases h
        simp only [hfam, hrj]
        cases rj with
        | error e => rfl
        | ok Wj =>
          simp only [Except.map]
          rw [set_all_absorb Wi Wj (by rw [hki Wi rfl, hkj Wj rfl])]

theorem set_inputs_loop_absorb {self : NestNode} {i : Nat} (j : Nat)
    (l : List (String × OutputTerminal)) :
    ∀ li, set_inputs_loop self i l = .ok li →
      set_inputs_loop self j li = set_inputs_loop self j l := by
  induction l with
  | nil =>
    intro li h
    simp only [set_inputs_loop, Except.ok.injEq] at h
    subst h
    rfl
  | cons p rest ih =>
    obtain ⟨name, po⟩ := p
    intro li h
    unfold set_inputs_loop at h
    cases h1 : set_proxy_output self i name po with
    | error e => simp [h1] at h
    | ok poi =>
      simp only [h1] at h
      cases h2 : set_inputs_loop self i rest with
      | error e => simp [h2] at h
      | ok resti =>
        simp only [h2, Except.ok.injEq] at h
        subst h
        simp only [set_inputs_loop, set_proxy_output_absorb h1 j, ih resti h2]

/-- What one row writes into the flowchart is undone by what another row writes. -/
theorem row_of_absorb {self : NestNode} {i : Nat} {g gi : List (String × Param)}
    {pn : Option Node} {pi : Node} (h : row_of self i g pn = .ok (gi, pi)) (j : Nat) :
    row_of self j gi (some pi) = row_of self j g pn := by
  unfold row_of at h
  cases hg : set_globals self i g with
  | error e => simp [hg] at h
  | ok g1 =>
    simp only [hg] at h
    cases pn with
    | none => simp at h
    | some p0 =>
      simp only at h
      cases hl : set_inputs_loop self i p0.output_terminals with
      | error e => simp [hl] at h
      | ok outs =>
        simp only [hl, Except.ok.injEq, Prod.mk.injEq] at h
        obtain ⟨h1, h2⟩ := h
        subst h1; subst h2
        unfold row_of
        simp only [set_globals_absorb hg j, set_inputs_loop_absorb j _ outs hl]

/-! ## Invalidation before every row -/

theorem map_find_proxy_map (l : List (String × Node)) :
    map_find proxy_node_name_
        (l.map (fun p => if p.1 = proxy_node_name_ then p else (p.1, p.2.without_data))) =
      map_find proxy_node_name_ l := by
  induction l with
  | nil => rfl
  | cons q rest ih =>
    obtain ⟨n, node⟩ := q
    by_cases hn : n = proxy_node_name_
    · simp only [List.map_cons, if_pos hn]
      simp only [map_find, hn, if_true]
    · have hn' : ¬ proxy_node_name_ = n := fun e => hn e.symm
      simp only [List.map_cons, if_neg hn]
      simp only [map_find, hn', if_false]
      exact ih

theorem map_find_proxy_without_data (fc : NodeManager) :
    map_find proxy_node_name_ (without_data fc).nodes =
      map_find proxy_node_name_ fc.nodes :=
  map_find_proxy_map fc.nodes

theorem map_set_proxy_map (p : Node) (l : List (String × Node)) :
    (map_set proxy_node_name_ p l).map
        (fun p => if p.1 = proxy_node_name_ then p else (p.1, p.2.without_data)) =
      map_set proxy_node_name_ p
        (l.map (fun p => if p.1 = proxy_node_name_ then p else (p.1, p.2.without_data))) := by
  induction l with
  | nil => simp [map_set]
  | cons q rest ih =>
    obtain ⟨n, node⟩ := q
    by_cases hn : n = proxy_node_name_
    · simp only [List.map_cons, if_pos hn]
      simp only [map_set, hn, if_true, List.map_cons]
    · have hn' : ¬ proxy_node_name_ = n := fun e => hn e.symm
      simp only [List.map_cons, if_neg hn]
      simp only [map_set, hn', if_false, List.map_cons, if_neg hn, ih]

theorem without_data_put_row (g : List (String × Param)) (p : Node) (fc : NodeManager) :
    without_data (put_row g p fc) = put_row g p (without_data fc) := by
  unfold without_data put_row
  simp only [map_set_proxy_map]

theorem without_data_globals {a b : NodeManager} (h : without_data a = without_data b) :
    a.global_flowchart_params = b.global_flowchart_params := by
  have h' := congrArg NodeManager.global_flowchart_params h
  exact h'

theorem put_row_put_row (g g' : List (String × Param)) (p p' : Node) (fc : NodeManager) :
    put_row g p (put_row g' p' fc) = put_row g p fc := by
  unfold put_row
  simp only [map_set_same]

theorem without_data_idem (fc : NodeManager) :
    without_data (without_data fc) = without_data fc := by
  unfold without_data
  simp only [List.map_map, NodeManager.mk.injEq, true_and, and_true]
  apply List.map_congr_left
  intro q _
  obtain ⟨n, node⟩ := q
  by_cases hn : n = proxy_node_name_
  · simp [hn]
  · simp [hn, Node.without_data, List.map_map, Function.comp_def]

/-- The flowchart handed to `run_all` in iteration `i`, from what the loop body finds
after the invalidation. -/
theorem row_before_run_eq (E : Engine) (self : NestNode) (i : Nat) (fc : NodeManager) :
    row_before_run E self i fc =
      (row_of self i (E.notify_children proxy_node_name_ fc).global_flowchart_params
        (map_find proxy_node_name_ (E.notify_children proxy_node_name_ fc).nodes)).map
        (fun r => put_row r.1 r.2 (E.notify_children proxy_node_name_ fc)) := by
  unfold row_before_run row_of set_inputs
  dsimp only
  cases set_globals self i
      (E.notify_children proxy_node_name_ fc).global_flowchart_params with
  | error e => rfl
  | ok g =>
    dsimp only
    cases map_find proxy_node_name_ (E.notify_children proxy_node_name_ fc).nodes with
    | none => rfl
    | some pn =>
      dsimp only
      cases set_inputs_loop self i pn.output_terminals with
      | error e => rfl
      | ok outs => rfl

/-- Under the contract of the engine, the flowchart at the start of every row differs
from the fresh copy only in what every row writes again and in the data of the nested
nodes. -/
theorem flowchart_before_fresh {E : Engine} (hE : no_stale_values E) (self : NestNode)
    (i : Nat) :
    ∀ fc, flowchart_before E self i = .ok fc →
      (∀ j, row_of self j fc.global_flowchart_params (map_find proxy_node_name_ fc.nodes) =
        row_of self j (copy_nested_flowchart self).global_flowchart_params
          (map_find proxy_node_name_ (copy_nested_flowchart self).nodes)) ∧
      ∀ g p, without_data (put_row g p fc) =
        without_data (put_row g p (copy_nested_flowchart self)) := by
  obtain ⟨hrun, hnot, _⟩ := hE
  induction i with
  | zero =>
    intro fc h
    simp only [flowchart_before, Except.ok.injEq] at h
    subst h
    exact ⟨fun j => rfl, fun g p => rfl⟩
  | succ i ih =>
    intro fc' h
    obtain ⟨fc, prepared, hb, hp, hfc'⟩ := flowchart_before_succ h
    obtain ⟨iha, ihc⟩ := ih fc hb
    have hg : (E.notify_children proxy_node_name_ fc).global_flowchart_params =
        fc.global_flowchart_params :=
      without_data_globals (hnot fc)
    have hpn : map_find proxy_node_name_ (E.notify_children proxy_node_name_ fc).nodes =
        map_find proxy_node_name_ fc.nodes := by
      rw [← map_find_proxy_without_data, hnot fc, map_find_proxy_without_data]
    rw [row_before_run_eq, hg, hpn] at hp
    cases hr : row_of self i fc.global_flowchart_params
        (map_find proxy_node_name_ fc.nodes) with
    | error e => rw [hr] at hp; cases hp
    | ok r =>
      obtain ⟨gi, pi⟩ := r
      rw [hr] at hp
      cases hp
      have hX : without_data fc' = put_row gi pi (without_data fc) := by
        rw [hfc', hrun, without_data_put_row, hnot]
      have hg' : fc'.global_flowchart_params = gi := by
        have h' := congrArg NodeManager.global_flowchart_params hX
        exact h'
      have hpn' : map_find proxy_node_name_ fc'.nodes = some pi := by
        rw [← map_find_proxy_without_data, hX]
        simp [put_row, map_find_map_set]
      refine ⟨fun j => ?_, fun g p => ?_⟩
      · rw [hg', hpn', row_of_absorb hr j]
        exact iha j
      · rw [without_data_put_row, hX, put_row_put_row, ← without_data_put_row]
        exact ihc g p

/-- Under the contract of the engine, the run of row `i` on the flowchart the loop has
reached is the run of row `i` on the fresh copy. -/
theorem run_row_fresh {E : Engine} (hE : no_stale_values E) (self : NestNode) (i : Nat)
    {fc : NodeManager} (hb : flowchart_before E self i = .ok fc) :
    run_row E self i fc = run_row E self i (copy_nested_flowchart self) := by
  obtain ⟨ha, hc⟩ := flowchart_before_fresh hE self i fc hb
  obtain ⟨_, hnot, hno⟩ := hE
  have hglob : ∀ x : NodeManager,
      (E.notify_children proxy_node_name_ x).global_flowchart_params =
        x.global_flowchart_params :=
    fun x => without_data_globals (hnot x)
  have hprox : ∀ x : NodeManager,
      map_find proxy_node_name_ (E.notify_children proxy_node_name_ x).nodes =
        map_find proxy_node_name_ x.nodes := by
    intro x
    rw [← map_find_proxy_without_data, hnot x, map_find_proxy_without_data]
  rw [run_row_eq, run_row_eq, row_before_run_eq, row_before_run_eq, hglob, hprox, hglob,
    hprox, ha i]
  cases row_of self i (copy_nested_flowchart self).global_flowchart_params
      (map_find proxy_node_name_ (copy_nested_flowchart self).nodes) with
  | error e => rfl
  | ok r =>
    simp only [Except.map]
    rw [hno fc (copy_nested_flowchart self) r.1 r.2 (hc r.1 r.2)]

theorem get_as_congr (T : TypeTag) (name : String) {d1 d2 : List AnyVal} {i : Nat}
    (h : d1.get? i = d2.get? i) : get_as T name d1 i = get_as T name d2 i := by
  unfold get_as
  rw [h]

theorem globals_from_input_congr (i : Nat) (subs1 : List (String × SubTerminal)) :
    ∀ (subs2 : List (String × SubTerminal)) (g : List (String × Param)),
      subs1.map (fun p => (p.1, p.2.types, p.2.data.get? i)) =
        subs2.map (fun p => (p.1, p.2.types, p.2.data.get? i)) →
      globals_from_input i subs1 g = globals_from_input i subs2 g := by
  induction subs1 with
  | nil =>
    intro subs2 g h
    cases subs2 with
    | nil => rfl
    | cons q r => simp at h
  | cons p rest ih =>
    intro subs2 g h
    cases subs2 with
    | nil => simp at h
    | cons q r =>
      obtain ⟨n1, t1⟩ := p
      obtain ⟨n2, t2⟩ := q
      simp only [List.map_cons, List.cons.injEq, Prod.mk.injEq] at h
      obtain ⟨⟨hn, hty, hd⟩, hr⟩ := h
      subst hn
      have hgt : global_type t1 = global_type t2 := by
        unfold global_type
        rw [hty]
      rw [globals_from_input_cons, globals_from_input_cons, hgt]
      cases global_type t2 with
      | none => exact ih r g hr
      | some T =>
        simp only [get_as_congr T n1 hd]
        cases get_as T n1 t2.data i with
        | error e => rfl
        | ok val => exact ih r _ hr

theorem row_view_eq (i : Nat) (t : InputTerminal) :
    row_view i t =
      ((row_of_input i t).1, (row_of_input i t).2.1,
        (row_of_input i t).2.2.map (fun q => (q.1, q.2.1.head?, q.2.2))) := by
  simp [row_view, row_of_input, List.map_map, Function.comp_def]

/-- The run of a row reads, of the inputs of the node, row `i` only. -/
theorem run_row_row_congr {E : Engine} {s1 s2 : NestNode} (hname : s1.name = s2.name)
    (hg : s1.manager_globals = s2.manager_globals) (i : Nat)
    (hrow : ∀ n, (map_find n s1.input_terminals).map (row_of_input i) =
      (map_find n s2.input_terminals).map (row_of_input i)) (fc : NodeManager) :
    run_row E s1 i fc = run_row E s2 i fc := by
  have hview : ∀ n, (map_find n s1.input_terminals).map (row_view i) =
      (map_find n s2.input_terminals).map (row_view i) := by
    intro n
    have h := hrow n
    cases h1 : map_find n s1.input_terminals with
    | none =>
      cases h2 : map_find n s2.input_terminals with
      | none => rfl
      | some t2 => simp [h1, h2] at h
    | some t1 =>
      cases h2 : map_find n s2.input_terminals with
      | none => simp [h1, h2] at h
      | some t2 =>
        simp only [h1, h2, Option.map_some', Option.some.injEq] at h
        simp only [Option.map_some', row_view_eq, h]
  have hl : ∀ l, set_inputs_loop s1 i l = set_inputs_loop s2 i l :=
    set_inputs_loop_row_congr i hview
  have hglob : ∀ g, set_globals s1 i g = set_globals s2 i g := by
    intro g
    have h := hrow (globals_name s2)
    unfold set_globals
    simp only [globals_name, hname, hg] at h ⊢
    cases h1 : map_find (s2.name ++ ".globals") s1.input_terminals with
    | none =>
      cases h2 : map_find (s2.name ++ ".globals") s2.input_terminals with
      | none => rfl
      | some t2 => simp [h1, h2] at h
    | some t1 =>
      cases h2 : map_find (s2.name ++ ".globals") s2.input_terminals with
      | none => simp [h1, h2] at h
      | some t2 =>
        simp only [h1, h2, Option.map_some', Option.some.injEq, row_of_input,
          Prod.mk.injEq] at h
        exact globals_from_input_congr i _ _ _ h.2.2
  simp only [run_row, hglob, set_inputs, hl]

theorem without_data_lazy_run (fc : NodeManager) :
    without_data (lazy_run fc) = without_data fc := by
  unfold without_data lazy_run
  simp only [List.map_map, NodeManager.mk.injEq, true_and, and_true]
  apply List.map_congr_left
  intro q _
  obtain ⟨n, node⟩ := q
  by_cases hn : n = proxy_node_name_
  · simp [hn]
  · simp only [Function.comp_apply, if_neg hn, Prod.mk.injEq, true_and]
    simp only [Node.without_data, List.map_map, Node.mk.injEq, true_and]
    apply List.map_congr_left
    intro t _
    by_cases ht : t.2.has_data = true
    · simp [ht]
    · simp [ht]

/-- The sample engine keeps the contract: its runs and its invalidation change the data
of the nested nodes only, and after its invalidation none of that data is left. -/
theorem lazy_engine_no_stale_values : no_stale_values lazy_engine := by
  refine ⟨without_data_lazy_run, fun fc => without_data_idem fc, ?_⟩
  intro fc fc' g p h
  show lazy_run (put_row g p (without_data fc)) = lazy_run (put_row g p (without_data fc'))
  rw [← without_data_put_row, ← without_data_put_row, h]

/-- C21: in a completed `process_sequential` every iteration i = 0, ..., N-1 first calls
`notify_children` on the proxy node of the flowchart that the iteration before left (the
fresh copy for i = 0), then sets the globals and the inputs of row i on the invalidated
flowchart, then runs it, and what it appends to the outputs is read from the result of
that run; the calls, logged where they are made, are for every iteration and in this
order `notify_children`, `set_inputs(flowchart, i)`, a reading of the clock, `run_all`,
a reading of the clock. With an engine that keeps the contract of section 4.4
(`no_stale_values`), the run of iteration i gives what row i alone gives on the fresh
copy, and the same for every node with the same name, parent globals, nested flowchart
and row i of its inputs, whatever its other rows hold: no value appended for row i was
produced from the inputs of another row. -/
theorem C21_notify_children_first (E : Engine) (clock : Nat → Int × Int)
    (self self' : NestNode) (h : process_sequential E clock self = .ok self') :
    self'.calls = self.calls ++ Call.copy_nested_flowchart ::
      (List.range self.input_size_).flatMap (fun i =>
        [Call.notify_children, Call.set_inputs i, Call.clock (clock i).1, Call.run_all,
          Call.clock (clock i).2]) ∧
    (∀ n : String, data_of self'.output_terminals n =
      data_of self.output_terminals n ++
        (List.range self.input_size_).flatMap (row_entries E clock self n)) ∧
    (∀ i < self.input_size_, ∃ fc globals prepared,
      flowchart_before E self i = .ok fc ∧
      set_globals self i
        (E.notify_children proxy_node_name_ fc).global_flowchart_params = .ok globals ∧
      set_inputs self
        { E.notify_children proxy_node_name_ fc with global_flowchart_params := globals }
        i = .ok prepared ∧
      flowchart_before E self (i + 1) = .ok (E.run_all prepared) ∧
      ∀ n, row_entries E clock self n i =
        (exported_vectors n (E.run_all prepared).nodes).flatMap contribution ++
          (if n = timings_name self then
            [some (.float (runtime_ms E (clock i).1 (clock i).2))] else [])) ∧
    (no_stale_values E → ∀ i < self.input_size_, ∀ other : NestNode,
      other.name = self.name → other.manager_globals = self.manager_globals →
      other.nested_node_manager_ = self.nested_node_manager_ →
      (∀ n, (map_find n other.input_terminals).map (row_of_input i) =
        (map_find n self.input_terminals).map (row_of_input i)) →
      ∃ fresh, run_row E other i (copy_nested_flowchart other) = .ok fresh ∧
        flowchart_before E self (i + 1) = .ok fresh ∧
        ∀ n, row_entries E clock self n i =
          (exported_vectors n fresh.nodes).flatMap contribution ++
            (if n = timings_name self then
              [some (.float (runtime_ms E (clock i).1 (clock i).2))] else [])) := by
  obtain ⟨hc, hex, hd, _⟩ := process_sequential_ok h
  refine ⟨hc, hd, ?_, ?_⟩
  · intro i hi
    obtain ⟨fc', hfc'⟩ := hex i hi
    obtain ⟨fc, prepared, hb, hp, hrun⟩ := flowchart_before_succ hfc'
    unfold row_before_run at hp
    dsimp only at hp
    cases hg : set_globals self i
        (E.notify_children proxy_node_name_ fc).global_flowchart_params with
    | error e => simp [hg] at hp
    | ok globals =>
      simp only [hg] at hp
      refine ⟨fc, globals, prepared, hb, hg, hp, by rw [hfc', hrun], fun n => ?_⟩
      simp only [row_entries, nodes_after, hfc', hrun]
  · intro hE i hi other hname hg hm hrow
    obtain ⟨fc', hfc'⟩ := hex i hi
    obtain ⟨fc, prepared, hb, _, _⟩ := flowchart_before_succ hfc'
    have hcopy : copy_nested_flowchart other = copy_nested_flowchart self := by
      simp only [copy_nested_flowchart, hm]
    have hstep : flowchart_before E self (i + 1) = run_row E self i fc := by
      simp only [flowchart_before, hb]
    refine ⟨fc', ?_, hfc', fun n => ?_⟩
    · rw [hcopy, run_row_row_congr hname hg i hrow, ← run_row_fresh hE self i hb, ← hstep,
        hfc']
    · simp only [row_entries, nodes_after, hfc']

/-- C21, at the doubling sub-graph on three rows with a sample engine that computes an
output only when it is missing and whose `notify_children` takes the data of the nested
node away: every iteration starts with `notify_children`, and the outputs are 20, 40,
60; when `notify_children` changes nothing the same engine gives 20 for every row. The
sample engine keeps the contract, so the run of row 1 is what row 1 gives on the fresh
copy for a node whose rows 0 and 2 hold other values. -/
theorem C21_notify_children_first_witness :
    (process_sequential lazy_engine clock0
        { nest_doubling with input_size_ := 3 }).toOption.map
      (fun s => (data_of s.output_terminals "Cell.out", s.calls)) =
      some ([some (.int 20), some (.int 40), some (.int 60)],
        [.copy_nested_flowchart,
         .notify_children, .set_inputs 0, .clock 0, .run_all, .clock 0,
         .notify_children, .set_inputs 1, .clock 0, .run_all, .clock 0,
         .notify_children, .set_inputs 2, .clock 0, .run_all, .clock 0]) ∧
    (process_sequential keeping_engine clock0
        { nest_doubling with input_size_ := 3 }).toOption.map
      (fun s => data_of s.output_terminals "Cell.out") =
      some [some (.int 20), some (.int 20), some (.int 20)] ∧
    no_stale_values lazy_engine ∧
    ∃ fresh,
      run_row lazy_engine nest_doubling_other_rows 1
        (copy_nested_flowchart nest_doubling_other_rows) = .ok fresh ∧
      flowchart_before lazy_engine { nest_doubling with input_size_ := 3 } 2 = .ok fresh ∧
      ∀ n, row_entries lazy_engine clock0 { nest_doubling with input_size_ := 3 } n 1 =
        (exported_vectors n fresh.nodes).flatMap contribution ++
          (if n = timings_name { nest_doubling with input_size_ := 3 } then
            [some (.float (runtime_ms lazy_engine (clock0 1).1 (clock0 1).2))] else []) := by
  have h := C21_notify_children_first lazy_engine clock0
    { nest_doubling with input_size_ := 3 }
    ((process_sequential lazy_engine clock0
      { nest_doubling with input_size_ := 3 }).toOption.getD nest_doubling) (by rfl)
  refine ⟨by decide, by decide, lazy_engine_no_stale_values, ?_⟩
  refine h.2.2.2 lazy_engine_no_stale_values 1 (by decide) nest_doubling_other_rows rfl rfl
    rfl ?_
  intro n
  simp only [nest_doubling_other_rows, nest_doubling, sample_nest, map_find]
  split_ifs <;> rfl

end Geoflow
